import Mathlib

/-!
# PDF tokenizer, parser object and stream loading

A shallow embedding of `PdfTokenizer.cpp`, `PdfParserObject.cpp` and `PdfStream.cpp`.

* A byte is a natural number; the `EOF` value returned by `Look` and `GetChar` is `none`.
* The tokenizer is a record of its members; every member function takes the record and
  returns the new record next to its result, so that the state left behind by a raised
  error can be inspected as well.
* Loops whose number of iterations depends on the input are written with a fuel argument;
  the member functions supply fuel that exceeds the number of bytes left in the device.
-/

namespace PoDoFo

/-! ## Character tables -/

/-- Modelled from the spec: the table `s_cDelimiters` of PdfDefines.h, a header that is not
among the sources. The delimiters are `( ) < > [ ] { } / %`. -/
def s_cDelimiters : List Nat := [40, 41, 60, 62, 91, 93, 123, 125, 47, 37]

/-- Modelled from the spec: the table `s_cWhiteSpaces` of PdfDefines.h, a header that is not
among the sources. The white-space bytes of the PDF syntax are NUL, HT, LF, FF, CR and SP. -/
def s_cWhiteSpaces : List Nat := [0, 9, 10, 12, 13, 32]

/-- The map `genDelMap`: entry `i` is 1 exactly for the delimiters. -/
def genDelMap (i : Nat) : Nat := if i ∈ s_cDelimiters then 1 else 0

/-- The map `genWsMap`: entry `i` is 1 exactly for the white-space bytes. -/
def genWsMap (i : Nat) : Nat := if i ∈ s_cWhiteSpaces then 1 else 0

/-- The map `genEscMap`: the byte a plain escape letter stands for, 0 when there is none. -/
def genEscMap (i : Nat) : Nat :=
  if i = 110 then 10
  else if i = 114 then 13
  else if i = 116 then 9
  else if i = 98 then 8
  else if i = 102 then 12
  else if i = 41 then 41
  else if i = 40 then 40
  else if i = 92 then 92
  else 0

/-- The table `s_octMap`: 1 at the octal digits `0`..`7`, 0 elsewhere. -/
def s_octMap (i : Nat) : Nat := if 48 ≤ i ∧ i ≤ 55 then 1 else 0

/-- Modelled from the spec: `PdfTokenizer::IsWhitespace` of PdfTokenizer.h (not among the
sources), a lookup of the byte in the white-space map. -/
def IsWhitespace (c : Nat) : Bool := genWsMap (c % 256) != 0

/-- Modelled from the spec: `PdfTokenizer::IsDelimiter` of PdfTokenizer.h (not among the
sources), a lookup of the byte in the delimiter map. -/
def IsDelimiter (c : Nat) : Bool := genDelMap (c % 256) != 0

/-- The conversion of an `int` read from the device to `char`: `EOF` becomes the byte 255. -/
def charOfInt (c : Option Nat) : Nat := c.getD 255

/-- The bytes of a C string: everything before the first NUL. -/
def cstr (l : List Nat) : List Nat := l.takeWhile (fun b => b != 0)

/-! ## The input device -/

/-- Modelled from the spec: `PdfInputDevice` (PdfInputDevice.h and .cpp are not among the
sources), a byte source with sequential read, one byte of peek, a position and random
access. The bytes already read are `before`, the bytes still to come are `after`. -/
structure PdfInputDevice where
  before : List Nat
  after : List Nat
deriving DecidableEq, Repr

namespace PdfInputDevice

/-- Peek at the next byte without advancing; `none` is `EOF`. -/
def Look (d : PdfInputDevice) : Option Nat := d.after.head?

/-- Read the next byte and advance; at the end `EOF` is returned and nothing moves. -/
def GetChar (d : PdfInputDevice) : Option Nat × PdfInputDevice :=
  match d.after with
  | [] => (none, d)
  | c :: r => (some c, ⟨d.before ++ [c], r⟩)

/-- The current position. -/
def Tell (d : PdfInputDevice) : Nat := d.before.length

/-- Move to an absolute position. -/
def Seek (d : PdfInputDevice) (off : Nat) : PdfInputDevice :=
  ⟨(d.before ++ d.after).take off, (d.before ++ d.after).drop off⟩

end PdfInputDevice

/-! ## The tokenizer -/

inductive EPdfTokenType where
  | Delimiter
  | Token
deriving DecidableEq, Repr

inductive EPdfError where
  | InvalidHandle
  | UnexpectedEOF
  | NoNumber
  | InvalidDataType
  | NoObject
  | InvalidStreamLength
  | InternalLogic
  | UnsupportedFilter
  | Flate
  | InvalidEnumValue
  /-- Not an error of the program: the fuel of a recursive reader of the model ran out. -/
  | OutOfFuel
deriving DecidableEq, Repr

/-- The members of `PdfTokenizer`: the device (possibly absent), the size of the token
buffer `m_buffer`, the queue of pushed-back tokens and the scratch vector of the string
readers. -/
structure PdfTokenizer where
  m_device : Option PdfInputDevice
  m_bufferSize : Nat
  m_deqQueque : List (List Nat × EPdfTokenType)
  m_vecBuffer : List Nat
deriving DecidableEq, Repr

/-- `PDF_BUFFER`, the size the constructors give the token buffer. -/
def PDF_BUFFER : Nat := 4096

/-- The local state of the scanning loop of `GetNextToken`: the device, the bytes written to
`m_buffer` so far (`counter` is their number), the token type and the variable `c`. -/
structure TokenScan where
  dev : PdfInputDevice
  buf : List Nat
  eType : EPdfTokenType
  c : Option Nat
deriving DecidableEq, Repr

/-- The comment loop `do { c = GetChar(); } while( c != EOF && c != 0x0D && c != 0x0A )`. -/
def skipComment : Nat → PdfInputDevice → Option Nat × PdfInputDevice
  | 0, d => (none, d)
  | fuel + 1, d =>
    let r := d.GetChar
    if r.1 ≠ none ∧ r.1 ≠ some 13 ∧ r.1 ≠ some 10 then skipComment fuel r.2 else r

/-- The `while` loop of `GetNextToken` (lines 240 to 316), for a token buffer of `size`
bytes. Leaving the loop, by its condition or by `break`, returns the local state. -/
def GetNextToken_loop (size : Nat) : Nat → TokenScan → TokenScan
  | 0, s => s
  | fuel + 1, s =>
    match s.dev.Look with
    | none => { s with c := none }
    | some c =>
      if ¬ (s.buf.length + 1 < size) then { s with c := some c }
      else if s.buf.length = 0 ∧ IsWhitespace c = true then
        -- consume the white-space byte
        let r := s.dev.GetChar
        GetNextToken_loop size fuel { s with dev := r.2, c := r.1 }
      else if c = 37 then
        -- a comment: consume everything up to and including the line end
        let r := skipComment (s.dev.after.length + 1) s.dev
        let r2 := if r.1 = some 13 ∧ r.2.Look = some 10 then r.2.GetChar else r
        if s.buf.length ≠ 0 then { s with dev := r2.2, c := r2.1 }
        else GetNextToken_loop size fuel { s with dev := r2.2, c := r2.1 }
      else if s.buf.length = 0 ∧ (c = 60 ∨ c = 62) then
        let r := s.dev.GetChar
        let c1 := charOfInt r.1
        if charOfInt r.2.Look = c1 then
          let r2 := r.2.GetChar
          { dev := r2.2, buf := s.buf ++ [c1] ++ [charOfInt r2.1],
            eType := EPdfTokenType.Delimiter, c := r.1 }
        else
          { dev := r.2, buf := s.buf ++ [c1], eType := EPdfTokenType.Delimiter, c := r.1 }
      else if s.buf.length ≠ 0 ∧ (IsWhitespace c = true ∨ IsDelimiter c = true) then
        { s with c := some c }
      else
        let r := s.dev.GetChar
        let c1 := charOfInt r.1
        if IsDelimiter c1 = true then
          { dev := r.2, buf := s.buf ++ [c1], eType := EPdfTokenType.Delimiter, c := r.1 }
        else
          GetNextToken_loop size fuel { dev := r.2, buf := s.buf ++ [c1], eType := s.eType, c := r.1 }

/-- The call `strncpy( dst, src, n )` on a C string: `n` bytes, padded with NUL. -/
def strncpy (src : List Nat) (n : Nat) : List Nat :=
  (cstr src).take n ++ List.replicate (n - (cstr src).length) 0

/-- The result of a member function: a value or a raised error. -/
abbrev Raised (α : Type) := Except EPdfError α

/-- The function `PdfTokenizer::GetNextToken`. The result `none` is the return value `false`;
otherwise the C string left in `m_buffer` and the token type are returned. -/
def GetNextToken (t : PdfTokenizer) :
    Raised (Option (List Nat × EPdfTokenType)) × PdfTokenizer :=
  match t.m_deqQueque with
  | pair :: rest =>
    let t1 := { t with m_deqQueque := rest }
    if t.m_bufferSize = 0 then (.error .InvalidHandle, t1)
    else
      let buffer := (strncpy pair.1 t.m_bufferSize).set (t.m_bufferSize - 1) 0
      (.ok (some (cstr buffer, pair.2)), t1)
  | [] =>
    match t.m_device with
    | none => (.error .InvalidHandle, t)
    | some d =>
      let s := GetNextToken_loop t.m_bufferSize (d.after.length + 1)
        { dev := d, buf := [], eType := EPdfTokenType.Token, c := none }
      let t1 := { t with m_device := some s.dev }
      if s.c = none ∧ s.buf.length = 0 then (.ok none, t1)
      else (.ok (some (cstr s.buf, s.eType)), t1)

/-- The function `PdfTokenizer::QuequeToken`: a copy of the C string goes to the back. -/
def QuequeToken (t : PdfTokenizer) (pszToken : List Nat) (eType : EPdfTokenType) :
    PdfTokenizer :=
  { t with m_deqQueque := t.m_deqQueque ++ [(cstr pszToken, eType)] }

/-! ## Variants -/

inductive EPdfDataType where
  | Bool
  | Number
  | Real
  | String
  | HexString
  | Name
  | Array
  | Dictionary
  | Null
  | Reference
  | RawData
  | Unknown
deriving DecidableEq, Repr

/-- The tagged union `PdfVariant`. A real number keeps the text it was read from; a string
keeps its bytes and whether it is hex-backed; a dictionary is its list of entries, keys
unique. -/
inductive PdfVariant where
  | Null
  | Bool (b : Bool)
  | Number (n : Int)
  | Real (text : List Nat)
  | String (s : List Nat) (hex : Bool)
  | Name (n : List Nat)
  | Array (items : List PdfVariant)
  | Dictionary (entries : List (List Nat × PdfVariant))
  | Reference (obj : Nat) (gen : Nat)
  | RawData (d : List Nat)

/-- Modelled from the spec: `PdfDictionary::AddKey` (PdfDictionary.cpp is not among the
sources): keys are unique, so an entry with the same key is replaced. -/
def AddKey (dict : List (List Nat × PdfVariant)) (key : List Nat) (val : PdfVariant) :
    List (List Nat × PdfVariant) :=
  dict.filter (fun e => e.1 != key) ++ [(key, val)]

/-- Modelled from the spec: `PdfDictionary::GetKey` (PdfDictionary.cpp is not among the
sources): the value stored under a key, if any. -/
def GetKey (dict : List (List Nat × PdfVariant)) (key : List Nat) : Option PdfVariant :=
  (dict.find? (fun e => e.1 == key)).map (fun e => e.2)

/-! ## Numbers -/

/-- The C function `isdigit`. -/
def isdigit (c : Nat) : Bool := decide (48 ≤ c ∧ c ≤ 57)

/-- The C function `isspace` in the C locale. -/
def isspace (c : Nat) : Bool := decide (c = 32 ∨ (9 ≤ c ∧ c ≤ 13))

/-- The value of a run of decimal digits, most significant first. -/
def digitsValue (ds : List Nat) : Nat := ds.foldl (fun a d => a * 10 + (d - 48)) 0

/-- The C function `strtoll( s, &end, 10 )` on a C string: the value, clamped to the range
of `long long`, and the number of bytes up to `end` (0 when no digits were found). -/
def strtoll (s : List Nat) : Int × Nat :=
  let ws := (cstr s).takeWhile isspace
  let r := (cstr s).dropWhile isspace
  let neg : Bool := r.head? == some 45
  let signed : Bool := r.head? == some 45 || r.head? == some 43
  let ds := (if signed = true then r.tail else r).takeWhile isdigit
  if ds.length = 0 then (0, 0)
  else
    let mag := digitsValue ds
    let v : Int :=
      if neg = true then (if mag > 2 ^ 63 then -(2 ^ 63 : Int) else -(mag : Int))
      else (if mag > 2 ^ 63 - 1 then (2 ^ 63 - 1 : Int) else (mag : Int))
    (v, ws.length + (if signed = true then 1 else 0) + ds.length)

/-- The comparison `strncmp( a, b, n ) == 0` on C strings. -/
def strncmpEq (a b : List Nat) (n : Nat) : Bool := (cstr a).take n == (cstr b).take n

/-- The extraction `m_doubleParser >> dVal` of the C++ standard library on a text: an
optional sign, digits and at most one point are taken, and the extraction succeeds when
the text taken holds a digit. The text taken is returned. -/
def doubleParser (s : List Nat) : Option (List Nat) :=
  let signed : Bool := s.head? == some 45 || s.head? == some 43
  let body := if signed = true then s.tail else s
  let ip := body.takeWhile isdigit
  let r1 := body.dropWhile isdigit
  let fp : List Nat := if r1.head? = some 46 then 46 :: r1.tail.takeWhile isdigit else []
  if ip.length = 0 ∧ fp.length ≤ 1 then none
  else some ((if signed = true then s.take 1 else []) ++ ip ++ fp)

/-- The scan `while( *pszStart )` of `DetermineDataType` over the bytes of the token. -/
def scanNumeric : List Nat → EPdfDataType → EPdfDataType
  | [], ty => ty
  | c :: r, ty =>
    if c = 46 then scanNumeric r EPdfDataType.Real
    else if ¬ (isdigit c = true ∨ c = 45 ∨ c = 43) then EPdfDataType.Unknown
    else scanNumeric r ty

/-- The C string `null`. -/
def strNull : List Nat := [110, 117, 108, 108]
/-- The C string `true`. -/
def strTrue : List Nat := [116, 114, 117, 101]
/-- The C string `false`. -/
def strFalse : List Nat := [102, 97, 108, 115, 101]

/-- The function `PdfTokenizer::DetermineDataType`: the data type, the variant after the
call and the tokenizer after the call. -/
def DetermineDataType (t : PdfTokenizer) (pszToken : List Nat) (eTokenType : EPdfTokenType)
    (rVariant : PdfVariant) : Raised EPdfDataType × PdfVariant × PdfTokenizer :=
  match eTokenType with
  | .Token =>
    if strncmpEq strNull pszToken 4 = true then (.ok .Null, .Null, t)
    else if strncmpEq strTrue pszToken 4 = true then (.ok .Bool, .Bool true, t)
    else if strncmpEq strFalse pszToken 5 = true then (.ok .Bool, .Bool false, t)
    else
      match scanNumeric (cstr pszToken) .Number with
      | .Real =>
        match doubleParser (cstr pszToken) with
        | none => (.error .InvalidDataType, rVariant, t)
        | some txt => (.ok .Real, .Real txt, t)
      | .Number =>
        let num := (strtoll pszToken).1
        let v := PdfVariant.Number num
        -- read another two tokens to see if it is a reference
        match GetNextToken t with
        | (.error e, t1) => (.error e, v, t1)
        | (.ok none, t1) => (.ok .Number, v, t1)
        | (.ok (some (tok2, ty2)), t1) =>
          if ty2 ≠ .Token then (.ok .Number, v, QuequeToken t1 tok2 ty2)
          else
            let l := strtoll tok2
            if l.2 = 0 then (.ok .Number, v, QuequeToken t1 tok2 ty2)
            else
              let backup := cstr tok2
              match GetNextToken t1 with
              | (.error e, t2) => (.error e, v, t2)
              | (.ok none, t2) => (.ok .Number, v, t2)
              | (.ok (some (tok3, ty3)), t2) =>
                if ty3 = .Token ∧ cstr tok3 = [82] then
                  (.ok .Reference,
                    .Reference (num % 2 ^ 32).toNat (l.1 % 2 ^ 16).toNat, t2)
                else
                  (.ok .Number, v, QuequeToken (QuequeToken t2 backup ty2) tok3 ty3)
      | _ => (.ok .Unknown, rVariant, t)
  | .Delimiter =>
    if strncmpEq [60, 60] pszToken 2 = true then (.ok .Dictionary, rVariant, t)
    else if (cstr pszToken).head? = some 91 then (.ok .Array, rVariant, t)
    else if (cstr pszToken).head? = some 40 then (.ok .String, rVariant, t)
    else if (cstr pszToken).head? = some 60 then (.ok .HexString, rVariant, t)
    else if (cstr pszToken).head? = some 47 then (.ok .Name, rVariant, t)
    else (.ok .Unknown, rVariant, t)

/-- The function `PdfTokenizer::IsNextToken`; a null `pszToken` is `none`. -/
def IsNextToken (t : PdfTokenizer) (pszToken : Option (List Nat)) :
    Raised Bool × PdfTokenizer :=
  match pszToken with
  | none => (.error .InvalidHandle, t)
  | some tok =>
    match GetNextToken t with
    | (.error e, t1) => (.error e, t1)
    | (.ok none, t1) => (.error .UnexpectedEOF, t1)
    | (.ok (some (pszRead, _)), t1) => (.ok (cstr tok == cstr pszRead), t1)

/-- The function `PdfTokenizer::GetNextNumber`. -/
def GetNextNumber (t : PdfTokenizer) : Raised Int × PdfTokenizer :=
  match GetNextToken t with
  | (.error e, t1) => (.error e, t1)
  | (.ok none, t1) => (.error .UnexpectedEOF, t1)
  | (.ok (some (pszRead, eType)), t1) =>
    let r := strtoll pszRead
    if r.2 = 0 then (.error .NoNumber, QuequeToken t1 pszRead eType)
    else (.ok r.1, t1)

/-! ## Strings, hex strings and names -/

/-- Modelled from the spec: the encryption collaborator `PdfEncrypt` (not among the
sources), as far as the readers use it: the stream offset, the decryption of a buffer for a
wanted output length (giving the output buffer and its length) and the metadata flag. -/
structure PdfEncrypt where
  CalculateStreamOffset : Nat
  Decrypt : List Nat → Nat → List Nat × Nat
  IsMetadataEncrypted : Bool

/-- The `int` value of a result of `Look` or `GetChar`: `EOF` is -1. -/
def intOfChar (c : Option Nat) : Int :=
  match c with
  | none => -1
  | some b => (b : Int)

/-- The local state of the loop of `ReadString`. -/
structure StringScan where
  dev : PdfInputDevice
  bEscape : Bool
  bOctEscape : Bool
  nOctCount : Int
  cOctValue : Nat
  nBalanceCount : Int
  vec : List Nat
deriving DecidableEq, Repr

/-- The body of the `while` loop of `ReadString` for the byte `c` seen by `Look`. The first
component tells whether the loop is left by `break`. -/
def ReadString_body (s : StringScan) (c : Nat) : Bool × StringScan :=
  if s.bEscape = false then
    -- handle raw characters
    let r := s.dev.GetChar
    if s.nBalanceCount = 0 ∧ r.1 = some 41 then (true, { s with dev := r.2 })
    else
      let bal :=
        if r.1 = some 40 then s.nBalanceCount + 1
        else if r.1 = some 41 then s.nBalanceCount - 1
        else s.nBalanceCount
      if r.1 = some 92 then
        (false, { s with dev := r.2, nBalanceCount := bal, bEscape := true })
      else
        (false, { s with dev := r.2, nBalanceCount := bal, bEscape := false,
                         vec := s.vec ++ [charOfInt r.1] })
  else
    -- handle escape sequences
    if s.bOctEscape = true ∨ s_octMap (c % 256) ≠ 0 then
      if s_octMap (c % 256) = 0 then
        -- the octal sequence has ended; the byte is treated as a normal byte
        (false, { s with vec := s.vec ++ [s.cOctValue], bEscape := false,
                         bOctEscape := false, nOctCount := 0, cOctValue := 0 })
      else
        let r := s.dev.GetChar
        let v := ((s.cOctValue * 8) % 256) ||| ((intOfChar r.1 - 48) % 8).toNat
        if s.nOctCount + 1 > 2 then
          (false, { s with dev := r.2, vec := s.vec ++ [v], bEscape := false,
                           bOctEscape := false, nOctCount := 0, cOctValue := 0 })
        else
          (false, { s with dev := r.2, bOctEscape := true, nOctCount := s.nOctCount + 1,
                           cOctValue := v })
    else
      -- handle plain escape sequences
      let r := s.dev.GetChar
      let code := genEscMap (charOfInt r.1 % 256)
      (false, { s with dev := r.2, bEscape := false,
                       vec := if code ≠ 0 then s.vec ++ [code] else s.vec })

/-- The `while` loop of `ReadString`. -/
def ReadString_loop : Nat → StringScan → StringScan
  | 0, s => s
  | fuel + 1, s =>
    match s.dev.Look with
    | none => s
    | some c =>
      let r := ReadString_body s c
      if r.1 = true then r.2 else ReadString_loop fuel r.2

/-- The function `PdfTokenizer::ReadString`; the variant it assigns is returned. A tokenizer
without a device is reported as `InvalidHandle`. -/
def ReadString (t : PdfTokenizer) (pEncrypt : Option PdfEncrypt) :
    Raised PdfVariant × PdfTokenizer :=
  match t.m_device with
  | none => (.error .InvalidHandle, t)
  | some d =>
    let s := ReadString_loop (2 * d.after.length + 2)
      { dev := d, bEscape := false, bOctEscape := false, nOctCount := 0, cOctValue := 0,
        nBalanceCount := 0, vec := [] }
    -- in case the string ends with an octal escape sequence
    let vec := if s.bOctEscape = true then s.vec ++ [s.cOctValue] else s.vec
    let t1 := { t with m_device := some s.dev, m_vecBuffer := vec }
    if vec.length ≠ 0 then
      match pEncrypt with
      | some e =>
        let outLen := vec.length - e.CalculateStreamOffset
        let r := e.Decrypt vec outLen
        (.ok (.String (r.1.take r.2) false), t1)
      | none => (.ok (.String vec false), t1)
    else (.ok (.String [] false), t1)

/-- The test of `ReadHexString` for a hex digit. -/
def isHexDigit (c : Nat) : Bool :=
  isdigit c || decide (65 ≤ c ∧ c ≤ 70) || decide (97 ≤ c ∧ c ≤ 102)

/-- The `while` loop of `ReadHexString( std::vector<char>& )`. -/
def ReadHexString_loop : Nat → PdfInputDevice → List Nat → PdfInputDevice × List Nat
  | 0, d, v => (d, v)
  | fuel + 1, d, v =>
    let r := d.GetChar
    match r.1 with
    | none => (r.2, v)
    | some c =>
      if c = 62 then (r.2, v)
      else if isHexDigit c = true then ReadHexString_loop fuel r.2 (v ++ [c])
      else ReadHexString_loop fuel r.2 v

/-- The function `PdfTokenizer::ReadHexString( std::vector<char>& )` on a device: the
device afterwards and the digits collected, padded to an even length. -/
def ReadHexStringBuffer (d : PdfInputDevice) : PdfInputDevice × List Nat :=
  let r := ReadHexString_loop (d.after.length + 1) d []
  (r.1, if r.2.length % 2 ≠ 0 then r.2 ++ [48] else r.2)

/-- The map `genHexMap`: the value of a hex digit, `none` for `HEX_NOT_FOUND`. -/
def genHexMap (c : Nat) : Option Nat :=
  if 48 ≤ c ∧ c ≤ 57 then some (c - 48)
  else if 97 ≤ c ∧ c ≤ 102 then some (c - 87)
  else if 65 ≤ c ∧ c ≤ 70 then some (c - 55)
  else none

/-- The bytes of a list of hex digits taken two at a time; a last single digit is a high
nibble. -/
def hexDecode : List Nat → List Nat
  | [] => []
  | [h] => [((genHexMap h).getD 255 % 16) * 16 % 256]
  | h :: l :: r =>
    (((genHexMap h).getD 255 % 16) * 16 + ((genHexMap l).getD 255) % 16) % 256 :: hexDecode r

/-- Modelled from the spec: `PdfString::SetHexData` (PdfString.cpp is not among the
sources): white space is skipped, the hex digits are decoded two per byte, and the bytes
are decrypted when an encryption collaborator is given. -/
def SetHexData (data : List Nat) (pEncrypt : Option PdfEncrypt) : PdfVariant :=
  let bytes := hexDecode (data.filter (fun c => !IsWhitespace c))
  match pEncrypt with
  | some e =>
    let r := e.Decrypt bytes (bytes.length - e.CalculateStreamOffset)
    .String (r.1.take r.2) true
  | none => .String bytes true

/-- The function `PdfTokenizer::ReadHexString( PdfVariant&, PdfEncrypt* )`. -/
def ReadHexString (t : PdfTokenizer) (pEncrypt : Option PdfEncrypt) :
    Raised PdfVariant × PdfTokenizer :=
  match t.m_device with
  | none => (.error .InvalidHandle, t)
  | some d =>
    let r := ReadHexStringBuffer d
    (.ok (SetHexData r.2 pEncrypt), { t with m_device := some r.1, m_vecBuffer := r.2 })

/-- Modelled from the spec: `PdfName::FromEscaped` (PdfName.cpp is not among the sources):
a `#` followed by two hex digits stands for the byte with that value. -/
def FromEscaped : List Nat → List Nat
  | [] => []
  | [c] => [c]
  | [c, d] => [c, d]
  | c :: h :: l :: r =>
    if c = 35 then
      match genHexMap h, genHexMap l with
      | some a, some b => (a * 16 + b) :: FromEscaped r
      | _, _ => c :: FromEscaped (h :: l :: r)
    else c :: FromEscaped (h :: l :: r)

/-- The function `PdfTokenizer::ReadName`. -/
def ReadName (t : PdfTokenizer) : Raised PdfVariant × PdfTokenizer :=
  match t.m_device with
  | none => (.error .InvalidHandle, t)
  | some d =>
    if IsWhitespace (charOfInt d.Look) = true then (.ok (.Name []), t)
    else
      match GetNextToken t with
      | (.error e, t1) => (.error e, t1)
      | (.ok none, t1) => (.ok (.Name []), t1)
      | (.ok (some (tok, ty)), t1) =>
        if ty ≠ .Token then (.ok (.Name []), QuequeToken t1 tok ty)
        else (.ok (.Name (FromEscaped (cstr tok))), t1)

/-! ## Composite values -/

/-- The C string `Contents`. -/
def strContents : List Nat := [67, 111, 110, 116, 101, 110, 116, 115]
/-- The C string `Type`. -/
def strType : List Nat := [84, 121, 112, 101]
/-- The C string `Sig`. -/
def strSig : List Nat := [83, 105, 103]
/-- The C string `DocTimeStamp`. -/
def strDocTimeStamp : List Nat := [68, 111, 99, 84, 105, 109, 101, 83, 116, 97, 109, 112]

/-- The end of `ReadDictionary` (lines 649 to 666): a `Contents` hex string that was set
aside is decoded, and decrypted unless the dictionary is a signature dictionary. -/
def finishDictionary (dict : List (List Nat × PdfVariant)) (contentsHexBuffer : Option (List Nat))
    (pEncrypt : Option PdfEncrypt) : PdfVariant :=
  match contentsHexBuffer with
  | none => .Dictionary dict
  | some buf =>
    let contentsUnencrypted : Bool :=
      match GetKey dict strType with
      | some (.Name n) => n == strSig || n == strDocTimeStamp
      | _ => false
    let encrypt := if contentsUnencrypted = false then pEncrypt else none
    .Dictionary (AddKey dict strContents (SetHexData buf encrypt))

mutual

/-- The function `PdfTokenizer::GetNextVariant( pszToken, eType, rVariant, pEncrypt )`. -/
def GetNextVariantOf : Nat → PdfTokenizer → List Nat → EPdfTokenType → PdfVariant →
    Option PdfEncrypt → Raised PdfVariant × PdfTokenizer
  | 0, t, _, _, _, _ => (.error .OutOfFuel, t)
  | fuel + 1, t, pszToken, eType, rVariant, pEncrypt =>
    match DetermineDataType t pszToken eType rVariant with
    | (.error e, _, t1) => (.error e, t1)
    | (.ok eDataType, v, t1) =>
      if eDataType = .Null ∨ eDataType = .Bool ∨ eDataType = .Number ∨ eDataType = .Real
          ∨ eDataType = .Reference then
        -- the data was already read into the variant by DetermineDataType
        (.ok v, t1)
      else ReadDataType fuel t1 eDataType v pEncrypt

/-- The function `PdfTokenizer::ReadDataType`. -/
def ReadDataType : Nat → PdfTokenizer → EPdfDataType → PdfVariant → Option PdfEncrypt →
    Raised PdfVariant × PdfTokenizer
  | 0, t, _, _, _ => (.error .OutOfFuel, t)
  | fuel + 1, t, eDataType, _, pEncrypt =>
    match eDataType with
    | .Dictionary => ReadDictionary_loop fuel t pEncrypt [] .Null none
    | .Array => ReadArray_loop fuel t pEncrypt [] .Null
    | .String => ReadString t pEncrypt
    | .HexString => ReadHexString t pEncrypt
    | .Name => ReadName t
    | _ => (.error .InvalidDataType, t)

/-- The loop of `PdfTokenizer::ReadDictionary` with its locals `dict`, `val` and
`contentsHexBuffer`, followed by the end of the function. -/
def ReadDictionary_loop : Nat → PdfTokenizer → Option PdfEncrypt →
    List (List Nat × PdfVariant) → PdfVariant → Option (List Nat) →
    Raised PdfVariant × PdfTokenizer
  | 0, t, _, _, _, _ => (.error .OutOfFuel, t)
  | fuel + 1, t, pEncrypt, dict, val, contentsHexBuffer =>
    match GetNextToken t with
    | (.error e, t1) => (.error e, t1)
    | (.ok none, t1) => (.error .UnexpectedEOF, t1)
    | (.ok (some (tok, ty)), t1) =>
      if ty = .Delimiter ∧ strncmpEq [62, 62] tok 2 = true then
        (.ok (finishDictionary dict contentsHexBuffer pEncrypt), t1)
      else
        match GetNextVariantOf fuel t1 tok ty val pEncrypt with
        | (.error e, t2) => (.error e, t2)
        | (.ok val1, t2) =>
          -- convert the read variant to a name; raises InvalidDataType if not a name
          match val1 with
          | .Name key =>
            match GetNextToken t2 with
            | (.error e, t3) => (.error e, t3)
            | (.ok none, t3) => (.error .UnexpectedEOF, t3)
            | (.ok (some (tok2, ty2)), t3) =>
              match DetermineDataType t3 tok2 ty2 val1 with
              | (.error e, _, t4) => (.error e, t4)
              | (.ok eDataType, val2, t4) =>
                if key = strContents ∧ eDataType = .HexString then
                  match t4.m_device with
                  | none => (.error .InvalidHandle, t4)
                  | some d =>
                    let r := ReadHexStringBuffer d
                    ReadDictionary_loop fuel { t4 with m_device := some r.1 } pEncrypt dict
                      val2 (some r.2)
                else
                  match eDataType with
                  | .Null | .Bool | .Number | .Real | .Reference =>
                    ReadDictionary_loop fuel t4 pEncrypt (AddKey dict key val2) val2
                      contentsHexBuffer
                  | .Name | .String | .HexString | .Array | .Dictionary =>
                    match ReadDataType fuel t4 eDataType val2 pEncrypt with
                    | (.error e, t5) => (.error e, t5)
                    | (.ok val3, t5) =>
                      ReadDictionary_loop fuel t5 pEncrypt (AddKey dict key val3) val3
                        contentsHexBuffer
                  | _ => (.error .InvalidDataType, t4)
          | _ => (.error .InvalidDataType, t2)

/-- The loop of `PdfTokenizer::ReadArray` with its locals `array` and `var`. -/
def ReadArray_loop : Nat → PdfTokenizer → Option PdfEncrypt → List PdfVariant → PdfVariant →
    Raised PdfVariant × PdfTokenizer
  | 0, t, _, _, _ => (.error .OutOfFuel, t)
  | fuel + 1, t, pEncrypt, array, var =>
    match GetNextToken t with
    | (.error e, t1) => (.error e, t1)
    | (.ok none, t1) => (.error .UnexpectedEOF, t1)
    | (.ok (some (tok, ty)), t1) =>
      if ty = .Delimiter ∧ (cstr tok).head? = some 93 then (.ok (.Array array), t1)
      else
        match GetNextVariantOf fuel t1 tok ty var pEncrypt with
        | (.error e, t2) => (.error e, t2)
        | (.ok var1, t2) => ReadArray_loop fuel t2 pEncrypt (array ++ [var1]) var1

end

/-- Fuel for the recursive readers: more than four times the number of tokens that are
still to come from the queue and the device. -/
def readerFuel (t : PdfTokenizer) : Nat :=
  4 * (t.m_deqQueque.length + (t.m_device.map (fun d => d.after.length)).getD 0) + 8

/-- The function `PdfTokenizer::GetNextVariant( rVariant, pEncrypt )`. -/
def GetNextVariant (t : PdfTokenizer) (rVariant : PdfVariant) (pEncrypt : Option PdfEncrypt) :
    Raised PdfVariant × PdfTokenizer :=
  match GetNextToken t with
  | (.error e, t1) => (.error e, t1)
  | (.ok none, t1) => (.error .UnexpectedEOF, t1)
  | (.ok (some (pszRead, eTokenType)), t1) =>
    GetNextVariantOf (readerFuel t) t1 pszRead eTokenType rVariant pEncrypt

/-- The function `PdfTokenizer::ReadArray`. -/
def ReadArray (t : PdfTokenizer) (pEncrypt : Option PdfEncrypt) :
    Raised PdfVariant × PdfTokenizer :=
  ReadArray_loop (readerFuel t) t pEncrypt [] .Null

/-! ## Streams -/

/-- The members of `PdfStream` together with the buffer of the memory stream behind it:
whether an append is open and the raw bytes held. -/
structure PdfStream where
  m_bAppend : Bool
  buffer : List Nat
deriving DecidableEq, Repr

/-- The function `PdfStream::Append( const char*, size_t )`: a logic fault unless an append
is open. Modelled from the spec: `AppendImpl` of the memory stream (not among the sources)
adds the bytes to the buffer when no filter is installed. -/
def PdfStream.Append (s : PdfStream) (bytes : List Nat) : Raised PdfStream :=
  if s.m_bAppend = false then .error .InternalLogic
  else .ok { s with buffer := s.buffer ++ bytes }

/-- The function `PdfStream::EndAppend`: a logic fault unless an append is open. -/
def PdfStream.EndAppend (s : PdfStream) : Raised PdfStream :=
  if s.m_bAppend = false then .error .InternalLogic
  else .ok { s with m_bAppend := false }

/-- The function `PdfStream::BeginAppend( vecFilters, bClearExisting, bDeleteFilters )` for an
empty filter list, as `SetRawData` calls it, seen from the stream: a logic fault when an
append is open already; the content held so far is kept only when `bClearExisting` is
false. Modelled from the spec: `BeginAppendImpl` of the memory stream (not among the
sources) starts from an empty buffer, and with no filter `GetFilteredCopy` is the raw
content. -/
def PdfStream.BeginAppendRaw (s : PdfStream) (bClearExisting : Bool) : Raised PdfStream :=
  if s.m_bAppend = true then .error .InternalLogic
  else .ok { m_bAppend := true, buffer := if bClearExisting = false then s.buffer else [] }

/-- The size of the intermediate buffer of `SetRawData`. -/
def BUFFER_SIZE : Nat := 4096

/-- The loop `do { ... } while( lLen && lRead > 0 )` of `SetRawData` for a length that is
not negative, over an input stream with state `σ` whose `Read` returns the bytes read. -/
def SetRawData_loop {σ : Type} (Read : σ → Nat → List Nat × σ) :
    Nat → σ → Nat → PdfStream → Raised PdfStream × σ
  | 0, inp, _, s => (.ok s, inp)
  | fuel + 1, inp, lLen, s =>
    let r := Read inp (min BUFFER_SIZE lLen)
    let lRead := r.1.length
    match s.Append r.1 with
    | .error e => (.error e, r.2)
    | .ok s1 =>
      if lLen - lRead ≠ 0 ∧ lRead > 0 then SetRawData_loop Read fuel r.2 (lLen - lRead) s1
      else (.ok s1, r.2)

/-- The loop `do { ... } while( lRead > 0 )` of `SetRawData` for a negative length. -/
def SetRawData_all {σ : Type} (Read : σ → Nat → List Nat × σ) :
    Nat → σ → PdfStream → Raised PdfStream × σ
  | 0, inp, s => (.ok s, inp)
  | fuel + 1, inp, s =>
    let r := Read inp BUFFER_SIZE
    match s.Append r.1 with
    | .error e => (.error e, r.2)
    | .ok s1 => if r.1.length > 0 then SetRawData_all Read fuel r.2 s1 else (.ok s1, r.2)

/-- The function `PdfStream::SetRawData( PdfInputStream&, ssize_t lLen )`. The fuel bounds
the number of reads: `lLen + 1` reads are enough for a length that is not negative, and
one more than the number of bytes of the input otherwise. -/
def PdfStream.SetRawData {σ : Type} (s : PdfStream) (Read : σ → Nat → List Nat × σ)
    (fuel : Nat) (inp : σ) (lLen : Int) : Raised PdfStream × σ :=
  match s.BeginAppendRaw true with
  | .error e => (.error e, inp)
  | .ok s1 =>
    let r := if lLen < 0 then SetRawData_all Read fuel inp s1
             else SetRawData_loop Read fuel inp lLen.toNat s1
    match r.1 with
    | .error e => (.error e, r.2)
    | .ok s2 => (s2.EndAppend, r.2)

/-- Modelled from the spec: `PdfDeviceInputStream::Read` (not among the sources): up to `n`
bytes are read from the device. -/
def deviceRead (d : PdfInputDevice) (n : Nat) : List Nat × PdfInputDevice :=
  (d.after.take n, ⟨d.before ++ d.after.take n, d.after.drop n⟩)

/-! ## The parser object -/

/-- The members of `PdfParserObject` and of the `PdfObject` under it that parsing uses. The
device is the device of the tokenizer. -/
structure PdfParserObject where
  m_tokenizer : PdfTokenizer
  hasDocument : Bool
  m_reference : Nat × Nat
  m_Variant : PdfVariant
  m_Stream : Option PdfStream
  m_Encrypt : Option PdfEncrypt
  m_Offset : Int
  m_StreamOffset : Nat
  m_HasStream : Bool
  m_IsTrailer : Bool
  m_LoadOnDemand : Bool
  m_DelayedLoadDone : Bool
  m_DelayedLoadStreamDone : Bool
  m_IsDirty : Bool

/-- The constructor `PdfParserObject( document, device, buffer, offset )` for a buffer of
`PDF_BUFFER` bytes. -/
def PdfParserObject.new (device : PdfInputDevice) (offset : Int) : PdfParserObject :=
  { m_tokenizer := ⟨some device, PDF_BUFFER, [], []⟩, hasDocument := true,
    m_reference := (0, 0), m_Variant := .Null, m_Stream := none, m_Encrypt := none,
    m_Offset := if offset < 0 then device.Tell else offset, m_StreamOffset := 0,
    m_HasStream := false, m_IsTrailer := false, m_LoadOnDemand := false,
    m_DelayedLoadDone := false, m_DelayedLoadStreamDone := false, m_IsDirty := false }

/-- The device of the object moved to an absolute position. -/
def PdfParserObject.seek (o : PdfParserObject) (off : Nat) : PdfParserObject :=
  { o with m_tokenizer := { o.m_tokenizer with
      m_device := o.m_tokenizer.m_device.map (fun d => d.Seek off) } }

/-- The position of the device of the object. -/
def PdfParserObject.tell (o : PdfParserObject) : Nat :=
  (o.m_tokenizer.m_device.map (fun d => d.Tell)).getD 0

/-- The C string `obj`. -/
def strObj : List Nat := [111, 98, 106]
/-- The C string `endobj`. -/
def strEndobj : List Nat := [101, 110, 100, 111, 98, 106]
/-- The C string `stream`. -/
def strStream : List Nat := [115, 116, 114, 101, 97, 109]
/-- The C string `Length`. -/
def strLength : List Nat := [76, 101, 110, 103, 116, 104]
/-- The C string `Filter`. -/
def strFilter : List Nat := [70, 105, 108, 116, 101, 114]
/-- The C string `Crypt`. -/
def strCrypt : List Nat := [67, 114, 121, 112, 116]

/-- The function `PdfParserObject::ReadObjectNumber`. Its calls `ReadNextNumber` and
`IsNextToken` are `GetNextNumber` and `IsNextToken` of PdfTokenizer.cpp. -/
def ReadObjectNumber (o : PdfParserObject) : Raised Unit × PdfParserObject :=
  match GetNextNumber o.m_tokenizer with
  | (.error e, t1) => (.error e, { o with m_tokenizer := t1 })
  | (.ok obj, t1) =>
    match GetNextNumber t1 with
    | (.error e, t2) => (.error e, { o with m_tokenizer := t2 })
    | (.ok gen, t2) =>
      let o2 := { o with m_tokenizer := t2,
                         m_reference := ((obj % 2 ^ 32).toNat, (gen % 2 ^ 16).toNat) }
      match IsNextToken t2 (some strObj) with
      | (.error e, t3) => (.error e, { o2 with m_tokenizer := t3 })
      | (.ok false, t3) => (.error .NoObject, { o2 with m_tokenizer := t3 })
      | (.ok true, t3) => (.ok (), { o2 with m_tokenizer := t3 })

/-- The function `PdfParserObject::ParseFileComplete`. Its calls `TryReadNextToken` and
`ReadNextVariant` are `GetNextToken` and `GetNextVariant` of PdfTokenizer.cpp. -/
def ParseFileComplete (o : PdfParserObject) (isTrailer : Bool) : Raised Unit × PdfParserObject :=
  let o0 := o.seek o.m_Offset.toNat
  match GetNextToken o0.m_tokenizer with
  | (.error e, t1) => (.error e, { o0 with m_tokenizer := t1 })
  | (.ok none, t1) => (.error .UnexpectedEOF, { o0 with m_tokenizer := t1 })
  | (.ok (some (token, tokenType)), t1) =>
    -- check if we have an empty object or data
    if token = strEndobj then (.ok (), { o0 with m_tokenizer := t1 })
    else
      match GetNextVariantOf (readerFuel o0.m_tokenizer) t1 token tokenType o0.m_Variant
          o0.m_Encrypt with
      | (.error e, t2) => (.error e, { o0 with m_tokenizer := t2 })
      | (.ok v, t2) =>
        let o2 := { o0 with m_tokenizer := t2, m_Variant := v }
        if isTrailer = true then (.ok (), o2)
        else
          match GetNextToken t2 with
          | (.error e, t3) => (.error e, { o2 with m_tokenizer := t3 })
          | (.ok none, t3) => (.error .UnexpectedEOF, { o2 with m_tokenizer := t3 })
          | (.ok (some (token2, _)), t3) =>
            let o3 := { o2 with m_tokenizer := t3 }
            if token2 = strEndobj then (.ok (), o3)
            else
              match v with
              | .Dictionary _ =>
                if token2 = strStream then
                  (.ok (), { o3 with m_HasStream := true, m_StreamOffset := o3.tell })
                else (.error .NoObject, o3)
              | _ => (.error .NoObject, o3)

/-- Modelled from the spec: `PdfObject::DelayedLoad` (PdfObject.h is not among the sources):
the value is parsed on first access only, by `DelayedLoadImpl`, which is
`ParseFileComplete( m_IsTrailer )`. -/
def DelayedLoad (o : PdfParserObject) : Raised Unit × PdfParserObject :=
  if o.m_DelayedLoadDone = true then (.ok (), o)
  else
    match ParseFileComplete o o.m_IsTrailer with
    | (.error e, o1) => (.error e, o1)
    | (.ok _, o1) => (.ok (), { o1 with m_DelayedLoadDone := true })

/-- The function `PdfParserObject::ParseFile`. -/
def ParseFile (o : PdfParserObject) (encrypt : Option PdfEncrypt) (isTrailer : Bool) :
    Raised Unit × PdfParserObject :=
  match o.m_tokenizer.m_device with
  | none => (.error .InvalidHandle, o)
  | some _ =>
    let o0 := if o.m_Offset ≥ 0 then o.seek o.m_Offset.toNat else o
    let r : Raised Unit × PdfParserObject :=
      if isTrailer = false then ReadObjectNumber o0 else (.ok (), o0)
    match r with
    | (.error e, o1) => (.error e, o1)
    | (.ok _, o1) =>
      let o2 := { o1 with m_Offset := o1.tell, m_Encrypt := encrypt, m_IsTrailer := isTrailer }
      if o2.m_LoadOnDemand = false then DelayedLoad o2 else (.ok (), o2)

/-- The loop of `ParseStream` that finds the first byte of the stream body: the device
positioned there. -/
def skipToStreamBody : Nat → PdfInputDevice → PdfInputDevice
  | 0, d => d
  | fuel + 1, d =>
    match d.Look with
    | some 32 => skipToStreamBody fuel d.GetChar.2
    | some 9 => skipToStreamBody fuel d.GetChar.2
    | some 13 =>
      let streamOffset := d.Tell
      let d1 := d.GetChar.2
      if d1.Look = some 10 then
        let d2 := d1.GetChar.2
        d2.Seek d2.Tell
      else d1.Seek streamOffset
    | some 10 =>
      let d1 := d.GetChar.2
      d1.Seek d1.Tell
    | _ => d.Seek d.Tell

/-- Whether the array of filters lists the name `Crypt`. -/
def listsCrypt (filters : List PdfVariant) : Bool :=
  filters.any (fun f => match f with
    | .Name n => n == strCrypt
    | _ => false)

/-- Modelled from the spec: `PdfEncrypt::CreateEncryptionInputStream` (not among the
sources): the bytes read from the device pass through the decryption of the collaborator. -/
def encryptedRead (e : PdfEncrypt) (len : Nat) (d : PdfInputDevice) (n : Nat) :
    List Nat × PdfInputDevice :=
  let r := deviceRead d n
  ((e.Decrypt r.1 len).1.take r.1.length, r.2)

/-- The function `PdfParserObject::ParseStream`. The assertion at its start is a logic
fault when it fails; `MustFindKey` and `GetDictionary`, which are not among the sources,
raise when the key is missing and when the value is not a dictionary. -/
def ParseStream (o : PdfParserObject) : Raised Unit × PdfParserObject :=
  if o.m_DelayedLoadDone = false then (.error .InternalLogic, o) else
  match o.m_tokenizer.m_device with
  | none => (.error .InvalidHandle, o)
  | some d =>
    if o.hasDocument = false then (.error .InvalidHandle, o)
    else
      match o.m_Variant with
      | .Dictionary dict =>
        match GetKey dict strLength with
        | none => (.error .NoObject, o)
        | some (.Number len) =>
          let d0 := d.Seek o.m_StreamOffset
          let d1 := skipToStreamBody (d0.after.length + 1) d0
          let encrypt : Option PdfEncrypt :=
            match o.m_Encrypt with
            | none => none
            | some e =>
              if e.IsMetadataEncrypted = false then
                match GetKey dict strFilter with
                | some (.Array filters) => if listsCrypt filters = true then none else some e
                | _ => some e
              else some e
          let stream : PdfStream := o.m_Stream.getD { m_bAppend := false, buffer := [] }
          let r :=
            match encrypt with
            | some e =>
              stream.SetRawData (encryptedRead e len.toNat) (len.toNat + d1.after.length + 1) d1 len
            | none => stream.SetRawData deviceRead (len.toNat + d1.after.length + 1) d1 len
          let o1 := { o with m_tokenizer := { o.m_tokenizer with m_device := some r.2 },
                             m_Encrypt := encrypt }
          match r.1 with
          | .error e => (.error e, o1)
          | .ok s => (.ok (), { o1 with m_Stream := some s })
        | some _ => (.error .InvalidStreamLength, o)
      | _ => (.error .InvalidDataType, o)

/-- Modelled from the spec: `PdfObject::DelayedLoadStream` (PdfObject.h is not among the
sources): the value is loaded first, then the stream is loaded on first access only, by
`DelayedLoadStreamImpl`, which parses the stream when there is one to parse. -/
def DelayedLoadStream (o : PdfParserObject) : Raised Unit × PdfParserObject :=
  match DelayedLoad o with
  | (.error e, o1) => (.error e, o1)
  | (.ok _, o1) =>
    if o1.m_DelayedLoadStreamDone = true then (.ok (), o1)
    else
      let r : Raised Unit × PdfParserObject :=
        if o1.m_HasStream = true then ParseStream o1 else (.ok (), o1)
      match r with
      | (.error e, o2) => (.error e, o2)
      | (.ok _, o2) => (.ok (), { o2 with m_DelayedLoadStreamDone := true })


/-! ## Notions used to state the properties -/

/-- Queue a list of tokens, first to last, with `QuequeToken`. -/
def queueAll (t : PdfTokenizer) (ps : List (List Nat × EPdfTokenType)) : PdfTokenizer :=
  ps.foldl (fun u p => QuequeToken u p.1 p.2) t

/-- Call `GetNextToken` the given number of times: the results in order and the tokenizer
left behind. -/
def nextTokens : Nat → PdfTokenizer →
    List (Raised (Option (List Nat × EPdfTokenType))) × PdfTokenizer
  | 0, t => ([], t)
  | n + 1, t =>
    let r := GetNextToken t
    let rs := nextTokens n r.2
    (r.1 :: rs.1, rs.2)

/-- A token without its leading sign, if it has one. -/
def unsignedPart (a : List Nat) : List Nat :=
  if a.head? = some 43 ∨ a.head? = some 45 then a.tail else a

/-- An integer token: an optional sign followed by one or more decimal digits. -/
def isIntegerToken (a : List Nat) : Bool :=
  !(unsignedPart a).isEmpty && (unsignedPart a).all isdigit

/-- The byte a plain escape letter stands for, as the format lists them: `n`, `r`, `t`, `b`,
`f` give LF, CR, HT, BS, FF, and `(`, `)` and the backslash give themselves. -/
def plainEscape (e : Nat) : Option Nat :=
  if e = 110 then some 10
  else if e = 114 then some 13
  else if e = 116 then some 9
  else if e = 98 then some 8
  else if e = 102 then some 12
  else if e = 40 then some 40
  else if e = 41 then some 41
  else if e = 92 then some 92
  else none

/-- A regular byte: neither white space nor a delimiter. -/
def isRegular (c : Nat) : Bool := !IsWhitespace c && !IsDelimiter c

/-- What is left of an input that starts inside a comment once the comment and its line
end are gone: the line end is CR, LF, or CR LF taken as one. -/
def dropComment : List Nat → List Nat
  | [] => []
  | c :: r =>
    if c = 13 then (if r.head? = some 10 then r.tail else r)
    else if c = 10 then r
    else dropComment r

/-- What is left of an input once the leading white space and comments are gone; the flag
tells whether the input starts inside a comment. -/
def skipBlank : Bool → List Nat → List Nat
  | _, [] => []
  | true, c :: r => if c = 13 ∨ c = 10 then skipBlank false r else skipBlank true r
  | false, c :: r =>
    if IsWhitespace c = true then skipBlank false r
    else if c = 37 then skipBlank true r
    else c :: r

/-- The bytes of a token that starts with the bytes `buf` in a buffer of `size` bytes and
goes on with the input: the regular bytes up to the capacity of the buffer. -/
def tokenRun (size : Nat) (buf inp : List Nat) : List Nat :=
  (inp.takeWhile isRegular).take (size - 1 - buf.length)

/-- The input left behind by a token that starts with the bytes `buf` and goes on with the
input: what follows the bytes taken, less the comment when one ends the token before the
buffer is full. -/
def tokenRest (size : Nat) (buf inp : List Nat) : List Nat :=
  if (buf ++ tokenRun size buf inp).length + 1 < size
      ∧ (inp.drop (tokenRun size buf inp).length).head? = some 37
  then dropComment (inp.drop (tokenRun size buf inp).length)
  else inp.drop (tokenRun size buf inp).length

/-- The first token of an input that starts with a byte that is neither white space nor the
start of a comment, for a token buffer of `size` bytes: its text, its kind and the input
left after it. Nothing is returned for the empty input. -/
def firstToken (size : Nat) : List Nat → Option (List Nat × EPdfTokenType × List Nat)
  | [] => none
  | x :: r =>
    if x = 60 ∨ x = 62 then
      if r.head? = some x then some ([x, x], EPdfTokenType.Delimiter, r.tail)
      else some ([x], EPdfTokenType.Delimiter, r)
    else if IsDelimiter x = true then some ([x], EPdfTokenType.Delimiter, r)
    else some (x :: tokenRun size [x] r, EPdfTokenType.Token, tokenRest size [x] r)

/-- The delimiter characters `( ) < > [ ] { } /`. -/
def delimiterBytes : List Nat := [40, 41, 60, 62, 91, 93, 123, 125, 47]

/-- The texts of the delimiter tokens: `<<`, `>>` and the single delimiter characters. -/
def isDelimiterText (tok : List Nat) : Bool :=
  tok == [60, 60] || tok == [62, 62] ||
    (tok.length == 1 && tok.all (fun c => decide (c ∈ delimiterBytes)))

/-- The decimal digits of a number, most significant first, from at most `fuel` of them. -/
def decimalFuel : Nat → Nat → List Nat
  | 0, _ => []
  | fuel + 1, n => if n < 10 then [48 + n] else decimalFuel fuel (n / 10) ++ [48 + n % 10]

/-- The decimal rendering of a natural number. -/
def decimal (n : Nat) : List Nat := decimalFuel (n + 1) n

/-- The bytes of the indirect object `n g obj`, a dictionary holding the length of `data`,
and the stream `data`:
`n g obj\n<< /Length L >>\nstream\n` then `data` then `\nendstream\nendobj`. -/
def objectBytes (n g : Nat) (data : List Nat) : List Nat :=
  decimal n ++ [32] ++ decimal g ++ [32] ++ strObj ++ [10, 60, 60, 32, 47] ++ strLength ++ [32]
    ++ decimal data.length ++ [32, 62, 62, 10] ++ strStream ++ [10] ++ data
    ++ [10, 101, 110, 100, 115, 116, 114, 101, 97, 109, 10] ++ strEndobj

/-- The value of a run of octal digits, most significant first. -/
def octalValue (ds : List Nat) : Nat := ds.foldl (fun a d => a * 8 + (d - 48)) 0

/-- A list of hex digits made even in length by one more digit `0`. -/
def padEven (ds : List Nat) : List Nat := if ds.length % 2 = 1 then ds ++ [48] else ds

/-- The characters that write a nibble as a hex digit: the decimal digit, or the upper case
and the lower case letter. -/
def nibbleChars (v : Nat) : List Nat := if v < 10 then [48 + v] else [55 + v, 87 + v]

/-- Whether a list of hex digits writes a byte sequence, two digits per byte, high nibble
first, each letter in either case. -/
def writesHex : List Nat → List Nat → Bool
  | [], [] => true
  | h :: l :: ds, x :: bs =>
    decide (x < 256) && decide (h ∈ nibbleChars (x / 16)) && decide (l ∈ nibbleChars (x % 16))
      && writesHex ds bs
  | _, _ => false

/-- The bytes that a list of hex digits stands for when the digits are taken two at a time
and looked up in the hex map of the tokenizer; nothing when a digit is left over or a byte
is not in the map. -/
def decodePairs : List Nat → Option (List Nat)
  | [] => some []
  | [_] => none
  | h :: l :: r =>
    match genHexMap h, genHexMap l, decodePairs r with
    | some a, some b, some bs => some ((a * 16 + b) :: bs)
    | _, _, _ => none

/-- A sample encryption collaborator, used where a property is shown on a concrete input:
its decryption adds one to every byte, modulo 256; its stream offset is zero. -/
def sampleEncrypt (metadataEncrypted : Bool) : PdfEncrypt :=
  { CalculateStreamOffset := 0,
    Decrypt := fun bytes outLen => (bytes.map (fun x => (x + 1) % 256), outLen),
    IsMetadataEncrypted := metadataEncrypted }

/-! ## The composite canvas device -/

/-- Modelled from the spec: `SpanStreamDevice` (not among the sources), the device over the
bytes extracted from one content stream. The model keeps the bytes still to come. -/
structure SpanStreamDevice where
  remaining : List Nat
deriving DecidableEq, Repr

namespace SpanStreamDevice

/-- The next byte without advancing; `none` is the result `-1`. -/
def Peek (d : SpanStreamDevice) : Option Nat := d.remaining.head?

/-- Whether all bytes have been read. -/
def Eof (d : SpanStreamDevice) : Bool := d.remaining.isEmpty

/-- The overload `Read(char&)`: `none` is the result `false`. -/
def Read (d : SpanStreamDevice) : Option Nat × SpanStreamDevice :=
  match d.remaining with
  | [] => (none, d)
  | c :: r => (some c, ⟨r⟩)

/-- The overload `Read(char*, size_t)`: the bytes read, at most `size` of them. -/
def ReadBuffer (d : SpanStreamDevice) (size : Nat) : List Nat × SpanStreamDevice :=
  (d.remaining.take size, ⟨d.remaining.drop size⟩)

end SpanStreamDevice

/-- Modelled from the spec: what the constructor of the canvas device sees of the canvas
(`PdfCanvas` and `PdfObject` are not among the sources). An object is represented by the
result of `GetStream()`: `none` for an object without a stream, else the bytes that
`ExtractTo` yields. `GetContentsObject()` is an array of objects, a dictionary, or an
object of another type. -/
inductive CanvasContents where
  | Array (items : List (Option (List Nat)))
  | Dictionary (stream : Option (List Nat))
  | Other
deriving DecidableEq, Repr

/-- The members of `PdfCanvasInputDevice`; `m_device` is `none` for a null pointer. -/
structure PdfCanvasInputDevice where
  m_eof : Bool
  m_contents : List (Option (List Nat))
  m_device : Option SpanStreamDevice
  m_deviceSwitchOccurred : Bool
deriving DecidableEq, Repr

namespace PdfCanvasInputDevice

def setEOF (s : PdfCanvasInputDevice) : PdfCanvasInputDevice :=
  { s with m_deviceSwitchOccurred := false, m_eof := true }

/-- Both callers test `m_contents.size() != 0` first, so the first case is not reached. -/
def tryPopNextDevice (s : PdfCanvasInputDevice) : Bool × PdfCanvasInputDevice :=
  match s.m_contents with
  | [] => (false, s)
  | none :: rest => (false, { s with m_contents := rest, m_device := none })
  | some b :: rest => (true, { s with m_contents := rest, m_device := some ⟨b⟩ })

/-- The argument `device` tells whether the caller's pointer `device` is non-null; when the
result is `true` the caller's pointer is `m_device`. Modelled from the spec: a failed
`PDFMM_ASSERT` (its definition is not among the sources) raises `InternalLogic`. -/
def tryGetNextDevice (s : PdfCanvasInputDevice) (device : Bool) :
    Raised Bool × PdfCanvasInputDevice :=
  if s.m_device = none then (.error .InternalLogic, s)
  else if device = false then (.ok true, s)
  else if s.m_contents.length = 0 then (.ok false, s)
  else
    match tryPopNextDevice s with
    | (false, s1) => (.ok false, s1)
    | (true, s1) => (.ok true, { s1 with m_deviceSwitchOccurred := true })

/-- The loop `while (true)` of `peek`; the result `none` is `false`. -/
def peek_loop : Nat → PdfCanvasInputDevice → Bool → Raised (Option Nat) × PdfCanvasInputDevice
  | 0, s, _ => (.error .OutOfFuel, s)
  | fuel + 1, s, device =>
    match tryGetNextDevice s device with
    | (.error e, s1) => (.error e, s1)
    | (.ok false, s1) => (.ok none, s1.setEOF)
    | (.ok true, s1) =>
      match s1.m_device with
      | none => (.error .InternalLogic, s1)
      | some d =>
        match d.Peek with
        | some ret =>
          if s1.m_deviceSwitchOccurred = true then (.ok (some 10), s1)
          else (.ok (some ret), s1)
        | none => peek_loop fuel s1 true

def peek (s : PdfCanvasInputDevice) : Raised (Option Nat) × PdfCanvasInputDevice :=
  if s.m_eof = true then (.ok none, s)
  else peek_loop (s.m_contents.length + 2) s false

/-- The loop `while (true)` of `readChar`; the result `none` is `false`. -/
def readChar_loop : Nat → PdfCanvasInputDevice → Bool →
    Raised (Option Nat) × PdfCanvasInputDevice
  | 0, s, _ => (.error .OutOfFuel, s)
  | fuel + 1, s, device =>
    match tryGetNextDevice s device with
    | (.error e, s1) => (.error e, s1)
    | (.ok false, s1) => (.ok none, s1.setEOF)
    | (.ok true, s1) =>
      match s1.m_device with
      | none => (.error .InternalLogic, s1)
      | some d =>
        if s1.m_deviceSwitchOccurred = true then
          if d.Peek = none then readChar_loop fuel s1 true
          else (.ok (some 10), { s1 with m_deviceSwitchOccurred := false })
        else
          match d.Read with
          | (some ch, d1) => (.ok (some ch), { s1 with m_device := some d1 })
          | (none, d1) => readChar_loop fuel { s1 with m_device := some d1 } true

def readChar (s : PdfCanvasInputDevice) : Raised (Option Nat) × PdfCanvasInputDevice :=
  if s.m_eof = true then (.ok none, s)
  else readChar_loop (s.m_contents.length + 2) s false

/-- The loop `while (true)` of `readBuffer`; `acc` holds the bytes written to `buffer` so
far (`readCount` is their number) and `size` the room that is left. -/
def readBuffer_loop : Nat → PdfCanvasInputDevice → Bool → Nat → List Nat →
    Raised (List Nat) × PdfCanvasInputDevice
  | 0, s, _, _, _ => (.error .OutOfFuel, s)
  | fuel + 1, s, device, size, acc =>
    match tryGetNextDevice s device with
    | (.error e, s1) => (.error e, s1)
    | (.ok false, s1) => (.ok acc, s1.setEOF)
    | (.ok true, s1) =>
      match s1.m_device with
      | none => (.error .InternalLogic, s1)
      | some d =>
        if s1.m_deviceSwitchOccurred = true then
          if d.Peek = none then readBuffer_loop fuel s1 true size acc
          else if size - 1 = 0 then
            (.ok (acc ++ [10]), { s1 with m_deviceSwitchOccurred := false })
          else
            let r := d.ReadBuffer (size - 1)
            let s2 := { s1 with m_deviceSwitchOccurred := false, m_device := some r.2 }
            if size - 1 - r.1.length = 0 then (.ok (acc ++ [10] ++ r.1), s2)
            else readBuffer_loop fuel s2 true (size - 1 - r.1.length) (acc ++ [10] ++ r.1)
        else
          let r := d.ReadBuffer size
          let s2 := { s1 with m_device := some r.2 }
          if size - r.1.length = 0 then (.ok (acc ++ r.1), s2)
          else readBuffer_loop fuel s2 true (size - r.1.length) (acc ++ r.1)

def readBuffer (s : PdfCanvasInputDevice) (size : Nat) :
    Raised (List Nat) × PdfCanvasInputDevice :=
  if size = 0 ∨ s.m_eof = true then (.ok [], s)
  else readBuffer_loop (s.m_contents.length + 2) s false size []

/-- The constructor; the argument is the result of `canvas.GetContentsObject()`, `none` for
a null pointer. -/
def new (contents : Option CanvasContents) : Raised PdfCanvasInputDevice :=
  let collected : Raised (List (Option (List Nat))) :=
    match contents with
    | none => .ok []
    | some (.Array items) => .ok items
    | some (.Dictionary stream) => .ok (if stream.isSome then [stream] else [])
    | some .Other => .error .InvalidDataType
  match collected with
  | .error e => .error e
  | .ok cs =>
    let s0 : PdfCanvasInputDevice := ⟨false, cs, none, false⟩
    if cs.length = 0 then .ok { s0 with m_eof := true }
    else
      match tryPopNextDevice s0 with
      | (true, s1) =>
        match s1.m_device with
        | some d => .ok { s1 with m_eof := d.Eof }
        | none => .error .InternalLogic
      | (false, s1) => .ok { s1 with m_eof := false }

end PdfCanvasInputDevice

/-- A client of the canvas device that calls `readChar` until it reports `false` and
collects the bytes. -/
def readToEnd : Nat → PdfCanvasInputDevice → Raised (List Nat) × PdfCanvasInputDevice
  | 0, s => (.error .OutOfFuel, s)
  | fuel + 1, s =>
    match s.readChar with
    | (.error e, s1) => (.error e, s1)
    | (.ok none, s1) => (.ok [], s1)
    | (.ok (some c), s1) =>
      match readToEnd fuel s1 with
      | (.error e, s2) => (.error e, s2)
      | (.ok l, s2) => (.ok (c :: l), s2)

/-- The bytes that the blocks still queued contribute: an empty block nothing, a block with
bytes a newline and its bytes, and nothing at all from a block without a stream on. -/
def joinBlocks : List (Option (List Nat)) → List Nat
  | [] => []
  | none :: _ => []
  | some [] :: rest => joinBlocks rest
  | some (c :: r) :: rest => 10 :: c :: r ++ joinBlocks rest

/-- The bytes still to come from a canvas device in the given state. -/
def pending (s : PdfCanvasInputDevice) : List Nat :=
  if s.m_eof = true then []
  else
    match s.m_device with
    | none => []
    | some ⟨[]⟩ => joinBlocks s.m_contents
    | some ⟨c :: r⟩ =>
      (if s.m_deviceSwitchOccurred = true then [10] else []) ++ c :: r ++ joinBlocks s.m_contents

/-- The state in which the search of the canvas device for the next block with bytes ends,
started with the blocks `cs` queued: at the first block with bytes, with the switch flag set,
or at the end of input when the queue runs out or a block has no stream. -/
def nextBlock (e : Bool) : List (Option (List Nat)) → Option SpanStreamDevice →
    PdfCanvasInputDevice
  | [], dev => ⟨true, [], dev, false⟩
  | none :: rest, _ => ⟨true, rest, none, false⟩
  | some [] :: rest, _ => nextBlock e rest (some ⟨[]⟩)
  | some (c :: r) :: rest, _ => ⟨e, rest, some ⟨c :: r⟩, true⟩

/-- The states of the canvas device in which a read does not fail an assertion: the end of
input has been reported or there is a current device. -/
def wellFormed (s : PdfCanvasInputDevice) : Bool := s.m_eof || s.m_device.isSome

/-- What a read of `size` bytes into a buffer that holds `acc` does when `p` are the bytes
still to come: it appends the first `size` bytes of `p`, leaves the rest of `p` to come, and
has reported the end of input when `p` is shorter than `size`. -/
def readsPending (res : Raised (List Nat) × PdfCanvasInputDevice) (acc p : List Nat)
    (size : Nat) : Prop :=
  res.1 = .ok (acc ++ p.take size) ∧ pending res.2 = p.drop size ∧ wellFormed res.2 = true
    ∧ (p.length < size → res.2.m_eof = true)

/-- The end-of-line marker that is skipped after the keyword `stream` when the bytes `rest`
follow the spaces and tabs behind it: CR LF or a lone LF, and nothing else. -/
def eolMarker : List Nat → List Nat
  | 13 :: 10 :: _ => [13, 10]
  | 10 :: _ => [10]
  | _ => []

/-- The bytes of `rest` behind that end-of-line marker: the stream body. -/
def streamBody (rest : List Nat) : List Nat := rest.drop (eolMarker rest).length
/-- Whether the value under `/Filter` in the dictionary is an array that lists the name
`Crypt`. -/
def filterListsCrypt (dict : List (List Nat × PdfVariant)) : Bool :=
  match GetKey dict strFilter with
  | some (.Array filters) => listsCrypt filters
  | _ => false

/-! ## Eviction -/

/-- Modelled from the spec: `Clear` (PdfVariant.cpp and PdfObject.cpp are not among the
sources): the value becomes the Null variant. -/
def PdfParserObject.Clear (o : PdfParserObject) : PdfParserObject :=
  { o with m_Variant := .Null }

/-- Modelled from the spec: `PdfObject::FreeStream` (not among the sources): the stream is
released. -/
def PdfParserObject.FreeStream (o : PdfParserObject) : PdfParserObject :=
  { o with m_Stream := none }

/-- Modelled from the spec: `PdfObject::EnableDelayedLoading` (not among the sources): the
value is to be loaded on its next access. -/
def PdfParserObject.EnableDelayedLoading (o : PdfParserObject) : PdfParserObject :=
  { o with m_DelayedLoadDone := false }

/-- Modelled from the spec: `PdfObject::EnableDelayedLoadingStream` (not among the
sources): the stream is to be loaded on its next access. -/
def PdfParserObject.EnableDelayedLoadingStream (o : PdfParserObject) : PdfParserObject :=
  { o with m_DelayedLoadStreamDone := false }

/-- The function `PdfParserObject::FreeObjectMemory`. -/
def FreeObjectMemory (o : PdfParserObject) (force : Bool) : PdfParserObject :=
  if o.m_LoadOnDemand = true ∧ (force = true ∨ ¬ o.m_IsDirty = true) then
    o.Clear.FreeStream.EnableDelayedLoading.EnableDelayedLoadingStream
  else o

/-- The numeric grammar `[+-]?[0-9]*\.?[0-9]+` of the format: an optional sign, then either
one or more digits, or digits, a point and one or more digits up to the end. -/
def matchesNumber (a : List Nat) : Bool :=
  let u := unsignedPart a
  let ip := u.takeWhile isdigit
  let r := u.dropWhile isdigit
  (r.isEmpty && !ip.isEmpty) || (r.head? == some 46 && !r.tail.isEmpty && r.tail.all isdigit)

/-! ## Streams with their parent object -/

/-- Modelled from the spec: the filter types `EPdfFilter` (PdfFilter.h is not among the
sources; PdfStream.cpp names `None` and `FlateDecode`), one for each filter name of the
format. -/
inductive EPdfFilter where
  | None
  | ASCIIHexDecode
  | ASCII85Decode
  | LZWDecode
  | FlateDecode
  | RunLengthDecode
  | CCITTFaxDecode
  | JBIG2Decode
  | DCTDecode
  | JPXDecode
  | Crypt
deriving DecidableEq, Repr

/-- Modelled from the spec: `PdfFilterFactory::FilterTypeToName` (not among the sources):
the name of the format for a filter type; `None` has no name. -/
def FilterTypeToName : EPdfFilter → List Nat
  | .None => []
  | .ASCIIHexDecode => [65, 83, 67, 73, 73, 72, 101, 120, 68, 101, 99, 111, 100, 101]
  | .ASCII85Decode => [65, 83, 67, 73, 73, 56, 53, 68, 101, 99, 111, 100, 101]
  | .LZWDecode => [76, 90, 87, 68, 101, 99, 111, 100, 101]
  | .FlateDecode => [70, 108, 97, 116, 101, 68, 101, 99, 111, 100, 101]
  | .RunLengthDecode => [82, 117, 110, 76, 101, 110, 103, 116, 104, 68, 101, 99, 111, 100, 101]
  | .CCITTFaxDecode => [67, 67, 73, 84, 84, 70, 97, 120, 68, 101, 99, 111, 100, 101]
  | .JBIG2Decode => [74, 66, 73, 71, 50, 68, 101, 99, 111, 100, 101]
  | .DCTDecode => [68, 67, 84, 68, 101, 99, 111, 100, 101]
  | .JPXDecode => [74, 80, 88, 68, 101, 99, 111, 100, 101]
  | .Crypt => [67, 114, 121, 112, 116]

/-- Modelled from the spec: `PdfFilterFactory::FilterNameToType` (not among the sources):
the filter type for a name, `none` for a name that is not the name of a filter. -/
def FilterNameToType (n : List Nat) : Option EPdfFilter :=
  if n = FilterTypeToName .ASCIIHexDecode then some .ASCIIHexDecode
  else if n = FilterTypeToName .ASCII85Decode then some .ASCII85Decode
  else if n = FilterTypeToName .LZWDecode then some .LZWDecode
  else if n = FilterTypeToName .FlateDecode then some .FlateDecode
  else if n = FilterTypeToName .RunLengthDecode then some .RunLengthDecode
  else if n = FilterTypeToName .CCITTFaxDecode then some .CCITTFaxDecode
  else if n = FilterTypeToName .JBIG2Decode then some .JBIG2Decode
  else if n = FilterTypeToName .DCTDecode then some .DCTDecode
  else if n = FilterTypeToName .JPXDecode then some .JPXDecode
  else if n = FilterTypeToName .Crypt then some .Crypt
  else none
/-- Modelled from the spec: the filter-codec registry (PdfFilter.cpp is not among the
sources): what the encode stream of a filter list makes of the bytes written to it, and
what its decode stream makes of them, `none` when decoding fails. -/
structure FilterCodec where
  encode : List EPdfFilter → List Nat → List Nat
  decode : List EPdfFilter → List Nat → Option (List Nat)

/-- Modelled from the spec: the parent object of a stream as PdfStream.cpp uses it
(PdfObject.h is not among the sources): its dictionary and its dirty flag. -/
structure StreamParent where
  dictionary : List (List Nat × PdfVariant)
  m_IsDirty : Bool

/-- Modelled from the spec: `PdfObject::SetDirty` (not among the sources). -/
def StreamParent.SetDirty (p : StreamParent) : StreamParent := { p with m_IsDirty := true }

/-- Modelled from the spec: `PdfDictionary::RemoveKey` (PdfDictionary.cpp is not among the
sources): the entry with the key is dropped. -/
def RemoveKey (dict : List (List Nat × PdfVariant)) (key : List Nat) :
    List (List Nat × PdfVariant) :=
  dict.filter (fun e => e.1 != key)

/-- The members of `PdfStream` with the parent `m_pParent` points to (`none` for a null
pointer), and the state of the memory stream behind it: the internal buffer, and the encode
stream of an open append over a filter list (its filters and the bytes written to it). -/
structure PdfMemStream where
  m_bAppend : Bool
  m_pParent : Option StreamParent
  buffer : List Nat
  m_pStream : Option (List EPdfFilter × List Nat)

namespace PdfMemStream

/-- The function `PdfStream::IsAppending`. -/
def IsAppending (s : PdfMemStream) : Bool := s.m_bAppend

/-- The length of the internal buffer, `GetLength()`. -/
def GetLength (s : PdfMemStream) : Nat := s.buffer.length

/-- Modelled from the spec: `PdfFilterFactory::CreateFilterList` (not among the sources):
the filter chain declared by the `/Filter` key of the parent, empty without a parent or
without the key; a Name gives one filter, an Array of Names gives them in order; a name
that is no filter name raises `UnsupportedFilter`, an entry that is no name
`InvalidDataType`. -/
def CreateFilterList (parent : Option StreamParent) : Raised (List EPdfFilter) :=
  match parent with
  | none => .ok []
  | some p =>
    match GetKey p.dictionary strFilter with
    | none => .ok []
    | some (.Name n) =>
      match FilterNameToType n with
      | some f => .ok [f]
      | none => .error .UnsupportedFilter
    | some (.Array items) =>
      items.foldl (fun acc item =>
        match acc, item with
        | .error e, _ => .error e
        | .ok fs, .Name n =>
          match FilterNameToType n with
          | some f => .ok (fs ++ [f])
          | none => .error .UnsupportedFilter
        | .ok _, _ => .error .InvalidDataType) (.ok [])
    | some _ => .ok []

/-- The function `PdfStream::GetFilteredCopy( char**, size_t* )`: the bytes of the copy. -/
def GetFilteredCopy (codec : FilterCodec) (s : PdfMemStream) : Raised (List Nat) :=
  match CreateFilterList s.m_pParent with
  | .error e => .error e
  | .ok vecFilters =>
    if vecFilters.length ≠ 0 then
      match codec.decode vecFilters s.buffer with
      | none => .error .Flate
      | some bytes => .ok bytes
    else .ok s.buffer

/-- Modelled from the spec: `BeginAppendImpl` of the memory stream (PdfMemStream.cpp is not
among the sources): the buffer starts empty, and with filters an encode stream is opened. -/
def BeginAppendImpl (s : PdfMemStream) (vecFilters : List EPdfFilter) : PdfMemStream :=
  { s with buffer := [],
           m_pStream := if vecFilters.length ≠ 0 then some (vecFilters, []) else none }

/-- Modelled from the spec: `AppendImpl` of the memory stream: the bytes go to the encode
stream when there is one, and to the buffer otherwise. -/
def AppendImpl (s : PdfMemStream) (bytes : List Nat) : PdfMemStream :=
  match s.m_pStream with
  | some (fs, plain) => { s with m_pStream := some (fs, plain ++ bytes) }
  | none => { s with buffer := s.buffer ++ bytes }

/-- Modelled from the spec: `EndAppendImpl` of the memory stream: an encode stream is closed
and what it made of the bytes written to it becomes the buffer. -/
def EndAppendImpl (codec : FilterCodec) (s : PdfMemStream) : PdfMemStream :=
  match s.m_pStream with
  | some (fs, plain) => { s with buffer := codec.encode fs plain, m_pStream := none }
  | none => s

/-- The function `PdfStream::Append( const char*, size_t )`. Modelled from the spec:
`PODOFO_RAISE_LOGIC_IF` (not among the sources) raises `InternalLogic`. -/
def Append (s : PdfMemStream) (bytes : List Nat) : Raised Unit × PdfMemStream :=
  if s.m_bAppend = false then (.error .InternalLogic, s)
  else (.ok (), s.AppendImpl bytes)

/-- The function `PdfStream::EndAppend`. The calls `BeginAppendStream` and
`EndAppendStream` of the document, which is not among the sources, are left out. -/
def EndAppend (codec : FilterCodec) (s : PdfMemStream) : Raised Unit × PdfMemStream :=
  if s.m_bAppend = false then (.error .InternalLogic, s)
  else (.ok (), EndAppendImpl codec { s with m_bAppend := false })

/-- The block `if ( m_pParent ) { ... }` of `BeginAppend` that sets the `/Filter` key in the
dictionary of the parent. -/
def setFilterKey (p : StreamParent) (vecFilters : List EPdfFilter) (bDeleteFilters : Bool) :
    StreamParent :=
  if vecFilters.length = 0 then
    if bDeleteFilters = true then { p with dictionary := RemoveKey p.dictionary strFilter }
    else p
  else if vecFilters.length = 1 then
    let name := PdfVariant.Name (FilterTypeToName (vecFilters.headD EPdfFilter.None))
    { p with dictionary := AddKey p.dictionary strFilter name }
  else
    let filters :=
      PdfVariant.Array (vecFilters.map (fun f => PdfVariant.Name (FilterTypeToName f)))
    { p with dictionary := AddKey p.dictionary strFilter filters }

/-- The function `PdfStream::BeginAppend( vecFilters, bClearExisting, bDeleteFilters )`. -/
def BeginAppend (codec : FilterCodec) (s : PdfMemStream) (vecFilters : List EPdfFilter)
    (bClearExisting bDeleteFilters : Bool) : Raised Unit × PdfMemStream :=
  if s.m_bAppend = true then (.error .InternalLogic, s)
  else
    -- the parent is set dirty
    let s1 := { s with m_pParent := s.m_pParent.map StreamParent.SetDirty }
    let copy : Raised (Option (List Nat)) :=
      if bClearExisting = false ∧ s1.GetLength ≠ 0 then
        match GetFilteredCopy codec s1 with
        | .error e => .error e
        | .ok bytes => .ok (some bytes)
      else .ok none
    match copy with
    | .error e => (.error e, s1)
    | .ok pBuffer =>
      let s2 := { s1 with
        m_pParent := s1.m_pParent.map (fun p => setFilterKey p vecFilters bDeleteFilters) }
      let s3 := { BeginAppendImpl s2 vecFilters with m_bAppend := true }
      match pBuffer with
      | some bytes => s3.Append bytes
      | none => (.ok (), s3)

/-- The default filter `PdfStream::eDefaultFilter`. -/
def eDefaultFilter : EPdfFilter := .FlateDecode

/-- The function `PdfStream::BeginAppend( bool bClearExisting )`; the last argument of the
call it makes has its default value `true` (PdfStream.h is not among the sources). -/
def BeginAppendDefault (codec : FilterCodec) (s : PdfMemStream) (bClearExisting : Bool) :
    Raised Unit × PdfMemStream :=
  let vecFilters : List EPdfFilter :=
    if eDefaultFilter ≠ EPdfFilter.None then [eDefaultFilter] else []
  BeginAppend codec s vecFilters bClearExisting true

/-- The function `PdfStream::Set( const char*, size_t, const TVecFilters& )`; the arguments
left out in its call of `BeginAppend` have their default value `true`. -/
def Set (codec : FilterCodec) (s : PdfMemStream) (szBuffer : List Nat)
    (vecFilters : List EPdfFilter) : Raised Unit × PdfMemStream :=
  match BeginAppend codec s vecFilters true true with
  | (.error e, s1) => (.error e, s1)
  | (.ok _, s1) =>
    match s1.Append szBuffer with
    | (.error e, s2) => (.error e, s2)
    | (.ok _, s2) => EndAppend codec s2

/-- The loop `do { ... } while( lLen && lRead > 0 )` of `SetRawData` for a length that is
not negative, over an input stream with state `σ` whose `Read` returns the bytes read, and
over a receiver with state `τ` of the calls of `Append`. -/
def SetRawData_counted {σ τ : Type} (Read : σ → Nat → List Nat × σ)
    (Append : τ → List Nat → Raised Unit × τ) : Nat → σ → Nat → τ → Raised Unit × τ × σ
  | 0, inp, _, s => (.error .OutOfFuel, s, inp)
  | fuel + 1, inp, lLen, s =>
    let r := Read inp (min BUFFER_SIZE lLen)
    let lRead := r.1.length
    match Append s r.1 with
    | (.error e, s1) => (.error e, s1, r.2)
    | (.ok _, s1) =>
      if lLen - lRead ≠ 0 ∧ lRead > 0 then
        SetRawData_counted Read Append fuel r.2 (lLen - lRead) s1
      else (.ok (), s1, r.2)

/-- The loop `do { ... } while( lRead > 0 )` of `SetRawData` for a negative length. -/
def SetRawData_exhaust {σ τ : Type} (Read : σ → Nat → List Nat × σ)
    (Append : τ → List Nat → Raised Unit × τ) : Nat → σ → τ → Raised Unit × τ × σ
  | 0, inp, s => (.error .OutOfFuel, s, inp)
  | fuel + 1, inp, s =>
    let r := Read inp BUFFER_SIZE
    match Append s r.1 with
    | (.error e, s1) => (.error e, s1, r.2)
    | (.ok _, s1) =>
      if r.1.length > 0 then SetRawData_exhaust Read Append fuel r.2 s1
      else (.ok (), s1, r.2)

/-- The function `PdfStream::SetRawData( PdfInputStream&, ssize_t lLen )`; the fuel bounds
the number of reads. -/
def SetRawData {σ : Type} (codec : FilterCodec) (s : PdfMemStream)
    (Read : σ → Nat → List Nat × σ) (fuel : Nat) (inp : σ) (lLen : Int) :
    Raised Unit × PdfMemStream × σ :=
  match BeginAppend codec s [] true false with
  | (.error e, s1) => (.error e, s1, inp)
  | (.ok _, s1) =>
    let r := if lLen < 0 then SetRawData_exhaust Read Append fuel inp s1
             else SetRawData_counted Read Append fuel inp lLen.toNat s1
    match r with
    | (.error e, s2, inp2) => (.error e, s2, inp2)
    | (.ok _, s2, inp2) =>
      match EndAppend codec s2 with
      | (.error e, s3) => (.error e, s3, inp2)
      | (.ok _, s3) => (.ok (), s3, inp2)

end PdfMemStream

/-- An input stream with the operation `Read` holds the bytes `rest s` in the state `s`: a
read returns at most the number of bytes asked for, from the front of those bytes, and
returns none only when none were asked for or none are left. -/
def holdsBytes {σ : Type} (Read : σ → Nat → List Nat × σ) (rest : σ → List Nat) : Prop :=
  ∀ s k, (Read s k).1 ++ rest (Read s k).2 = rest s ∧ (Read s k).1.length ≤ k
    ∧ ((Read s k).1 = [] → k = 0 ∨ rest s = [])

/-- A receiver of `Append` calls that records the pieces it is handed. -/
def recordAppend (pieces : List (List Nat)) (bytes : List Nat) :
    Raised Unit × List (List Nat) :=
  (.ok (), pieces ++ [bytes])
/-- A client of a stream that appends the pieces one after the other with `Append`. -/
def appendAll (s : PdfMemStream) : List (List Nat) → Raised Unit × PdfMemStream
  | [] => (.ok (), s)
  | p :: ps =>
    match s.Append p with
    | (.error e, s1) => (.error e, s1)
    | (.ok _, s1) => appendAll s1 ps

/-- The `/Filter` entry that `BeginAppend` installs for a filter list: none for no filter,
the name for one, the array of the names in order for more. -/
def filterEntry (vecFilters : List EPdfFilter) : Option PdfVariant :=
  match vecFilters with
  | [] => none
  | [f] => some (.Name (FilterTypeToName f))
  | fs => some (.Array (fs.map (fun f => PdfVariant.Name (FilterTypeToName f))))

/-! ## The signature patcher -/

/-- The value of an arithmetic result in the type `size_t`, 64 bits wide. -/
def size_t (n : Nat) : Nat := n % 2 ^ 64

/-- The difference `a - b` in the type `size_t`. -/
def size_sub (a b : Nat) : Nat := (a % 2 ^ 64 + 2 ^ 64 - b % 2 ^ 64) % 2 ^ 64

/-- The conversion `static_cast<int64_t>` of a `size_t`. -/
def int64_of_size (n : Nat) : Int :=
  if n % 2 ^ 64 < 2 ^ 63 then ((n % 2 ^ 64 : Nat) : Int) else ((n % 2 ^ 64 : Nat) : Int) - 2 ^ 64

/-- Modelled from the spec: `PdfOutputDevice` (not among the sources) as PdfSigner.cpp uses
it: the bytes of the file and the position. -/
structure PdfOutputDevice where
  content : List Nat
  pos : Nat
deriving DecidableEq, Repr

namespace PdfOutputDevice

def Tell (d : PdfOutputDevice) : Nat := d.pos

def GetLength (d : PdfOutputDevice) : Nat := d.content.length

def Seek (d : PdfOutputDevice) (offset : Nat) : PdfOutputDevice := { d with pos := offset }

def Flush (d : PdfOutputDevice) : PdfOutputDevice := d

/-- A read returns the bytes asked for when the file has them from the position on, and
those that are left otherwise. -/
def Read (d : PdfOutputDevice) (len : Nat) : List Nat × PdfOutputDevice :=
  ((d.content.drop d.pos).take len,
    { d with pos := d.pos + ((d.content.drop d.pos).take len).length })

/-- A write at a position within the file replaces the bytes there and extends the file
when it goes beyond its end. -/
def Write (d : PdfOutputDevice) (bytes : List Nat) : PdfOutputDevice :=
  { content := d.content.take d.pos ++ bytes ++ d.content.drop (d.pos + bytes.length),
    pos := d.pos + bytes.length }

end PdfOutputDevice

/-- The constant `ByteRangeBeacon`, the text `[ 0 1234567890 1234567890 1234567890]`. -/
def ByteRangeBeacon : List Nat :=
  [91, 32, 48, 32, 49, 50, 51, 52, 53, 54, 55, 56, 57, 48, 32, 49, 50, 51, 52, 53, 54, 55, 56,
    57, 48, 32, 49, 50, 51, 52, 53, 54, 55, 56, 57, 48, 93]

/-- The constant `BufferSize`. -/
def BufferSize : Nat := 65536

/-- The part of `ReadForSignature` behind the block for the bytes before the beacon; `buf`
holds the `numRead` bytes read so far and `pos` is the position at the start of the call. -/
def ReadForSignature_tail (device : PdfOutputDevice)
    (conentsBeaconOffset conentsBeaconSize pos : Nat) (buf : List Nat) (len : Nat) :
    List Nat × PdfOutputDevice :=
  -- shift at the end of beacon
  let d1 :=
    if size_t (pos + buf.length) ≥ conentsBeaconOffset
        ∧ pos < size_t (conentsBeaconOffset + conentsBeaconSize) then
      device.Seek (size_t (conentsBeaconOffset + conentsBeaconSize))
    else device
  -- read after beacon
  let len2 := min len (size_sub d1.GetLength d1.Tell)
  if len2 = 0 then (buf, d1)
  else
    let r := d1.Read len2
    (buf ++ r.1, r.2)

/-- The function `ReadForSignature`: the bytes put into `buffer`, whose number is the
result, and the device after the call. -/
def ReadForSignature (device : PdfOutputDevice) (conentsBeaconOffset conentsBeaconSize : Nat)
    (len : Nat) : List Nat × PdfOutputDevice :=
  let pos := device.Tell
  -- check if we are before beacon
  if pos < conentsBeaconOffset then
    let readSize := min len (size_sub conentsBeaconOffset pos)
    if readSize > 0 then
      let r := device.Read readSize
      if size_sub len r.1.length = 0 then (r.1, r.2)
      else
        ReadForSignature_tail r.2 conentsBeaconOffset conentsBeaconSize pos r.1
          (size_sub len r.1.length)
    else ReadForSignature_tail device conentsBeaconOffset conentsBeaconSize pos [] len
  else ReadForSignature_tail device conentsBeaconOffset conentsBeaconSize pos [] len

/-- The loop `while ((readBytes = ReadForSignature(...)) != 0)` of `SignDocument`; `acc`
holds the data handed to `signer.AppendData` so far. -/
def readForSignature_loop : Nat → PdfOutputDevice → Nat → Nat → Nat → List Nat →
    Raised (List Nat) × PdfOutputDevice
  | 0, device, _, _, _, _ => (.error .OutOfFuel, device)
  | fuel + 1, device, off, size, len, acc =>
    let r := ReadForSignature device off size len
    if r.1.length ≠ 0 then readForSignature_loop fuel r.2 off size len (acc ++ r.1)
    else (.ok acc, r.2)

/-- The decimal rendering of an integer. -/
def decimalInt (n : Int) : List Nat :=
  if n < 0 then 45 :: decimal n.natAbs else decimal n.toNat

/-- Modelled from the spec: `PdfArray::Write` in compact mode for an array of integers
(PdfArray.cpp is not among the sources): `[`, every number with a blank before it, `]`,
the form of the constant `ByteRangeBeacon`. -/
def writeNumberArray (arr : List Int) : List Nat :=
  91 :: (arr.map (fun n => 32 :: decimalInt n)).flatten ++ [93]

/-- The array `arr` that `AdjustByteRange` builds. -/
def byteRangeArray (device : PdfOutputDevice) (conentsBeaconOffset conentsBeaconSize : Nat) :
    List Int :=
  let fileEnd := device.GetLength
  [int64_of_size 0, int64_of_size conentsBeaconOffset,
    int64_of_size (size_t (conentsBeaconOffset + conentsBeaconSize)),
    int64_of_size (size_sub fileEnd (size_t (conentsBeaconOffset + conentsBeaconSize)))]

/-- The function `AdjustByteRange`. -/
def AdjustByteRange (device : PdfOutputDevice) (byteRangeOffset conentsBeaconOffset
    conentsBeaconSize : Nat) : PdfOutputDevice :=
  (device.Seek byteRangeOffset).Write
    (writeNumberArray (byteRangeArray device conentsBeaconOffset conentsBeaconSize))

/-- The upper case hex digit of a nibble. -/
def hexDigit (v : Nat) : Nat := if v < 10 then 48 + v else 55 + v

/-- Two hex digits for every byte, high nibble first. -/
def hexEncode (bytes : List Nat) : List Nat :=
  (bytes.map (fun b => [hexDigit (b / 16 % 16), hexDigit (b % 16)])).flatten

/-- Modelled from the spec: `PdfString::FromRaw` followed by `PdfString::Write` in compact
mode (PdfString.cpp is not among the sources): the bytes are written as a hex string, `<`,
two hex digits per byte, `>`. -/
def writeHexString (bytes : List Nat) : List Nat := 60 :: hexEncode bytes ++ [62]

/-- The function `SetSignature`. -/
def SetSignature (device : PdfOutputDevice) (contentsData : List Nat)
    (conentsBeaconOffset : Nat) : PdfOutputDevice :=
  (device.Seek conentsBeaconOffset).Write (writeHexString contentsData)

/-- The member function `resize( n, c )` of `std::string`. -/
def resize (s : List Nat) (n c : Nat) : List Nat := s.take n ++ List.replicate (n - s.length) c

/-- The function `PrepareBeaconsData`: the two strings after the call. -/
def PrepareBeaconsData (signatureSize : Nat) (contentsBeacon byteRangeBeacon : List Nat) :
    List Nat × List Nat :=
  (resize contentsBeacon (size_t (size_t (signatureSize * 2) + 2)) 32,
    resize byteRangeBeacon ByteRangeBeacon.length 32)

/-- Modelled from the spec: the signing collaborator `PdfSigner` (PdfSigner.h is not among
the sources) as `SignDocument` uses it: the signature of the dry run,
`ComputeSignature( buf, true )`, and the signature `ComputeSignature( buf, false )` gives
after `Reset` and calls of `AppendData` with the given data in all. -/
structure PdfSigner where
  dryRun : List Nat
  sign : List Nat → List Nat

/-- Modelled from the spec: the document and the signature field as `SignDocument` uses
them (PdfMemDocument and PdfSignature are not among the sources): `PrepareForSigning` and
`WriteUpdate` write the update with the two beacons, contents beacon first, to the device
and give the device, `ByteRangeOffset` and `ContentsOffset`. -/
structure PdfMemDocument where
  WriteUpdate : List Nat × List Nat → PdfOutputDevice → PdfOutputDevice × Nat × Nat

/-- What `SignDocument` throws: an error of the library or the `runtime_error` of the size
check. -/
inductive SignFault where
  | PdfError (e : EPdfError)
  | runtime_error
deriving DecidableEq, Repr

/-- The function `SignDocument`. The fuel of the reading loop is two more than the length
of the file. -/
def SignDocument (doc : PdfMemDocument) (device : PdfOutputDevice) (signer : PdfSigner) :
    Except SignFault Unit × PdfOutputDevice :=
  let signatureBuf := signer.dryRun
  let beaconSize := signatureBuf.length
  let beacons := PrepareBeaconsData beaconSize [] []
  let w := doc.WriteUpdate beacons device
  let d1 := w.1.Flush
  let d2 := (AdjustByteRange d1 w.2.1 w.2.2 beacons.1.length).Flush
  -- read data from the device to prepare the signature
  let d3 := d2.Seek 0
  match readForSignature_loop (d3.GetLength + 2) d3 w.2.2 beacons.1.length BufferSize [] with
  | (.error e, d4) => (.error (.PdfError e), d4)
  | (.ok data, d4) =>
    let signatureBuf2 := signer.sign data
    if signatureBuf2.length > beaconSize then (.error .runtime_error, d4)
    else
      let sized := resize signatureBuf2 beaconSize 0
      (.ok (), (SetSignature d4 sized w.2.2).Flush)

/-- The bytes of a file outside the span of `size` bytes at `off`, from the position `p`
on. -/
def outsideFrom (content : List Nat) (off size p : Nat) : List Nat :=
  if p < off then (content.drop p).take (off - p) ++ content.drop (off + size)
  else content.drop (max p (off + size))

/-- The bytes of a file outside the span of `size` bytes at `off`. -/
def outside (content : List Nat) (off size : Nat) : List Nat :=
  content.take off ++ content.drop (off + size)

/-- A character the scan of `DetermineDataType` admits in a number: a digit, a sign or a
point. -/
def numericChar (c : Nat) : Bool := isdigit c || c == 43 || c == 45 || c == 46

/-! ## Access checks of the stream devices -/

/-- Modelled from the spec: the flags `DeviceAccess` (PdfStreamDeviceBase.h is not among the
sources): a bit mask with one bit for reading and one for writing. -/
abbrev DeviceAccess := Nat

/-- The flag `DeviceAccess::Read`. -/
def DeviceAccess.Read : DeviceAccess := 1
/-- The flag `DeviceAccess::Write`. -/
def DeviceAccess.Write : DeviceAccess := 2

/-- The member of `StreamDeviceBase`: the access mask of the device. -/
structure StreamDeviceBase where
  m_Access : DeviceAccess
deriving DecidableEq, Repr

/-- The constructor `StreamDeviceBase::StreamDeviceBase()`: the mask is value-initialised. -/
def StreamDeviceBase.new : StreamDeviceBase := ⟨0⟩

/-- The function `getAccessString`. -/
def getAccessString (access : DeviceAccess) : Raised String :=
  if access = DeviceAccess.Read then .ok "Read"
  else if access = DeviceAccess.Write then .ok "Write"
  else .error .InvalidEnumValue

/-- The function `StreamDeviceBase::EnsureAccess`, a `const` member: the raised error with
its message, or nothing, and the device as it was. -/
def StreamDeviceBase.EnsureAccess (d : StreamDeviceBase) (access : DeviceAccess) :
    Except (EPdfError × String) Unit × StreamDeviceBase :=
  if d.m_Access &&& access = 0 then
    match getAccessString access with
    | .ok s => (.error (.InternalLogic, "Mismatch access for this device, requested " ++ s), d)
    | .error e => (.error (e, ""), d)
  else (.ok (), d)

/-! ## The string output device -/

/-- Modelled from the spec: `PdfStringOutputDevice` (not among the sources; the test
DeviceTest.cpp creates one over a buffer and writes to it): an output device that adds what
is written to the end of its buffer. -/
structure PdfStringOutputDevice where
  buffer : List Nat
deriving DecidableEq, Repr

/-- Modelled from the spec: the constructor `PdfStringOutputDevice( buffer )`. -/
def PdfStringOutputDevice.new (buffer : List Nat) : PdfStringOutputDevice := ⟨buffer⟩

/-- Modelled from the spec: `PdfStringOutputDevice::Write( view )`. -/
def PdfStringOutputDevice.Write (d : PdfStringOutputDevice) (view : List Nat) :
    PdfStringOutputDevice :=
  ⟨d.buffer ++ view⟩

/-- The loop `for (unsigned i = 0; i < n; i++) stream.Write(testString)` of the test
`testDevices`. -/
def writeTimes (d : PdfStringOutputDevice) (testString : List Nat) : Nat → PdfStringOutputDevice
  | 0 => d
  | n + 1 => writeTimes (d.Write testString) testString n

/-- The string `Hello World Buffer!` of the test `testDevices`. -/
def testString : List Nat :=
  [72, 101, 108, 108, 111, 32, 87, 111, 114, 108, 100, 32, 66, 117, 102, 102, 101, 114, 33]

/-! ## Arrays of integers -/

/-- What follows a number in the text of an array of integers when the numbers `r` are still
to come: a blank before each of them and `]` at the end. -/
def arrayTail : List Int → List Nat
  | [] => [93]
  | y :: r => 32 :: (decimalInt y ++ arrayTail r)

/-- The text of an array of integers after its `[`: the decimal renderings separated by
single blanks and followed by `]`. -/
def arrayText : List Int → List Nat
  | [] => [93]
  | x :: r => decimalInt x ++ arrayTail r

/-- The tokenizer states between the calls that the loop of `ReadArray` makes: the state at
the start of each turn, the state after its `GetNextToken` and the state after its
`GetNextVariant`. -/
def ReadArray_states : Nat → PdfTokenizer → Option PdfEncrypt → PdfVariant → List PdfTokenizer
  | 0, t, _, _ => [t]
  | fuel + 1, t, pEncrypt, var =>
    match GetNextToken t with
    | (.error _, t1) => [t, t1]
    | (.ok none, t1) => [t, t1]
    | (.ok (some (tok, ty)), t1) =>
      if ty = .Delimiter ∧ (cstr tok).head? = some 93 then [t, t1]
      else
        match GetNextVariantOf fuel t1 tok ty var pEncrypt with
        | (.error _, t2) => [t, t1, t2]
        | (.ok var1, t2) => t :: t1 :: ReadArray_states fuel t2 pEncrypt var1

/-- The token that `GetNextToken` reads from a device that holds `arrayTail r` and then
`rest` after the bytes `bf`, and the device it leaves: `]` when no number is left, the next
number otherwise. -/
def lookahead (bf rest : List Nat) : List Int → (List Nat × EPdfTokenType) × PdfInputDevice
  | [] => (([93], .Delimiter), ⟨bf ++ [93], rest⟩)
  | w :: r => ((decimalInt w, .Token), ⟨bf ++ 32 :: decimalInt w, arrayTail r ++ rest⟩)

/-- A client of the canvas device that calls `readBuffer` once for each of the given sizes,
in order, and collects the bytes returned. -/
def readBuffers : List Nat → PdfCanvasInputDevice → Raised (List Nat) × PdfCanvasInputDevice
  | [], s => (.ok [], s)
  | size :: rest, s =>
    match s.readBuffer size with
    | (.error e, s1) => (.error e, s1)
    | (.ok l, s1) =>
      match readBuffers rest s1 with
      | (.error e, s2) => (.error e, s2)
      | (.ok l2, s2) => (.ok (l ++ l2), s2)

/-- The same client when it calls `peek` before every `readBuffer`. -/
def peekReadBuffers : List Nat → PdfCanvasInputDevice →
    Raised (List Nat) × PdfCanvasInputDevice
  | [], s => (.ok [], s)
  | size :: rest, s =>
    match s.peek with
    | (.error e, s0) => (.error e, s0)
    | (.ok _, s0) =>
      match s0.readBuffer size with
      | (.error e, s1) => (.error e, s1)
      | (.ok l, s1) =>
        match peekReadBuffers rest s1 with
        | (.error e, s2) => (.error e, s2)
        | (.ok l2, s2) => (.ok (l ++ l2), s2)

/-! ## Malformed arrays and dictionaries -/

theorem cstr_idem (l : List Nat) : cstr (cstr l) = cstr l := by
  unfold cstr
  induction l with
  | nil => rfl
  | cons a r ih =>
    by_cases h : (a != 0) = true
    · simp only [List.takeWhile_cons, h, if_true, ih]
    · simp only [List.takeWhile_cons, h, if_false, List.takeWhile_nil, Bool.false_eq_true]

theorem cstr_append_zero (l r : List Nat) : cstr (cstr l ++ 0 :: r) = cstr l := by
  unfold cstr
  induction l with
  | nil => simp
  | cons a t ih =>
    by_cases h : (a != 0) = true
    · simp only [List.takeWhile_cons, h, if_true, List.cons_append, ih]
    · simp [List.takeWhile_cons, h]

theorem replay_buffer (s : List Nat) (n : Nat) (h : (cstr s).length < n) :
    cstr ((strncpy s n).set (n - 1) 0) = cstr s := by
  unfold strncpy
  have h1 : (cstr s).take n = cstr s := List.take_of_length_le (by omega)
  obtain ⟨k, hk⟩ : ∃ k, n - (cstr s).length = k + 1 := ⟨n - (cstr s).length - 1, by omega⟩
  rw [h1, hk, List.replicate_succ]
  rcases Nat.eq_zero_or_pos k with h0 | hpos
  · subst h0
    have : n - 1 = (cstr s).length := by omega
    rw [this]
    simp [cstr_append_zero]
  · have hlen : (cstr s).length ≤ n - 1 := by omega
    rw [List.set_append_right _ _ hlen]
    have hset : (0 :: List.replicate k 0).set (n - 1 - (cstr s).length) 0
        = 0 :: List.replicate k 0 := by
      have : (0 :: List.replicate k 0) = List.replicate (k + 1) 0 := by
        rw [List.replicate_succ]
      rw [this]
      apply List.ext_getElem
      · simp
      · intro i h1 h2
        simp [List.getElem_set]
    rw [hset, cstr_append_zero]

/-! ## The push-back queue -/

theorem GetNextToken_queued (d : Option PdfInputDevice) (n : Nat) (x : List Nat)
    (k : EPdfTokenType) (q : List (List Nat × EPdfTokenType)) (vb : List Nat)
    (h : (cstr x).length < n) :
    GetNextToken ⟨d, n, (x, k) :: q, vb⟩ = (.ok (some (cstr x, k)), ⟨d, n, q, vb⟩) := by
  have hn : n ≠ 0 := by omega
  simp only [GetNextToken, hn, if_false, replay_buffer x n h]

theorem queueAll_eq (ps : List (List Nat × EPdfTokenType)) (d : Option PdfInputDevice) (n : Nat)
    (q : List (List Nat × EPdfTokenType)) (vb : List Nat) :
    queueAll ⟨d, n, q, vb⟩ ps = ⟨d, n, q ++ ps.map (fun p => (cstr p.1, p.2)), vb⟩ := by
  induction ps generalizing q with
  | nil => simp [queueAll]
  | cons p r ih =>
    have := ih (q ++ [(cstr p.1, p.2)])
    simp only [queueAll, List.foldl_cons, QuequeToken] at this ⊢
    rw [this]
    simp

theorem nextTokens_queue (ps : List (List Nat × EPdfTokenType)) (d : Option PdfInputDevice)
    (n : Nat) (q : List (List Nat × EPdfTokenType)) (vb : List Nat)
    (h : ∀ p ∈ ps, (cstr p.1).length < n) :
    nextTokens ps.length ⟨d, n, ps.map (fun p => (cstr p.1, p.2)) ++ q, vb⟩
      = (ps.map (fun p => .ok (some (cstr p.1, p.2))), ⟨d, n, q, vb⟩) := by
  induction ps with
  | nil => simp [nextTokens]
  | cons p r ih =>
    have hp : (cstr (cstr p.1)).length < n := by
      rw [cstr_idem]; exact h p (List.mem_cons_self _ _)
    have ih2 := ih (fun x hx => h x (List.mem_cons_of_mem _ hx))
    simp only [List.length_cons, List.map_cons, List.cons_append, nextTokens,
      GetNextToken_queued d n (cstr p.1) p.2 _ vb hp, ih2, cstr_idem]

/-- C5: tokens queued with `QuequeToken` on a tokenizer whose queue is empty, each text a C
string shorter than the token buffer, are returned by the following `GetNextToken` calls
exactly, text and kind, first in first out, and after them the tokenizer is as it was: the
device has not moved. Whenever the queue holds a token, `GetNextToken` leaves the device
alone. -/
theorem GetNextToken_replays_queue_fifo (t : PdfTokenizer)
    (ps : List (List Nat × EPdfTokenType)) (hq : t.m_deqQueque = [])
    (hlen : ∀ p ∈ ps, (cstr p.1).length < t.m_bufferSize) :
    nextTokens ps.length (queueAll t ps)
        = (ps.map (fun p => .ok (some (cstr p.1, p.2))), t)
      ∧ ∀ u : PdfTokenizer, u.m_deqQueque ≠ [] → (GetNextToken u).2.m_device = u.m_device := by
  constructor
  · obtain ⟨d, n, q, vb⟩ := t
    simp only at hq hlen
    subst hq
    rw [queueAll_eq]
    have := nextTokens_queue ps d n [] vb hlen
    simpa using this
  · intro u hu
    obtain ⟨d, n, q, vb⟩ := u
    cases q with
    | nil => exact absurd rfl hu
    | cons p r =>
      simp only [GetNextToken]
      split <;> rfl

theorem GetNextToken_replays_queue_fifo_witness :
    nextTokens 2 (queueAll ⟨some ⟨[], [49, 50]⟩, 4096, [], []⟩
        [([53], EPdfTokenType.Token), ([62, 62], EPdfTokenType.Delimiter)])
      = ([.ok (some ([53], EPdfTokenType.Token)), .ok (some ([62, 62], EPdfTokenType.Delimiter))],
          ⟨some ⟨[], [49, 50]⟩, 4096, [], []⟩) :=
  (GetNextToken_replays_queue_fifo ⟨some ⟨[], [49, 50]⟩, 4096, [], []⟩
    [([53], EPdfTokenType.Token), ([62, 62], EPdfTokenType.Delimiter)] rfl
    (by decide)).1

/-! ## The scanning loop -/

theorem GetNextToken_loop_length (size : Nat) (hsize : 3 ≤ size) (fuel : Nat) (s : TokenScan)
    (h : s.buf.length < size) : (GetNextToken_loop size fuel s).buf.length < size := by
  induction fuel generalizing s with
  | zero => simpa [GetNextToken_loop] using h
  | succ fuel ih =>
    simp only [GetNextToken_loop]
    split
    · exact h
    · split_ifs
      all_goals first
        | exact h
        | (apply ih; simp only [List.length_append, List.length_singleton]; omega)
        | (simp only [List.length_append, List.length_singleton]; omega)

/-! ## Integer tokens -/

theorem cstr_eq_self (l : List Nat) (h : ∀ b ∈ l, b ≠ 0) : cstr l = l := by
  unfold cstr
  rw [List.takeWhile_eq_self_iff]
  intro b hb
  simpa using h b hb

theorem isdigit_ne_zero (b : Nat) (h : isdigit b = true) : b ≠ 0 := by
  simp only [isdigit, decide_eq_true_eq] at h
  omega

theorem isIntegerToken_cases (a : List Nat) (h : isIntegerToken a = true) :
    ∃ c r, a = c :: r ∧ (((c = 43 ∨ c = 45) ∧ r ≠ []) ∨ isdigit c = true)
      ∧ (∀ b ∈ r, isdigit b = true) := by
  cases a with
  | nil => simp [isIntegerToken, unsignedPart] at h
  | cons c r =>
    refine ⟨c, r, rfl, ?_⟩
    simp only [isIntegerToken, unsignedPart, List.head?_cons, Option.some.injEq,
      List.tail_cons, Bool.and_eq_true, Bool.not_eq_true', List.all_eq_true] at h
    by_cases hc : c = 43 ∨ c = 45
    · simp only [hc, if_true] at h
      refine ⟨Or.inl ⟨hc, ?_⟩, h.2⟩
      intro hr
      simp [hr] at h
    · simp only [hc, if_false, List.mem_cons, forall_eq_or_imp] at h
      exact ⟨Or.inr h.2.1, h.2.2⟩

theorem isIntegerToken_cstr (a : List Nat) (h : isIntegerToken a = true) : cstr a = a := by
  obtain ⟨c, r, rfl, hc, hr⟩ := isIntegerToken_cases a h
  apply cstr_eq_self
  intro b hb
  rcases List.mem_cons.1 hb with rfl | hb
  · rcases hc with ⟨h1 | h1, _⟩ | h1
    · omega
    · omega
    · exact isdigit_ne_zero _ h1
  · exact isdigit_ne_zero _ (hr b hb)

theorem scanNumeric_digits (r : List Nat) (ty : EPdfDataType) (hr : ∀ b ∈ r, isdigit b = true) :
    scanNumeric r ty = ty := by
  induction r with
  | nil => rfl
  | cons b t ih =>
    have hb := hr b (List.mem_cons_self _ _)
    have h46 : b ≠ 46 := by
      simp only [isdigit, decide_eq_true_eq] at hb
      omega
    simp only [scanNumeric, h46, if_false, hb, true_or, not_true_eq_false]
    exact ih (fun x hx => hr x (List.mem_cons_of_mem _ hx))

theorem isIntegerToken_scan (a : List Nat) (h : isIntegerToken a = true) :
    scanNumeric a EPdfDataType.Number = EPdfDataType.Number := by
  obtain ⟨c, r, rfl, hc, hr⟩ := isIntegerToken_cases a h
  rcases hc with ⟨h1 | h1, _⟩ | h1
  · subst h1
    simp only [scanNumeric]
    simpa using scanNumeric_digits r _ hr
  · subst h1
    simp only [scanNumeric]
    simpa using scanNumeric_digits r _ hr
  · exact scanNumeric_digits (c :: r) _ (by
      intro b hb
      rcases List.mem_cons.1 hb with rfl | hb
      · exact h1
      · exact hr b hb)

theorem takeWhile_digits (r : List Nat) (hr : ∀ b ∈ r, isdigit b = true) :
    r.takeWhile isdigit = r := by
  rw [List.takeWhile_eq_self_iff]
  exact hr

theorem isIntegerToken_strtoll (a : List Nat) (h : isIntegerToken a = true) :
    (strtoll a).2 ≠ 0 := by
  have hcs := isIntegerToken_cstr a h
  obtain ⟨c, r, rfl, hc, hr⟩ := isIntegerToken_cases a h
  have hsp : isspace c = false := by
    rcases hc with ⟨h1 | h1, _⟩ | h1
    · subst h1; rfl
    · subst h1; rfl
    · simp only [isdigit, decide_eq_true_eq] at h1
      simp only [isspace, decide_eq_false_iff_not]
      omega
  simp only [strtoll, hcs, List.dropWhile_cons, hsp, List.takeWhile_cons, List.head?_cons,
    List.tail_cons]
  rcases hc with ⟨h1 | h1, hne⟩ | h1
  · subst h1
    obtain ⟨b, t, rfl⟩ := List.exists_cons_of_ne_nil hne
    simp [takeWhile_digits (b :: t) hr]
  · subst h1
    obtain ⟨b, t, rfl⟩ := List.exists_cons_of_ne_nil hne
    simp [takeWhile_digits (b :: t) hr]
  · have h45 : c ≠ 45 ∧ c ≠ 43 := by
      simp only [isdigit, decide_eq_true_eq] at h1
      omega
    simp [h45.1, h45.2, h1]

theorem isIntegerToken_not_keyword (a : List Nat) (h : isIntegerToken a = true) :
    strncmpEq strNull a 4 = false ∧ strncmpEq strTrue a 4 = false
      ∧ strncmpEq strFalse a 5 = false := by
  have hcs := isIntegerToken_cstr a h
  obtain ⟨c, r, rfl, hc, hr⟩ := isIntegerToken_cases a h
  have hc1 : c ≠ 110 ∧ c ≠ 116 ∧ c ≠ 102 := by
    rcases hc with ⟨h1 | h1, _⟩ | h1
    · omega
    · omega
    · simp only [isdigit, decide_eq_true_eq] at h1
      omega
  have e1 : List.take 4 (cstr strNull) = [110, 117, 108, 108] := rfl
  have e2 : List.take 4 (cstr strTrue) = [116, 114, 117, 101] := rfl
  have e3 : List.take 5 (cstr strFalse) = [102, 97, 108, 115, 101] := rfl
  simp only [strncmpEq, hcs, e1, e2, e3, List.take_succ_cons]
  refine ⟨?_, ?_, ?_⟩
  · simp [hc1.1, Ne.symm hc1.1]
  · simp [hc1.2.1, Ne.symm hc1.2.1]
  · simp [hc1.2.2, Ne.symm hc1.2.2]

/-! ## Numbers and references -/

/-- C2: for an integer token `a` of kind Token, when the next two tokens the tokenizer gives
are an integer token `b` and the token `R`, `DetermineDataType` consumes both, sets the
variant to the reference made of the number of `a` reduced to 32 bits and the number of `b`
reduced to 16 bits, and returns the Reference tag; `GetNextVariant` on the token returns
that reference and reads nothing further. The number of a token is the one `strtoll`
gives. -/
theorem DetermineDataType_reference (t t1 t2 : PdfTokenizer) (a b : List Nat) (v : PdfVariant)
    (ha : isIntegerToken a = true) (hb : isIntegerToken b = true)
    (h1 : GetNextToken t = (.ok (some (b, EPdfTokenType.Token)), t1))
    (h2 : GetNextToken t1 = (.ok (some ([82], EPdfTokenType.Token)), t2)) :
    DetermineDataType t a EPdfTokenType.Token v
        = (.ok EPdfDataType.Reference,
            PdfVariant.Reference ((strtoll a).1 % 2 ^ 32).toNat ((strtoll b).1 % 2 ^ 16).toNat, t2)
      ∧ ∀ (fuel : Nat) (pEncrypt : Option PdfEncrypt),
          GetNextVariantOf (fuel + 1) t a EPdfTokenType.Token v pEncrypt
            = (.ok (PdfVariant.Reference ((strtoll a).1 % 2 ^ 32).toNat
                ((strtoll b).1 % 2 ^ 16).toNat), t2) := by
  have hk := isIntegerToken_not_keyword a ha
  have hD : DetermineDataType t a EPdfTokenType.Token v
      = (.ok EPdfDataType.Reference,
          PdfVariant.Reference ((strtoll a).1 % 2 ^ 32).toNat ((strtoll b).1 % 2 ^ 16).toNat,
          t2) := by
    have hR : cstr [82] = [82] := rfl
    simp [DetermineDataType, hk.1, hk.2.1, hk.2.2, isIntegerToken_cstr a ha,
      isIntegerToken_scan a ha, h1, h2, isIntegerToken_strtoll b hb, hR]
  refine ⟨hD, ?_⟩
  intro fuel pEncrypt
  simp [GetNextVariantOf, hD]

theorem DetermineDataType_reference_witness :
    DetermineDataType ⟨some ⟨[49, 50], [32, 48, 32, 82, 32]⟩, 4096, [], []⟩ [49, 50]
        EPdfTokenType.Token PdfVariant.Null
      = (.ok EPdfDataType.Reference, PdfVariant.Reference 12 0,
          ⟨some ⟨[49, 50, 32, 48, 32, 82], [32]⟩, 4096, [], []⟩) :=
  (DetermineDataType_reference ⟨some ⟨[49, 50], [32, 48, 32, 82, 32]⟩, 4096, [], []⟩
    ⟨some ⟨[49, 50, 32, 48], [32, 82, 32]⟩, 4096, [], []⟩
    ⟨some ⟨[49, 50, 32, 48, 32, 82], [32]⟩, 4096, [], []⟩
    [49, 50] [48] PdfVariant.Null rfl rfl rfl rfl).1

theorem cstr_length_le (l : List Nat) : (cstr l).length ≤ l.length :=
  (List.takeWhile_sublist _).length_le

theorem GetNextToken_from_device (d : Option PdfInputDevice) (n : Nat) (vb tok : List Nat)
    (k : EPdfTokenType) (t1 : PdfTokenizer) (hn : 3 ≤ n)
    (h : GetNextToken ⟨d, n, [], vb⟩ = (.ok (some (tok, k)), t1)) :
    (∃ d1, t1 = ⟨some d1, n, [], vb⟩) ∧ cstr tok = tok ∧ tok.length < n := by
  cases d with
  | none => simp [GetNextToken] at h
  | some d =>
    simp only [GetNextToken] at h
    split_ifs at h with hc
    · simp at h
    · simp only [Prod.mk.injEq, Except.ok.injEq, Option.some.injEq] at h
      obtain ⟨⟨htok, _⟩, ht1⟩ := h
      refine ⟨⟨_, ht1.symm⟩, ?_, ?_⟩
      · rw [← htok, cstr_idem]
      · rw [← htok]
        have := GetNextToken_loop_length n hn (d.after.length + 1)
          { dev := d, buf := [], eType := EPdfTokenType.Token, c := none }
          (by simp only [List.length_nil]; omega)
        exact lt_of_le_of_lt (cstr_length_le _) this

/-- C3: for integer tokens `a` and `b` and a token `c` other than `R`, of either kind, on a
tokenizer with an empty queue and a token buffer of at least 3 bytes from which `b` and
then `c` are the next tokens: `DetermineDataType` on `a` returns the Number tag with the
variant the number of `a`; the device is where it was after `c` was read, and the next two
`GetNextToken` calls return `b` and then `c`, text and kind unchanged and in that order,
leaving the tokenizer as it was after reading `c`, so that no device data is read in
between. -/
theorem DetermineDataType_number_replays_lookahead (t t1 t2 : PdfTokenizer)
    (a b c : List Nat) (kc : EPdfTokenType) (v : PdfVariant)
    (hsize : 3 ≤ t.m_bufferSize) (hq : t.m_deqQueque = [])
    (ha : isIntegerToken a = true) (hb : isIntegerToken b = true) (hc : c ≠ [82])
    (h1 : GetNextToken t = (.ok (some (b, EPdfTokenType.Token)), t1))
    (h2 : GetNextToken t1 = (.ok (some (c, kc)), t2)) :
    (DetermineDataType t a EPdfTokenType.Token v).1 = .ok EPdfDataType.Number
      ∧ (DetermineDataType t a EPdfTokenType.Token v).2.1 = PdfVariant.Number (strtoll a).1
      ∧ (DetermineDataType t a EPdfTokenType.Token v).2.2.m_device = t2.m_device
      ∧ nextTokens 2 (DetermineDataType t a EPdfTokenType.Token v).2.2
          = ([.ok (some (b, EPdfTokenType.Token)), .ok (some (c, kc))], t2) := by
  obtain ⟨d, n, q, vb⟩ := t
  simp only at hsize hq
  subst hq
  obtain ⟨⟨d1, rfl⟩, hb1, hb2⟩ := GetNextToken_from_device d n vb b _ t1 hsize h1
  obtain ⟨⟨d2, rfl⟩, hc1, hc2⟩ := GetNextToken_from_device (some d1) n vb c kc t2 hsize h2
  have hk := isIntegerToken_not_keyword a ha
  have hD : DetermineDataType ⟨d, n, [], vb⟩ a EPdfTokenType.Token v
      = (.ok EPdfDataType.Number, PdfVariant.Number (strtoll a).1,
          ⟨some d2, n, [(b, EPdfTokenType.Token), (c, kc)], vb⟩) := by
    simp [DetermineDataType, hk.1, hk.2.1, hk.2.2, isIntegerToken_cstr a ha,
      isIntegerToken_scan a ha, h1, h2, isIntegerToken_strtoll b hb, QuequeToken,
      hb1, hc1, hc]
  rw [hD]
  refine ⟨rfl, rfl, rfl, ?_⟩
  have hb3 : (cstr b).length < n := by rw [hb1]; exact hb2
  have hc3 : (cstr c).length < n := by rw [hc1]; exact hc2
  simp only [nextTokens, GetNextToken_queued (some d2) n b EPdfTokenType.Token _ vb hb3,
    GetNextToken_queued (some d2) n c kc _ vb hc3, hb1, hc1]

theorem DetermineDataType_number_replays_lookahead_witness :
    nextTokens 2 (DetermineDataType ⟨some ⟨[49, 50], [32, 53, 32, 91, 32]⟩, 4096, [], []⟩
        [49, 50] EPdfTokenType.Token PdfVariant.Null).2.2
      = ([.ok (some ([53], EPdfTokenType.Token)), .ok (some ([91], EPdfTokenType.Delimiter))],
          ⟨some ⟨[49, 50, 32, 53, 32, 91], [32]⟩, 4096, [], []⟩) :=
  (DetermineDataType_number_replays_lookahead
    ⟨some ⟨[49, 50], [32, 53, 32, 91, 32]⟩, 4096, [], []⟩
    ⟨some ⟨[49, 50, 32, 53], [32, 91, 32]⟩, 4096, [], []⟩
    ⟨some ⟨[49, 50, 32, 53, 32, 91], [32]⟩, 4096, [], []⟩
    [49, 50] [53] [91] EPdfTokenType.Delimiter PdfVariant.Null
    (by decide) rfl rfl rfl (by decide) rfl rfl).2.2.2

/-- C4, at the input where it fails: with `12` as the token and ` 5` followed by the end of
input in the device, `DetermineDataType` returns Number, no reference being formed, and the
next `GetNextToken` reports the end of input, while without the lookahead it returns the
token `5`: the second token is read and not queued again when no third token follows. -/
theorem DetermineDataType_drops_token_at_end_of_input :
    (DetermineDataType ⟨some ⟨[49, 50], [32, 53]⟩, 4096, [], []⟩ [49, 50]
        EPdfTokenType.Token PdfVariant.Null).1 = .ok EPdfDataType.Number
      ∧ (GetNextToken (DetermineDataType ⟨some ⟨[49, 50], [32, 53]⟩, 4096, [], []⟩ [49, 50]
          EPdfTokenType.Token PdfVariant.Null).2.2).1 = .ok none
      ∧ (GetNextToken ⟨some ⟨[49, 50], [32, 53]⟩, 4096, [], []⟩).1
          = .ok (some ([53], EPdfTokenType.Token)) :=
  ⟨rfl, rfl, rfl⟩

/-! ## Literal strings -/

theorem genEscMap_eq (e : Nat) :
    (if genEscMap e ≠ 0 then [genEscMap e] else []) = (plainEscape e).toList := by
  unfold genEscMap plainEscape
  split_ifs <;> simp_all

theorem ReadString_loop_cons (fuel : Nat) (bf : List Nat) (c : Nat) (r : List Nat) (bE bO : Bool)
    (nO : Int) (cO : Nat) (nB : Int) (vec : List Nat) :
    ReadString_loop (fuel + 1) ⟨⟨bf, c :: r⟩, bE, bO, nO, cO, nB, vec⟩
      = if (ReadString_body ⟨⟨bf, c :: r⟩, bE, bO, nO, cO, nB, vec⟩ c).1 = true
        then (ReadString_body ⟨⟨bf, c :: r⟩, bE, bO, nO, cO, nB, vec⟩ c).2
        else ReadString_loop fuel (ReadString_body ⟨⟨bf, c :: r⟩, bE, bO, nO, cO, nB, vec⟩ c).2 :=
  rfl

theorem ReadString_body_backslash (bf r : List Nat) (bO : Bool) (nO : Int) (cO : Nat) (nB : Int)
    (vec : List Nat) :
    ReadString_body ⟨⟨bf, 92 :: r⟩, false, bO, nO, cO, nB, vec⟩ 92
      = (false, ⟨⟨bf ++ [92], r⟩, true, bO, nO, cO, nB, vec⟩) := by
  simp [ReadString_body, PdfInputDevice.GetChar]

theorem ReadString_body_plain (bf r : List Nat) (e : Nat) (nO : Int) (cO : Nat) (nB : Int)
    (vec : List Nat) (he : e < 256) (hno : ¬ (48 ≤ e ∧ e ≤ 55)) :
    ReadString_body ⟨⟨bf, e :: r⟩, true, false, nO, cO, nB, vec⟩ e
      = (false, ⟨⟨bf ++ [e], r⟩, false, false, nO, cO, nB, vec ++ (plainEscape e).toList⟩) := by
  have hmod : e % 256 = e := Nat.mod_eq_of_lt he
  have hmap : s_octMap e = 0 := by simp [s_octMap, hno]
  have hesc := genEscMap_eq e
  simp only [ReadString_body, PdfInputDevice.GetChar, hmod, hmap, charOfInt, Option.getD_some]
  by_cases hz : genEscMap e = 0
  · have : (plainEscape e).toList = [] := by rw [← hesc]; simp [hz]
    simp [hz, this]
  · have : (plainEscape e).toList = [genEscMap e] := by rw [← hesc]; simp [hz]
    simp [hz, this]

/-- C10: in the loop of `ReadString`, outside an escape, a backslash followed by a byte `e`
that is not an octal digit takes two iterations, which consume both bytes, append the byte
the escape stands for when `e` is one of `n r t b f ( )` or a backslash and nothing for
any other `e`, and leave every other local, the parenthesis balance count among them, as it
was; and the input `a\)b)` after the opening parenthesis decodes to `a)b`. -/
theorem ReadString_plain_escape (s : StringScan) (bf rest : List Nat) (e fuel : Nat)
    (hdev : s.dev = ⟨bf, 92 :: e :: rest⟩) (hraw : s.bEscape = false)
    (hoct : s.bOctEscape = false) (he : e < 256) (hno : ¬ (48 ≤ e ∧ e ≤ 55)) :
    ReadString_loop (fuel + 2) s
        = ReadString_loop fuel
            { s with dev := ⟨bf ++ [92] ++ [e], rest⟩, vec := s.vec ++ (plainEscape e).toList }
      ∧ ReadString ⟨some ⟨[40], [97, 92, 41, 98, 41, 32]⟩, 4096, [], []⟩ none
          = (.ok (PdfVariant.String [97, 41, 98] false),
              ⟨some ⟨[40, 97, 92, 41, 98, 41], [32]⟩, 4096, [], [97, 41, 98]⟩) := by
  refine ⟨?_, rfl⟩
  obtain ⟨dev, bE, bO, nO, cO, nB, vec⟩ := s
  simp only at hdev hraw hoct
  subst hdev hraw hoct
  rw [ReadString_loop_cons, ReadString_body_backslash, ReadString_loop_cons,
    ReadString_body_plain _ _ _ _ _ _ _ he hno]
  simp

theorem ReadString_plain_escape_witness :
    ReadString_loop (0 + 2) ⟨⟨[], [92, 110, 41]⟩, false, false, 0, 0, 0, []⟩
      = ReadString_loop 0 ⟨⟨[92, 110], [41]⟩, false, false, 0, 0, 0, [10]⟩ :=
  (ReadString_plain_escape ⟨⟨[], [92, 110, 41]⟩, false, false, 0, 0, 0, []⟩ [] [41] 110 0
    rfl rfl rfl (by decide) (by decide)).1

theorem ReadString_body_raw (bf r : List Nat) (c : Nat) (nB : Int) (vec : List Nat)
    (hc : c ≠ 92) (hk : ¬ (nB = 0 ∧ c = 41)) :
    ReadString_body ⟨⟨bf, c :: r⟩, false, false, 0, 0, nB, vec⟩ c
      = (false, ⟨⟨bf ++ [c], r⟩, false, false, 0, 0,
          (if c = 40 then nB + 1 else if c = 41 then nB - 1 else nB), vec ++ [c]⟩) := by
  simp only [ReadString_body, PdfInputDevice.GetChar, Option.some.injEq, hk, hc, if_false,
    if_true, charOfInt, Option.getD_some]

theorem ReadString_body_close (bf r : List Nat) (vec : List Nat) :
    ReadString_body ⟨⟨bf, 41 :: r⟩, false, false, 0, 0, 0, vec⟩ 41
      = (true, ⟨⟨bf ++ [41], r⟩, false, false, 0, 0, 0, vec⟩) := by
  simp [ReadString_body, PdfInputDevice.GetChar]

theorem ReadString_loop_balanced (s : List Nat) : ∀ (fuel : Nat) (bf rest vec : List Nat)
    (k : Int), s.length + 1 ≤ fuel → 92 ∉ s →
    (∀ n, ((s.take n).count 41 : Int) ≤ k + (s.take n).count 40) →
    k + s.count 40 = s.count 41 →
    ReadString_loop fuel ⟨⟨bf, s ++ 41 :: rest⟩, false, false, 0, 0, k, vec⟩
      = ⟨⟨bf ++ s ++ [41], rest⟩, false, false, 0, 0, 0, vec ++ s⟩ := by
  induction s with
  | nil =>
    intro fuel bf rest vec k hf _ _ htot
    obtain ⟨f, rfl⟩ : ∃ f, fuel = f + 1 := ⟨fuel - 1, by simp at hf; omega⟩
    have hk : k = 0 := by simpa using htot
    subst hk
    rw [List.nil_append, ReadString_loop_cons, ReadString_body_close]
    simp
  | cons c s ih =>
    intro fuel bf rest vec k hf hbs hpre htot
    obtain ⟨f, rfl⟩ : ∃ f, fuel = f + 1 := ⟨fuel - 1, by simp at hf; omega⟩
    have hc : c ≠ 92 := fun h => hbs (by simp [h])
    have hbs2 : 92 ∉ s := fun h => hbs (List.mem_cons_of_mem _ h)
    have h1 := hpre 1
    have hk : ¬ (k = 0 ∧ c = 41) := by
      rintro ⟨rfl, rfl⟩
      simp at h1
    rw [List.cons_append, ReadString_loop_cons, ReadString_body_raw _ _ _ _ _ hc hk]
    simp only [Bool.false_eq_true, if_false]
    have hf2 : s.length + 1 ≤ f := by simp at hf; omega
    rw [ih f (bf ++ [c]) rest (vec ++ [c]) _ hf2 hbs2]
    · simp
    · intro n
      have := hpre (n + 1)
      simp only [List.take_succ_cons, List.count_cons] at this
      by_cases h40 : c = 40
      · subst h40
        simp at this ⊢
        omega
      · by_cases h41 : c = 41
        · subst h41
          simp at this ⊢
          omega
        · simp [h40, h41, Ne.symm h40, Ne.symm h41] at this ⊢
          omega
    · simp only [List.count_cons] at htot
      by_cases h40 : c = 40
      · subst h40
        simp at htot ⊢
        omega
      · by_cases h41 : c = 41
        · subst h41
          simp at htot ⊢
          omega
        · simp [h40, h41, Ne.symm h40, Ne.symm h41] at htot ⊢
          omega

/-- C9: for a byte string `s` without a backslash whose parentheses are balanced (no
beginning of `s` has more `)` than `(`, and `s` has as many of the one as of the other),
`ReadString` without an encryption collaborator on the input `s` followed by `)` and
`rest` gives the string `s`, consumes the closing `)` and leaves the device at `rest`;
`a(b)c)` decodes to `a(b)c`. -/
theorem ReadString_balanced (bf s rest : List Nat) (n : Nat)
    (q : List (List Nat × EPdfTokenType)) (vb : List Nat) (hbs : 92 ∉ s)
    (hpre : ∀ i, (s.take i).count 41 ≤ (s.take i).count 40)
    (htot : s.count 40 = s.count 41) :
    ReadString ⟨some ⟨bf, s ++ 41 :: rest⟩, n, q, vb⟩ none
        = (.ok (PdfVariant.String s false), ⟨some ⟨bf ++ s ++ [41], rest⟩, n, q, s⟩)
      ∧ ReadString ⟨some ⟨[40], [97, 40, 98, 41, 99, 41, 32]⟩, 4096, [], []⟩ none
        = (.ok (PdfVariant.String [97, 40, 98, 41, 99] false),
            ⟨some ⟨[40, 97, 40, 98, 41, 99, 41], [32]⟩, 4096, [], [97, 40, 98, 41, 99]⟩) := by
  refine ⟨?_, rfl⟩
  have hloop := ReadString_loop_balanced s (2 * (s ++ 41 :: rest).length + 2) bf rest [] 0
    (by simp only [List.length_append, List.length_cons]; omega) hbs
    (by intro i; have := hpre i; omega) (by omega)
  simp only [ReadString, hloop, List.nil_append]
  cases s with
  | nil => simp
  | cons c r => simp

theorem ReadString_balanced_witness :
    ReadString ⟨some ⟨[40], [40, 41] ++ 41 :: [32]⟩, 4096, [], []⟩ none
      = (.ok (PdfVariant.String [40, 41] false),
          ⟨some ⟨[40] ++ [40, 41] ++ [41], [32]⟩, 4096, [], [40, 41]⟩) :=
  (ReadString_balanced [40] [40, 41] [32] 4096 [] [] (by decide)
    (by
      intro i
      match i with
      | 0 => decide
      | 1 => decide
      | (k + 2) => simp)
    (by decide)).1

/-! ## Comments and white space -/

theorem skipComment_spec (inp : List Nat) : ∀ (bf : List Nat),
    ∃ pre, pre ++ dropComment inp = inp ∧
      (if (skipComment (inp.length + 1) ⟨bf, inp⟩).1 = some 13
            ∧ (skipComment (inp.length + 1) ⟨bf, inp⟩).2.Look = some 10
        then (skipComment (inp.length + 1) ⟨bf, inp⟩).2.GetChar
        else skipComment (inp.length + 1) ⟨bf, inp⟩).2 = ⟨bf ++ pre, dropComment inp⟩ := by
  induction inp with
  | nil =>
    intro bf
    refine ⟨[], rfl, ?_⟩
    simp [skipComment, PdfInputDevice.GetChar, dropComment]
  | cons c r ih =>
    intro bf
    by_cases h13 : c = 13
    · subst h13
      cases r with
      | nil =>
        refine ⟨[13], rfl, ?_⟩
        simp [skipComment, PdfInputDevice.GetChar, PdfInputDevice.Look, dropComment]
      | cons x r2 =>
        by_cases hx : x = 10
        · subst hx
          refine ⟨[13, 10], rfl, ?_⟩
          simp [skipComment, PdfInputDevice.GetChar, PdfInputDevice.Look, dropComment]
        · refine ⟨[13], by simp [dropComment, hx], ?_⟩
          simp [skipComment, PdfInputDevice.GetChar, PdfInputDevice.Look, dropComment, hx]
    · by_cases h10 : c = 10
      · subst h10
        refine ⟨[10], rfl, ?_⟩
        simp [skipComment, PdfInputDevice.GetChar, PdfInputDevice.Look, dropComment]
      · obtain ⟨pre, hpre, hdev⟩ := ih (bf ++ [c])
        refine ⟨c :: pre, by simp [dropComment, h13, h10, hpre], ?_⟩
        have hstep : skipComment ((c :: r).length + 1) ⟨bf, c :: r⟩
            = skipComment (r.length + 1) ⟨bf ++ [c], r⟩ := by
          simp [skipComment, PdfInputDevice.GetChar, h13, h10]
        rw [hstep, hdev]
        simp [dropComment, h13, h10]

theorem dropComment_length (inp : List Nat) : (dropComment inp).length ≤ inp.length := by
  induction inp with
  | nil => simp [dropComment]
  | cons c r ih =>
    simp only [dropComment]
    split_ifs
    · cases r with
      | nil => simp
      | cons x r2 => simp only [List.tail_cons, List.length_cons]; omega
    · simp
    · simp
    · simp only [List.length_cons]; omega

theorem IsWhitespace_lf : IsWhitespace 10 = true := by decide

theorem skipBlank_dropComment (r : List Nat) :
    skipBlank false (dropComment r) = skipBlank true r := by
  induction r with
  | nil => rfl
  | cons c r ih =>
    by_cases h13 : c = 13
    · subst h13
      cases r with
      | nil => simp [dropComment, skipBlank]
      | cons x r2 =>
        by_cases hx : x = 10
        · subst hx
          simp [dropComment, skipBlank, IsWhitespace_lf]
        · simp [dropComment, skipBlank, hx]
    · by_cases h10 : c = 10
      · subst h10
        simp [dropComment, skipBlank]
      · simp [dropComment, skipBlank, h13, h10, ih]

/-! ## The scanning loop, byte by byte -/

theorem isRegular_iff (x : Nat) :
    isRegular x = true ↔ IsWhitespace x = false ∧ IsDelimiter x = false := by
  simp [isRegular]

theorem IsDelimiter_percent : IsDelimiter 37 = true := by decide

theorem tokenRun_of_not_regular (size : Nat) (buf r : List Nat) (x : Nat)
    (h : ¬ isRegular x = true) : tokenRun size buf (x :: r) = [] := by
  simp [tokenRun, List.takeWhile_cons, h]

theorem tokenRun_full (size : Nat) (buf inp : List Nat) (h : ¬ buf.length + 1 < size) :
    tokenRun size buf inp = [] := by
  have : size - 1 - buf.length = 0 := by omega
  simp [tokenRun, this]

theorem tokenRun_cons (size : Nat) (buf r : List Nat) (x : Nat) (h : isRegular x = true)
    (hcap : buf.length + 1 < size) :
    tokenRun size buf (x :: r) = x :: tokenRun size (buf ++ [x]) r := by
  obtain ⟨m, hm⟩ : ∃ m, size - 1 - buf.length = m + 1 := ⟨size - 1 - buf.length - 1, by omega⟩
  have hm2 : size - 1 - (buf ++ [x]).length = m := by
    simp only [List.length_append, List.length_singleton]; omega
  simp only [tokenRun, List.takeWhile_cons, h, if_true, hm, hm2, List.take_succ_cons]

theorem tokenRest_cons (size : Nat) (buf r : List Nat) (x : Nat) (h : isRegular x = true)
    (hcap : buf.length + 1 < size) :
    tokenRest size buf (x :: r) = tokenRest size (buf ++ [x]) r := by
  simp only [tokenRest, tokenRun_cons size buf r x h hcap, List.length_cons,
    List.drop_succ_cons, List.append_assoc, List.singleton_append]

theorem GetNextToken_loop_token (size : Nat) (inp : List Nat) :
    ∀ (fuel : Nat) (bf buf : List Nat) (ty : EPdfTokenType) (c : Option Nat),
      buf ≠ [] → inp.length + 1 ≤ fuel →
      ∃ pre, pre ++ tokenRest size buf inp = inp
        ∧ (GetNextToken_loop size fuel ⟨⟨bf, inp⟩, buf, ty, c⟩).dev
            = ⟨bf ++ pre, tokenRest size buf inp⟩
        ∧ (GetNextToken_loop size fuel ⟨⟨bf, inp⟩, buf, ty, c⟩).buf
            = buf ++ tokenRun size buf inp
        ∧ (GetNextToken_loop size fuel ⟨⟨bf, inp⟩, buf, ty, c⟩).eType = ty := by
  induction inp with
  | nil =>
    intro fuel bf buf ty c _ hf
    obtain ⟨f, rfl⟩ : ∃ f, fuel = f + 1 := ⟨fuel - 1, by omega⟩
    refine ⟨[], by simp [tokenRest, tokenRun], ?_, ?_, ?_⟩ <;>
      simp [GetNextToken_loop, PdfInputDevice.Look, tokenRun, tokenRest]
  | cons x r ih =>
    intro fuel bf buf ty c hbuf hf
    obtain ⟨f, rfl⟩ : ∃ f, fuel = f + 1 := ⟨fuel - 1, by omega⟩
    have hlen : buf.length ≠ 0 := by
      intro h
      exact hbuf (List.length_eq_zero.1 h)
    by_cases hcap : buf.length + 1 < size
    · by_cases h37 : x = 37
      · -- a comment ends the token
        subst h37
        have hrun : tokenRun size buf (37 :: r) = [] :=
          tokenRun_of_not_regular size buf r 37 (by decide)
        have hrest : tokenRest size buf (37 :: r) = dropComment (37 :: r) := by
          simp [tokenRest, hrun, hcap]
        obtain ⟨pre, hpre, hdev⟩ := skipComment_spec (37 :: r) bf
        have hstep : GetNextToken_loop size (f + 1) ⟨⟨bf, 37 :: r⟩, buf, ty, c⟩
            = ⟨⟨bf ++ pre, dropComment (37 :: r)⟩, buf, ty,
                (if (skipComment ((37 :: r).length + 1) ⟨bf, 37 :: r⟩).1 = some 13
                    ∧ (skipComment ((37 :: r).length + 1) ⟨bf, 37 :: r⟩).2.Look = some 10
                  then (skipComment ((37 :: r).length + 1) ⟨bf, 37 :: r⟩).2.GetChar
                  else skipComment ((37 :: r).length + 1) ⟨bf, 37 :: r⟩).1⟩ := by
          simp only [PdfInputDevice.Look] at hdev
          simp only [GetNextToken_loop, PdfInputDevice.Look, List.head?_cons, hcap,
            not_true_eq_false, if_false, hlen, false_and, if_true, ne_eq, not_false_eq_true,
            hdev]
        rw [hstep, hrest, hrun]
        exact ⟨pre, hpre, rfl, by simp, rfl⟩
      · by_cases hreg : isRegular x = true
        · -- a regular byte goes into the buffer
          have hwd := (isRegular_iff x).1 hreg
          obtain ⟨pre, hpre, hdev, hbf, hty⟩ := ih f (bf ++ [x]) (buf ++ [x]) ty (some x)
            (by simp) (by simp only [List.length_cons] at hf; omega)
          have hstep : GetNextToken_loop size (f + 1) ⟨⟨bf, x :: r⟩, buf, ty, c⟩
              = GetNextToken_loop size f ⟨⟨bf ++ [x], r⟩, buf ++ [x], ty, some x⟩ := by
            simp only [GetNextToken_loop, PdfInputDevice.Look, List.head?_cons, hcap,
              not_true_eq_false, if_false, hlen, false_and, h37, hwd.1, hwd.2,
              Bool.false_eq_true, or_self, and_false, PdfInputDevice.GetChar, charOfInt,
              Option.getD_some]
          rw [hstep, tokenRest_cons size buf r x hreg hcap, tokenRun_cons size buf r x hreg hcap]
          refine ⟨x :: pre, by simp [hpre], ?_, ?_, hty⟩
          · rw [hdev]; simp
          · rw [hbf]; simp
        · -- white space or a delimiter ends the token
          have hwd : IsWhitespace x = true ∨ IsDelimiter x = true := by
            simp only [isRegular, Bool.and_eq_true, Bool.not_eq_true', not_and,
              Bool.not_eq_false] at hreg
            by_cases hw : IsWhitespace x = true
            · exact Or.inl hw
            · exact Or.inr (hreg (by simpa using hw))
          have hrun := tokenRun_of_not_regular size buf r x hreg
          have hrest : tokenRest size buf (x :: r) = x :: r := by
            simp [tokenRest, hrun, h37]
          have hstep : GetNextToken_loop size (f + 1) ⟨⟨bf, x :: r⟩, buf, ty, c⟩
              = ⟨⟨bf, x :: r⟩, buf, ty, some x⟩ := by
            simp only [GetNextToken_loop, PdfInputDevice.Look, List.head?_cons, hcap,
              not_true_eq_false, if_false, hlen, false_and, h37, ne_eq, not_false_eq_true,
              hwd, and_self, if_true]
          rw [hstep, hrest, hrun]
          exact ⟨[], rfl, by simp, by simp, rfl⟩
    · -- the buffer is full
      have hrun := tokenRun_full size buf (x :: r) hcap
      have hrest : tokenRest size buf (x :: r) = x :: r := by
        simp [tokenRest, hrun, hcap]
      have hstep : GetNextToken_loop size (f + 1) ⟨⟨bf, x :: r⟩, buf, ty, c⟩
          = ⟨⟨bf, x :: r⟩, buf, ty, some x⟩ := by
        simp only [GetNextToken_loop, PdfInputDevice.Look, List.head?_cons, hcap,
          not_false_eq_true, if_true]
      rw [hstep, hrest, hrun]
      exact ⟨[], rfl, by simp, by simp, rfl⟩

theorem IsWhitespace_percent : IsWhitespace 37 = false := by decide

theorem skipBlank_percent (r : List Nat) : skipBlank false (37 :: r) = skipBlank true r := by
  simp [skipBlank, IsWhitespace_percent]

theorem dropComment_percent (r : List Nat) : dropComment (37 :: r) = dropComment r := by
  simp [dropComment]

theorem GetNextToken_loop_blank (size : Nat) (hs : 2 ≤ size) :
    ∀ (fuel : Nat) (inp bf : List Nat) (ty : EPdfTokenType) (c : Option Nat),
      inp.length + 1 ≤ fuel →
      ∃ pre cc fuel2, (skipBlank false inp).length + 1 ≤ fuel2
        ∧ pre ++ skipBlank false inp = inp
        ∧ GetNextToken_loop size fuel ⟨⟨bf, inp⟩, [], ty, c⟩
            = GetNextToken_loop size fuel2 ⟨⟨bf ++ pre, skipBlank false inp⟩, [], ty, cc⟩ := by
  intro fuel
  induction fuel with
  | zero => intro inp bf ty c hf; omega
  | succ f ih =>
    intro inp bf ty c hf
    cases inp with
    | nil => exact ⟨[], c, f + 1, by simp [skipBlank], by simp [skipBlank], by simp [skipBlank]⟩
    | cons x r =>
      have hcap : ([] : List Nat).length + 1 < size := by simp only [List.length_nil]; omega
      have h1 : ¬ size ≤ 1 := by omega
      by_cases hw : IsWhitespace x = true
      · obtain ⟨pre, cc, f2, hf2, hpre, hloop⟩ := ih r (bf ++ [x]) ty (some x)
          (by simp only [List.length_cons] at hf; omega)
        have hsk : skipBlank false (x :: r) = skipBlank false r := by simp [skipBlank, hw]
        refine ⟨x :: pre, cc, f2, by rw [hsk]; exact hf2, by rw [hsk]; simp [hpre], ?_⟩
        rw [hsk]
        have hstep : GetNextToken_loop size (f + 1) ⟨⟨bf, x :: r⟩, [], ty, c⟩
            = GetNextToken_loop size f ⟨⟨bf ++ [x], r⟩, [], ty, some x⟩ := by
          simp [GetNextToken_loop, PdfInputDevice.Look, PdfInputDevice.GetChar, hw, h1]
        rw [hstep, hloop]
        simp
      · by_cases h37 : x = 37
        · subst h37
          obtain ⟨pre0, hpre0, hdev⟩ := skipComment_spec (37 :: r) bf
          have hlen := dropComment_length r
          rw [dropComment_percent] at hpre0 hdev
          obtain ⟨pre, cc, f2, hf2, hpre, hloop⟩ := ih (dropComment r) (bf ++ pre0) ty
            ((if (skipComment ((37 :: r).length + 1) ⟨bf, 37 :: r⟩).1 = some 13
                  ∧ (skipComment ((37 :: r).length + 1) ⟨bf, 37 :: r⟩).2.Look = some 10
                then (skipComment ((37 :: r).length + 1) ⟨bf, 37 :: r⟩).2.GetChar
                else skipComment ((37 :: r).length + 1) ⟨bf, 37 :: r⟩).1)
            (by simp only [List.length_cons] at hf; omega)
          have hsk : skipBlank false (37 :: r) = skipBlank false (dropComment r) := by
            rw [skipBlank_percent, skipBlank_dropComment]
          refine ⟨pre0 ++ pre, cc, f2, by rw [hsk]; exact hf2, ?_, ?_⟩
          · rw [hsk, List.append_assoc, hpre, hpre0]
          · rw [hsk, ← List.append_assoc, ← hloop]
            simp only [PdfInputDevice.Look] at hdev
            simp only [GetNextToken_loop, PdfInputDevice.Look, List.head?_cons, hcap,
              not_true_eq_false, if_false, IsWhitespace_percent,
              Bool.false_eq_true, and_false, if_true, ne_eq, hdev, List.length_nil,
              show (0 + 1 < size) from by omega]
        · have hsk : skipBlank false (x :: r) = x :: r := by simp [skipBlank, hw, h37]
          exact ⟨[], c, f + 1, by rw [hsk]; exact hf, by rw [hsk]; rfl, by rw [hsk]; simp⟩

theorem skipBlank_head (inp : List Nat) : ∀ (b : Bool) (x : Nat) (r : List Nat),
    skipBlank b inp = x :: r → IsWhitespace x = false ∧ x ≠ 37 := by
  induction inp with
  | nil => intro b x r h; cases b <;> simp [skipBlank] at h
  | cons y t ih =>
    intro b x r h
    cases b with
    | true =>
      simp only [skipBlank] at h
      split_ifs at h
      · exact ih false x r h
      · exact ih true x r h
    | false =>
      simp only [skipBlank] at h
      split_ifs at h with hw h37
      · exact ih false x r h
      · exact ih true x r h
      · simp only [List.cons.injEq] at h
        obtain ⟨rfl, _⟩ := h
        exact ⟨by simpa using hw, h37⟩

theorem GetNextToken_loop_first (size : Nat) (hs : 3 ≤ size) (fuel : Nat) (x : Nat)
    (r bf : List Nat) (c : Option Nat) (hf : (x :: r).length + 1 ≤ fuel)
    (hw : IsWhitespace x = false) (h37 : x ≠ 37)
    (tok rest : List Nat) (k : EPdfTokenType)
    (hft : firstToken size (x :: r) = some (tok, k, rest)) :
    ∃ pre, pre ++ rest = x :: r
      ∧ (GetNextToken_loop size fuel ⟨⟨bf, x :: r⟩, [], EPdfTokenType.Token, c⟩).dev
          = ⟨bf ++ pre, rest⟩
      ∧ (GetNextToken_loop size fuel ⟨⟨bf, x :: r⟩, [], EPdfTokenType.Token, c⟩).buf = tok
      ∧ (GetNextToken_loop size fuel ⟨⟨bf, x :: r⟩, [], EPdfTokenType.Token, c⟩).eType = k := by
  obtain ⟨f, rfl⟩ : ∃ f, fuel = f + 1 := ⟨fuel - 1, by simp at hf; omega⟩
  have hcap : ¬ size ≤ 1 := by omega
  simp only [firstToken] at hft
  by_cases hlt : x = 60 ∨ x = 62
  · simp only [hlt, if_true] at hft
    by_cases hnx : r.head? = some x
    · simp only [hnx, if_true, Option.some.injEq, Prod.mk.injEq] at hft
      obtain ⟨rfl, rfl, rfl⟩ := hft
      obtain ⟨r2, rfl⟩ : ∃ r2, r = x :: r2 := by
        cases r with
        | nil => simp at hnx
        | cons y r2 => simp at hnx; exact ⟨r2, by rw [hnx]⟩
      refine ⟨[x, x], by simp, ?_, ?_, ?_⟩ <;>
        simp [GetNextToken_loop, PdfInputDevice.Look, hcap, hw, h37, hlt,
          PdfInputDevice.GetChar, charOfInt]
    · simp only [hnx, if_false, Option.some.injEq, Prod.mk.injEq] at hft
      obtain ⟨rfl, rfl, rfl⟩ := hft
      have hnx2 : ¬ (r.head?.getD 255 = x) := by
        intro h
        cases r with
        | nil => simp at h; rcases hlt with h1 | h1 <;> omega
        | cons y r2 => simp at h hnx; exact hnx h
      refine ⟨[x], by simp, ?_, ?_, ?_⟩ <;>
        simp [GetNextToken_loop, PdfInputDevice.Look, hcap, hw, h37, hlt,
          PdfInputDevice.GetChar, charOfInt, hnx2]
  · simp only [hlt, if_false] at hft
    by_cases hd : IsDelimiter x = true
    · simp only [hd, if_true, Option.some.injEq, Prod.mk.injEq] at hft
      obtain ⟨rfl, rfl, rfl⟩ := hft
      refine ⟨[x], by simp, ?_, ?_, ?_⟩ <;>
        simp [GetNextToken_loop, PdfInputDevice.Look, hcap, hw, h37, hlt,
          PdfInputDevice.GetChar, charOfInt, hd]
    · simp only [hd, if_false, Option.some.injEq, Prod.mk.injEq, Bool.false_eq_true] at hft
      obtain ⟨rfl, rfl, rfl⟩ := hft
      obtain ⟨pre, hpre, hdev, hbuf, hty⟩ := GetNextToken_loop_token size r f (bf ++ [x]) [x]
        EPdfTokenType.Token (some x) (by simp) (by simp only [List.length_cons] at hf; omega)
      have hstep : GetNextToken_loop size (f + 1) ⟨⟨bf, x :: r⟩, [], EPdfTokenType.Token, c⟩
          = GetNextToken_loop size f ⟨⟨bf ++ [x], r⟩, [x], EPdfTokenType.Token, some x⟩ := by
        simp [GetNextToken_loop, PdfInputDevice.Look, hcap, hw, h37, hlt,
          PdfInputDevice.GetChar, charOfInt, hd]
      rw [hstep]
      refine ⟨x :: pre, by simp [hpre], ?_, ?_, hty⟩
      · rw [hdev]; simp
      · rw [hbuf]; simp

/-! ## What `GetNextToken` reads from the device -/

theorem not_whitespace_ne_zero (b : Nat) (h : IsWhitespace b = false) : b ≠ 0 := by
  intro h0
  subst h0
  revert h
  decide

theorem tokenRun_regular (size : Nat) (buf inp : List Nat) :
    ∀ b ∈ tokenRun size buf inp, isRegular b = true := by
  intro b hb
  exact List.mem_takeWhile_imp (List.mem_of_mem_take hb)

theorem take_takeWhile_append_drop (p : Nat → Bool) (r : List Nat) : ∀ (m : Nat),
    (r.takeWhile p).take m ++ r.drop ((r.takeWhile p).take m).length = r := by
  induction r with
  | nil => intro m; simp
  | cons x t ih =>
    intro m
    by_cases hp : p x = true
    · cases m with
      | zero => simp
      | succ k =>
        have := ih k
        simp only [List.takeWhile_cons, hp, if_true, List.take_succ_cons, List.length_cons,
          List.drop_succ_cons, List.cons_append, this]
    · simp [List.takeWhile_cons, hp]

theorem tokenRun_append_drop (size : Nat) (buf inp : List Nat) :
    tokenRun size buf inp ++ inp.drop (tokenRun size buf inp).length = inp :=
  take_takeWhile_append_drop isRegular inp _

theorem firstToken_text (size : Nat) (x : Nat) (r tok rest : List Nat) (k : EPdfTokenType)
    (hw : IsWhitespace x = false)
    (hft : firstToken size (x :: r) = some (tok, k, rest)) :
    tok ≠ [] ∧ cstr tok = tok := by
  have hx0 := not_whitespace_ne_zero x hw
  simp only [firstToken] at hft
  split_ifs at hft <;>
    simp only [Option.some.injEq, Prod.mk.injEq] at hft <;>
    obtain ⟨rfl, -, -⟩ := hft
  · exact ⟨by simp, cstr_eq_self _ (by simp [hx0])⟩
  · exact ⟨by simp, cstr_eq_self _ (by simp [hx0])⟩
  · exact ⟨by simp, cstr_eq_self _ (by simp [hx0])⟩
  · refine ⟨by simp, cstr_eq_self _ ?_⟩
    intro b hb
    rcases List.mem_cons.1 hb with rfl | hb
    · exact hx0
    · exact not_whitespace_ne_zero b ((isRegular_iff b).1 (tokenRun_regular _ _ _ b hb)).1

theorem GetNextToken_at_end (bf inp : List Nat) (n : Nat) (vb : List Nat) (hn : 3 ≤ n)
    (h : skipBlank false inp = []) :
    GetNextToken ⟨some ⟨bf, inp⟩, n, [], vb⟩ = (.ok none, ⟨some ⟨bf ++ inp, []⟩, n, [], vb⟩) := by
  obtain ⟨pre, cc, f2, hf2, hpre, hloop⟩ := GetNextToken_loop_blank n (by omega)
    (inp.length + 1) inp bf EPdfTokenType.Token none (le_refl _)
  rw [h] at hpre hloop hf2
  obtain ⟨f, rfl⟩ : ∃ f, f2 = f + 1 := ⟨f2 - 1, by omega⟩
  simp only [List.append_nil] at hpre
  subst hpre
  have hfin : GetNextToken_loop n (f + 1) ⟨⟨bf ++ pre, []⟩, [], EPdfTokenType.Token, cc⟩
      = ⟨⟨bf ++ pre, []⟩, [], EPdfTokenType.Token, none⟩ := by
    simp [GetNextToken_loop, PdfInputDevice.Look]
  simp only [GetNextToken, hloop, hfin, List.length_nil, and_self, if_true]

theorem GetNextToken_token (bf inp : List Nat) (n : Nat) (vb : List Nat) (hn : 3 ≤ n)
    (tok rest : List Nat) (k : EPdfTokenType)
    (h : firstToken n (skipBlank false inp) = some (tok, k, rest)) :
    ∃ pre, pre ++ rest = inp
      ∧ GetNextToken ⟨some ⟨bf, inp⟩, n, [], vb⟩
          = (.ok (some (tok, k)), ⟨some ⟨bf ++ pre, rest⟩, n, [], vb⟩) := by
  obtain ⟨pre, cc, f2, hf2, hpre, hloop⟩ := GetNextToken_loop_blank n (by omega)
    (inp.length + 1) inp bf EPdfTokenType.Token none (le_refl _)
  cases hsk : skipBlank false inp with
  | nil => rw [hsk] at h; simp [firstToken] at h
  | cons x r =>
    rw [hsk] at h hpre hloop hf2
    obtain ⟨hw, h37⟩ := skipBlank_head inp false x r hsk
    obtain ⟨pre2, hpre2, hdev, hbuf, hty⟩ := GetNextToken_loop_first n hn f2 x r (bf ++ pre) cc
      hf2 hw h37 tok rest k h
    obtain ⟨hne, hcs⟩ := firstToken_text n x r tok rest k hw h
    refine ⟨pre ++ pre2, by rw [List.append_assoc, hpre2, hpre], ?_⟩
    have hlen : tok.length ≠ 0 := fun h0 => hne (List.length_eq_zero.1 h0)
    simp only [GetNextToken, hloop, hdev, hbuf, hty, hlen, and_false, if_false, hcs,
      List.append_assoc]

theorem firstToken_some (size : Nat) (x : Nat) (r : List Nat) :
    ∃ tok k rest, firstToken size (x :: r) = some (tok, k, rest) := by
  simp only [firstToken]
  split_ifs <;> exact ⟨_, _, _, rfl⟩

theorem drop_takeWhile_head (p : Nat → Bool) (r : List Nat) :
    r.drop (r.takeWhile p).length = []
      ∨ ∃ b, (r.drop (r.takeWhile p).length).head? = some b ∧ p b = false := by
  induction r with
  | nil => exact Or.inl rfl
  | cons x t ih =>
    by_cases hp : p x = true
    · simpa [List.takeWhile_cons, hp] using ih
    · exact Or.inr ⟨x, by simp [List.takeWhile_cons, hp], by simpa using hp⟩

theorem IsDelimiter_mem (x : Nat) (hx : x < 256) (h37 : x ≠ 37) :
    IsDelimiter x = true ↔ x ∈ delimiterBytes := by
  simp only [IsDelimiter, genDelMap, Nat.mod_eq_of_lt hx, s_cDelimiters, delimiterBytes,
    List.mem_cons, List.mem_singleton, List.not_mem_nil, or_false, bne_iff_ne, ne_eq,
    ite_eq_right_iff, one_ne_zero, imp_false, not_not]
  constructor
  · intro h; omega
  · intro h; omega

theorem IsDelimiter_lt_gt (x : Nat) (h : x = 60 ∨ x = 62) : IsDelimiter x = true := by
  rcases h with rfl | rfl <;> decide

theorem firstToken_split (size : Nat) (hs : 3 ≤ size) (x : Nat) (r tok rest2 : List Nat)
    (k : EPdfTokenType) (hft : firstToken size (x :: r) = some (tok, k, rest2)) :
    ∃ rest, x :: r = tok ++ rest
      ∧ (k = EPdfTokenType.Delimiter → rest2 = rest)
      ∧ (k = EPdfTokenType.Token →
          (rest = [] ∨ (∃ b, rest.head? = some b ∧ isRegular b = false)
              ∨ tok.length + 1 = size)
            ∧ (rest.head? ≠ some 37 → rest2 = rest)) := by
  simp only [firstToken] at hft
  split_ifs at hft with hlt hnx hd <;>
    simp only [Option.some.injEq, Prod.mk.injEq] at hft <;>
    obtain ⟨rfl, rfl, rfl⟩ := hft
  · cases r with
    | nil => simp at hnx
    | cons y r2 =>
      simp only [List.head?_cons, Option.some.injEq] at hnx
      subst hnx
      exact ⟨r2, by simp, fun _ => rfl, fun h => (by cases h)⟩
  · exact ⟨r, by simp, fun _ => rfl, fun h => (by cases h)⟩
  · exact ⟨r, by simp, fun _ => rfl, fun h => (by cases h)⟩
  · refine ⟨r.drop (tokenRun size [x] r).length, ?_, fun h => (by cases h), fun _ => ⟨?_, ?_⟩⟩
    · simp [tokenRun_append_drop]
    · by_cases hfull : (tokenRun size [x] r).length = size - 2
      · right; right
        simp only [List.length_cons, hfull]
        omega
      · have hall : tokenRun size [x] r = r.takeWhile isRegular := by
          simp only [tokenRun, List.length_singleton] at hfull ⊢
          apply List.take_of_length_le
          by_contra hgt
          apply hfull
          rw [List.length_take]
          omega
        rw [hall]
        rcases drop_takeWhile_head isRegular r with h | h
        · exact Or.inl h
        · exact Or.inr (Or.inl h)
    · intro h37
      simp only [tokenRest, h37, and_false, if_false]

theorem firstToken_kind (size : Nat) (x : Nat) (r tok rest2 : List Nat)
    (k : EPdfTokenType) (hx : x < 256) (hw : IsWhitespace x = false) (h37 : x ≠ 37)
    (hft : firstToken size (x :: r) = some (tok, k, rest2)) :
    (k = EPdfTokenType.Delimiter ↔ isDelimiterText tok = true)
      ∧ (k = EPdfTokenType.Token ↔ tok.all isRegular = true) := by
  simp only [firstToken] at hft
  split_ifs at hft with hlt hnx hd <;>
    simp only [Option.some.injEq, Prod.mk.injEq] at hft <;>
    obtain ⟨rfl, rfl, rfl⟩ := hft
  · have hdel := IsDelimiter_lt_gt x hlt
    refine ⟨⟨fun _ => ?_, fun _ => rfl⟩, ⟨fun h => (by cases h), fun h => ?_⟩⟩
    · rcases hlt with rfl | rfl <;> rfl
    · simp [isRegular, hdel] at h
  · have hdel := IsDelimiter_lt_gt x hlt
    refine ⟨⟨fun _ => ?_, fun _ => rfl⟩, ⟨fun h => (by cases h), fun h => ?_⟩⟩
    · rcases hlt with rfl | rfl <;> rfl
    · simp [isRegular, hdel] at h
  · have hmem := (IsDelimiter_mem x hx h37).1 hd
    refine ⟨⟨fun _ => ?_, fun _ => rfl⟩, ⟨fun h => (by cases h), fun h => ?_⟩⟩
    · simp [isDelimiterText, hmem]
    · simp [isRegular, hd] at h
  · have hnd : IsDelimiter x = false := by simpa using hd
    have hreg : isRegular x = true := (isRegular_iff x).2 ⟨hw, hnd⟩
    have hnm : x ∉ delimiterBytes := fun hm => hd ((IsDelimiter_mem x hx h37).2 hm)
    refine ⟨⟨fun h => (by cases h), fun h => ?_⟩, ⟨fun _ => ?_, fun _ => rfl⟩⟩
    · exfalso
      simp only [isDelimiterText, Bool.or_eq_true, beq_iff_eq, List.cons.injEq,
        Bool.and_eq_true, List.length_cons, List.all_cons, decide_eq_true_eq] at h
      rcases h with (⟨h1, _⟩ | ⟨h1, _⟩) | ⟨_, h1, _⟩
      · exact hlt (Or.inl h1)
      · exact hlt (Or.inr h1)
      · exact hnm h1
    · simp only [List.all_cons, hreg, Bool.true_and, List.all_eq_true]
      exact tokenRun_regular _ _ _

theorem skipBlank_suffix (inp : List Nat) : ∀ (b : Bool), ∃ pre, pre ++ skipBlank b inp = inp := by
  induction inp with
  | nil => intro b; exact ⟨[], by cases b <;> rfl⟩
  | cons y t ih =>
    intro b
    cases b with
    | true =>
      simp only [skipBlank]
      split_ifs
      · obtain ⟨pre, hpre⟩ := ih false
        exact ⟨y :: pre, by simp [hpre]⟩
      · obtain ⟨pre, hpre⟩ := ih true
        exact ⟨y :: pre, by simp [hpre]⟩
    | false =>
      simp only [skipBlank]
      split_ifs
      · obtain ⟨pre, hpre⟩ := ih false
        exact ⟨y :: pre, by simp [hpre]⟩
      · obtain ⟨pre, hpre⟩ := ih true
        exact ⟨y :: pre, by simp [hpre]⟩
      · exact ⟨[], rfl⟩

/-- C6: with an empty queue and a token buffer of at least 3 bytes, `GetNextToken` returns
false, the end of input, if and only if what is left in the device is white space and
comments only (the last comment possibly without a line end); otherwise it returns true
with a token that is not empty and that starts where the leading white space and comments
end. -/
theorem GetNextToken_end_of_input_iff_blank (bf inp vb : List Nat) (n : Nat) (hn : 3 ≤ n) :
    ((GetNextToken ⟨some ⟨bf, inp⟩, n, [], vb⟩).1 = .ok none ↔ skipBlank false inp = [])
      ∧ (skipBlank false inp ≠ [] →
          ∃ tok k rest t1,
            GetNextToken ⟨some ⟨bf, inp⟩, n, [], vb⟩ = (.ok (some (tok, k)), t1)
              ∧ tok ≠ [] ∧ skipBlank false inp = tok ++ rest) := by
  cases hsk : skipBlank false inp with
  | nil =>
    refine ⟨⟨fun _ => rfl, fun _ => ?_⟩, fun h => absurd rfl h⟩
    rw [GetNextToken_at_end bf inp n vb hn hsk]
  | cons x r =>
    obtain ⟨tok, k, rest2, hft⟩ := firstToken_some n x r
    obtain ⟨hw, h37⟩ := skipBlank_head inp false x r hsk
    obtain ⟨pre, _, hget⟩ := GetNextToken_token bf inp n vb hn tok rest2 k (by rw [hsk]; exact hft)
    obtain ⟨rest, hrest, _, _⟩ := firstToken_split n hn x r tok rest2 k hft
    refine ⟨⟨fun h => ?_, fun h => by cases h⟩, fun _ => ?_⟩
    · rw [hget] at h
      cases h
    · exact ⟨tok, k, rest, _, hget, (firstToken_text n x r tok rest2 k hw hft).1, hrest⟩

theorem GetNextToken_end_of_input_iff_blank_witness :
    ((GetNextToken ⟨some ⟨[], [32, 37, 97, 10, 9, 37, 98]⟩, 4096, [], []⟩).1 = .ok none
      ↔ skipBlank false [32, 37, 97, 10, 9, 37, 98] = []) :=
  (GetNextToken_end_of_input_iff_blank [] [32, 37, 97, 10, 9, 37, 98] [] 4096 (by decide)).1

/-- C7: a token read from the device, with a token buffer of at least 3 bytes, has the
kind that its text tells. The kind is Delimiter exactly when the text is `<<`, `>>` or one
of the delimiter characters `( ) < > [ ] { } /`, and then the device is left right after
the token, whatever follows. The kind is Token exactly when the text is made of regular
bytes only (no white space, no delimiter); the token then starts where the leading white
space and comments end and stops before the end of input, the first byte that is not
regular, or at the capacity of the buffer; unless that byte starts a comment it is left
in the device. -/
theorem GetNextToken_classifies_token (bf inp vb : List Nat) (n : Nat) (hn : 3 ≤ n)
    (hbytes : ∀ b ∈ inp, b < 256) (tok : List Nat) (k : EPdfTokenType) (t1 : PdfTokenizer)
    (h : GetNextToken ⟨some ⟨bf, inp⟩, n, [], vb⟩ = (.ok (some (tok, k)), t1)) :
    (k = EPdfTokenType.Delimiter ↔ isDelimiterText tok = true)
      ∧ (k = EPdfTokenType.Token ↔ tok.all isRegular = true)
      ∧ ∃ rest d1, t1.m_device = some d1 ∧ skipBlank false inp = tok ++ rest
          ∧ (k = EPdfTokenType.Delimiter → d1.after = rest)
          ∧ (k = EPdfTokenType.Token →
              (rest = [] ∨ (∃ b, rest.head? = some b ∧ isRegular b = false)
                  ∨ tok.length + 1 = n)
                ∧ (rest.head? ≠ some 37 → d1.after = rest)) := by
  cases hsk : skipBlank false inp with
  | nil =>
    rw [GetNextToken_at_end bf inp n vb hn hsk] at h
    simp at h
  | cons x r =>
    obtain ⟨tok2, k2, rest2, hft⟩ := firstToken_some n x r
    obtain ⟨hw, h37⟩ := skipBlank_head inp false x r hsk
    obtain ⟨pre, _, hget⟩ := GetNextToken_token bf inp n vb hn tok2 rest2 k2
      (by rw [hsk]; exact hft)
    rw [hget] at h
    simp only [Prod.mk.injEq, Except.ok.injEq, Option.some.injEq] at h
    obtain ⟨⟨rfl, rfl⟩, rfl⟩ := h
    have hx : x < 256 := by
      obtain ⟨p, hp⟩ := skipBlank_suffix inp false
      apply hbytes
      rw [← hp, hsk]
      simp
    obtain ⟨hk1, hk2⟩ := firstToken_kind n x r tok2 rest2 k2 hx hw h37 hft
    obtain ⟨rest, hrest, hd, ht⟩ := firstToken_split n hn x r tok2 rest2 k2 hft
    exact ⟨hk1, hk2, rest, _, rfl, hrest, hd, ht⟩

theorem GetNextToken_classifies_token_witness :
    (EPdfTokenType.Delimiter = EPdfTokenType.Delimiter ↔ isDelimiterText [60, 60] = true) :=
  (GetNextToken_classifies_token [] [32, 60, 60, 47, 65] [] 4096 (by decide) (by decide)
    [60, 60] EPdfTokenType.Delimiter ⟨some ⟨[32, 60, 60], [47, 65]⟩, 4096, [], []⟩ rfl).1

/-! ## Comments -/

theorem skipBlank_comment (c rest : List Nat) (hc : ∀ b ∈ c, b ≠ 13 ∧ b ≠ 10) (eol : List Nat)
    (heol : eol = [13] ∨ eol = [10] ∨ eol = [13, 10]) :
    skipBlank true (c ++ eol ++ rest) = skipBlank false rest := by
  induction c with
  | nil =>
    rcases heol with rfl | rfl | rfl
    · simp [skipBlank]
    · simp [skipBlank]
    · simp [skipBlank, IsWhitespace_lf]
  | cons y t ih =>
    have hy := hc y (List.mem_cons_self _ _)
    simp only [List.cons_append, skipBlank, hy.1, hy.2, or_self, if_false]
    exact ih (fun b hb => hc b (List.mem_cons_of_mem _ hb))

theorem dropComment_comment (c rest : List Nat) (hc : ∀ b ∈ c, b ≠ 13 ∧ b ≠ 10)
    (eol : List Nat) (heol : eol = [13] ∨ eol = [10] ∨ eol = [13, 10])
    (hmax : eol = [13] → rest.head? ≠ some 10) :
    dropComment (c ++ eol ++ rest) = rest := by
  induction c with
  | nil =>
    rcases heol with rfl | rfl | rfl
    · simp [dropComment, hmax rfl]
    · simp [dropComment]
    · simp [dropComment]
  | cons y t ih =>
    have hy := hc y (List.mem_cons_self _ _)
    simp only [List.cons_append, dropComment, hy.1, hy.2, if_false]
    exact ih (fun b hb => hc b (List.mem_cons_of_mem _ hb))

theorem isRegular_percent : isRegular 37 = false := by decide

/-- C8: for a comment text `c` without CR or LF, followed by a line end that is CR, LF or
CR LF, and a token buffer of at least 3 bytes: (a) when no byte of a token has been read,
`GetNextToken` on `%` `c` line end `rest` returns the same result and leaves the same
input as `GetNextToken` on `rest`; (b) when the bytes `t` of a token come first (regular
bytes, fewer than the buffer holds), `GetNextToken` on `t` `%` `c` line end `rest` returns
`t` with kind Token and leaves the device at `rest`, a CR LF pair being taken as one line
end. -/
theorem GetNextToken_comment (bf bf2 c eol rest vb : List Nat) (n : Nat) (hn : 3 ≤ n)
    (hc : ∀ b ∈ c, b ≠ 13 ∧ b ≠ 10)
    (heol : eol = [13] ∨ eol = [10] ∨ eol = [13, 10]) :
    ((GetNextToken ⟨some ⟨bf, 37 :: c ++ eol ++ rest⟩, n, [], vb⟩).1
          = (GetNextToken ⟨some ⟨bf2, rest⟩, n, [], vb⟩).1
        ∧ (GetNextToken ⟨some ⟨bf, 37 :: c ++ eol ++ rest⟩, n, [], vb⟩).2.m_device.map
              (fun d => d.after)
            = (GetNextToken ⟨some ⟨bf2, rest⟩, n, [], vb⟩).2.m_device.map (fun d => d.after))
      ∧ ((eol = [13] → rest.head? ≠ some 10) →
          ∀ t : List Nat, t ≠ [] → (∀ b ∈ t, isRegular b = true) → t.length + 1 < n →
            GetNextToken ⟨some ⟨bf, t ++ 37 :: c ++ eol ++ rest⟩, n, [], vb⟩
              = (.ok (some (t, EPdfTokenType.Token)),
                  ⟨some ⟨bf ++ (t ++ 37 :: c ++ eol), rest⟩, n, [], vb⟩)) := by
  constructor
  · have hsk : skipBlank false (37 :: c ++ eol ++ rest) = skipBlank false rest := by
      rw [List.cons_append, List.cons_append, skipBlank_percent]
      exact skipBlank_comment c rest hc eol heol
    cases hr : skipBlank false rest with
    | nil =>
      rw [GetNextToken_at_end bf _ n vb hn (by rw [hsk]; exact hr),
        GetNextToken_at_end bf2 rest n vb hn hr]
      exact ⟨rfl, rfl⟩
    | cons x r =>
      obtain ⟨tok, k, rest2, hft⟩ := firstToken_some n x r
      obtain ⟨p1, _, h1⟩ := GetNextToken_token bf (37 :: c ++ eol ++ rest) n vb hn tok rest2 k
        (by rw [hsk, hr]; exact hft)
      obtain ⟨p2, _, h2⟩ := GetNextToken_token bf2 rest n vb hn tok rest2 k
        (by rw [hr]; exact hft)
      rw [h1, h2]
      exact ⟨rfl, rfl⟩
  · intro hmax t hne hreg hlen
    obtain ⟨x, t2, rfl⟩ := List.exists_cons_of_ne_nil hne
    have hx := hreg x (List.mem_cons_self _ _)
    have hxw := (isRegular_iff x).1 hx
    have hx37 : x ≠ 37 := by
      rintro rfl
      rw [isRegular_percent] at hx
      cases hx
    have hxlt : ¬ (x = 60 ∨ x = 62) := by
      intro h
      rw [IsDelimiter_lt_gt x h] at hxw
      cases hxw.2
    have ht2 : ∀ b ∈ t2, isRegular b = true := fun b hb => hreg b (List.mem_cons_of_mem _ hb)
    have hsk : skipBlank false (x :: t2 ++ 37 :: c ++ eol ++ rest)
        = x :: (t2 ++ 37 :: (c ++ eol ++ rest)) := by
      simp [skipBlank, hxw.1, hx37]
    have htw : (t2 ++ 37 :: (c ++ eol ++ rest)).takeWhile isRegular = t2 := by
      rw [List.takeWhile_append_of_pos ht2]
      simp [List.takeWhile_cons, isRegular_percent]
    have hrun : tokenRun n [x] (t2 ++ 37 :: (c ++ eol ++ rest)) = t2 := by
      simp only [tokenRun, htw, List.length_singleton]
      apply List.take_of_length_le
      simp only [List.length_cons] at hlen
      omega
    have hrest : tokenRest n [x] (t2 ++ 37 :: (c ++ eol ++ rest)) = rest := by
      have hcond : ([x] ++ t2).length + 1 < n := by simpa using hlen
      simp only [tokenRest, hrun, hcond, List.drop_left, List.head?_cons, and_self, if_true,
        dropComment_percent]
      exact dropComment_comment c rest hc eol heol hmax
    have hft : firstToken n (skipBlank false (x :: t2 ++ 37 :: c ++ eol ++ rest))
        = some (x :: t2, EPdfTokenType.Token, rest) := by
      rw [hsk]
      simp only [firstToken, hxlt, if_false, hxw.2, Bool.false_eq_true, hrun, hrest]
    obtain ⟨pre, hpre, hget⟩ := GetNextToken_token bf _ n vb hn _ _ _ hft
    have : pre = x :: t2 ++ 37 :: c ++ eol := List.append_cancel_right hpre
    rw [hget, this]

theorem GetNextToken_comment_witness :
    (GetNextToken ⟨some ⟨[], 37 :: [120] ++ [13, 10] ++ [47, 65]⟩, 4096, [], []⟩).1
      = (GetNextToken ⟨some ⟨[], [47, 65]⟩, 4096, [], []⟩).1 :=
  (GetNextToken_comment [] [] [120] [13, 10] [47, 65] [] 4096 (by decide) (by decide)
    (by decide)).1.1

/-! ## Decimal numbers -/

theorem decimalFuel_digits : ∀ (fuel n : Nat), ∀ b ∈ decimalFuel fuel n, isdigit b = true := by
  intro fuel
  induction fuel with
  | zero => intro n b hb; simp [decimalFuel] at hb
  | succ f ih =>
    intro n b hb
    simp only [decimalFuel] at hb
    split_ifs at hb with h
    · simp only [List.mem_singleton] at hb
      subst hb
      simp only [isdigit, decide_eq_true_eq]
      omega
    · rcases List.mem_append.1 hb with hb | hb
      · exact ih _ b hb
      · simp only [List.mem_singleton] at hb
        subst hb
        simp only [isdigit, decide_eq_true_eq]
        omega

theorem decimalFuel_ne_nil : ∀ (fuel n : Nat), n < fuel → decimalFuel fuel n ≠ [] := by
  intro fuel n h
  obtain ⟨f, rfl⟩ : ∃ f, fuel = f + 1 := ⟨fuel - 1, by omega⟩
  simp only [decimalFuel]
  split_ifs <;> simp

theorem digitsValue_append (l : List Nat) (d : Nat) :
    digitsValue (l ++ [d]) = digitsValue l * 10 + (d - 48) := by
  simp [digitsValue, List.foldl_append]

theorem decimalFuel_value : ∀ (fuel n : Nat), n < fuel → digitsValue (decimalFuel fuel n) = n := by
  intro fuel
  induction fuel with
  | zero => intro n h; omega
  | succ f ih =>
    intro n h
    simp only [decimalFuel]
    split_ifs with h10
    · simp [digitsValue]
    · rw [digitsValue_append, ih (n / 10) (by omega)]
      omega

theorem decimalFuel_length : ∀ (fuel n k : Nat), n < fuel → n < 10 ^ (k + 1) →
    (decimalFuel fuel n).length ≤ k + 1 := by
  intro fuel
  induction fuel with
  | zero => intro n k h; omega
  | succ f ih =>
    intro n k h hk
    simp only [decimalFuel]
    split_ifs with h10
    · simp
    · cases k with
      | zero => simp at hk; omega
      | succ j =>
        have hdiv : n / 10 < 10 ^ (j + 1) := by
          rw [Nat.div_lt_iff_lt_mul (by decide)]
          rw [pow_succ] at hk
          exact hk
        have := ih (n / 10) j (by omega) hdiv
        simp only [List.length_append, List.length_singleton]
        omega

theorem decimal_digits (n : Nat) : ∀ b ∈ decimal n, isdigit b = true :=
  decimalFuel_digits _ _

theorem decimal_ne_nil (n : Nat) : decimal n ≠ [] := decimalFuel_ne_nil _ _ (by omega)

theorem decimal_length (n : Nat) (h : n < 2 ^ 63) : (decimal n).length ≤ 19 :=
  decimalFuel_length _ _ 18 (by omega) (lt_of_lt_of_le h (by norm_num))

theorem isdigit_regular (b : Nat) (h : isdigit b = true) : isRegular b = true := by
  simp only [isdigit, decide_eq_true_eq] at h
  have hb : b % 256 = b := Nat.mod_eq_of_lt (by omega)
  simp only [isRegular, IsWhitespace, IsDelimiter, genWsMap, genDelMap, hb, s_cWhiteSpaces,
    s_cDelimiters, List.mem_cons, List.mem_singleton, List.not_mem_nil, or_false]
  have h1 : ¬ (b = 0 ∨ b = 9 ∨ b = 10 ∨ b = 12 ∨ b = 13 ∨ b = 32) := by omega
  have h2 : ¬ (b = 40 ∨ b = 41 ∨ b = 60 ∨ b = 62 ∨ b = 91 ∨ b = 93 ∨ b = 123 ∨ b = 125
      ∨ b = 47 ∨ b = 37) := by omega
  simp [h1, h2]

theorem decimal_isIntegerToken (n : Nat) : isIntegerToken (decimal n) = true := by
  have hne := decimal_ne_nil n
  have hd := decimal_digits n
  obtain ⟨c, r, hcr⟩ := List.exists_cons_of_ne_nil hne
  rw [hcr] at hd ⊢
  have hc := hd c (List.mem_cons_self _ _)
  have hc2 : ¬ (c = 43 ∨ c = 45) := by
    simp only [isdigit, decide_eq_true_eq] at hc
    omega
  simp only [isIntegerToken, unsignedPart, List.head?_cons, Option.some.injEq, hc2, if_false,
    List.isEmpty_cons, Bool.not_false, Bool.true_and, List.all_eq_true]
  exact hd

theorem strtoll_decimal (n : Nat) (h : n < 2 ^ 63) : (strtoll (decimal n)).1 = (n : Int) := by
  have hint := decimal_isIntegerToken n
  have hcs := isIntegerToken_cstr _ hint
  have hne := decimal_ne_nil n
  have hd := decimal_digits n
  have hv : digitsValue (decimal n) = n := decimalFuel_value _ _ (by omega)
  obtain ⟨c, r, hcr⟩ := List.exists_cons_of_ne_nil hne
  have hc : isdigit c = true := hd c (by rw [hcr]; exact List.mem_cons_self _ _)
  have hsp : isspace c = false := by
    simp only [isdigit, decide_eq_true_eq] at hc
    simp only [isspace, decide_eq_false_iff_not]
    omega
  have hc2 : c ≠ 45 ∧ c ≠ 43 := by
    simp only [isdigit, decide_eq_true_eq] at hc
    omega
  have htw : (decimal n).takeWhile isdigit = decimal n := takeWhile_digits _ hd
  have hdw : (decimal n).dropWhile isspace = decimal n := by
    rw [hcr]; simp [List.dropWhile_cons, hsp]
  have hhead : (decimal n).head? = some c := by rw [hcr]; rfl
  have hlen : (decimal n).length ≠ 0 := by rw [hcr]; simp
  have hmag : ¬ (n > 2 ^ 63 - 1) := by omega
  have h43 : (some c == some 43) = false := by simp [hc2.2]
  have h45 : (some c == some 45) = false := by simp [hc2.1]
  simp only [strtoll, hcs, hdw, hhead, h43, h45, Bool.or_self, Bool.false_eq_true, if_false,
    htw, hlen, hv, hmag]

/-! ## Tokens of a known shape -/

theorem skipBlank_whitespace (ws : List Nat) (y : Nat) (r : List Nat)
    (hws : ∀ b ∈ ws, IsWhitespace b = true) (hy : IsWhitespace y = false) (hy37 : y ≠ 37) :
    skipBlank false (ws ++ y :: r) = y :: r := by
  induction ws with
  | nil => simp [skipBlank, hy, hy37]
  | cons a t ih =>
    simp only [List.cons_append, skipBlank, hws a (List.mem_cons_self _ _), if_true]
    exact ih (fun b hb => hws b (List.mem_cons_of_mem _ hb))

theorem GetNextToken_word (bf ws w rest vb : List Nat) (x n : Nat) (hn : 3 ≤ n)
    (hws : ∀ b ∈ ws, IsWhitespace b = true) (hw : w ≠ [])
    (hreg : ∀ b ∈ w, isRegular b = true) (hx : isRegular x = false) (hx37 : x ≠ 37)
    (hlen : w.length + 1 < n) :
    ∃ bf2, GetNextToken ⟨some ⟨bf, ws ++ (w ++ x :: rest)⟩, n, [], vb⟩
      = (.ok (some (w, EPdfTokenType.Token)), ⟨some ⟨bf2, x :: rest⟩, n, [], vb⟩) := by
  obtain ⟨y, w2, rfl⟩ := List.exists_cons_of_ne_nil hw
  have hy := hreg y (List.mem_cons_self _ _)
  have hyw := (isRegular_iff y).1 hy
  have hy37 : y ≠ 37 := by
    rintro rfl
    rw [isRegular_percent] at hy
    cases hy
  have hylt : ¬ (y = 60 ∨ y = 62) := by
    intro h
    rw [IsDelimiter_lt_gt y h] at hyw
    cases hyw.2
  have hw2 : ∀ b ∈ w2, isRegular b = true := fun b hb => hreg b (List.mem_cons_of_mem _ hb)
  have hsk : skipBlank false (ws ++ (y :: w2 ++ x :: rest)) = y :: (w2 ++ x :: rest) :=
    skipBlank_whitespace ws y _ hws hyw.1 hy37
  have htw : (w2 ++ x :: rest).takeWhile isRegular = w2 := by
    rw [List.takeWhile_append_of_pos hw2]
    simp [List.takeWhile_cons, hx]
  have hrun : tokenRun n [y] (w2 ++ x :: rest) = w2 := by
    simp only [tokenRun, htw, List.length_singleton]
    apply List.take_of_length_le
    simp only [List.length_cons] at hlen
    omega
  have hrest : tokenRest n [y] (w2 ++ x :: rest) = x :: rest := by
    simp only [tokenRest, hrun, List.drop_left, List.head?_cons, Option.some.injEq, hx37,
      and_false, if_false]
  have hft : firstToken n (skipBlank false (ws ++ (y :: w2 ++ x :: rest)))
      = some (y :: w2, EPdfTokenType.Token, x :: rest) := by
    rw [hsk]
    simp only [firstToken, hylt, if_false, hyw.2, Bool.false_eq_true, hrun, hrest]
  obtain ⟨pre, _, hget⟩ := GetNextToken_token bf _ n vb hn _ _ _ hft
  exact ⟨_, hget⟩

theorem GetNextToken_double (bf ws rest vb : List Nat) (x n : Nat) (hn : 3 ≤ n)
    (hws : ∀ b ∈ ws, IsWhitespace b = true) (hx : x = 60 ∨ x = 62) :
    ∃ bf2, GetNextToken ⟨some ⟨bf, ws ++ (x :: x :: rest)⟩, n, [], vb⟩
      = (.ok (some ([x, x], EPdfTokenType.Delimiter)), ⟨some ⟨bf2, rest⟩, n, [], vb⟩) := by
  have hxw : IsWhitespace x = false := by rcases hx with rfl | rfl <;> decide
  have hx37 : x ≠ 37 := by rcases hx with rfl | rfl <;> decide
  have hsk : skipBlank false (ws ++ (x :: x :: rest)) = x :: x :: rest :=
    skipBlank_whitespace ws x _ hws hxw hx37
  have hft : firstToken n (skipBlank false (ws ++ (x :: x :: rest)))
      = some ([x, x], EPdfTokenType.Delimiter, rest) := by
    rw [hsk]
    simp [firstToken, hx]
  obtain ⟨pre, _, hget⟩ := GetNextToken_token bf _ n vb hn _ _ _ hft
  exact ⟨_, hget⟩

theorem GetNextToken_single (bf ws rest vb : List Nat) (x n : Nat) (hn : 3 ≤ n)
    (hws : ∀ b ∈ ws, IsWhitespace b = true) (hxw : IsWhitespace x = false)
    (hxd : IsDelimiter x = true) (hx : ¬ (x = 60 ∨ x = 62)) (hx37 : x ≠ 37) :
    ∃ bf2, GetNextToken ⟨some ⟨bf, ws ++ (x :: rest)⟩, n, [], vb⟩
      = (.ok (some ([x], EPdfTokenType.Delimiter)), ⟨some ⟨bf2, rest⟩, n, [], vb⟩) := by
  have hsk : skipBlank false (ws ++ (x :: rest)) = x :: rest :=
    skipBlank_whitespace ws x _ hws hxw hx37
  have hft : firstToken n (skipBlank false (ws ++ (x :: rest)))
      = some ([x], EPdfTokenType.Delimiter, rest) := by
    rw [hsk]
    simp [firstToken, hx, hxd]
  obtain ⟨pre, _, hget⟩ := GetNextToken_token bf _ n vb hn _ _ _ hft
  exact ⟨_, hget⟩

/-! ## Reading the raw bytes of a stream -/

theorem Seek_Tell (d : PdfInputDevice) : d.Seek d.Tell = d := by
  cases d with
  | mk b a => simp [PdfInputDevice.Seek, PdfInputDevice.Tell]

theorem SetRawData_loop_device : ∀ (len : Nat) (data : List Nat), data.length = len →
    ∀ (fuel : Nat) (bf rest acc : List Nat), len + 1 ≤ fuel →
    SetRawData_loop deviceRead fuel ⟨bf, data ++ rest⟩ len ⟨true, acc⟩
      = (.ok ⟨true, acc ++ data⟩, ⟨bf ++ data, rest⟩) := by
  intro len
  induction len using Nat.strong_induction_on with
  | _ len ih =>
    intro data hlen fuel bf rest acc hf
    obtain ⟨f, rfl⟩ : ∃ f, fuel = f + 1 := ⟨fuel - 1, by omega⟩
    rcases Nat.eq_zero_or_pos len with h0 | hpos
    · subst h0
      have hd : data = [] := List.length_eq_zero.1 hlen
      subst hd
      simp [SetRawData_loop, deviceRead, PdfStream.Append]
    · have hm : min BUFFER_SIZE len ≤ data.length := by rw [hlen]; exact Nat.min_le_right _ _
      have hmpos : 0 < min BUFFER_SIZE len := by
        simp only [BUFFER_SIZE, lt_min_iff]
        exact ⟨by decide, hpos⟩
      have htake : (data ++ rest).take (min BUFFER_SIZE len) = data.take (min BUFFER_SIZE len) :=
        List.take_append_of_le_length hm
      have hdrop : (data ++ rest).drop (min BUFFER_SIZE len)
          = data.drop (min BUFFER_SIZE len) ++ rest := List.drop_append_of_le_length hm
      have hl : (data.take (min BUFFER_SIZE len)).length = min BUFFER_SIZE len := by
        rw [List.length_take]; omega
      simp only [SetRawData_loop, deviceRead, htake, hdrop, PdfStream.Append, hl,
        Bool.true_eq_false, if_false]
      by_cases hrem : len - min BUFFER_SIZE len = 0
      · have hall : data.take (min BUFFER_SIZE len) = data :=
          List.take_of_length_le (by omega)
        have hnil : data.drop (min BUFFER_SIZE len) = [] :=
          List.drop_of_length_le (by omega)
        simp [hrem, hall, hnil]
      · have hcond : len - min BUFFER_SIZE len ≠ 0 ∧ min BUFFER_SIZE len > 0 := ⟨hrem, hmpos⟩
        simp only [hcond, and_self, if_true, ne_eq, not_false_eq_true, gt_iff_lt]
        rw [ih (len - min BUFFER_SIZE len) (by omega) (data.drop (min BUFFER_SIZE len))
          (by rw [List.length_drop]; omega) f _ rest _ (by omega)]
        simp [List.append_assoc]

/-! ## Parsing an indirect object with a stream -/

theorem isRegular_space : isRegular 32 = false := by decide

theorem isRegular_lf : isRegular 10 = false := by decide

theorem GetNextNumber_decimal (bf ws rest vb : List Nat) (k x n : Nat) (hn : 3 ≤ n)
    (hws : ∀ b ∈ ws, IsWhitespace b = true) (hk : k < 2 ^ 63)
    (hx : isRegular x = false) (hx37 : x ≠ 37) (hlen : 20 < n) :
    ∃ bf2, GetNextNumber ⟨some ⟨bf, ws ++ (decimal k ++ x :: rest)⟩, n, [], vb⟩
      = (.ok (k : Int), ⟨some ⟨bf2, x :: rest⟩, n, [], vb⟩) := by
  obtain ⟨bf2, h⟩ := GetNextToken_word bf ws (decimal k) rest vb x n hn hws (decimal_ne_nil k)
    (fun b hb => isdigit_regular b (decimal_digits k b hb)) hx hx37
    (by have := decimal_length k hk; omega)
  refine ⟨bf2, ?_⟩
  have h2 := isIntegerToken_strtoll _ (decimal_isIntegerToken k)
  simp only [GetNextNumber, h, h2, if_false, strtoll_decimal k hk]

theorem IsNextToken_word (bf ws w rest vb : List Nat) (x n : Nat) (hn : 3 ≤ n)
    (hws : ∀ b ∈ ws, IsWhitespace b = true) (hw : w ≠ [])
    (hreg : ∀ b ∈ w, isRegular b = true) (hx : isRegular x = false) (hx37 : x ≠ 37)
    (hlen : w.length + 1 < n) :
    ∃ bf2, IsNextToken ⟨some ⟨bf, ws ++ (w ++ x :: rest)⟩, n, [], vb⟩ (some w)
      = (.ok true, ⟨some ⟨bf2, x :: rest⟩, n, [], vb⟩) := by
  obtain ⟨bf2, h⟩ := GetNextToken_word bf ws w rest vb x n hn hws hw hreg hx hx37 hlen
  refine ⟨bf2, ?_⟩
  simp only [IsNextToken, h, beq_self_eq_true]

theorem DetermineDataType_number_delimiter (t t1 : PdfTokenizer) (a tok2 : List Nat)
    (v : PdfVariant) (ha : isIntegerToken a = true)
    (h1 : GetNextToken t = (.ok (some (tok2, EPdfTokenType.Delimiter)), t1)) :
    DetermineDataType t a EPdfTokenType.Token v
      = (.ok EPdfDataType.Number, PdfVariant.Number (strtoll a).1,
          QuequeToken t1 tok2 EPdfTokenType.Delimiter) := by
  have hk := isIntegerToken_not_keyword a ha
  simp [DetermineDataType, hk.1, hk.2.1, hk.2.2, isIntegerToken_cstr a ha,
    isIntegerToken_scan a ha, h1]

theorem ReadObjectNumber_decimal (o : PdfParserObject) (bf rest : List Nat) (n g sz : Nat)
    (hsz : 20 < sz) (hn : n < 2 ^ 32) (hg : g < 2 ^ 16)
    (ht : o.m_tokenizer
      = ⟨some ⟨bf, decimal n ++ 32 :: (decimal g ++ 32 :: (strObj ++ 10 :: rest))⟩, sz, [], []⟩) :
    ∃ bf2, ReadObjectNumber o
      = (.ok (), { o with m_tokenizer := ⟨some ⟨bf2, 10 :: rest⟩, sz, [], []⟩,
                          m_reference := (n, g) }) := by
  obtain ⟨b1, h1⟩ := GetNextNumber_decimal bf [] (decimal g ++ 32 :: (strObj ++ 10 :: rest)) []
    n 32 sz (by omega) (by simp) (by omega) isRegular_space (by decide) hsz
  obtain ⟨b2, h2⟩ := GetNextNumber_decimal b1 [32] (strObj ++ 10 :: rest) []
    g 32 sz (by omega) (by decide) (by omega) isRegular_space (by decide) hsz
  obtain ⟨b3, h3⟩ := IsNextToken_word b2 [32] strObj rest [] 10 sz (by omega) (by decide)
    (by decide) (by decide) isRegular_lf (by decide)
    (by have : strObj.length = 3 := rfl; omega)
  simp only [List.nil_append, List.singleton_append] at h1 h2 h3
  refine ⟨b3, ?_⟩
  have e1 : ((n : Int) % 2 ^ 32).toNat = n := by omega
  have e2 : ((g : Int) % 2 ^ 16).toNat = g := by omega
  simp only [ReadObjectNumber, ht, h1, h2, h3, e1, e2]

theorem DetermineDataType_dictionary (t : PdfTokenizer) (v : PdfVariant) :
    DetermineDataType t [60, 60] EPdfTokenType.Delimiter v = (.ok EPdfDataType.Dictionary, v, t) := by
  have h : strncmpEq [60, 60] [60, 60] 2 = true := by decide
  simp only [DetermineDataType, h, if_true]

theorem DetermineDataType_name (t : PdfTokenizer) (v : PdfVariant) :
    DetermineDataType t [47] EPdfTokenType.Delimiter v = (.ok EPdfDataType.Name, v, t) := by
  have h : strncmpEq [60, 60] [47] 2 = false := by decide
  have h2 : cstr [47] = [47] := by decide
  simp [DetermineDataType, h, h2]

theorem GetNextVariantOf_length_dictionary (f sz L : Nat) (bf R vb : List Nat) (v : PdfVariant)
    (hsz : 20 < sz) (hL : L < 2 ^ 63) :
    ∃ bf2, GetNextVariantOf (f + 5)
        ⟨some ⟨bf, 32 :: 47 :: (strLength ++ 32 :: (decimal L ++ 32 :: 62 :: 62 :: R))⟩,
          sz, [], vb⟩ [60, 60] EPdfTokenType.Delimiter v none
      = (.ok (PdfVariant.Dictionary [(strLength, PdfVariant.Number L)]),
          ⟨some ⟨bf2, R⟩, sz, [], vb⟩) := by
  obtain ⟨b1, hA⟩ := GetNextToken_single bf [32]
    (strLength ++ 32 :: (decimal L ++ 32 :: 62 :: 62 :: R)) vb 47 sz (by omega) (by decide)
    (by decide) (by decide) (by decide) (by decide)
  obtain ⟨b2, hB⟩ := GetNextToken_word b1 [] strLength (decimal L ++ 32 :: 62 :: 62 :: R) vb 32
    sz (by omega) (by simp) (by decide) (by decide) isRegular_space (by decide)
    (by have : strLength.length = 6 := rfl; omega)
  obtain ⟨b3, hC⟩ := GetNextToken_word b2 [32] (decimal L) (62 :: 62 :: R) vb 32 sz (by omega)
    (by decide) (decimal_ne_nil L) (fun b hb => isdigit_regular b (decimal_digits L b hb))
    isRegular_space (by decide) (by have := decimal_length L hL; omega)
  obtain ⟨b4, hD⟩ := GetNextToken_double b3 [32] R vb 62 sz (by omega) (by decide) (Or.inr rfl)
  simp only [List.nil_append, List.singleton_append] at hA hB hC hD
  have hE := DetermineDataType_number_delimiter _ _ (decimal L) [62, 62]
    (PdfVariant.Name strLength) (decimal_isIntegerToken L) hD
  have hq : QuequeToken ⟨some ⟨b4, R⟩, sz, [], vb⟩ [62, 62] EPdfTokenType.Delimiter
      = ⟨some ⟨b4, R⟩, sz, [([62, 62], EPdfTokenType.Delimiter)], vb⟩ := rfl
  have hF := GetNextToken_queued (some ⟨b4, R⟩) sz [62, 62] EPdfTokenType.Delimiter [] vb
    (by have : (cstr [62, 62]).length = 2 := rfl; omega)
  have hcs : cstr [62, 62] = [62, 62] := rfl
  rw [hcs] at hF
  rw [hq, strtoll_decimal L hL] at hE
  have hlook : IsWhitespace (charOfInt (PdfInputDevice.Look
      ⟨b1, strLength ++ 32 :: (decimal L ++ 32 :: 62 :: 62 :: R)⟩)) = false := by
    simp only [strLength, List.cons_append, PdfInputDevice.Look, List.head?_cons, charOfInt,
      Option.getD_some]
    decide
  have hname : FromEscaped (cstr strLength) = strLength := by decide
  have hcmp1 : strncmpEq [62, 62] [47] 2 = false := by decide
  have hcmp2 : strncmpEq [62, 62] [62, 62] 2 = true := by decide
  have hkey : ¬ (strLength = strContents) := by decide
  refine ⟨b4, ?_⟩
  show GetNextVariantOf (f + 4 + 1) _ _ _ _ _ = _
  rw [GetNextVariantOf, DetermineDataType_dictionary]
  simp only [reduceCtorEq, or_self, if_false]
  show ReadDataType (f + 3 + 1) _ _ _ _ = _
  rw [ReadDataType]
  show ReadDictionary_loop (f + 2 + 1) _ _ _ _ _ = _
  rw [ReadDictionary_loop, hA]
  simp only [hcmp1, Bool.false_eq_true, and_false, if_false]
  show (match GetNextVariantOf (f + 1 + 1) _ _ _ _ _ with
    | (Except.error e, t2) => _
    | (Except.ok val1, t2) => _) = _
  rw [GetNextVariantOf, DetermineDataType_name]
  simp only [reduceCtorEq, or_self, if_false]
  rw [ReadDataType]
  simp only [ReadName, hlook, Bool.false_eq_true, if_false, hB, ne_eq, not_true_eq_false,
    hname, hC, hE, hkey, false_and]
  rw [ReadDictionary_loop, hF]
  simp [hcmp2, finishDictionary, AddKey]

theorem objectBytes_eq (n g : Nat) (data : List Nat) :
    objectBytes n g data
      = decimal n ++ 32 :: (decimal g ++ 32 :: (strObj ++ 10 :: 60 :: 60 :: 32 :: 47 ::
          (strLength ++ 32 :: (decimal data.length ++ 32 :: 62 :: 62 :: 10 ::
            (strStream ++ 10 :: (data
              ++ ([10, 101, 110, 100, 115, 116, 114, 101, 97, 109, 10] ++ strEndobj))))))) := by
  simp [objectBytes, List.append_assoc]

theorem ParseFileComplete_stream_object (o : PdfParserObject) (bf R : List Nat) (L sz : Nat)
    (hsz : 20 < sz) (hL : L < 2 ^ 63)
    (ht : o.m_tokenizer
      = ⟨some ⟨bf, 10 :: 60 :: 60 :: 32 :: 47 :: (strLength ++ 32 :: (decimal L ++ 32 :: 62 ::
          62 :: 10 :: (strStream ++ 10 :: R)))⟩, sz, [], []⟩)
    (hoff : o.m_Offset = (bf.length : Int)) (henc : o.m_Encrypt = none) :
    ∃ bf2, ParseFileComplete o false
      = (.ok (), { o with m_tokenizer := ⟨some ⟨bf2, 10 :: R⟩, sz, [], []⟩,
                          m_Variant := PdfVariant.Dictionary [(strLength, PdfVariant.Number L)],
                          m_HasStream := true, m_StreamOffset := bf2.length }) := by
  obtain ⟨tk, hd, ref, var, st, enc, off, so, hs, it, lod, dld, dlsd, dirty⟩ := o
  simp only at ht hoff henc
  subst ht hoff henc
  obtain ⟨b1, hA⟩ := GetNextToken_double bf [10]
    (32 :: 47 :: (strLength ++ 32 :: (decimal L ++ 32 :: 62 :: 62 :: 10 :: (strStream ++ 10 :: R))))
    [] 60 sz (by omega) (by decide) (Or.inl rfl)
  obtain ⟨b2, hB⟩ := GetNextVariantOf_length_dictionary
    (4 * ((10 :: 60 :: 60 :: 32 :: 47 :: (strLength ++ 32 :: (decimal L ++ 32 :: 62 ::
      62 :: 10 :: (strStream ++ 10 :: R)))).length) + 3) sz L b1 (10 :: (strStream ++ 10 :: R)) []
    var hsz hL
  obtain ⟨b3, hC⟩ := GetNextToken_word b2 [10] strStream R [] 10 sz (by omega) (by decide)
    (by decide) (by decide) isRegular_lf (by decide)
    (by have : strStream.length = 6 := rfl; omega)
  simp only [List.singleton_append] at hA hC
  refine ⟨b3, ?_⟩
  have hseek : PdfInputDevice.Seek ⟨bf, 10 :: 60 :: 60 :: 32 :: 47 :: (strLength ++ 32 ::
      (decimal L ++ 32 :: 62 :: 62 :: 10 :: (strStream ++ 10 :: R)))⟩ ((bf.length : Int).toNat)
      = ⟨bf, 10 :: 60 :: 60 :: 32 :: 47 :: (strLength ++ 32 ::
      (decimal L ++ 32 :: 62 :: 62 :: 10 :: (strStream ++ 10 :: R)))⟩ := by
    rw [Int.toNat_ofNat]
    exact Seek_Tell _
  have hne1 : ¬ ([60, 60] = strEndobj) := by decide
  have hne2 : ¬ (strStream = strEndobj) := by decide
  have hfuel : readerFuel ⟨some ⟨bf, 10 :: 60 :: 60 :: 32 :: 47 :: (strLength ++ 32 ::
      (decimal L ++ 32 :: 62 :: 62 :: 10 :: (strStream ++ 10 :: R)))⟩, sz, [], []⟩
      = 4 * ((10 :: 60 :: 60 :: 32 :: 47 :: (strLength ++ 32 :: (decimal L ++ 32 ::
          62 :: 62 :: 10 :: (strStream ++ 10 :: R)))).length) + 3 + 5 := by
    simp only [readerFuel, List.length_nil, Option.map_some', Option.getD_some]
    omega
  simp only [ParseFileComplete, PdfParserObject.seek, Option.map_some', hseek, hA, hne1,
    if_false, hfuel, hB, Bool.false_eq_true, hC, hne2, if_true, PdfParserObject.tell,
    Option.getD_some, PdfInputDevice.Tell]

/-- C1: for every object number `n` below 2^32, generation `g` below 2^16 and byte string
`data` (its length `L` below 2^63, the bytes arbitrary), parsing the input
`n g obj\n<< /Length L >>\nstream\n` `data` `\nendstream\nendobj` with `ParseFile` and then
loading the stream with `ParseStream` succeeds and gives an object with the indirect
reference `(n, g)`, the value the dictionary with the single entry `Length: L`, marked as
having a stream, whose stream holds exactly the bytes `data`. -/
theorem ParseFile_ParseStream_object (n g : Nat) (data : List Nat) (hn : n < 2 ^ 32)
    (hg : g < 2 ^ 16) (hL : data.length < 2 ^ 63) :
    ∃ o1 o2 : PdfParserObject,
      ParseFile (PdfParserObject.new ⟨[], objectBytes n g data⟩ 0) none false = (.ok (), o1)
        ∧ ParseStream o1 = (.ok (), o2)
        ∧ o2.m_reference = (n, g)
        ∧ o2.m_Variant = PdfVariant.Dictionary [(strLength, PdfVariant.Number data.length)]
        ∧ o2.m_HasStream = true
        ∧ o2.m_Stream = some ⟨false, data⟩ := by
  obtain ⟨b1, h1⟩ := ReadObjectNumber_decimal
    { m_tokenizer := ⟨some ⟨[], objectBytes n g data⟩, PDF_BUFFER, [], []⟩, hasDocument := true,
      m_reference := (0, 0), m_Variant := PdfVariant.Null, m_Stream := none, m_Encrypt := none,
      m_Offset := 0, m_StreamOffset := 0, m_HasStream := false, m_IsTrailer := false,
      m_LoadOnDemand := false, m_DelayedLoadDone := false, m_DelayedLoadStreamDone := false,
      m_IsDirty := false }
    [] (60 :: 60 :: 32 :: 47 :: (strLength ++ 32 :: (decimal data.length ++ 32 :: 62 :: 62 ::
      10 :: (strStream ++ 10 :: (data
        ++ ([10, 101, 110, 100, 115, 116, 114, 101, 97, 109, 10] ++ strEndobj))))))
    n g PDF_BUFFER (by decide) hn hg (by rw [objectBytes_eq])
  obtain ⟨b2, h2⟩ := ParseFileComplete_stream_object
    { m_tokenizer := ⟨some ⟨b1, 10 :: 60 :: 60 :: 32 :: 47 :: (strLength ++ 32 ::
          (decimal data.length ++ 32 :: 62 :: 62 :: 10 :: (strStream ++ 10 :: (data
            ++ ([10, 101, 110, 100, 115, 116, 114, 101, 97, 109, 10] ++ strEndobj)))))⟩,
        PDF_BUFFER, [], []⟩,
      hasDocument := true, m_reference := (n, g), m_Variant := PdfVariant.Null, m_Stream := none,
      m_Encrypt := none, m_Offset := (b1.length : Int), m_StreamOffset := 0,
      m_HasStream := false, m_IsTrailer := false, m_LoadOnDemand := false,
      m_DelayedLoadDone := false, m_DelayedLoadStreamDone := false, m_IsDirty := false }
    b1 (data ++ ([10, 101, 110, 100, 115, 116, 114, 101, 97, 109, 10] ++ strEndobj))
    data.length PDF_BUFFER (by decide) hL rfl rfl rfl
  have hseek0 : PdfInputDevice.Seek ⟨[], objectBytes n g data⟩ (0 : Int).toNat
      = ⟨[], objectBytes n g data⟩ := Seek_Tell ⟨[], objectBytes n g data⟩
  have hP : ParseFile (PdfParserObject.new ⟨[], objectBytes n g data⟩ 0) none false
      = (.ok (),
          { m_tokenizer := ⟨some ⟨b2, 10 :: (data
                ++ ([10, 101, 110, 100, 115, 116, 114, 101, 97, 109, 10] ++ strEndobj))⟩,
              PDF_BUFFER, [], []⟩,
            hasDocument := true, m_reference := (n, g),
            m_Variant := PdfVariant.Dictionary [(strLength, PdfVariant.Number data.length)],
            m_Stream := none, m_Encrypt := none, m_Offset := (b1.length : Int),
            m_StreamOffset := b2.length, m_HasStream := true, m_IsTrailer := false,
            m_LoadOnDemand := false, m_DelayedLoadDone := true,
            m_DelayedLoadStreamDone := false, m_IsDirty := false }) := by
    simp only [ParseFile, PdfParserObject.new, PdfParserObject.seek, Option.map_some',
      lt_self_iff_false, if_false, ge_iff_le, le_refl, if_true, hseek0, h1,
      PdfParserObject.tell, Option.getD_some, PdfInputDevice.Tell, DelayedLoad,
      Bool.false_eq_true, h2]
  have hS : ParseStream
      { m_tokenizer := ⟨some ⟨b2, 10 :: (data
            ++ ([10, 101, 110, 100, 115, 116, 114, 101, 97, 109, 10] ++ strEndobj))⟩,
          PDF_BUFFER, [], []⟩,
        hasDocument := true, m_reference := (n, g),
        m_Variant := PdfVariant.Dictionary [(strLength, PdfVariant.Number data.length)],
        m_Stream := none, m_Encrypt := none, m_Offset := (b1.length : Int),
        m_StreamOffset := b2.length, m_HasStream := true, m_IsTrailer := false,
        m_LoadOnDemand := false, m_DelayedLoadDone := true,
        m_DelayedLoadStreamDone := false, m_IsDirty := false }
      = (.ok (),
          { m_tokenizer := ⟨some ⟨b2 ++ [10] ++ data,
                [10, 101, 110, 100, 115, 116, 114, 101, 97, 109, 10] ++ strEndobj⟩,
              PDF_BUFFER, [], []⟩,
            hasDocument := true, m_reference := (n, g),
            m_Variant := PdfVariant.Dictionary [(strLength, PdfVariant.Number data.length)],
            m_Stream := some ⟨false, data⟩, m_Encrypt := none, m_Offset := (b1.length : Int),
            m_StreamOffset := b2.length, m_HasStream := true, m_IsTrailer := false,
            m_LoadOnDemand := false, m_DelayedLoadDone := true,
            m_DelayedLoadStreamDone := false, m_IsDirty := false }) := by
    have hkey : GetKey [(strLength, PdfVariant.Number (data.length : Int))] strLength
        = some (PdfVariant.Number data.length) := by
      simp [GetKey]
    have hseek : PdfInputDevice.Seek ⟨b2, 10 :: (data
        ++ ([10, 101, 110, 100, 115, 116, 114, 101, 97, 109, 10] ++ strEndobj))⟩ b2.length
        = ⟨b2, 10 :: (data
        ++ ([10, 101, 110, 100, 115, 116, 114, 101, 97, 109, 10] ++ strEndobj))⟩ := Seek_Tell _
    have hskip : skipToStreamBody ((10 :: (data
        ++ ([10, 101, 110, 100, 115, 116, 114, 101, 97, 109, 10] ++ strEndobj))).length + 1)
        ⟨b2, 10 :: (data
          ++ ([10, 101, 110, 100, 115, 116, 114, 101, 97, 109, 10] ++ strEndobj))⟩
        = ⟨b2 ++ [10], data
          ++ ([10, 101, 110, 100, 115, 116, 114, 101, 97, 109, 10] ++ strEndobj)⟩ := by
      have := Seek_Tell ⟨b2 ++ [10], data
          ++ ([10, 101, 110, 100, 115, 116, 114, 101, 97, 109, 10] ++ strEndobj)⟩
      simp only [skipToStreamBody, PdfInputDevice.Look, List.head?_cons,
        PdfInputDevice.GetChar, this]
    have hread := SetRawData_loop_device data.length data rfl
      (data.length + (data
          ++ ([10, 101, 110, 100, 115, 116, 114, 101, 97, 109, 10] ++ strEndobj)).length + 1)
      (b2 ++ [10]) ([10, 101, 110, 100, 115, 116, 114, 101, 97, 109, 10] ++ strEndobj) []
      (by omega)
    have hneg : ¬ ((data.length : Int) < 0) := by omega
    simp only [ParseStream, Bool.true_eq_false, if_false, hkey, hseek, hskip,
      Option.getD_none, PdfStream.SetRawData, PdfStream.BeginAppendRaw, Bool.false_eq_true,
      if_true, hneg, Int.toNat_ofNat, hread, List.nil_append, PdfStream.EndAppend]
  exact ⟨_, _, hP, hS, rfl, rfl, rfl, rfl⟩

theorem ParseFile_ParseStream_object_witness :
    objectBytes 1 0 [72, 69, 76, 76, 79]
        = [49, 32, 48, 32, 111, 98, 106, 10, 60, 60, 32, 47, 76, 101, 110, 103, 116, 104, 32, 53,
            32, 62, 62, 10, 115, 116, 114, 101, 97, 109, 10, 72, 69, 76, 76, 79, 10, 101, 110,
            100, 115, 116, 114, 101, 97, 109, 10, 101, 110, 100, 111, 98, 106]
      ∧ ∃ o1 o2 : PdfParserObject,
          ParseFile (PdfParserObject.new ⟨[], objectBytes 1 0 [72, 69, 76, 76, 79]⟩ 0) none false
              = (.ok (), o1)
            ∧ ParseStream o1 = (.ok (), o2)
            ∧ o2.m_reference = (1, 0)
            ∧ o2.m_Variant = PdfVariant.Dictionary [(strLength, PdfVariant.Number 5)]
            ∧ o2.m_HasStream = true
            ∧ o2.m_Stream = some ⟨false, [72, 69, 76, 76, 79]⟩ :=
  ⟨by decide, ParseFile_ParseStream_object 1 0 [72, 69, 76, 76, 79] (by decide) (by decide)
    (by decide)⟩

/-! ## Octal escapes -/

theorem lor_octal (v d : Nat) (hd : d < 8) : (v * 8 % 256) ||| d = (v * 8 + d) % 256 := by
  have h1 : v * 8 % 256 = 2 ^ 3 * (v % 32) := by omega
  rw [h1, ← Nat.mul_add_lt_is_or (by simpa using hd)]
  omega

theorem ReadString_body_octal (bf r : List Nat) (c : Nat) (bO : Bool) (nO : Int) (cO : Nat)
    (nB : Int) (vec : List Nat) (hc : 48 ≤ c ∧ c ≤ 55) :
    ReadString_body ⟨⟨bf, c :: r⟩, true, bO, nO, cO, nB, vec⟩ c
      = if nO + 1 > 2 then
          (false, ⟨⟨bf ++ [c], r⟩, false, false, 0, 0, nB, vec ++ [(cO * 8 + (c - 48)) % 256]⟩)
        else
          (false, ⟨⟨bf ++ [c], r⟩, true, true, nO + 1, (cO * 8 + (c - 48)) % 256, nB, vec⟩) := by
  have hmod : c % 256 = c := Nat.mod_eq_of_lt (by omega)
  have hmap : s_octMap c = 1 := by simp [s_octMap, hc]
  have hd : ((intOfChar (some c) - 48) % 8).toNat = c - 48 := by
    simp only [intOfChar]
    omega
  simp only [ReadString_body, hmod, hmap, PdfInputDevice.GetChar, hd,
    lor_octal cO (c - 48) (by omega)]
  simp

theorem ReadString_body_octal_end (bf r : List Nat) (x : Nat) (nO : Int) (cO : Nat)
    (nB : Int) (vec : List Nat) (hx : x < 256) (hno : ¬ (48 ≤ x ∧ x ≤ 55)) :
    ReadString_body ⟨⟨bf, x :: r⟩, true, true, nO, cO, nB, vec⟩ x
      = (false, ⟨⟨bf, x :: r⟩, false, false, 0, 0, nB, vec ++ [cO]⟩) := by
  have hmod : x % 256 = x := Nat.mod_eq_of_lt hx
  have hmap : s_octMap x = 0 := by simp [s_octMap, hno]
  simp [ReadString_body, hmod, hmap]

/-- C11: in the loop of `ReadString`, outside an escape, a backslash followed by octal
digits appends one byte, the octal number reduced modulo 256. Three digits `a b c` are
taken and whatever follows stays in the device; after two digits or one digit a byte `x`
that is not an octal digit ends the escape, the value is appended and `x` stays in the
device to be read next outside an escape; and when the input ends after one or two digits
`ReadString` appends the pending value as well. -/
theorem ReadString_octal_escape (bf rest vec : List Nat) (nB : Int) (fuel a b c x : Nat)
    (ha : 48 ≤ a ∧ a ≤ 55) (hb : 48 ≤ b ∧ b ≤ 55) (hc : 48 ≤ c ∧ c ≤ 55)
    (hx : x < 256) (hno : ¬ (48 ≤ x ∧ x ≤ 55)) :
    ReadString_loop (fuel + 4) ⟨⟨bf, 92 :: a :: b :: c :: rest⟩, false, false, 0, 0, nB, vec⟩
        = ReadString_loop fuel ⟨⟨bf ++ [92, a, b, c], rest⟩, false, false, 0, 0, nB,
            vec ++ [octalValue [a, b, c] % 256]⟩
      ∧ ReadString_loop (fuel + 4) ⟨⟨bf, 92 :: a :: b :: x :: rest⟩, false, false, 0, 0, nB, vec⟩
        = ReadString_loop fuel ⟨⟨bf ++ [92, a, b], x :: rest⟩, false, false, 0, 0, nB,
            vec ++ [octalValue [a, b] % 256]⟩
      ∧ ReadString_loop (fuel + 3) ⟨⟨bf, 92 :: a :: x :: rest⟩, false, false, 0, 0, nB, vec⟩
        = ReadString_loop fuel ⟨⟨bf ++ [92, a], x :: rest⟩, false, false, 0, 0, nB,
            vec ++ [octalValue [a] % 256]⟩
      ∧ (ReadString ⟨some ⟨bf, [92, a, b]⟩, PDF_BUFFER, [], []⟩ none).1
        = .ok (PdfVariant.String [octalValue [a, b] % 256] false)
      ∧ (ReadString ⟨some ⟨bf, [92, a]⟩, PDF_BUFFER, [], []⟩ none).1
        = .ok (PdfVariant.String [octalValue [a] % 256] false) := by
  have v1 : (0 * 8 + (a - 48)) % 256 = octalValue [a] % 256 := by simp [octalValue]
  have v2 : ((0 * 8 + (a - 48)) % 256 * 8 + (b - 48)) % 256 = octalValue [a, b] % 256 := by
    simp only [octalValue, List.foldl_cons, List.foldl_nil]
    omega
  have v3 : (((0 * 8 + (a - 48)) % 256 * 8 + (b - 48)) % 256 * 8 + (c - 48)) % 256
      = octalValue [a, b, c] % 256 := by
    simp only [octalValue, List.foldl_cons, List.foldl_nil]
    omega
  have n1 : ¬ ((0 : Int) + 1 > 2) := by omega
  have n2 : ¬ ((0 : Int) + 1 + 1 > 2) := by omega
  have n3 : (0 : Int) + 1 + 1 + 1 > 2 := by omega
  refine ⟨?_, ?_, ?_, ?_, ?_⟩
  · rw [ReadString_loop_cons, ReadString_body_backslash, ReadString_loop_cons,
      ReadString_body_octal _ _ _ _ _ _ _ _ ha]
    simp only [n1, if_false, Bool.false_eq_true]
    rw [ReadString_loop_cons, ReadString_body_octal _ _ _ _ _ _ _ _ hb]
    simp only [n2, if_false, Bool.false_eq_true]
    rw [ReadString_loop_cons, ReadString_body_octal _ _ _ _ _ _ _ _ hc]
    simp only [n3, if_true, Bool.false_eq_true, if_false, v3]
    simp
  · rw [ReadString_loop_cons, ReadString_body_backslash, ReadString_loop_cons,
      ReadString_body_octal _ _ _ _ _ _ _ _ ha]
    simp only [n1, if_false, Bool.false_eq_true]
    rw [ReadString_loop_cons, ReadString_body_octal _ _ _ _ _ _ _ _ hb]
    simp only [n2, if_false, Bool.false_eq_true]
    rw [ReadString_loop_cons, ReadString_body_octal_end _ _ _ _ _ _ _ hx hno]
    simp only [Bool.false_eq_true, if_false, v2]
    simp
  · rw [ReadString_loop_cons, ReadString_body_backslash, ReadString_loop_cons,
      ReadString_body_octal _ _ _ _ _ _ _ _ ha]
    simp only [n1, if_false, Bool.false_eq_true]
    rw [ReadString_loop_cons, ReadString_body_octal_end _ _ _ _ _ _ _ hx hno]
    simp only [Bool.false_eq_true, if_false, v1]
    simp
  · have hl : ReadString_loop (2 * [92, a, b].length + 2)
        ⟨⟨bf, [92, a, b]⟩, false, false, 0, 0, 0, []⟩
        = ⟨⟨bf ++ [92] ++ [a] ++ [b], []⟩, true, true, 0 + 1 + 1,
            octalValue [a, b] % 256, 0, []⟩ := by
      show ReadString_loop (4 + 3 + 1) _ = _
      rw [ReadString_loop_cons, ReadString_body_backslash]
      simp only [Bool.false_eq_true, if_false]
      show ReadString_loop (4 + 2 + 1) _ = _
      rw [ReadString_loop_cons, ReadString_body_octal _ _ _ _ _ _ _ _ ha]
      simp only [n1, if_false, Bool.false_eq_true]
      show ReadString_loop (4 + 1 + 1) _ = _
      rw [ReadString_loop_cons, ReadString_body_octal _ _ _ _ _ _ _ _ hb]
      simp only [n2, if_false, Bool.false_eq_true, v2]
      rfl
    simp only [ReadString, hl]
    simp
  · have hl : ReadString_loop (2 * [92, a].length + 2)
        ⟨⟨bf, [92, a]⟩, false, false, 0, 0, 0, []⟩
        = ⟨⟨bf ++ [92] ++ [a], []⟩, true, true, 0 + 1, octalValue [a] % 256, 0, []⟩ := by
      show ReadString_loop (3 + 2 + 1) _ = _
      rw [ReadString_loop_cons, ReadString_body_backslash]
      simp only [Bool.false_eq_true, if_false]
      show ReadString_loop (3 + 1 + 1) _ = _
      rw [ReadString_loop_cons, ReadString_body_octal _ _ _ _ _ _ _ _ ha]
      simp only [n1, if_false, Bool.false_eq_true, v1]
      rfl
    simp only [ReadString, hl]
    simp

theorem ReadString_octal_escape_witness :
    ReadString_loop (1 + 4) ⟨⟨[], 92 :: 49 :: 48 :: 49 :: [41]⟩, false, false, 0, 0, 0, []⟩
      = ReadString_loop 1 ⟨⟨[] ++ [92, 49, 48, 49], [41]⟩, false, false, 0, 0, 0,
          [] ++ [octalValue [49, 48, 49] % 256]⟩ :=
  (ReadString_octal_escape [] [41] [] 0 1 49 48 49 120 (by decide) (by decide) (by decide)
    (by decide) (by decide)).1

/-! ## Hex strings -/

theorem ReadHexString_loop_closed (body : List Nat) : ∀ (fuel : Nat) (bf rest v : List Nat),
    body.length + 1 ≤ fuel → 62 ∉ body →
    ReadHexString_loop fuel ⟨bf, body ++ 62 :: rest⟩ v
      = (⟨bf ++ body ++ [62], rest⟩, v ++ body.filter isHexDigit) := by
  induction body with
  | nil =>
    intro fuel bf rest v hf _
    obtain ⟨f, rfl⟩ : ∃ f, fuel = f + 1 := ⟨fuel - 1, by omega⟩
    simp [ReadHexString_loop, PdfInputDevice.GetChar]
  | cons c t ih =>
    intro fuel bf rest v hf h62
    obtain ⟨f, rfl⟩ : ∃ f, fuel = f + 1 := ⟨fuel - 1, by omega⟩
    have hc : c ≠ 62 := fun h => h62 (by simp [h])
    have ht : 62 ∉ t := fun h => h62 (List.mem_cons_of_mem _ h)
    have hf2 : t.length + 1 ≤ f := by simp only [List.length_cons] at hf; omega
    by_cases hh : isHexDigit c = true
    · simp only [List.cons_append, ReadHexString_loop, PdfInputDevice.GetChar, hc, if_false,
        hh, if_true, List.filter_cons]
      rw [ih f (bf ++ [c]) rest (v ++ [c]) hf2 ht]
      simp
    · simp only [List.cons_append, ReadHexString_loop, PdfInputDevice.GetChar, hc, if_false,
        hh, List.filter_cons]
      rw [ih f (bf ++ [c]) rest v hf2 ht]
      simp

theorem ReadHexString_loop_open (body : List Nat) : ∀ (fuel : Nat) (bf v : List Nat),
    body.length + 1 ≤ fuel → 62 ∉ body →
    ReadHexString_loop fuel ⟨bf, body⟩ v = (⟨bf ++ body, []⟩, v ++ body.filter isHexDigit) := by
  induction body with
  | nil =>
    intro fuel bf v hf _
    obtain ⟨f, rfl⟩ : ∃ f, fuel = f + 1 := ⟨fuel - 1, by omega⟩
    simp [ReadHexString_loop, PdfInputDevice.GetChar]
  | cons c t ih =>
    intro fuel bf v hf h62
    obtain ⟨f, rfl⟩ : ∃ f, fuel = f + 1 := ⟨fuel - 1, by omega⟩
    have hc : c ≠ 62 := fun h => h62 (by simp [h])
    have ht : 62 ∉ t := fun h => h62 (List.mem_cons_of_mem _ h)
    have hf2 : t.length + 1 ≤ f := by simp only [List.length_cons] at hf; omega
    by_cases hh : isHexDigit c = true
    · simp only [ReadHexString_loop, PdfInputDevice.GetChar, hc, if_false, hh, if_true,
        List.filter_cons]
      rw [ih f (bf ++ [c]) (v ++ [c]) hf2 ht]
      simp
    · simp only [ReadHexString_loop, PdfInputDevice.GetChar, hc, if_false, hh,
        List.filter_cons]
      rw [ih f (bf ++ [c]) v hf2 ht]
      simp

theorem ReadHexStringBuffer_closed (bf body rest : List Nat) (h62 : 62 ∉ body) :
    ReadHexStringBuffer ⟨bf, body ++ 62 :: rest⟩
      = (⟨bf ++ body ++ [62], rest⟩, padEven (body.filter isHexDigit)) := by
  have h := ReadHexString_loop_closed body ((body ++ 62 :: rest).length + 1) bf rest []
    (by simp only [List.length_append, List.length_cons]; omega) h62
  simp only [ReadHexStringBuffer, h, List.nil_append, padEven]
  split_ifs <;> first | rfl | omega

theorem ReadHexStringBuffer_open (bf body : List Nat) (h62 : 62 ∉ body) :
    ReadHexStringBuffer ⟨bf, body⟩ = (⟨bf ++ body, []⟩, padEven (body.filter isHexDigit)) := by
  have h := ReadHexString_loop_open body (body.length + 1) bf [] (le_refl _) h62
  simp only [ReadHexStringBuffer, h, List.nil_append, padEven]
  split_ifs <;> first | rfl | omega

/-- C12: `ReadHexString` in its buffer form, on a body without `>` followed by `>` and
`rest`, consumes the body and the `>`, leaves the device at `rest`, and returns the hex
digits of the body in order, every other byte ignored, with one `0` added when their
number is odd; without a `>` it consumes the input to its end and returns the same. The
result has even length and holds hex digits only, and `48656C6C6F1>` gives
`48656C6C6F10`. -/
theorem ReadHexStringBuffer_digits (bf body rest : List Nat) (h62 : 62 ∉ body) :
    ReadHexStringBuffer ⟨bf, body ++ 62 :: rest⟩
        = (⟨bf ++ body ++ [62], rest⟩, padEven (body.filter isHexDigit))
      ∧ ReadHexStringBuffer ⟨bf, body⟩
        = (⟨bf ++ body, []⟩, padEven (body.filter isHexDigit))
      ∧ (padEven (body.filter isHexDigit)).length % 2 = 0
      ∧ (∀ c ∈ padEven (body.filter isHexDigit), isHexDigit c = true)
      ∧ (ReadHexStringBuffer ⟨[60], [52, 56, 54, 53, 54, 67, 54, 67, 54, 70, 49, 62]⟩).2
        = [52, 56, 54, 53, 54, 67, 54, 67, 54, 70, 49, 48] := by
  refine ⟨ReadHexStringBuffer_closed bf body rest h62, ReadHexStringBuffer_open bf body h62,
    ?_, ?_, rfl⟩
  · simp only [padEven]
    split_ifs with h
    · simp only [List.length_append, List.length_singleton]; omega
    · omega
  · intro c hc
    simp only [padEven] at hc
    split_ifs at hc
    · rcases List.mem_append.1 hc with h | h
      · exact (List.mem_filter.1 h).2
      · simp only [List.mem_singleton] at h
        subst h
        decide
    · exact (List.mem_filter.1 hc).2

theorem ReadHexStringBuffer_digits_witness :
    ReadHexStringBuffer ⟨[60], [52, 32, 56, 120] ++ 62 :: [32]⟩
      = (⟨[60] ++ [52, 32, 56, 120] ++ [62], [32]⟩,
          padEven ([52, 32, 56, 120].filter isHexDigit)) :=
  (ReadHexStringBuffer_digits [60] [52, 32, 56, 120] [32] (by decide)).1

theorem genHexMap_nibble (v c : Nat) (hv : v < 16) (hc : c ∈ nibbleChars v) :
    genHexMap c = some v ∧ isHexDigit c = true ∧ IsWhitespace c = false ∧ c ≠ 62 := by
  simp only [nibbleChars] at hc
  have hcv : (v < 10 ∧ c = 48 + v) ∨ (10 ≤ v ∧ (c = 55 + v ∨ c = 87 + v)) := by
    split_ifs at hc with h
    · simp only [List.mem_singleton] at hc
      exact Or.inl ⟨h, hc⟩
    · simp only [List.mem_cons, List.mem_singleton, List.not_mem_nil, or_false] at hc
      exact Or.inr ⟨by omega, hc⟩
  have hlt : c < 256 := by omega
  have hmod : c % 256 = c := Nat.mod_eq_of_lt hlt
  have hws : ¬ (c = 0 ∨ c = 9 ∨ c = 10 ∨ c = 12 ∨ c = 13 ∨ c = 32) := by omega
  refine ⟨?_, ?_, ?_, by omega⟩
  · simp only [genHexMap]
    split_ifs <;> (congr 1; omega)
  · simp only [isHexDigit, isdigit, Bool.or_eq_true, decide_eq_true_eq]
    omega
  · simp only [IsWhitespace, genWsMap, hmod, s_cWhiteSpaces, List.mem_cons,
      List.mem_singleton, List.not_mem_nil, or_false, hws, if_false]
    rfl

theorem writesHex_spec (b : List Nat) : ∀ (digits : List Nat), writesHex digits b = true →
    decodePairs digits = some b ∧ hexDecode digits = b ∧ digits.length % 2 = 0
      ∧ (∀ c ∈ digits, isHexDigit c = true ∧ IsWhitespace c = false ∧ c ≠ 62) := by
  induction b with
  | nil =>
    intro digits h
    cases digits with
    | nil => simp [decodePairs, hexDecode]
    | cons h1 t =>
      cases t with
      | nil => simp [writesHex] at h
      | cons l1 t2 => simp [writesHex] at h
  | cons x bs ih =>
    intro digits h
    cases digits with
    | nil => simp [writesHex] at h
    | cons h1 t =>
      cases t with
      | nil => simp [writesHex] at h
      | cons l1 ds =>
        simp only [writesHex, Bool.and_eq_true, decide_eq_true_eq] at h
        obtain ⟨⟨⟨hx, hh⟩, hl⟩, hrest⟩ := h
        obtain ⟨i1, i2, i3, i4⟩ := ih ds hrest
        obtain ⟨g1, g2, g3, g4⟩ := genHexMap_nibble (x / 16) h1 (by omega) hh
        obtain ⟨k1, k2, k3, k4⟩ := genHexMap_nibble (x % 16) l1 (by omega) hl
        refine ⟨?_, ?_, ?_, ?_⟩
        · simp only [decodePairs, g1, k1, i1, Option.some.injEq, List.cons.injEq, and_true]
          omega
        · simp only [hexDecode, g1, k1, i2, Option.getD_some, List.cons.injEq, and_true]
          omega
        · simp only [List.length_cons]; omega
        · intro c hc
          rcases List.mem_cons.1 hc with rfl | hc
          · exact ⟨g2, g3, g4⟩
          · rcases List.mem_cons.1 hc with rfl | hc
            · exact ⟨k2, k3, k4⟩
            · exact i4 c hc

/-- C13: for every sequence `b` of bytes, when the text `txt` writes `b` as hex digits, two
per byte, letters in either case and white space anywhere in between, `ReadHexString` on
`txt` followed by `>` yields those digits, and decoding them two by two through the hex
map of the tokenizer gives exactly `b`; the hex map gives each digit `0`-`9`, `a`-`f`,
`A`-`F` its value; and `48656C6C6F>` yields the bytes `Hello`. -/
theorem ReadHexString_decodes_written_bytes (b digits txt bf rest : List Nat)
    (hw : writesHex digits b = true)
    (htxt : txt.filter (fun c => !IsWhitespace c) = digits) :
    (ReadHexStringBuffer ⟨bf, txt ++ 62 :: rest⟩).2 = digits
      ∧ decodePairs (ReadHexStringBuffer ⟨bf, txt ++ 62 :: rest⟩).2 = some b
      ∧ (ReadHexString ⟨some ⟨bf, txt ++ 62 :: rest⟩, PDF_BUFFER, [], []⟩ none).1
          = .ok (PdfVariant.String b true)
      ∧ (∀ v c, v < 16 → c ∈ nibbleChars v → genHexMap c = some v)
      ∧ (ReadHexString ⟨some ⟨[60], [52, 56, 54, 53, 54, 67, 54, 67, 54, 70, 62]⟩,
            PDF_BUFFER, [], []⟩ none).1
          = .ok (PdfVariant.String [72, 101, 108, 108, 111] true) := by
  obtain ⟨h1, h2, h3, h4⟩ := writesHex_spec b digits hw
  have h62 : 62 ∉ txt := by
    intro hm
    have : (62 : Nat) ∈ digits := by
      rw [← htxt]
      exact List.mem_filter.2 ⟨hm, by decide⟩
    exact (h4 62 this).2.2 rfl
  have hfil : txt.filter isHexDigit = digits := by
    have e1 : digits.filter isHexDigit = digits := by
      rw [List.filter_eq_self]
      exact fun c hc => (h4 c hc).1
    rw [← e1, ← htxt, List.filter_filter]
    apply List.filter_congr
    intro c hc
    by_cases hws : IsWhitespace c = true
    · have hnh : isHexDigit c = false := by
        by_contra hne
        have hh : isHexDigit c = true := by simpa using hne
        have hlt : c < 256 := by
          simp only [isHexDigit, isdigit, Bool.or_eq_true, decide_eq_true_eq] at hh
          omega
        have hmod : c % 256 = c := Nat.mod_eq_of_lt hlt
        simp only [isHexDigit, isdigit, Bool.or_eq_true, decide_eq_true_eq] at hh
        simp only [IsWhitespace, genWsMap, hmod, s_cWhiteSpaces, List.mem_cons,
          List.mem_singleton, List.not_mem_nil, or_false, bne_iff_ne, ne_eq,
          ite_eq_right_iff, one_ne_zero, imp_false, not_not] at hws
        omega
      simp [hws, hnh]
    · simp [hws]
  have hbuf : ReadHexStringBuffer ⟨bf, txt ++ 62 :: rest⟩
      = (⟨bf ++ txt ++ [62], rest⟩, digits) := by
    rw [ReadHexStringBuffer_closed bf txt rest h62, hfil, padEven]
    have : ¬ digits.length % 2 = 1 := by omega
    simp only [this, if_false]
  have hnows : digits.filter (fun c => !IsWhitespace c) = digits := by
    rw [List.filter_eq_self]
    intro c hc
    simp [(h4 c hc).2.1]
  refine ⟨by rw [hbuf], by rw [hbuf]; exact h1, ?_,
    fun v c hv hc => (genHexMap_nibble v c hv hc).1, rfl⟩
  simp only [ReadHexString, hbuf, SetHexData, hnows, h2]

theorem ReadHexString_decodes_written_bytes_witness :
    decodePairs (ReadHexStringBuffer ⟨[60], [52, 32, 97] ++ 62 :: []⟩).2 = some [74] :=
  (ReadHexString_decodes_written_bytes [74] [52, 97] [52, 32, 97] [60] [] (by decide)
    (by decide)).2.1

/-! ## The `Contents` entry of a dictionary -/

namespace PdfCanvasInputDevice

theorem tryGetNextDevice_null (e fl dv : Bool) (cs : List (Option (List Nat))) :
    tryGetNextDevice ⟨e, cs, none, fl⟩ dv = (.error .InternalLogic, ⟨e, cs, none, fl⟩) := by
  simp [tryGetNextDevice]

theorem tryGetNextDevice_first (e fl : Bool) (cs : List (Option (List Nat)))
    (d : SpanStreamDevice) :
    tryGetNextDevice ⟨e, cs, some d, fl⟩ false = (.ok true, ⟨e, cs, some d, fl⟩) := by
  simp [tryGetNextDevice]

theorem tryGetNextDevice_nil (e fl : Bool) (d : SpanStreamDevice) :
    tryGetNextDevice ⟨e, [], some d, fl⟩ true = (.ok false, ⟨e, [], some d, fl⟩) := by
  simp [tryGetNextDevice]

theorem tryGetNextDevice_streamless (e fl : Bool) (rest : List (Option (List Nat)))
    (d : SpanStreamDevice) :
    tryGetNextDevice ⟨e, none :: rest, some d, fl⟩ true = (.ok false, ⟨e, rest, none, fl⟩) := by
  simp [tryGetNextDevice, tryPopNextDevice]

theorem tryGetNextDevice_block (e fl : Bool) (b : List Nat) (rest : List (Option (List Nat)))
    (d : SpanStreamDevice) :
    tryGetNextDevice ⟨e, some b :: rest, some d, fl⟩ true
      = (.ok true, ⟨e, rest, some ⟨b⟩, true⟩) := by
  simp [tryGetNextDevice, tryPopNextDevice]

theorem peek_loop_next (e fl : Bool) (d : SpanStreamDevice) :
    ∀ (cs : List (Option (List Nat))) (f : Nat), cs.length < f →
      peek_loop f ⟨e, cs, some d, fl⟩ true
        = (.ok (joinBlocks cs).head?, nextBlock e cs (some d)) := by
  intro cs
  induction cs generalizing d fl with
  | nil =>
    intro f hf
    obtain ⟨g, rfl⟩ : ∃ g, f = g + 1 := ⟨f - 1, by omega⟩
    simp [peek_loop, tryGetNextDevice_nil, setEOF, joinBlocks, nextBlock]
  | cons b rest ih =>
    intro f hf
    simp only [List.length_cons] at hf
    obtain ⟨g, rfl⟩ : ∃ g, f = g + 1 := ⟨f - 1, by omega⟩
    rcases b with _ | b
    · simp [peek_loop, tryGetNextDevice_streamless, setEOF, joinBlocks, nextBlock]
    · rcases b with _ | ⟨c, r⟩
      · simp only [peek_loop, tryGetNextDevice_block, SpanStreamDevice.Peek, List.head?_nil,
          joinBlocks, nextBlock]
        exact ih true ⟨[]⟩ g (by omega)
      · simp [peek_loop, tryGetNextDevice_block, SpanStreamDevice.Peek, joinBlocks, nextBlock]

theorem readChar_loop_next (e fl : Bool) (d : SpanStreamDevice) :
    ∀ (cs : List (Option (List Nat))) (f : Nat), cs.length < f →
      readChar_loop f ⟨e, cs, some d, fl⟩ true
        = (.ok (joinBlocks cs).head?,
            { nextBlock e cs (some d) with m_deviceSwitchOccurred := false }) := by
  intro cs
  induction cs generalizing d fl with
  | nil =>
    intro f hf
    obtain ⟨g, rfl⟩ : ∃ g, f = g + 1 := ⟨f - 1, by omega⟩
    simp [readChar_loop, tryGetNextDevice_nil, setEOF, joinBlocks, nextBlock]
  | cons b rest ih =>
    intro f hf
    simp only [List.length_cons] at hf
    obtain ⟨g, rfl⟩ : ∃ g, f = g + 1 := ⟨f - 1, by omega⟩
    rcases b with _ | b
    · simp [readChar_loop, tryGetNextDevice_streamless, setEOF, joinBlocks, nextBlock]
    · rcases b with _ | ⟨c, r⟩
      · simp only [readChar_loop, tryGetNextDevice_block, SpanStreamDevice.Peek, List.head?_nil,
          joinBlocks, nextBlock, if_true]
        exact ih true ⟨[]⟩ g (by omega)
      · simp [readChar_loop, tryGetNextDevice_block, SpanStreamDevice.Peek, joinBlocks, nextBlock]

theorem nextBlock_cases (e : Bool) :
    ∀ (cs : List (Option (List Nat))) (dev : Option SpanStreamDevice),
      (joinBlocks cs = [] ∧ (nextBlock e cs dev).m_eof = true
          ∧ (nextBlock e cs dev).m_deviceSwitchOccurred = false)
        ∨ ∃ c r rest, nextBlock e cs dev = ⟨e, rest, some ⟨c :: r⟩, true⟩
            ∧ joinBlocks cs = 10 :: c :: r ++ joinBlocks rest := by
  intro cs
  induction cs with
  | nil => intro dev; left; simp [joinBlocks, nextBlock]
  | cons b rest ih =>
    intro dev
    rcases b with _ | b
    · left; simp [joinBlocks, nextBlock]
    · rcases b with _ | ⟨c, r⟩
      · simpa only [joinBlocks, nextBlock] using ih (some ⟨[]⟩)
      · right; exact ⟨c, r, rest, by simp [nextBlock], by simp [joinBlocks]⟩

end PdfCanvasInputDevice

namespace PdfCanvasInputDevice

theorem peek_eof (cs : List (Option (List Nat))) (dev : Option SpanStreamDevice) (fl : Bool) :
    peek ⟨true, cs, dev, fl⟩ = (.ok none, ⟨true, cs, dev, fl⟩) := by
  simp [peek]

theorem peek_null (cs : List (Option (List Nat))) (fl : Bool) :
    peek ⟨false, cs, none, fl⟩ = (.error .InternalLogic, ⟨false, cs, none, fl⟩) := by
  simp [peek, peek_loop, tryGetNextDevice_null]

theorem peek_cons (cs : List (Option (List Nat))) (x : Nat) (r : List Nat) (fl : Bool) :
    peek ⟨false, cs, some ⟨x :: r⟩, fl⟩
      = (.ok (some (if fl = true then 10 else x)), ⟨false, cs, some ⟨x :: r⟩, fl⟩) := by
  cases fl <;> simp [peek, peek_loop, tryGetNextDevice_first, SpanStreamDevice.Peek]

theorem peek_nil (cs : List (Option (List Nat))) (fl : Bool) :
    peek ⟨false, cs, some ⟨[]⟩, fl⟩
      = (.ok (joinBlocks cs).head?, nextBlock false cs (some ⟨[]⟩)) := by
  simp only [peek, peek_loop, tryGetNextDevice_first, SpanStreamDevice.Peek, List.head?_nil,
    Bool.false_eq_true, if_false]
  exact peek_loop_next false fl ⟨[]⟩ cs (cs.length + 1) (by omega)

theorem readChar_eof (cs : List (Option (List Nat))) (dev : Option SpanStreamDevice)
    (fl : Bool) : readChar ⟨true, cs, dev, fl⟩ = (.ok none, ⟨true, cs, dev, fl⟩) := by
  simp [readChar]

theorem readChar_null (cs : List (Option (List Nat))) (fl : Bool) :
    readChar ⟨false, cs, none, fl⟩ = (.error .InternalLogic, ⟨false, cs, none, fl⟩) := by
  simp [readChar, readChar_loop, tryGetNextDevice_null]

theorem readChar_cons (cs : List (Option (List Nat))) (x : Nat) (r : List Nat) (fl : Bool) :
    readChar ⟨false, cs, some ⟨x :: r⟩, fl⟩
      = if fl = true then (.ok (some 10), ⟨false, cs, some ⟨x :: r⟩, false⟩)
        else (.ok (some x), ⟨false, cs, some ⟨r⟩, false⟩) := by
  cases fl <;>
    simp [readChar, readChar_loop, tryGetNextDevice_first, SpanStreamDevice.Peek,
      SpanStreamDevice.Read]

theorem readChar_nil (cs : List (Option (List Nat))) (fl : Bool) :
    readChar ⟨false, cs, some ⟨[]⟩, fl⟩
      = (.ok (joinBlocks cs).head?,
          { nextBlock false cs (some ⟨[]⟩) with m_deviceSwitchOccurred := false }) := by
  cases fl
  · simp only [readChar, readChar_loop, tryGetNextDevice_first, SpanStreamDevice.Read,
      Bool.false_eq_true, if_false]
    exact readChar_loop_next false false ⟨[]⟩ cs (cs.length + 1) (by omega)
  · simp only [readChar, readChar_loop, tryGetNextDevice_first, SpanStreamDevice.Peek,
      List.head?_nil, Bool.false_eq_true, if_false, if_true]
    exact readChar_loop_next false true ⟨[]⟩ cs (cs.length + 1) (by omega)

/-- Peeking leaves the device in a state from which `readChar` does what it would have done
without the peek, and returns what that `readChar` returns. -/
theorem peek_readChar (s : PdfCanvasInputDevice) :
    (peek s).1 = (readChar s).1 ∧ readChar (peek s).2 = readChar s
      ∧ peek (peek s).2 = peek s := by
  obtain ⟨e, cs, dev, fl⟩ := s
  cases e
  · rcases dev with _ | ⟨d⟩
    · simp [peek_null, readChar_null]
    · rcases d with _ | ⟨x, r⟩
      · rw [peek_nil, readChar_nil]
        rcases nextBlock_cases false cs (some ⟨[]⟩) with ⟨hj, he, hf⟩ | ⟨c, r, rest, hn, hj⟩
        · generalize nextBlock false cs (some ⟨[]⟩) = t at he hf
          obtain ⟨e1, cs1, dev1, fl1⟩ := t
          simp only at he hf
          subst he hf
          simp [hj, peek_eof, readChar_eof]
        · rw [hn, hj]
          simp [peek_cons, readChar_cons]
      · rw [peek_cons, readChar_cons]
        cases fl <;> simp [peek_cons, readChar_cons]
  · simp [peek_eof, readChar_eof]

end PdfCanvasInputDevice

/-! ### The bytes still to come -/

theorem pending_device (cs : List (Option (List Nat))) (l : List Nat) :
    pending ⟨false, cs, some ⟨l⟩, false⟩ = l ++ joinBlocks cs := by
  cases l <;> simp [pending]

theorem pending_switch (cs : List (Option (List Nat))) (c : Nat) (r : List Nat) :
    pending ⟨false, cs, some ⟨c :: r⟩, true⟩ = 10 :: c :: r ++ joinBlocks cs := by
  simp [pending]

theorem pending_eof (cs : List (Option (List Nat))) (dev : Option SpanStreamDevice) (fl : Bool) :
    pending ⟨true, cs, dev, fl⟩ = [] := by
  simp [pending]

theorem pending_nextBlock (cs : List (Option (List Nat))) (dev : Option SpanStreamDevice) :
    pending (nextBlock false cs dev) = joinBlocks cs
      ∧ pending { nextBlock false cs dev with m_deviceSwitchOccurred := false }
          = (joinBlocks cs).tail
      ∧ wellFormed { nextBlock false cs dev with m_deviceSwitchOccurred := false } = true
      ∧ (joinBlocks cs = [] → (nextBlock false cs dev).m_eof = true) := by
  rcases PdfCanvasInputDevice.nextBlock_cases false cs dev with
    ⟨hj, he, hf⟩ | ⟨c, r, rest, hn, hj⟩
  · generalize nextBlock false cs dev = t at he hf
    obtain ⟨e1, cs1, dev1, fl1⟩ := t
    simp only at he hf
    subst he hf
    simp [hj, pending_eof, wellFormed]
  · rw [hn, hj]
    simp [pending_switch, pending_device, wellFormed]

theorem readChar_pending (s : PdfCanvasInputDevice) (h : wellFormed s = true) :
    s.readChar.1 = .ok (pending s).head? ∧ pending s.readChar.2 = (pending s).tail
      ∧ wellFormed s.readChar.2 = true ∧ (pending s = [] → s.readChar.2.m_eof = true) := by
  obtain ⟨e, cs, dev, fl⟩ := s
  cases e
  · rcases dev with _ | ⟨d⟩
    · simp [wellFormed] at h
    · rcases d with _ | ⟨x, r⟩
      · rw [PdfCanvasInputDevice.readChar_nil]
        have hp : pending ⟨false, cs, some ⟨[]⟩, fl⟩ = joinBlocks cs := by simp [pending]
        rw [hp]
        obtain ⟨-, h2, h3, h4⟩ := pending_nextBlock cs (some ⟨[]⟩)
        exact ⟨rfl, h2, h3, h4⟩
      · rw [PdfCanvasInputDevice.readChar_cons]
        cases fl
        · simp [pending_device, wellFormed]
        · simp [pending_device, pending_switch, wellFormed]
  · simp [PdfCanvasInputDevice.readChar_eof, pending_eof, wellFormed]

theorem readToEnd_pending : ∀ (n : Nat) (s : PdfCanvasInputDevice), wellFormed s = true →
    (pending s).length = n → ∀ fuel, n < fuel →
      (readToEnd fuel s).1 = .ok (pending s) ∧ (readToEnd fuel s).2.m_eof = true := by
  intro n
  induction n with
  | zero =>
    intro s hw hl fuel hf
    obtain ⟨g, rfl⟩ : ∃ g, fuel = g + 1 := ⟨fuel - 1, by omega⟩
    have hp : pending s = [] := List.length_eq_zero.1 hl
    obtain ⟨h1, -, -, h4⟩ := readChar_pending s hw
    rw [hp] at h1
    have h4 := h4 hp
    have hrec : readToEnd (g + 1) s
        = (match s.readChar with
          | (.error e, s1) => (.error e, s1)
          | (.ok none, s1) => (.ok [], s1)
          | (.ok (some c), s1) =>
            match readToEnd g s1 with
            | (.error e, s2) => (.error e, s2)
            | (.ok l, s2) => (.ok (c :: l), s2)) := rfl
    generalize s.readChar = res at h1 h4 hrec
    obtain ⟨r, s1⟩ := res
    simp only [List.head?_nil] at h1 h4
    subst h1
    simp only at hrec
    rw [hrec, hp]
    exact ⟨rfl, h4⟩
  | succ m ih =>
    intro s hw hl fuel hf
    obtain ⟨g, rfl⟩ : ∃ g, fuel = g + 1 := ⟨fuel - 1, by omega⟩
    obtain ⟨c, p, hp⟩ : ∃ c p, pending s = c :: p := by
      cases hq : pending s with
      | nil => rw [hq] at hl; simp at hl
      | cons c p => exact ⟨c, p, rfl⟩
    obtain ⟨h1, h2, h3, -⟩ := readChar_pending s hw
    rw [hp] at h1 h2
    have hrec : readToEnd (g + 1) s
        = (match s.readChar with
          | (.error e, s1) => (.error e, s1)
          | (.ok none, s1) => (.ok [], s1)
          | (.ok (some c), s1) =>
            match readToEnd g s1 with
            | (.error e, s2) => (.error e, s2)
            | (.ok l, s2) => (.ok (c :: l), s2)) := rfl
    generalize s.readChar = res at h1 h2 h3 hrec
    obtain ⟨r, s1⟩ := res
    simp only [List.head?_cons, List.tail_cons] at h1 h2 h3
    subst h1
    simp only at hrec
    have hl1 : (pending s1).length = m := by
      rw [h2]; rw [hp] at hl; simpa using hl
    obtain ⟨i1, i2⟩ := ih s1 h3 hl1 g (by omega)
    generalize readToEnd g s1 = res2 at i1 i2 hrec
    obtain ⟨r2, s2⟩ := res2
    simp only at i1 i2
    subst i1
    simp only at hrec
    rw [hrec, hp, h2]
    exact ⟨rfl, i2⟩

theorem readsPending_newline (res : Raised (List Nat) × PdfCanvasInputDevice)
    (acc p : List Nat) (size : Nat) (hs : 0 < size)
    (h : readsPending res (acc ++ [10]) p (size - 1)) : readsPending res acc (10 :: p) size := by
  obtain ⟨g, rfl⟩ : ∃ g, size = g + 1 := ⟨size - 1, by omega⟩
  obtain ⟨h1, h2, h3, h4⟩ := h
  simp only [Nat.add_sub_cancel] at h1 h2 h4
  refine ⟨?_, ?_, h3, ?_⟩
  · rw [h1]; simp
  · rw [h2]; simp
  · intro hl
    apply h4
    simp only [List.length_cons] at hl
    omega

theorem readBuffer_read_part (cs : List (Option (List Nat))) (g : Nat)
    (hT : ∀ size acc fl d, 0 < size →
      readsPending (PdfCanvasInputDevice.readBuffer_loop g ⟨false, cs, some d, fl⟩ true size acc)
        acc (joinBlocks cs) size)
    (d acc : List Nat) (size : Nat) :
    readsPending
      (if size - (d.take size).length = 0 then
        (.ok (acc ++ d.take size), ⟨false, cs, some ⟨d.drop size⟩, false⟩)
      else PdfCanvasInputDevice.readBuffer_loop g ⟨false, cs, some ⟨d.drop size⟩, false⟩ true
        (size - (d.take size).length) (acc ++ d.take size))
      acc (d ++ joinBlocks cs) size := by
  by_cases hle : size ≤ d.length
  · have h0 : size - (d.take size).length = 0 := by
      rw [List.length_take]; omega
    rw [if_pos h0]
    refine ⟨?_, ?_, by simp [wellFormed], ?_⟩
    · simp only [List.take_append_of_le_length hle]
    · simp only [pending_device, List.drop_append_of_le_length hle]
    · intro hl
      simp only [List.length_append] at hl
      omega
  · have hlt : d.length < size := by omega
    have h0 : ¬ (size - (d.take size).length = 0) := by
      rw [List.length_take]; omega
    rw [if_neg h0]
    have ht : d.take size = d := List.take_of_length_le (by omega)
    have hd : d.drop size = [] := List.drop_of_length_le (by omega)
    rw [ht, hd]
    obtain ⟨h1, h2, h3, h4⟩ := hT (size - d.length) (acc ++ d) false ⟨[]⟩ (by omega)
    refine ⟨?_, ?_, h3, ?_⟩
    · rw [h1, List.take_append_eq_append_take, ht, List.append_assoc]
    · rw [h2, List.drop_append_eq_append_drop, List.drop_of_length_le (by omega : d.length ≤ size)]
      simp
    · intro hl
      apply h4
      simp only [List.length_append] at hl
      omega

theorem readBuffer_loop_first (cs : List (Option (List Nat)))
    (hT : ∀ f size acc fl d, cs.length < f → 0 < size →
      readsPending (PdfCanvasInputDevice.readBuffer_loop f ⟨false, cs, some d, fl⟩ true size acc)
        acc (joinBlocks cs) size)
    (f size : Nat) (acc : List Nat) (fl : Bool) (d : List Nat) (hf : cs.length + 1 < f)
    (hs : 0 < size) :
    readsPending (PdfCanvasInputDevice.readBuffer_loop f ⟨false, cs, some ⟨d⟩, fl⟩ false size acc)
      acc (pending ⟨false, cs, some ⟨d⟩, fl⟩) size := by
  obtain ⟨g, rfl⟩ : ∃ g, f = g + 1 := ⟨f - 1, by omega⟩
  have hT1 := fun size acc fl d (h : 0 < size) => hT g size acc fl d (by omega) h
  cases fl
  · simp only [PdfCanvasInputDevice.readBuffer_loop, PdfCanvasInputDevice.tryGetNextDevice_first,
      Bool.false_eq_true, if_false, SpanStreamDevice.ReadBuffer, pending_device]
    exact readBuffer_read_part cs g hT1 d acc size
  · rcases d with _ | ⟨x, r⟩
    · simp only [PdfCanvasInputDevice.readBuffer_loop,
        PdfCanvasInputDevice.tryGetNextDevice_first, SpanStreamDevice.Peek, List.head?_nil,
        if_true]
      have hp : pending ⟨false, cs, some ⟨[]⟩, true⟩ = joinBlocks cs := by simp [pending]
      rw [hp]
      exact hT1 size acc true ⟨[]⟩ hs
    · simp only [PdfCanvasInputDevice.readBuffer_loop,
        PdfCanvasInputDevice.tryGetNextDevice_first, SpanStreamDevice.Peek, List.head?_cons,
        if_true, SpanStreamDevice.ReadBuffer, pending_switch]
      apply readsPending_newline _ _ _ _ hs
      by_cases h1 : size - 1 = 0
      · simp only [h1, if_true, reduceCtorEq, if_false]
        refine ⟨by simp, by simp [pending_device], by simp [wellFormed], ?_⟩
        intro hl
        simp at hl
      · simp only [h1, if_false, reduceCtorEq]
        exact readBuffer_read_part cs g hT1 (x :: r) (acc ++ [10]) (size - 1)

theorem readBuffer_loop_next : ∀ (cs : List (Option (List Nat))) (f size : Nat) (acc : List Nat)
    (fl : Bool) (d : SpanStreamDevice), cs.length < f → 0 < size →
      readsPending (PdfCanvasInputDevice.readBuffer_loop f ⟨false, cs, some d, fl⟩ true size acc)
        acc (joinBlocks cs) size := by
  intro cs
  induction cs with
  | nil =>
    intro f size acc fl d hf hs
    obtain ⟨g, rfl⟩ : ∃ g, f = g + 1 := ⟨f - 1, by omega⟩
    simp [PdfCanvasInputDevice.readBuffer_loop, PdfCanvasInputDevice.tryGetNextDevice_nil,
      PdfCanvasInputDevice.setEOF, joinBlocks, readsPending, pending_eof, wellFormed]
  | cons b rest ih =>
    intro f size acc fl d hf hs
    simp only [List.length_cons] at hf
    obtain ⟨g, rfl⟩ : ∃ g, f = g + 1 := ⟨f - 1, by omega⟩
    rcases b with _ | b
    · simp [PdfCanvasInputDevice.readBuffer_loop,
        PdfCanvasInputDevice.tryGetNextDevice_streamless, PdfCanvasInputDevice.setEOF,
        joinBlocks, readsPending, pending_eof, wellFormed]
    · have hstep : PdfCanvasInputDevice.readBuffer_loop (g + 1)
            ⟨false, some b :: rest, some d, fl⟩ true size acc
          = PdfCanvasInputDevice.readBuffer_loop (g + 1) ⟨false, rest, some ⟨b⟩, true⟩ false
              size acc := by
        simp only [PdfCanvasInputDevice.readBuffer_loop,
          PdfCanvasInputDevice.tryGetNextDevice_block,
          PdfCanvasInputDevice.tryGetNextDevice_first]
      have hp : pending ⟨false, rest, some ⟨b⟩, true⟩ = joinBlocks (some b :: rest) := by
        cases b <;> simp [pending, joinBlocks]
      rw [hstep, ← hp]
      exact readBuffer_loop_first rest ih (g + 1) size acc true b (by omega) hs

theorem readBuffer_pending (s : PdfCanvasInputDevice) (size : Nat) (h : wellFormed s = true) :
    readsPending (s.readBuffer size) [] (pending s) size := by
  obtain ⟨e, cs, dev, fl⟩ := s
  by_cases h0 : size = 0
  · subst h0
    simp [PdfCanvasInputDevice.readBuffer, readsPending, h]
  · cases e
    · rcases dev with _ | d
      · simp [wellFormed] at h
      · obtain ⟨d⟩ := d
        simp only [PdfCanvasInputDevice.readBuffer, h0, Bool.false_eq_true, or_self, if_false]
        exact readBuffer_loop_first cs (readBuffer_loop_next cs) (cs.length + 2) size [] fl d
          (by omega) (by omega)
    · simp [PdfCanvasInputDevice.readBuffer, readsPending, pending_eof, wellFormed]

theorem joinBlocks_intercalate : ∀ (tl : List (List Nat)) (b1 : List Nat),
    (∀ b ∈ tl, b ≠ []) → b1 ++ joinBlocks (tl.map some) = List.intercalate [10] (b1 :: tl) := by
  intro tl
  induction tl with
  | nil => intro b1 _; simp [joinBlocks, List.intercalate]
  | cons b2 tl ih =>
    intro b1 h
    have h2 : b2 ≠ [] := h b2 (List.mem_cons_self _ _)
    obtain ⟨c, r, rfl⟩ : ∃ c r, b2 = c :: r := by
      cases b2 with
      | nil => exact absurd rfl h2
      | cons c r => exact ⟨c, r, rfl⟩
    have := ih (c :: r) (fun b hb => h b (List.mem_cons_of_mem _ hb))
    simp only [List.map_cons, joinBlocks]
    rw [List.cons_append, this]
    simp [List.intercalate]

theorem peek_pending (s : PdfCanvasInputDevice) (h : wellFormed s = true) :
    pending s.peek.2 = pending s ∧ wellFormed s.peek.2 = true := by
  obtain ⟨e, cs, dev, fl⟩ := s
  cases e
  · rcases dev with _ | d
    · simp [wellFormed] at h
    · obtain ⟨d⟩ := d
      rcases d with _ | ⟨x, r⟩
      · rw [PdfCanvasInputDevice.peek_nil]
        have hp : pending ⟨false, cs, some ⟨[]⟩, fl⟩ = joinBlocks cs := by simp [pending]
        obtain ⟨h1, -, h3, -⟩ := pending_nextBlock cs (some ⟨[]⟩)
        exact ⟨by rw [hp]; exact h1, by simpa [wellFormed] using h3⟩
      · rw [PdfCanvasInputDevice.peek_cons]
        exact ⟨rfl, h⟩
  · simp [PdfCanvasInputDevice.peek_eof, h]

theorem peek_reports_eof (s : PdfCanvasInputDevice) :
    (s.peek.1 = .ok none → s.peek.2.m_eof = true)
      ∧ (s.readChar.1 = .ok none → s.readChar.2.m_eof = true) := by
  obtain ⟨e, cs, dev, fl⟩ := s
  cases e
  · rcases dev with _ | d
    · simp [PdfCanvasInputDevice.peek_null, PdfCanvasInputDevice.readChar_null]
    · obtain ⟨d⟩ := d
      rcases d with _ | ⟨x, r⟩
      · rw [PdfCanvasInputDevice.peek_nil, PdfCanvasInputDevice.readChar_nil]
        rcases PdfCanvasInputDevice.nextBlock_cases false cs (some ⟨[]⟩) with
          ⟨hj, he, hf⟩ | ⟨c, r, rest, hn, hj⟩
        · exact ⟨fun _ => he, fun _ => he⟩
        · simp [hj]
      · rw [PdfCanvasInputDevice.peek_cons, PdfCanvasInputDevice.readChar_cons]
        cases fl <;> simp
  · simp [PdfCanvasInputDevice.peek_eof, PdfCanvasInputDevice.readChar_eof]

theorem peek_readBuffer (s : PdfCanvasInputDevice) (size : Nat) :
    (s.peek.2.readBuffer size).1 = (s.readBuffer size).1 := by
  by_cases h : wellFormed s = true
  · obtain ⟨h1, h2⟩ := peek_pending s h
    rw [(readBuffer_pending s.peek.2 size h2).1, (readBuffer_pending s size h).1, h1]
  · obtain ⟨e, cs, dev, fl⟩ := s
    cases e
    · rcases dev with _ | d
      · rw [PdfCanvasInputDevice.peek_null]
      · simp [wellFormed] at h
    · simp [wellFormed] at h

theorem new_blocks (b1 : List Nat) (tl : List (List Nat)) (h1 : b1 ≠ []) :
    PdfCanvasInputDevice.new (some (.Array ((b1 :: tl).map some)))
        = .ok ⟨false, tl.map some, some ⟨b1⟩, false⟩
      ∧ PdfCanvasInputDevice.new (some (.Dictionary (some b1)))
        = .ok ⟨false, [], some ⟨b1⟩, false⟩ := by
  cases b1 with
  | nil => exact absurd rfl h1
  | cons c r =>
    simp [PdfCanvasInputDevice.new, PdfCanvasInputDevice.tryPopNextDevice,
      SpanStreamDevice.Eof]

/-- C15: for every non-empty list `bs` of non-empty content blocks, the canvas device built
over them (over an array of stream objects, or for a single block also over one stream
dictionary) yields exactly the blocks joined by single newline bytes,
`List.intercalate [10] bs`, when it is read to the end of input: by calls of `readChar`, by
one `readBuffer` with more room than that (which then reports the end of input), or by a
`readBuffer` of any size, which returns the first `size` bytes, followed by calls of
`readChar` for the others. -/
theorem readChar_readBuffer_join_blocks (bs : List (List Nat)) (hne : bs ≠ [])
    (hb : ∀ b ∈ bs, b ≠ []) :
    ∃ s0, PdfCanvasInputDevice.new (some (.Array (bs.map some))) = .ok s0
      ∧ (∀ b, bs = [b] → PdfCanvasInputDevice.new (some (.Dictionary (some b))) = .ok s0)
      ∧ (∀ fuel, (List.intercalate [10] bs).length < fuel →
          (readToEnd fuel s0).1 = .ok (List.intercalate [10] bs))
      ∧ (∀ size, (List.intercalate [10] bs).length < size →
          (s0.readBuffer size).1 = .ok (List.intercalate [10] bs)
            ∧ (s0.readBuffer size).2.m_eof = true)
      ∧ (∀ size fuel, (List.intercalate [10] bs).length < fuel →
          (s0.readBuffer size).1 = .ok ((List.intercalate [10] bs).take size)
            ∧ (readToEnd fuel (s0.readBuffer size).2).1
                = .ok ((List.intercalate [10] bs).drop size)) := by
  obtain ⟨b1, tl, rfl⟩ : ∃ b1 tl, bs = b1 :: tl := by
    cases bs with
    | nil => exact absurd rfl hne
    | cons b1 tl => exact ⟨b1, tl, rfl⟩
  have h1 : b1 ≠ [] := hb b1 (List.mem_cons_self _ _)
  have htl : ∀ b ∈ tl, b ≠ [] := fun b hm => hb b (List.mem_cons_of_mem _ hm)
  have hw : wellFormed ⟨false, tl.map some, some ⟨b1⟩, false⟩ = true := by simp [wellFormed]
  have hp : pending ⟨false, tl.map some, some ⟨b1⟩, false⟩ = List.intercalate [10] (b1 :: tl) := by
    rw [pending_device, joinBlocks_intercalate tl b1 htl]
  refine ⟨⟨false, tl.map some, some ⟨b1⟩, false⟩, (new_blocks b1 tl h1).1, ?_, ?_, ?_, ?_⟩
  · intro b hbs
    simp only [List.cons.injEq] at hbs
    obtain ⟨rfl, rfl⟩ := hbs
    exact (new_blocks b1 [] h1).2
  · intro fuel hf
    rw [← hp] at hf ⊢
    exact (readToEnd_pending _ _ hw rfl fuel hf).1
  · intro size hs
    obtain ⟨r1, -, -, r4⟩ := readBuffer_pending _ size hw
    rw [hp] at r1 r4
    refine ⟨?_, r4 hs⟩
    rw [r1, List.nil_append, List.take_of_length_le (by omega)]
  · intro size fuel hf
    obtain ⟨r1, r2, r3, -⟩ := readBuffer_pending _ size hw
    rw [hp] at r1 r2
    refine ⟨by rw [r1, List.nil_append], ?_⟩
    rw [← r2]
    refine (readToEnd_pending _ _ r3 rfl fuel ?_).1
    rw [r2, List.length_drop]
    omega

theorem readChar_readBuffer_join_blocks_witness :
    ∃ s0, PdfCanvasInputDevice.new (some (.Array [some [66, 84], some [69, 84]])) = .ok s0
      ∧ (readToEnd 6 s0).1 = .ok [66, 84, 10, 69, 84]
      ∧ (s0.readBuffer 6).1 = .ok [66, 84, 10, 69, 84] := by
  obtain ⟨s0, h1, -, h3, h4, -⟩ :=
    readChar_readBuffer_join_blocks [[66, 84], [69, 84]] (by decide) (by decide)
  exact ⟨s0, h1, h3 6 (by decide), (h4 6 (by decide)).1⟩

/-- C16: the canvas device over blocks of which one is empty or has no stream. With the
blocks `BT`, an object without a stream, `ET` the end of input is reported after `BT`, by
`readChar` and by `readBuffer`, and `ET` stays unread in the queue; with an empty first
block the end of input is reported at once and `ET` is never read; with a first object
without a stream the first read raises; only an empty block after the first one is skipped
without a separator of its own. -/
theorem canvas_device_stops_at_block_without_stream :
    (∃ s0, PdfCanvasInputDevice.new (some (.Array [some [66, 84], none, some [69, 84]])) = .ok s0
        ∧ readToEnd 10 s0 = (.ok [66, 84], ⟨true, [some [69, 84]], none, false⟩)
        ∧ s0.readBuffer 10 = (.ok [66, 84], ⟨true, [some [69, 84]], none, false⟩))
      ∧ (∃ s0, PdfCanvasInputDevice.new (some (.Array [some [], some [69, 84]])) = .ok s0
        ∧ readToEnd 10 s0 = (.ok [], ⟨true, [some [69, 84]], some ⟨[]⟩, false⟩)
        ∧ s0.readBuffer 10 = (.ok [], ⟨true, [some [69, 84]], some ⟨[]⟩, false⟩))
      ∧ (∃ s0, PdfCanvasInputDevice.new (some (.Array [none, some [69, 84]])) = .ok s0
        ∧ (readToEnd 10 s0).1 = .error .InternalLogic
        ∧ (s0.readBuffer 10).1 = .error .InternalLogic
        ∧ s0.peek.1 = .error .InternalLogic)
      ∧ (∃ s0, PdfCanvasInputDevice.new (some (.Array [some [66, 84], some [], some [69, 84]]))
          = .ok s0
        ∧ (readToEnd 10 s0).1 = .ok [66, 84, 10, 69, 84]
        ∧ (s0.readBuffer 10).1 = .ok [66, 84, 10, 69, 84]) :=
  ⟨⟨_, rfl, rfl, rfl⟩, ⟨_, rfl, rfl, rfl⟩, ⟨_, rfl, rfl, rfl, rfl⟩, ⟨_, rfl, rfl, rfl⟩⟩

/-- C17: in every state of the canvas device, reachable or not, `peek` returns what
`readChar` returns in that state, the newline injected at a block boundary included, and
leaves a state in which the next `readChar` does exactly what it would have done without
the peek (same result, same state after it), a second `peek` returns the same and changes
nothing, and `readBuffer` returns the same bytes. A `peek` or `readChar` that returns `false`
has set the end-of-input flag, and with that flag set `peek`, `readChar` and `readBuffer`
return `false` or no bytes, raise nothing, and leave the state as it is. -/
theorem peek_does_not_alter_reads (s : PdfCanvasInputDevice) :
    s.peek.1 = s.readChar.1
      ∧ s.peek.2.readChar = s.readChar
      ∧ s.peek.2.peek = s.peek
      ∧ (∀ fuel, readToEnd (fuel + 1) s.peek.2 = readToEnd (fuel + 1) s)
      ∧ (∀ size, (s.peek.2.readBuffer size).1 = (s.readBuffer size).1)
      ∧ (s.peek.1 = .ok none → s.peek.2.m_eof = true)
      ∧ (s.readChar.1 = .ok none → s.readChar.2.m_eof = true)
      ∧ (s.m_eof = true →
          s.peek = (.ok none, s) ∧ s.readChar = (.ok none, s)
            ∧ ∀ size, s.readBuffer size = (.ok [], s)) := by
  obtain ⟨h1, h2, h3⟩ := PdfCanvasInputDevice.peek_readChar s
  refine ⟨h1, h2, h3, ?_, peek_readBuffer s, (peek_reports_eof s).1, (peek_reports_eof s).2, ?_⟩
  · intro fuel
    simp only [readToEnd, h2]
  · intro he
    obtain ⟨e, cs, dev, fl⟩ := s
    simp only at he
    subst he
    refine ⟨PdfCanvasInputDevice.peek_eof _ _ _, PdfCanvasInputDevice.readChar_eof _ _ _, ?_⟩
    intro size
    simp [PdfCanvasInputDevice.readBuffer]

theorem peek_does_not_alter_reads_witness :
    (PdfCanvasInputDevice.peek ⟨false, [some [69, 84]], some ⟨[]⟩, false⟩).1 = .ok (some 10)
      ∧ (PdfCanvasInputDevice.readChar
          (PdfCanvasInputDevice.peek ⟨false, [some [69, 84]], some ⟨[]⟩, false⟩).2).1
        = .ok (some 10)
      ∧ (PdfCanvasInputDevice.peek ⟨true, [], none, false⟩).2.m_eof = true
      ∧ PdfCanvasInputDevice.readChar ⟨true, [], none, false⟩
        = (.ok none, ⟨true, [], none, false⟩) :=
  ⟨rfl,
   ((peek_does_not_alter_reads ⟨false, [some [69, 84]], some ⟨[]⟩, false⟩).2.1).symm ▸ rfl,
   (peek_does_not_alter_reads ⟨true, [], none, false⟩).2.2.2.2.2.1 rfl,
   ((peek_does_not_alter_reads ⟨true, [], none, false⟩).2.2.2.2.2.2.2 rfl).2.1⟩

/-! ## The classification of an object by `ParseFileComplete` -/

/-- C18: `ParseFileComplete` for an object that is not the trailer. The device is moved to
the offset of the object and a token is read. At the end of input `UnexpectedEOF` is raised.
If the token is `endobj`, the call succeeds and leaves value, stream flag and stream as they
were: the Null variant and no stream for an object as its constructor made it. Otherwise,
once the variant `v` has been read, the next token decides: at the end of input
`UnexpectedEOF` is raised; `endobj` leaves the value `v` and the stream flag as it was;
`stream` after a dictionary sets the stream flag and records the position of the device,
which is then just behind the keyword; every other token, and `stream` after a value that
is not a dictionary, raises `NoObject`. -/
theorem ParseFileComplete_classifies_object (o : PdfParserObject) :
    (∀ device offset, (PdfParserObject.new device offset).m_Variant = PdfVariant.Null
        ∧ (PdfParserObject.new device offset).m_HasStream = false
        ∧ (PdfParserObject.new device offset).m_Stream = none)
    ∧ (∀ t1, GetNextToken (o.seek o.m_Offset.toNat).m_tokenizer = (.ok none, t1) →
        (ParseFileComplete o false).1 = .error .UnexpectedEOF)
    ∧ (∀ ty t1,
        GetNextToken (o.seek o.m_Offset.toNat).m_tokenizer = (.ok (some (strEndobj, ty)), t1) →
        ParseFileComplete o false = (.ok (), { o.seek o.m_Offset.toNat with m_tokenizer := t1 })
          ∧ (ParseFileComplete o false).2.m_Variant = o.m_Variant
          ∧ (ParseFileComplete o false).2.m_HasStream = o.m_HasStream
          ∧ (ParseFileComplete o false).2.m_Stream = o.m_Stream)
    ∧ (∀ token ty t1 v t2,
        GetNextToken (o.seek o.m_Offset.toNat).m_tokenizer = (.ok (some (token, ty)), t1) →
        token ≠ strEndobj →
        GetNextVariantOf (readerFuel (o.seek o.m_Offset.toNat).m_tokenizer) t1 token ty
            o.m_Variant o.m_Encrypt = (.ok v, t2) →
        (∀ t3, GetNextToken t2 = (.ok none, t3) →
            (ParseFileComplete o false).1 = .error .UnexpectedEOF)
          ∧ (∀ ty2 t3, GetNextToken t2 = (.ok (some (strEndobj, ty2)), t3) →
            ParseFileComplete o false
                = (.ok (), { o.seek o.m_Offset.toNat with m_tokenizer := t3, m_Variant := v })
              ∧ (ParseFileComplete o false).2.m_HasStream = o.m_HasStream
              ∧ (ParseFileComplete o false).2.m_Stream = o.m_Stream)
          ∧ (∀ ty2 t3 dict, v = PdfVariant.Dictionary dict →
            GetNextToken t2 = (.ok (some (strStream, ty2)), t3) →
            ParseFileComplete o false
                = (.ok (), { o.seek o.m_Offset.toNat with
                    m_tokenizer := t3, m_Variant := v, m_HasStream := true,
                    m_StreamOffset := (t3.m_device.map (fun d => d.Tell)).getD 0 }))
          ∧ (∀ token2 ty2 t3, GetNextToken t2 = (.ok (some (token2, ty2)), t3) →
            token2 ≠ strEndobj → (token2 ≠ strStream ∨ ∀ dict, v ≠ PdfVariant.Dictionary dict) →
            (ParseFileComplete o false).1 = .error .NoObject)) := by
  refine ⟨fun _ _ => ⟨rfl, rfl, rfl⟩, ?_, ?_, ?_⟩
  · intro t1 h1
    simp only [ParseFileComplete, h1]
  · intro ty t1 h1
    have h : ParseFileComplete o false
        = (.ok (), { o.seek o.m_Offset.toNat with m_tokenizer := t1 }) := by
      simp only [ParseFileComplete, h1, if_true]
    rw [h]
    exact ⟨rfl, rfl, rfl, rfl⟩
  · intro token ty t1 v t2 h1 hne h2
    have hv : (o.seek o.m_Offset.toNat).m_Variant = o.m_Variant := rfl
    have he : (o.seek o.m_Offset.toNat).m_Encrypt = o.m_Encrypt := rfl
    refine ⟨?_, ?_, ?_, ?_⟩
    · intro t3 h3
      simp only [ParseFileComplete, h1, hne, if_false, hv, he, h2, Bool.false_eq_true, h3]
    · intro ty2 t3 h3
      have h : ParseFileComplete o false
          = (.ok (), { o.seek o.m_Offset.toNat with m_tokenizer := t3, m_Variant := v }) := by
        simp only [ParseFileComplete, h1, hne, if_false, hv, he, h2, Bool.false_eq_true, h3,
          if_true]
      rw [h]
      exact ⟨rfl, rfl, rfl⟩
    · intro ty2 t3 dict hd h3
      subst hd
      have hs : strStream ≠ strEndobj := by decide
      simp only [ParseFileComplete, h1, hne, if_false, hv, he, h2, Bool.false_eq_true, h3,
        hs, if_true, PdfParserObject.tell]
    · intro token2 ty2 t3 h3 hne2 hor
      simp only [ParseFileComplete, h1, hne, if_false, hv, he, h2, Bool.false_eq_true, h3, hne2]
      rcases hor with hst | hnd
      · cases v <;> simp only [hst, if_false]
      · cases v <;> first | rfl | exact absurd rfl (hnd _)

theorem ParseFileComplete_classifies_object_witness :
    (ParseFileComplete (PdfParserObject.new ⟨[], strEndobj⟩ 0) false).2.m_Variant
        = PdfVariant.Null
      ∧ (ParseFileComplete (PdfParserObject.new ⟨[], 53 :: 32 :: strStream⟩ 0) false).1
        = .error .NoObject
      ∧ (ParseFileComplete (PdfParserObject.new ⟨[], 53 :: 32 :: strEndobj⟩ 0) false).2.m_HasStream
        = false
      ∧ (ParseFileComplete (PdfParserObject.new ⟨[], [53, 32]⟩ 0) false).1
        = .error .UnexpectedEOF :=
  ⟨((ParseFileComplete_classifies_object (PdfParserObject.new ⟨[], strEndobj⟩ 0)).2.2.1
      _ _ rfl).2.1,
   ((ParseFileComplete_classifies_object
      (PdfParserObject.new ⟨[], 53 :: 32 :: strStream⟩ 0)).2.2.2
      _ _ _ _ _ rfl (by decide) rfl).2.2.2 _ _ _ rfl (by decide)
        (Or.inr (fun _ h => PdfVariant.noConfusion h)),
   (((ParseFileComplete_classifies_object
      (PdfParserObject.new ⟨[], 53 :: 32 :: strEndobj⟩ 0)).2.2.2
      _ _ _ _ _ rfl (by decide) rfl).2.1 _ _ rfl).2.1,
   ((ParseFileComplete_classifies_object (PdfParserObject.new ⟨[], [53, 32]⟩ 0)).2.2.2
      _ _ _ _ _ rfl (by decide) rfl).1 _ rfl⟩

/-! ## The start of the stream body -/

theorem skipToStreamBody_at (pre rest : List Nat) (fuel : Nat) (h32 : rest.head? ≠ some 32)
    (h9 : rest.head? ≠ some 9) :
    skipToStreamBody (fuel + 1) ⟨pre, rest⟩ = ⟨pre ++ eolMarker rest, streamBody rest⟩ := by
  rcases rest with _ | ⟨x, r⟩
  · simp [skipToStreamBody, PdfInputDevice.Look, PdfInputDevice.Seek, PdfInputDevice.Tell,
      eolMarker, streamBody]
  · simp only [List.head?_cons, ne_eq, Option.some.injEq] at h32 h9
    by_cases h13 : x = 13
    · subst h13
      rcases r with _ | ⟨y, r2⟩
      · simp [skipToStreamBody, PdfInputDevice.Look, PdfInputDevice.GetChar,
          PdfInputDevice.Seek, PdfInputDevice.Tell, eolMarker, streamBody]
      · by_cases h10 : y = 10
        · subst h10
          have ht : List.take (pre.length + 2) (pre ++ 13 :: 10 :: r2) = pre ++ [13, 10] := by
            rw [List.take_append]; rfl
          simp [skipToStreamBody, PdfInputDevice.Look, PdfInputDevice.GetChar,
            PdfInputDevice.Seek, PdfInputDevice.Tell, eolMarker, streamBody, ht]
        · have he : eolMarker (13 :: y :: r2) = [] := by
            simp only [eolMarker]
            split <;> simp_all
          simp [skipToStreamBody, PdfInputDevice.Look, PdfInputDevice.GetChar,
            PdfInputDevice.Seek, PdfInputDevice.Tell, he, streamBody, h10]
    · by_cases h10 : x = 10
      · subst h10
        have ht : List.take (pre.length + 1) (pre ++ 10 :: r) = pre ++ [10] := by
          rw [List.take_append]; rfl
        simp [skipToStreamBody, PdfInputDevice.Look, PdfInputDevice.GetChar,
          PdfInputDevice.Seek, PdfInputDevice.Tell, eolMarker, streamBody, ht]
      · have he : eolMarker (x :: r) = [] := by
          simp only [eolMarker]
          split <;> simp_all
        have hs : skipToStreamBody (fuel + 1) ⟨pre, x :: r⟩
            = PdfInputDevice.Seek ⟨pre, x :: r⟩ (PdfInputDevice.Tell ⟨pre, x :: r⟩) := by
          simp only [skipToStreamBody, PdfInputDevice.Look, List.head?_cons]
          split <;> simp_all
        rw [hs, Seek_Tell, he]
        simp [streamBody, he]

theorem skipToStreamBody_spec : ∀ (ws pre rest : List Nat) (fuel : Nat),
    (∀ b ∈ ws, b = 32 ∨ b = 9) → rest.head? ≠ some 32 → rest.head? ≠ some 9 →
    ws.length < fuel →
    skipToStreamBody fuel ⟨pre, ws ++ rest⟩ = ⟨pre ++ ws ++ eolMarker rest, streamBody rest⟩ := by
  intro ws
  induction ws with
  | nil =>
    intro pre rest fuel _ h32 h9 hf
    obtain ⟨f, rfl⟩ : ∃ f, fuel = f + 1 := ⟨fuel - 1, by omega⟩
    simpa using skipToStreamBody_at pre rest f h32 h9
  | cons w ws ih =>
    intro pre rest fuel hws h32 h9 hf
    simp only [List.length_cons] at hf
    obtain ⟨f, rfl⟩ : ∃ f, fuel = f + 1 := ⟨fuel - 1, by omega⟩
    have hrec := ih (pre ++ [w]) rest f (fun b hb => hws b (List.mem_cons_of_mem _ hb)) h32 h9
      (by omega)
    rcases hws w (List.mem_cons_self _ _) with rfl | rfl
    · simp only [List.cons_append, skipToStreamBody, PdfInputDevice.Look, List.head?_cons,
        PdfInputDevice.GetChar]
      rw [hrec]
      simp
    · simp only [List.cons_append, skipToStreamBody, PdfInputDevice.Look, List.head?_cons,
        PdfInputDevice.GetChar]
      rw [hrec]
      simp

theorem SetRawData_loop_read : ∀ (len fuel : Nat) (bf inp acc : List Nat), len + 1 ≤ fuel →
    SetRawData_loop deviceRead fuel ⟨bf, inp⟩ len ⟨true, acc⟩
      = (.ok ⟨true, acc ++ inp.take len⟩, ⟨bf ++ inp.take len, inp.drop len⟩) := by
  intro len
  induction len using Nat.strong_induction_on with
  | _ len ih =>
    intro fuel bf inp acc hf
    obtain ⟨f, rfl⟩ : ∃ f, fuel = f + 1 := ⟨fuel - 1, by omega⟩
    have hl : (inp.take (min BUFFER_SIZE len)).length = min (min BUFFER_SIZE len) inp.length :=
      List.length_take _ _
    simp only [SetRawData_loop, deviceRead, PdfStream.Append, Bool.true_eq_false, if_false]
    by_cases hcond : len - (inp.take (min BUFFER_SIZE len)).length ≠ 0
        ∧ (inp.take (min BUFFER_SIZE len)).length > 0
    · rw [if_pos hcond]
      obtain ⟨hc1, hc2⟩ := hcond
      rw [ih (len - (inp.take (min BUFFER_SIZE len)).length) (by omega) f _ _ _ (by omega)]
      by_cases hm : min BUFFER_SIZE len ≤ inp.length
      · have hlm : (inp.take (min BUFFER_SIZE len)).length = min BUFFER_SIZE len := by
          rw [hl]; omega
        have hsplit : len = min BUFFER_SIZE len + (len - min BUFFER_SIZE len) := by
          have := Nat.min_le_right BUFFER_SIZE len
          omega
        rw [hlm]
        have e1 : inp.take len = inp.take (min BUFFER_SIZE len)
            ++ (inp.drop (min BUFFER_SIZE len)).take (len - min BUFFER_SIZE len) := by
          conv_lhs => rw [hsplit]
          exact List.take_add _ _ _
        have e2 : inp.drop len
            = (inp.drop (min BUFFER_SIZE len)).drop (len - min BUFFER_SIZE len) := by
          conv_lhs => rw [hsplit]
          rw [List.drop_drop]
        rw [e1, e2]
        simp [List.append_assoc]
      · have h1 : inp.take (min BUFFER_SIZE len) = inp := List.take_of_length_le (by omega)
        have h2 : inp.drop (min BUFFER_SIZE len) = [] := List.drop_of_length_le (by omega)
        have h3 : inp.take len = inp :=
          List.take_of_length_le (by have := Nat.min_le_right BUFFER_SIZE len; omega)
        have h4 : inp.drop len = [] :=
          List.drop_of_length_le (by have := Nat.min_le_right BUFFER_SIZE len; omega)
        rw [h1, h2, h3, h4]
        simp
    · rw [if_neg hcond]
      have hB : 0 < BUFFER_SIZE := by decide
      have hmin := Nat.min_le_right BUFFER_SIZE len
      have hcases : len ≤ min (min BUFFER_SIZE len) inp.length
          ∨ min (min BUFFER_SIZE len) inp.length = 0 := by
        rw [hl] at hcond
        by_contra hcon
        push_neg at hcon
        exact hcond ⟨by omega, by omega⟩
      rcases hcases with hc | hc
      · have hm : min BUFFER_SIZE len = len := by omega
        rw [hm]
      · by_cases hz : min BUFFER_SIZE len = 0
        · have hlen0 : len = 0 := by
            rcases Nat.lt_or_ge len BUFFER_SIZE with h | h
            · rw [Nat.min_eq_right (by omega)] at hz; exact hz
            · rw [Nat.min_eq_left h] at hz; omega
          subst hlen0
          simp
        · have hin : inp = [] := List.length_eq_zero.1 (by omega)
          subst hin
          simp

theorem streamBody_cases (rest : List Nat) :
    (∀ r, rest = 13 :: 10 :: r → eolMarker rest = [13, 10] ∧ streamBody rest = r)
      ∧ (∀ r, rest = 10 :: r → eolMarker rest = [10] ∧ streamBody rest = r)
      ∧ (∀ r, rest = 13 :: r → r.head? ≠ some 10 →
          eolMarker rest = [] ∧ streamBody rest = 13 :: r)
      ∧ (∀ x r, rest = x :: r → x ≠ 13 → x ≠ 10 →
          eolMarker rest = [] ∧ streamBody rest = x :: r)
      ∧ (rest = [] → eolMarker rest = [] ∧ streamBody rest = []) := by
  refine ⟨?_, ?_, ?_, ?_, ?_⟩
  · rintro r rfl
    exact ⟨rfl, rfl⟩
  · rintro r rfl
    exact ⟨rfl, rfl⟩
  · rintro r rfl h
    have he : eolMarker (13 :: r) = [] := by
      simp only [eolMarker]
      split <;> simp_all
    exact ⟨he, by simp [streamBody, he]⟩
  · rintro x r rfl h13 h10
    have he : eolMarker (x :: r) = [] := by
      simp only [eolMarker]
      split <;> simp_all
    exact ⟨he, by simp [streamBody, he]⟩
  · rintro rfl
    exact ⟨rfl, rfl⟩

/-- C19: `ParseStream` on an object whose value is loaded, whose dictionary has the number
`len` under `/Length`, and that has no encryption collaborator and no stream yet. When the
bytes at `m_StreamOffset`, the position just behind the keyword `stream`, are a run `ws` of
spaces and tabs followed by `rest`, the call succeeds, the stream holds the first `len`
bytes of `streamBody rest`, and the device has moved over `ws`, the end-of-line marker and
those bytes. The marker is CR LF or a lone LF: the body of `CR LF r` and of `LF r` is `r`;
a CR that no LF follows is not skipped and is the first byte of the body; with any other
byte, or none, next, the body starts right there. -/
theorem ParseStream_body_start (o : PdfParserObject) (d : PdfInputDevice)
    (dict : List (List Nat × PdfVariant)) (len : Nat) (pre ws rest : List Nat)
    (hdone : o.m_DelayedLoadDone = true) (hdev : o.m_tokenizer.m_device = some d)
    (hdoc : o.hasDocument = true) (hv : o.m_Variant = PdfVariant.Dictionary dict)
    (hlen : GetKey dict strLength = some (PdfVariant.Number len)) (henc : o.m_Encrypt = none)
    (hstream : o.m_Stream = none) (hpos : d.Seek o.m_StreamOffset = ⟨pre, ws ++ rest⟩)
    (hws : ∀ b ∈ ws, b = 32 ∨ b = 9) (h32 : rest.head? ≠ some 32) (h9 : rest.head? ≠ some 9) :
    ((ParseStream o).1 = .ok ()
      ∧ (ParseStream o).2.m_Stream = some ⟨false, (streamBody rest).take len⟩
      ∧ (ParseStream o).2.m_tokenizer.m_device
          = some ⟨pre ++ ws ++ eolMarker rest ++ (streamBody rest).take len,
              (streamBody rest).drop len⟩)
      ∧ (∀ r, rest = 13 :: 10 :: r → eolMarker rest = [13, 10] ∧ streamBody rest = r)
      ∧ (∀ r, rest = 10 :: r → eolMarker rest = [10] ∧ streamBody rest = r)
      ∧ (∀ r, rest = 13 :: r → r.head? ≠ some 10 →
          eolMarker rest = [] ∧ streamBody rest = 13 :: r)
      ∧ (∀ x r, rest = x :: r → x ≠ 13 → x ≠ 10 →
          eolMarker rest = [] ∧ streamBody rest = x :: r)
      ∧ (rest = [] → eolMarker rest = [] ∧ streamBody rest = []) := by
  refine ⟨?_, streamBody_cases rest⟩
  obtain ⟨tk, hd, ref, var, st, enc, off, so, hs, it, lod, dld, dlsd, dirty⟩ := o
  obtain ⟨dev, bs, q, vb⟩ := tk
  simp only at hdone hdev hdoc hv hlen henc hstream hpos
  subst hdone hdev hdoc hv henc hstream
  have hskip := skipToStreamBody_spec ws pre rest ((ws ++ rest).length + 1) hws h32 h9
    (by simp only [List.length_append]; omega)
  have hread := SetRawData_loop_read len (len + (streamBody rest).length + 1)
    (pre ++ ws ++ eolMarker rest) (streamBody rest) [] (by omega)
  have hneg : ¬ ((len : Int) < 0) := by omega
  simp only [ParseStream, Bool.true_eq_false, if_false, hlen, hpos, hskip,
    Option.getD_none, PdfStream.SetRawData, PdfStream.BeginAppendRaw, Bool.false_eq_true,
    if_true, hneg, Int.toNat_ofNat, hread, List.nil_append, PdfStream.EndAppend, and_self]

theorem ParseStream_body_start_witness :
    (ParseStream { PdfParserObject.new ⟨[], [32, 9, 13, 10, 72, 73, 10]⟩ 0 with
        m_Variant := PdfVariant.Dictionary [(strLength, PdfVariant.Number 2)],
        m_DelayedLoadDone := true }).2.m_Stream = some ⟨false, [72, 73]⟩
      ∧ (ParseStream { PdfParserObject.new ⟨[], [32, 13, 72, 73, 10]⟩ 0 with
        m_Variant := PdfVariant.Dictionary [(strLength, PdfVariant.Number 2)],
        m_DelayedLoadDone := true }).2.m_Stream = some ⟨false, [13, 72]⟩ :=
  ⟨(ParseStream_body_start
    { PdfParserObject.new ⟨[], [32, 9, 13, 10, 72, 73, 10]⟩ 0 with
      m_Variant := PdfVariant.Dictionary [(strLength, PdfVariant.Number 2)],
      m_DelayedLoadDone := true }
    ⟨[], [32, 9, 13, 10, 72, 73, 10]⟩ [(strLength, PdfVariant.Number 2)] 2 [] [32, 9]
    [13, 10, 72, 73, 10] rfl rfl rfl rfl rfl rfl rfl rfl (by decide) (by decide)
    (by decide)).1.2.1,
   (ParseStream_body_start
    { PdfParserObject.new ⟨[], [32, 13, 72, 73, 10]⟩ 0 with
      m_Variant := PdfVariant.Dictionary [(strLength, PdfVariant.Number 2)],
      m_DelayedLoadDone := true }
    ⟨[], [32, 13, 72, 73, 10]⟩ [(strLength, PdfVariant.Number 2)] 2 [] [32]
    [13, 72, 73, 10] rfl rfl rfl rfl rfl rfl rfl rfl (by decide) (by decide)
    (by decide)).1.2.1⟩

/-! ## The decryption of stream bytes -/

theorem SetRawData_loop_ok {σ : Type} (Read : σ → Nat → List Nat × σ) :
    ∀ (fuel : Nat) (inp : σ) (len : Nat) (acc : List Nat),
      ∃ bytes dev, SetRawData_loop Read fuel inp len ⟨true, acc⟩ = (.ok ⟨true, bytes⟩, dev) := by
  intro fuel
  induction fuel with
  | zero => intro inp len acc; exact ⟨acc, inp, rfl⟩
  | succ f ih =>
    intro inp len acc
    simp only [SetRawData_loop, PdfStream.Append, Bool.true_eq_false, if_false]
    split_ifs
    · exact ih _ _ _
    · exact ⟨_, _, rfl⟩

theorem SetRawData_loop_decrypt (e : PdfEncrypt) (n len fuel : Nat) (bf inp acc : List Nat)
    (hlen : len ≤ BUFFER_SIZE) (hD : ∀ bytes k, bytes.length ≤ (e.Decrypt bytes k).1.length)
    (hf : len + 1 ≤ fuel) :
    SetRawData_loop (encryptedRead e n) fuel ⟨bf, inp⟩ len ⟨true, acc⟩
      = (.ok ⟨true, acc ++ (e.Decrypt (inp.take len) n).1.take (inp.take len).length⟩,
          ⟨bf ++ inp.take len, inp.drop len⟩) := by
  obtain ⟨f, rfl⟩ : ∃ f, fuel = f + 1 := ⟨fuel - 1, by omega⟩
  have hm : min BUFFER_SIZE len = len := Nat.min_eq_right hlen
  have hout : ((e.Decrypt (inp.take len) n).1.take (inp.take len).length).length
      = (inp.take len).length := by
    rw [List.length_take]
    exact Nat.min_eq_left (hD _ _)
  have hl : (inp.take len).length = min len inp.length := List.length_take _ _
  have hstep : SetRawData_loop (encryptedRead e n) (f + 1) ⟨bf, inp⟩ len ⟨true, acc⟩
      = if len - (inp.take len).length ≠ 0 ∧ (inp.take len).length > 0 then
          SetRawData_loop (encryptedRead e n) f ⟨bf ++ inp.take len, inp.drop len⟩
            (len - (inp.take len).length)
            ⟨true, acc ++ (e.Decrypt (inp.take len) n).1.take (inp.take len).length⟩
        else (.ok ⟨true, acc ++ (e.Decrypt (inp.take len) n).1.take (inp.take len).length⟩,
          ⟨bf ++ inp.take len, inp.drop len⟩) := by
    simp only [SetRawData_loop, encryptedRead, deviceRead, hm, PdfStream.Append,
      Bool.true_eq_false, if_false, hout]
  rw [hstep]
  by_cases hcond : len - (inp.take len).length ≠ 0 ∧ (inp.take len).length > 0
  · rw [if_pos hcond]
    obtain ⟨g, rfl⟩ : ∃ g, f = g + 1 := ⟨f - 1, by omega⟩
    have hd : inp.drop len = [] := List.drop_of_length_le (by omega)
    rw [hd]
    simp [SetRawData_loop, encryptedRead, deviceRead, PdfStream.Append]
  · rw [if_neg hcond]

/-- C20, as the claim states it, fails: with a collaborator whose metadata encryption is
inactive and a dictionary without `/Filter`, the bytes `HI` are stored decrypted, and so
they are with active metadata encryption and a `/Filter` array that lists `Crypt`. -/
theorem ParseStream_decrypts_without_metadata_encryption :
    (sampleEncrypt false).IsMetadataEncrypted = false
      ∧ filterListsCrypt [(strLength, PdfVariant.Number 2)] = false
      ∧ (ParseStream { PdfParserObject.new ⟨[], [10, 72, 73, 10]⟩ 0 with
          m_Variant := PdfVariant.Dictionary [(strLength, PdfVariant.Number 2)],
          m_Encrypt := some (sampleEncrypt false),
          m_DelayedLoadDone := true }).2.m_Stream = some ⟨false, [73, 74]⟩
      ∧ (sampleEncrypt true).IsMetadataEncrypted = true
      ∧ filterListsCrypt [(strLength, PdfVariant.Number 2),
          (strFilter, PdfVariant.Array [PdfVariant.Name strCrypt])] = true
      ∧ (ParseStream { PdfParserObject.new ⟨[], [10, 72, 73, 10]⟩ 0 with
          m_Variant := PdfVariant.Dictionary [(strLength, PdfVariant.Number 2),
            (strFilter, PdfVariant.Array [PdfVariant.Name strCrypt])],
          m_Encrypt := some (sampleEncrypt true),
          m_DelayedLoadDone := true }).2.m_Stream = some ⟨false, [73, 74]⟩ :=
  ⟨rfl, rfl, rfl, rfl, rfl, rfl⟩

/-- C20, amended: `ParseStream` on an object whose value is loaded, whose dictionary has the
number `len` under `/Length`, that has no stream yet, and whose device holds a run `ws` of
spaces and tabs and then `rest` at `m_StreamOffset`. The call succeeds. The bytes are
stored as they are read from the device, `len` bytes from the start of the stream body,
when there is no collaborator, or when metadata encryption is inactive and `/Filter` is an
array that lists the name `Crypt`. In every other case with a collaborator, so whenever
metadata encryption is active and also when `/Filter` does not list `Crypt`, the stored
bytes are those that `SetRawData` reads through the collaborator; for a length of at most
`BUFFER_SIZE` and a collaborator that returns at least as many bytes as it is given these
are the decryption of the `len` bytes of the body. -/
theorem ParseStream_decrypts_unless_crypt_filter (o : PdfParserObject) (d : PdfInputDevice)
    (dict : List (List Nat × PdfVariant)) (len : Nat) (pre ws rest : List Nat)
    (hdone : o.m_DelayedLoadDone = true) (hdev : o.m_tokenizer.m_device = some d)
    (hdoc : o.hasDocument = true) (hv : o.m_Variant = PdfVariant.Dictionary dict)
    (hlen : GetKey dict strLength = some (PdfVariant.Number len))
    (hstream : o.m_Stream = none) (hpos : d.Seek o.m_StreamOffset = ⟨pre, ws ++ rest⟩)
    (hws : ∀ b ∈ ws, b = 32 ∨ b = 9) (h32 : rest.head? ≠ some 32) (h9 : rest.head? ≠ some 9) :
    (ParseStream o).1 = .ok ()
      ∧ ((o.m_Encrypt = none
            ∨ ∃ e, o.m_Encrypt = some e ∧ e.IsMetadataEncrypted = false
                ∧ filterListsCrypt dict = true) →
          (ParseStream o).2.m_Stream = some ⟨false, (streamBody rest).take len⟩)
      ∧ (∀ e, o.m_Encrypt = some e →
          ¬ (e.IsMetadataEncrypted = false ∧ filterListsCrypt dict = true) →
          ∃ bytes dev,
            SetRawData_loop (encryptedRead e len) (len + (streamBody rest).length + 1)
                ⟨pre ++ ws ++ eolMarker rest, streamBody rest⟩ len ⟨true, []⟩
              = (.ok ⟨true, bytes⟩, dev)
            ∧ (ParseStream o).2.m_Stream = some ⟨false, bytes⟩
            ∧ (len ≤ BUFFER_SIZE →
                (∀ data k, data.length ≤ (e.Decrypt data k).1.length) →
                bytes = (e.Decrypt ((streamBody rest).take len) len).1.take
                  ((streamBody rest).take len).length)) := by
  obtain ⟨tk, hd, ref, var, st, enc, off, so, hs, it, lod, dld, dlsd, dirty⟩ := o
  obtain ⟨dev, bs, q, vb⟩ := tk
  simp only at hdone hdev hdoc hv hlen hstream hpos
  subst hdone hdev hdoc hv hstream
  have hskip := skipToStreamBody_spec ws pre rest ((ws ++ rest).length + 1) hws h32 h9
    (by simp only [List.length_append]; omega)
  have hread := SetRawData_loop_read len (len + (streamBody rest).length + 1)
    (pre ++ ws ++ eolMarker rest) (streamBody rest) [] (by omega)
  have hneg : ¬ ((len : Int) < 0) := by omega
  have hraw : ∀ enc0 : Option PdfEncrypt,
      (match enc0 with
        | none => (none : Option PdfEncrypt)
        | some e =>
          if e.IsMetadataEncrypted = false then
            match GetKey dict strFilter with
            | some (.Array filters) => if listsCrypt filters = true then none else some e
            | _ => some e
          else some e)
        = match enc0 with
          | none => none
          | some e =>
            if e.IsMetadataEncrypted = false ∧ filterListsCrypt dict = true then none
            else some e := by
    intro enc0
    rcases enc0 with _ | e
    · rfl
    · simp only [filterListsCrypt]
      cases hm : e.IsMetadataEncrypted
      · simp only [true_and, if_true]
        split <;> simp_all
      · simp
  have hP : ParseStream
      { m_tokenizer := ⟨some d, bs, q, vb⟩, hasDocument := true, m_reference := ref,
        m_Variant := PdfVariant.Dictionary dict, m_Stream := none, m_Encrypt := enc,
        m_Offset := off, m_StreamOffset := so, m_HasStream := hs, m_IsTrailer := it,
        m_LoadOnDemand := lod, m_DelayedLoadDone := true, m_DelayedLoadStreamDone := dlsd,
        m_IsDirty := dirty }
      = (let encrypt : Option PdfEncrypt :=
          match enc with
          | none => none
          | some e =>
            if e.IsMetadataEncrypted = false ∧ filterListsCrypt dict = true then none
            else some e
        let r :=
          match encrypt with
          | some e =>
            PdfStream.SetRawData ⟨false, []⟩ (encryptedRead e len)
              (len + (streamBody rest).length + 1)
              (⟨pre ++ ws ++ eolMarker rest, streamBody rest⟩ : PdfInputDevice) (len : Int)
          | none =>
            PdfStream.SetRawData ⟨false, []⟩ deviceRead (len + (streamBody rest).length + 1)
              (⟨pre ++ ws ++ eolMarker rest, streamBody rest⟩ : PdfInputDevice) (len : Int)
        match r.1 with
        | .error e =>
          (.error e,
            { m_tokenizer := ⟨some r.2, bs, q, vb⟩, hasDocument := true, m_reference := ref,
              m_Variant := PdfVariant.Dictionary dict, m_Stream := none, m_Encrypt := encrypt,
              m_Offset := off, m_StreamOffset := so, m_HasStream := hs, m_IsTrailer := it,
              m_LoadOnDemand := lod, m_DelayedLoadDone := true,
              m_DelayedLoadStreamDone := dlsd, m_IsDirty := dirty })
        | .ok s =>
          (.ok (),
            { m_tokenizer := ⟨some r.2, bs, q, vb⟩, hasDocument := true, m_reference := ref,
              m_Variant := PdfVariant.Dictionary dict, m_Stream := some s,
              m_Encrypt := encrypt,
              m_Offset := off, m_StreamOffset := so, m_HasStream := hs, m_IsTrailer := it,
              m_LoadOnDemand := lod, m_DelayedLoadDone := true,
              m_DelayedLoadStreamDone := dlsd, m_IsDirty := dirty })) := by
    simp only [ParseStream, Bool.true_eq_false, if_false, hlen, hpos, hskip, hraw,
      Option.getD_none, Int.toNat_ofNat]
  rw [hP]
  rcases enc with _ | e
  · simp only [PdfStream.SetRawData, PdfStream.BeginAppendRaw, Bool.false_eq_true,
      if_false, if_true, hneg, Int.toNat_ofNat, Bool.true_eq_false, hread, List.nil_append,
      PdfStream.EndAppend]
    refine ⟨trivial, fun _ => trivial, ?_⟩
    intro e he
    cases he
  · by_cases hc : e.IsMetadataEncrypted = false ∧ filterListsCrypt dict = true
    · simp only [if_pos hc, PdfStream.SetRawData, PdfStream.BeginAppendRaw,
        Bool.false_eq_true, if_false, hneg, Int.toNat_ofNat, Bool.true_eq_false, hread,
        List.nil_append, PdfStream.EndAppend]
      refine ⟨trivial, fun _ => trivial, ?_⟩
      intro e2 he2 hn
      simp only [Option.some.injEq] at he2
      subst he2
      exact absurd hc hn
    · obtain ⟨bytes, dev2, hb⟩ := SetRawData_loop_ok (encryptedRead e len)
        (len + (streamBody rest).length + 1)
        (⟨pre ++ ws ++ eolMarker rest, streamBody rest⟩ : PdfInputDevice) len []
      simp only [if_neg hc, PdfStream.SetRawData, PdfStream.BeginAppendRaw,
        Bool.false_eq_true, if_true, if_false, hneg, Int.toNat_ofNat, Bool.true_eq_false, hb,
        PdfStream.EndAppend]
      refine ⟨trivial, ?_, ?_⟩
      · rintro (h | ⟨e2, he2, hm, hf⟩)
        · cases h
        · simp only [Option.some.injEq] at he2
          subst he2
          exact absurd ⟨hm, hf⟩ hc
      · intro e2 he2 _
        simp only [Option.some.injEq] at he2
        subst he2
        refine ⟨bytes, dev2, hb, rfl, ?_⟩
        intro hB hD
        have := SetRawData_loop_decrypt e len len (len + (streamBody rest).length + 1)
          (pre ++ ws ++ eolMarker rest) (streamBody rest) [] hB hD (by omega)
        rw [this] at hb
        simp only [List.nil_append, Prod.mk.injEq, Except.ok.injEq, PdfStream.mk.injEq,
          true_and] at hb
        exact hb.1.symm

theorem ParseStream_decrypts_unless_crypt_filter_witness :
    (ParseStream { PdfParserObject.new ⟨[], [10, 72, 73, 10]⟩ 0 with
        m_Variant := PdfVariant.Dictionary [(strLength, PdfVariant.Number 2),
          (strFilter, PdfVariant.Array [PdfVariant.Name strCrypt])],
        m_Encrypt := some (sampleEncrypt false),
        m_DelayedLoadDone := true }).2.m_Stream = some ⟨false, [72, 73]⟩ :=
  (ParseStream_decrypts_unless_crypt_filter
    { PdfParserObject.new ⟨[], [10, 72, 73, 10]⟩ 0 with
      m_Variant := PdfVariant.Dictionary [(strLength, PdfVariant.Number 2),
        (strFilter, PdfVariant.Array [PdfVariant.Name strCrypt])],
      m_Encrypt := some (sampleEncrypt false),
      m_DelayedLoadDone := true }
    ⟨[], [10, 72, 73, 10]⟩
    [(strLength, PdfVariant.Number 2), (strFilter, PdfVariant.Array [PdfVariant.Name strCrypt])]
    2 [] [] [10, 72, 73, 10] rfl rfl rfl rfl rfl rfl rfl (by decide) (by decide)
    (by decide)).2.1 (Or.inr ⟨sampleEncrypt false, rfl, rfl, rfl⟩)

/-! ## Eviction -/

/-- C21: `FreeObjectMemory( force )` on any object. When the object is load-on-demand and
`force` is set or the object is not dirty, the value becomes Null, the stream is released
and both load flags are cleared, so that the next `DelayedLoad` parses the object from the
device again; nothing else of the object changes. In every other case, so for a dirty
object with `force` false, the object is left exactly as it was, and a `DelayedLoad` or
`DelayedLoadStream` of a loaded object returns it as it is in memory, device included.
For a loaded object the value load flag is cleared exactly under the condition above. -/
theorem FreeObjectMemory_evicts_iff (o : PdfParserObject) (force : Bool) :
    ((o.m_LoadOnDemand = true ∧ (force = true ∨ o.m_IsDirty = false)) →
        FreeObjectMemory o force
            = { o with m_Variant := PdfVariant.Null, m_Stream := none,
                       m_DelayedLoadDone := false, m_DelayedLoadStreamDone := false }
          ∧ DelayedLoad (FreeObjectMemory o force)
            = (match ParseFileComplete (FreeObjectMemory o force) o.m_IsTrailer with
              | (.error e, o1) => (.error e, o1)
              | (.ok _, o1) => (.ok (), { o1 with m_DelayedLoadDone := true })))
      ∧ (¬ (o.m_LoadOnDemand = true ∧ (force = true ∨ o.m_IsDirty = false)) →
          FreeObjectMemory o force = o)
      ∧ (o.m_IsDirty = true → FreeObjectMemory o false = o)
      ∧ (¬ (o.m_LoadOnDemand = true ∧ (force = true ∨ o.m_IsDirty = false)) →
          o.m_DelayedLoadDone = true →
          DelayedLoad (FreeObjectMemory o force) = (.ok (), o)
            ∧ (o.m_DelayedLoadStreamDone = true →
                DelayedLoadStream (FreeObjectMemory o force) = (.ok (), o)))
      ∧ (o.m_DelayedLoadDone = true →
          ((FreeObjectMemory o force).m_DelayedLoadDone = false ↔
            (o.m_LoadOnDemand = true ∧ (force = true ∨ o.m_IsDirty = false)))) := by
  have hd : (¬ o.m_IsDirty = true) ↔ o.m_IsDirty = false := by
    cases o.m_IsDirty <;> simp
  refine ⟨?_, ?_, ?_, ?_, ?_⟩
  · intro hc
    have hc2 : o.m_LoadOnDemand = true ∧ (force = true ∨ ¬ o.m_IsDirty = true) := by
      rw [hd]; exact hc
    have he : FreeObjectMemory o force
        = { o with m_Variant := PdfVariant.Null, m_Stream := none,
                   m_DelayedLoadDone := false, m_DelayedLoadStreamDone := false } := by
      simp only [FreeObjectMemory, if_pos hc2, PdfParserObject.Clear,
        PdfParserObject.FreeStream, PdfParserObject.EnableDelayedLoading,
        PdfParserObject.EnableDelayedLoadingStream]
    refine ⟨he, ?_⟩
    rw [he]
    simp only [DelayedLoad, Bool.false_eq_true, if_false]
  · intro hc
    have hc2 : ¬ (o.m_LoadOnDemand = true ∧ (force = true ∨ ¬ o.m_IsDirty = true)) := by
      rw [hd]; exact hc
    simp only [FreeObjectMemory, if_neg hc2]
  · intro hdirty
    simp [FreeObjectMemory, hdirty]
  · intro hc hl
    have hc2 : ¬ (o.m_LoadOnDemand = true ∧ (force = true ∨ ¬ o.m_IsDirty = true)) := by
      rw [hd]; exact hc
    have he : FreeObjectMemory o force = o := by simp only [FreeObjectMemory, if_neg hc2]
    rw [he]
    refine ⟨by simp only [DelayedLoad, hl, if_true], ?_⟩
    intro hs
    simp only [DelayedLoadStream, DelayedLoad, hl, if_true, hs]
  · intro hl
    by_cases hc : o.m_LoadOnDemand = true ∧ (force = true ∨ ¬ o.m_IsDirty = true)
    · simp only [FreeObjectMemory, if_pos hc, PdfParserObject.Clear,
        PdfParserObject.FreeStream, PdfParserObject.EnableDelayedLoading,
        PdfParserObject.EnableDelayedLoadingStream, true_iff]
      rw [← hd]; exact hc
    · have hc2 : ¬ (o.m_LoadOnDemand = true ∧ (force = true ∨ o.m_IsDirty = false)) := by
        rw [← hd]; exact hc
      simp only [FreeObjectMemory, if_neg hc, hl]
      exact ⟨fun h => Bool.noConfusion h, fun h => absurd h hc2⟩

theorem FreeObjectMemory_evicts_iff_witness :
    FreeObjectMemory { PdfParserObject.new ⟨[], [53]⟩ 0 with
        m_Variant := PdfVariant.Number 7, m_LoadOnDemand := true, m_IsDirty := true,
        m_DelayedLoadDone := true } false
      = { PdfParserObject.new ⟨[], [53]⟩ 0 with
        m_Variant := PdfVariant.Number 7, m_LoadOnDemand := true, m_IsDirty := true,
        m_DelayedLoadDone := true }
    ∧ (FreeObjectMemory { PdfParserObject.new ⟨[], [53]⟩ 0 with
        m_Variant := PdfVariant.Number 7, m_LoadOnDemand := true, m_IsDirty := true,
        m_DelayedLoadDone := true } true).m_Variant = PdfVariant.Null :=
  ⟨(FreeObjectMemory_evicts_iff { PdfParserObject.new ⟨[], [53]⟩ 0 with
        m_Variant := PdfVariant.Number 7, m_LoadOnDemand := true, m_IsDirty := true,
        m_DelayedLoadDone := true } false).2.2.1 rfl,
   congrArg PdfParserObject.m_Variant
    ((FreeObjectMemory_evicts_iff { PdfParserObject.new ⟨[], [53]⟩ 0 with
        m_Variant := PdfVariant.Number 7, m_LoadOnDemand := true, m_IsDirty := true,
        m_DelayedLoadDone := true } true).1 ⟨rfl, Or.inl rfl⟩).1⟩

/-! ## Numeric tokens that are not numbers -/

/-- C29: `DetermineDataType` on the integer token `12` when the device holds ` 5.5 R`. The
second token `5.5` is not an integer token, yet `strtoll` converts its first digit, the
third token is `R`, and the result is the tag Reference with the reference `12 5`, which
`GetNextVariant` returns; the tokens `5.5` and `R` are consumed. When the third token is
not `R`, as in ` 5.5 x`, the result is Number 12. -/
theorem DetermineDataType_reference_after_real_token :
    isIntegerToken [49, 50] = true ∧ isIntegerToken [53, 46, 53] = false
      ∧ DetermineDataType ⟨some ⟨[49, 50], [32, 53, 46, 53, 32, 82]⟩, PDF_BUFFER, [], []⟩
          [49, 50] EPdfTokenType.Token PdfVariant.Null
        = (.ok EPdfDataType.Reference, PdfVariant.Reference 12 5,
            ⟨some ⟨[49, 50, 32, 53, 46, 53, 32, 82], []⟩, PDF_BUFFER, [], []⟩)
      ∧ GetNextVariantOf 1 ⟨some ⟨[49, 50], [32, 53, 46, 53, 32, 82]⟩, PDF_BUFFER, [], []⟩
          [49, 50] EPdfTokenType.Token PdfVariant.Null none
        = (.ok (PdfVariant.Reference 12 5),
            ⟨some ⟨[49, 50, 32, 53, 46, 53, 32, 82], []⟩, PDF_BUFFER, [], []⟩)
      ∧ (DetermineDataType ⟨some ⟨[49, 50], [32, 53, 46, 53, 32, 120]⟩, PDF_BUFFER, [], []⟩
          [49, 50] EPdfTokenType.Token PdfVariant.Null).1 = .ok EPdfDataType.Number
      ∧ (DetermineDataType ⟨some ⟨[49, 50], [32, 53, 46, 53, 32, 120]⟩, PDF_BUFFER, [], []⟩
          [49, 50] EPdfTokenType.Token PdfVariant.Null).2.1 = PdfVariant.Number 12 :=
  ⟨rfl, rfl, rfl, rfl, rfl, rfl⟩

/-- C30: tokens of kind Token that do not match the numeric grammar and are given a numeric
type all the same. `1-2` is resolved to the Number 1 and `-` to the Number 0, since the
scan admits a sign at any place and the result of `strtoll` is not checked; `1.2.3` is
resolved to the Real `1.2` and `5.` to the Real `5.`, since the scan admits any number of
points and the extraction stops where the text stops being a number. `GetNextVariant`
returns these values. -/
theorem DetermineDataType_accepts_malformed_number :
    (matchesNumber [49, 45, 50] = false
        ∧ (DetermineDataType ⟨some ⟨[], []⟩, PDF_BUFFER, [], []⟩ [49, 45, 50]
            EPdfTokenType.Token PdfVariant.Null).1 = .ok EPdfDataType.Number
        ∧ (GetNextVariantOf 1 ⟨some ⟨[], []⟩, PDF_BUFFER, [], []⟩ [49, 45, 50]
            EPdfTokenType.Token PdfVariant.Null none).1 = .ok (PdfVariant.Number 1))
      ∧ (matchesNumber [45] = false
        ∧ (DetermineDataType ⟨some ⟨[], []⟩, PDF_BUFFER, [], []⟩ [45]
            EPdfTokenType.Token PdfVariant.Null).1 = .ok EPdfDataType.Number
        ∧ (GetNextVariantOf 1 ⟨some ⟨[], []⟩, PDF_BUFFER, [], []⟩ [45]
            EPdfTokenType.Token PdfVariant.Null none).1 = .ok (PdfVariant.Number 0))
      ∧ (matchesNumber [49, 46, 50, 46, 51] = false
        ∧ (DetermineDataType ⟨some ⟨[], []⟩, PDF_BUFFER, [], []⟩ [49, 46, 50, 46, 51]
            EPdfTokenType.Token PdfVariant.Null).1 = .ok EPdfDataType.Real
        ∧ (GetNextVariantOf 1 ⟨some ⟨[], []⟩, PDF_BUFFER, [], []⟩ [49, 46, 50, 46, 51]
            EPdfTokenType.Token PdfVariant.Null none).1 = .ok (PdfVariant.Real [49, 46, 50]))
      ∧ (matchesNumber [53, 46] = false
        ∧ (GetNextVariantOf 1 ⟨some ⟨[], []⟩, PDF_BUFFER, [], []⟩ [53, 46]
            EPdfTokenType.Token PdfVariant.Null none).1 = .ok (PdfVariant.Real [53, 46]))
      ∧ (matchesNumber [49, 50] = true ∧ matchesNumber [45, 46, 53] = true
        ∧ matchesNumber [43, 49, 46, 53] = true ∧ matchesNumber [] = false
        ∧ matchesNumber [46] = false) :=
  ⟨⟨rfl, rfl, rfl⟩, ⟨rfl, rfl, rfl⟩, ⟨rfl, rfl, rfl⟩, ⟨rfl, rfl⟩, rfl, rfl, rfl, rfl, rfl⟩

/-! ## The append protocol of streams -/

theorem GetKey_AddKey (dict : List (List Nat × PdfVariant)) (key : List Nat) (val : PdfVariant) :
    GetKey (AddKey dict key val) key = some val := by
  have h : List.find? (fun e => e.1 == key) (dict.filter (fun e => e.1 != key)) = none := by
    rw [List.find?_eq_none]
    intro e he
    have := (List.mem_filter.1 he).2
    simpa using this
  simp [GetKey, AddKey, List.find?_append, h]

theorem GetKey_AddKey_other (dict : List (List Nat × PdfVariant)) (key k : List Nat)
    (val : PdfVariant) (hk : k ≠ key) : GetKey (AddKey dict key val) k = GetKey dict k := by
  have hk2 : (key == k) = false := by simpa using fun h => hk h.symm
  induction dict with
  | nil => simp [GetKey, AddKey, hk2]
  | cons e rest ih =>
    simp only [GetKey, AddKey] at ih ⊢
    by_cases h1 : e.1 = key
    · have h2 : (e.1 == k) = false := by rw [h1]; exact hk2
      simp only [List.filter_cons, h1, bne_self_eq_false, Bool.false_eq_true, if_false,
        List.find?_cons, h2]
      rw [h1] at h2
      simpa [h2] using ih
    · have h3 : (e.1 != key) = true := by simpa using h1
      simp only [List.filter_cons, h3, if_true, List.cons_append, List.find?_cons]
      cases h4 : (e.1 == k)
      · simpa using ih
      · rfl

theorem GetKey_RemoveKey (dict : List (List Nat × PdfVariant)) (key : List Nat) :
    GetKey (RemoveKey dict key) key = none := by
  have h : List.find? (fun e => e.1 == key) (dict.filter (fun e => e.1 != key)) = none := by
    rw [List.find?_eq_none]
    intro e he
    have := (List.mem_filter.1 he).2
    simpa using this
  simp [GetKey, RemoveKey, h]

theorem GetKey_RemoveKey_other (dict : List (List Nat × PdfVariant)) (key k : List Nat)
    (hk : k ≠ key) : GetKey (RemoveKey dict key) k = GetKey dict k := by
  induction dict with
  | nil => simp [GetKey, RemoveKey]
  | cons e rest ih =>
    simp only [GetKey, RemoveKey] at ih ⊢
    by_cases h1 : e.1 = key
    · have h2 : (e.1 == k) = false := by
        rw [h1]; simpa using fun h => hk h.symm
      simp only [List.filter_cons, h1, bne_self_eq_false, Bool.false_eq_true, if_false,
        List.find?_cons]
      rw [h1] at h2
      simpa [h2] using ih
    · have h3 : (e.1 != key) = true := by simpa using h1
      simp only [List.filter_cons, h3, if_true, List.find?_cons]
      cases h4 : (e.1 == k)
      · simpa using ih
      · rfl

namespace PdfMemStream

theorem GetFilteredCopy_ne_logic (codec : FilterCodec) (s : PdfMemStream) :
    GetFilteredCopy codec s ≠ .error .InternalLogic := by
  have hfold : ∀ (items : List PdfVariant) (acc : Raised (List EPdfFilter)),
      acc ≠ .error .InternalLogic →
      items.foldl (fun acc item =>
        match acc, item with
        | .error e, _ => .error e
        | .ok fs, .Name n =>
          match FilterNameToType n with
          | some f => .ok (fs ++ [f])
          | none => .error .UnsupportedFilter
        | .ok _, _ => .error .InvalidDataType) acc ≠ .error .InternalLogic := by
    intro items
    induction items with
    | nil => intro acc h; simpa using h
    | cons item rest ih =>
      intro acc h
      simp only [List.foldl_cons]
      apply ih
      rcases acc with e | fs
      · simpa using h
      · cases item <;> simp
        split <;> simp
  have hc : CreateFilterList s.m_pParent ≠ .error .InternalLogic := by
    simp only [CreateFilterList]
    split
    · simp
    · split
      · simp
      · split <;> simp
      · exact hfold _ _ (by simp)
      · simp
  simp only [GetFilteredCopy]
  split
  · rename_i e he
    intro h
    simp only [Except.error.injEq] at h
    subst h
    exact hc he
  · split_ifs
    · split <;> simp
    · simp

end PdfMemStream

namespace PdfMemStream

theorem BeginAppend_logic (codec : FilterCodec) (s : PdfMemStream)
    (vecFilters : List EPdfFilter) (bClearExisting bDeleteFilters : Bool)
    (hs : s.m_bAppend = false) :
    (BeginAppend codec s vecFilters bClearExisting bDeleteFilters).1 ≠ .error .InternalLogic
      ∧ ((BeginAppend codec s vecFilters bClearExisting bDeleteFilters).1 = .ok () →
          (BeginAppend codec s vecFilters bClearExisting bDeleteFilters).2.m_bAppend = true)
      ∧ ((BeginAppend codec s vecFilters bClearExisting bDeleteFilters).1 ≠ .ok () →
          (BeginAppend codec s vecFilters bClearExisting bDeleteFilters).2
            = { s with m_pParent := s.m_pParent.map StreamParent.SetDirty }) := by
  obtain ⟨ap, par, buf, ps⟩ := s
  simp only at hs
  subst hs
  simp only [BeginAppend, Bool.false_eq_true, if_false]
  by_cases hc : bClearExisting = false ∧
      GetLength ⟨false, par.map StreamParent.SetDirty, buf, ps⟩ ≠ 0
  · rw [if_pos hc]
    have hne := GetFilteredCopy_ne_logic codec ⟨false, par.map StreamParent.SetDirty, buf, ps⟩
    rcases hg : GetFilteredCopy codec ⟨false, par.map StreamParent.SetDirty, buf, ps⟩
      with e | bytes
    · rw [hg] at hne
      have hne2 : e ≠ EPdfError.InternalLogic := fun h => hne (by rw [h])
      simp only
      refine ⟨fun h => hne2 (Except.error.inj h), fun h => Except.noConfusion h,
        fun _ => trivial⟩
    · simp [Append, AppendImpl, BeginAppendImpl]
      split <;> simp
  · rw [if_neg hc]
    simp [BeginAppendImpl]

end PdfMemStream

/-- C22: for every stream state, codec and argument. `Append` and `EndAppend` raise the
logic fault exactly when no append is open, `BeginAppend` raises it exactly when one is
open, and a call that raises it leaves the whole state, parent included, as it was.
`IsAppending` is true after a `BeginAppend` that succeeds, is left as it is by `Append`, by
a `BeginAppend` that fails and by `GetFilteredCopy`, and is false after an `EndAppend` that
succeeds. `Append` and `EndAppend` raise nothing else; a `BeginAppend` that raises another
error, from the copy of the content held, leaves flag, content and dictionary of the
parent as they were and has set the parent dirty. -/
theorem stream_append_logic_fault (codec : FilterCodec) (s : PdfMemStream) (bytes : List Nat)
    (vecFilters : List EPdfFilter) (bClearExisting bDeleteFilters : Bool) :
    (((s.Append bytes).1 = .error .InternalLogic ↔ s.IsAppending = false)
        ∧ ((s.Append bytes).1 ≠ .ok () → s.Append bytes = (.error .InternalLogic, s))
        ∧ (s.Append bytes).2.IsAppending = s.IsAppending)
      ∧ (((PdfMemStream.EndAppend codec s).1 = .error .InternalLogic ↔ s.IsAppending = false)
        ∧ ((PdfMemStream.EndAppend codec s).1 ≠ .ok () →
            PdfMemStream.EndAppend codec s = (.error .InternalLogic, s))
        ∧ ((PdfMemStream.EndAppend codec s).1 = .ok () →
            (PdfMemStream.EndAppend codec s).2.IsAppending = false))
      ∧ (((PdfMemStream.BeginAppend codec s vecFilters bClearExisting bDeleteFilters).1
            = .error .InternalLogic ↔ s.IsAppending = true)
        ∧ ((PdfMemStream.BeginAppend codec s vecFilters bClearExisting bDeleteFilters).1
            = .error .InternalLogic →
            (PdfMemStream.BeginAppend codec s vecFilters bClearExisting bDeleteFilters).2 = s)
        ∧ ((PdfMemStream.BeginAppend codec s vecFilters bClearExisting bDeleteFilters).1
            = .ok () →
            (PdfMemStream.BeginAppend codec s vecFilters bClearExisting
              bDeleteFilters).2.IsAppending = true)
        ∧ ((PdfMemStream.BeginAppend codec s vecFilters bClearExisting bDeleteFilters).1
            ≠ .ok () →
            (PdfMemStream.BeginAppend codec s vecFilters bClearExisting
                bDeleteFilters).2.IsAppending = s.IsAppending
              ∧ (PdfMemStream.BeginAppend codec s vecFilters bClearExisting
                bDeleteFilters).2.buffer = s.buffer
              ∧ (PdfMemStream.BeginAppend codec s vecFilters bClearExisting
                bDeleteFilters).2.m_pParent.map StreamParent.dictionary
                  = s.m_pParent.map StreamParent.dictionary
              ∧ (s.IsAppending = false →
                  (PdfMemStream.BeginAppend codec s vecFilters bClearExisting
                    bDeleteFilters).2.m_pParent.map StreamParent.m_IsDirty
                      = s.m_pParent.map (fun _ => true)))) := by
  refine ⟨⟨?_, ?_, ?_⟩, ⟨?_, ?_, ?_⟩, ⟨?_, ?_, ?_, ?_⟩⟩
  · cases h : s.m_bAppend <;> simp [PdfMemStream.Append, PdfMemStream.IsAppending, h]
  · cases h : s.m_bAppend <;> simp [PdfMemStream.Append, h]
  · cases h : s.m_bAppend
    · simp [PdfMemStream.Append, PdfMemStream.IsAppending, h]
    · simp only [PdfMemStream.Append, h, Bool.true_eq_false, if_false,
        PdfMemStream.IsAppending, PdfMemStream.AppendImpl]
      split <;> rfl
  · cases h : s.m_bAppend <;> simp [PdfMemStream.EndAppend, PdfMemStream.IsAppending, h]
  · cases h : s.m_bAppend <;> simp [PdfMemStream.EndAppend, h]
  · cases h : s.m_bAppend
    · simp [PdfMemStream.EndAppend, h]
    · intro _
      simp only [PdfMemStream.EndAppend, h, Bool.true_eq_false, if_false,
        PdfMemStream.IsAppending, PdfMemStream.EndAppendImpl]
      split <;> rfl
  · cases h : s.m_bAppend
    · have := (PdfMemStream.BeginAppend_logic codec s vecFilters bClearExisting
        bDeleteFilters h).1
      simp [PdfMemStream.IsAppending, h, this]
    · simp [PdfMemStream.BeginAppend, PdfMemStream.IsAppending, h]
  · cases h : s.m_bAppend
    · intro he
      exact absurd he (PdfMemStream.BeginAppend_logic codec s vecFilters bClearExisting
        bDeleteFilters h).1
    · intro _
      simp [PdfMemStream.BeginAppend, h]
  · cases h : s.m_bAppend
    · exact (PdfMemStream.BeginAppend_logic codec s vecFilters bClearExisting
        bDeleteFilters h).2.1
    · simp [PdfMemStream.BeginAppend, h]
  · cases h : s.m_bAppend
    · intro hne
      rw [(PdfMemStream.BeginAppend_logic codec s vecFilters bClearExisting
        bDeleteFilters h).2.2 hne]
      refine ⟨by simp [PdfMemStream.IsAppending, h], rfl, ?_, ?_⟩
      · cases s.m_pParent <;> rfl
      · intro _
        cases s.m_pParent <;> rfl
    · intro _
      simp [PdfMemStream.BeginAppend, h, PdfMemStream.IsAppending]

theorem stream_append_logic_fault_witness :
    (PdfMemStream.Append ⟨false, some ⟨[], false⟩, [72], none⟩ [73]).1
        = .error .InternalLogic
      ∧ (PdfMemStream.BeginAppend ⟨fun _ b => b, fun _ b => some b⟩
          ⟨true, some ⟨[], false⟩, [72], none⟩ [] true true).2
        = ⟨true, some ⟨[], false⟩, [72], none⟩ :=
  ⟨(stream_append_logic_fault ⟨fun _ b => b, fun _ b => some b⟩
      ⟨false, some ⟨[], false⟩, [72], none⟩ [73] [] true true).1.1.2 rfl,
   (stream_append_logic_fault ⟨fun _ b => b, fun _ b => some b⟩
      ⟨true, some ⟨[], false⟩, [72], none⟩ [73] [] true true).2.2.2.1 rfl⟩

namespace PdfMemStream

theorem BeginAppend_parent (codec : FilterCodec) (s : PdfMemStream)
    (vecFilters : List EPdfFilter) (bClearExisting bDeleteFilters : Bool)
    (hok : (BeginAppend codec s vecFilters bClearExisting bDeleteFilters).1 = .ok ()) :
    s.m_bAppend = false
      ∧ (BeginAppend codec s vecFilters bClearExisting bDeleteFilters).2.m_pParent
        = s.m_pParent.map (fun p => setFilterKey p.SetDirty vecFilters bDeleteFilters) := by
  obtain ⟨ap, par, buf, ps⟩ := s
  cases ap
  swap
  · simp [BeginAppend] at hok
  refine ⟨rfl, ?_⟩
  revert hok
  simp only [BeginAppend, Bool.false_eq_true, if_false]
  have hmap : ∀ (q : Option StreamParent),
      Option.map (fun p => setFilterKey p vecFilters bDeleteFilters)
        (Option.map StreamParent.SetDirty q)
      = q.map (fun p => setFilterKey p.SetDirty vecFilters bDeleteFilters) := by
    intro q
    cases q <;> rfl
  by_cases hc : bClearExisting = false ∧
      GetLength ⟨false, par.map StreamParent.SetDirty, buf, ps⟩ ≠ 0
  · rw [if_pos hc]
    rcases hg : GetFilteredCopy codec ⟨false, par.map StreamParent.SetDirty, buf, ps⟩
      with e | bytes
    · simp
    · intro _
      simp only [Append, Bool.true_eq_false, if_false, AppendImpl, BeginAppendImpl]
      split <;> exact hmap par
  · rw [if_neg hc]
    intro _
    simp only [BeginAppendImpl]
    exact hmap par

theorem setFilterKey_nil (p : StreamParent) (bDeleteFilters : Bool) :
    setFilterKey p [] bDeleteFilters
      = if bDeleteFilters = true then { p with dictionary := RemoveKey p.dictionary strFilter }
        else p := rfl

theorem setFilterKey_one (p : StreamParent) (f : EPdfFilter) (bDeleteFilters : Bool) :
    setFilterKey p [f] bDeleteFilters
      = { p with dictionary :=
            AddKey p.dictionary strFilter (PdfVariant.Name (FilterTypeToName f)) } := rfl

theorem setFilterKey_many (p : StreamParent) (f g : EPdfFilter) (rest : List EPdfFilter)
    (bDeleteFilters : Bool) :
    setFilterKey p (f :: g :: rest) bDeleteFilters
      = { p with dictionary := AddKey p.dictionary strFilter (PdfVariant.Array
            ((f :: g :: rest).map (fun f => PdfVariant.Name (FilterTypeToName f)))) } := rfl

end PdfMemStream

/-- C24: a `BeginAppend` that succeeds on a stream with the parent `p` leaves a parent that
is dirty and whose `/Filter` entry is `filterEntry vecFilters` for a filter list that is not
empty: the name of the filter for one filter, the array of the filter names in list order
for two or more. With no filter the entry is removed when `bDeleteFilters` is set, and the
dictionary is exactly as it was when it is not. Every other entry of the dictionary is as
it was in all cases. -/
theorem BeginAppend_sets_filter_entry (codec : FilterCodec) (s : PdfMemStream)
    (p : StreamParent) (vecFilters : List EPdfFilter) (bClearExisting bDeleteFilters : Bool)
    (hp : s.m_pParent = some p)
    (hok : (PdfMemStream.BeginAppend codec s vecFilters bClearExisting bDeleteFilters).1
      = .ok ()) :
    ∃ q, (PdfMemStream.BeginAppend codec s vecFilters bClearExisting bDeleteFilters).2.m_pParent
          = some q
      ∧ q.m_IsDirty = true
      ∧ (vecFilters ≠ [] → GetKey q.dictionary strFilter = filterEntry vecFilters)
      ∧ (∀ f, vecFilters = [f] →
          GetKey q.dictionary strFilter = some (PdfVariant.Name (FilterTypeToName f)))
      ∧ (2 ≤ vecFilters.length →
          GetKey q.dictionary strFilter
            = some (PdfVariant.Array
                (vecFilters.map (fun f => PdfVariant.Name (FilterTypeToName f)))))
      ∧ (vecFilters = [] → bDeleteFilters = true → GetKey q.dictionary strFilter = none)
      ∧ (vecFilters = [] → bDeleteFilters = false → q.dictionary = p.dictionary)
      ∧ (∀ k, k ≠ strFilter → GetKey q.dictionary k = GetKey p.dictionary k) := by
  obtain ⟨-, hpar⟩ := PdfMemStream.BeginAppend_parent codec s vecFilters bClearExisting
    bDeleteFilters hok
  rw [hpar, hp]
  simp only [Option.map_some']
  rcases vecFilters with _ | ⟨f, _ | ⟨g, rest⟩⟩
  · rw [PdfMemStream.setFilterKey_nil]
    cases bDeleteFilters
    · refine ⟨_, rfl, rfl, fun h => absurd rfl h, fun f h => (by cases h),
        fun h => (by simp at h), fun _ h => (by cases h), fun _ _ => rfl, fun k _ => rfl⟩
    · refine ⟨_, rfl, rfl, fun h => absurd rfl h, fun f h => (by cases h),
        fun h => (by simp at h), fun _ _ => GetKey_RemoveKey _ _, fun _ h => (by cases h),
        fun k hk => GetKey_RemoveKey_other _ _ _ hk⟩
  · rw [PdfMemStream.setFilterKey_one]
    refine ⟨_, rfl, rfl, fun _ => GetKey_AddKey _ _ _, ?_, fun h => (by simp at h),
      fun h => (by cases h), fun h => (by cases h),
      fun k hk => GetKey_AddKey_other _ _ _ _ hk⟩
    intro f2 h
    simp only [List.cons.injEq, and_true] at h
    subst h
    exact GetKey_AddKey _ _ _
  · rw [PdfMemStream.setFilterKey_many]
    refine ⟨_, rfl, rfl, fun _ => GetKey_AddKey _ _ _, fun f2 h => (by simp at h),
      fun _ => GetKey_AddKey _ _ _, fun h => (by cases h), fun h => (by cases h),
      fun k hk => GetKey_AddKey_other _ _ _ _ hk⟩

theorem BeginAppend_sets_filter_entry_witness :
    ∃ q, (PdfMemStream.BeginAppend ⟨fun _ b => b, fun _ b => some b⟩
          ⟨false, some ⟨[(strLength, PdfVariant.Number 0)], false⟩, [], none⟩
          [EPdfFilter.ASCIIHexDecode, EPdfFilter.FlateDecode] true true).2.m_pParent = some q
      ∧ q.m_IsDirty = true
      ∧ GetKey q.dictionary strFilter
        = some (PdfVariant.Array [PdfVariant.Name (FilterTypeToName EPdfFilter.ASCIIHexDecode),
            PdfVariant.Name (FilterTypeToName EPdfFilter.FlateDecode)]) := by
  obtain ⟨q, h1, h2, -, -, h5, -⟩ := BeginAppend_sets_filter_entry
    ⟨fun _ b => b, fun _ b => some b⟩
    ⟨false, some ⟨[(strLength, PdfVariant.Number 0)], false⟩, [], none⟩
    ⟨[(strLength, PdfVariant.Number 0)], false⟩
    [EPdfFilter.ASCIIHexDecode, EPdfFilter.FlateDecode] true true rfl rfl
  exact ⟨q, h1, h2, h5 (by decide)⟩

theorem appendAll_open (q : Option StreamParent) : ∀ (pieces : List (List Nat)) (b : List Nat),
    appendAll ⟨true, q, b, none⟩ pieces = (.ok (), ⟨true, q, b ++ pieces.flatten, none⟩) := by
  intro pieces
  induction pieces with
  | nil => intro b; simp [appendAll]
  | cons p ps ih =>
    intro b
    simp only [appendAll, PdfMemStream.Append, Bool.true_eq_false, if_false,
      PdfMemStream.AppendImpl, ih, List.flatten_cons, List.append_assoc]

theorem CreateFilterList_no_filter (q : Option StreamParent)
    (h : ∀ p, q = some p → GetKey p.dictionary strFilter = none) :
    PdfMemStream.CreateFilterList q = .ok [] := by
  cases q with
  | none => rfl
  | some p => simp only [PdfMemStream.CreateFilterList, h p rfl]

/-- C23: for every stream on which no append is open, whatever it holds, and every list of
pieces: `BeginAppend` with no filter and the existing content cleared, `Append` of the
pieces one after the other and `EndAppend` succeed, and `GetFilteredCopy` then returns
exactly the concatenation of the pieces, which is also the internal buffer. The filter
chain of the parent is empty then: the call removes the `/Filter` key (`bDeleteFilters`
set), or the parent has none, or there is no parent. For one piece this is what
`Set( data, no filters )` does. -/
theorem GetFilteredCopy_returns_appended (codec : FilterCodec) (s : PdfMemStream)
    (pieces : List (List Nat)) (bDeleteFilters : Bool) (hs : s.m_bAppend = false)
    (hf : bDeleteFilters = true
      ∨ ∀ p, s.m_pParent = some p → GetKey p.dictionary strFilter = none) :
    ∃ s1 s2 s3, PdfMemStream.BeginAppend codec s [] true bDeleteFilters = (.ok (), s1)
      ∧ appendAll s1 pieces = (.ok (), s2)
      ∧ PdfMemStream.EndAppend codec s2 = (.ok (), s3)
      ∧ PdfMemStream.GetFilteredCopy codec s3 = .ok pieces.flatten
      ∧ s3.buffer = pieces.flatten
      ∧ s3.IsAppending = false
      ∧ (bDeleteFilters = true → ∀ data, pieces = [data] →
          PdfMemStream.Set codec s data [] = (.ok (), s3)) := by
  obtain ⟨ap, par, buf, ps⟩ := s
  simp only at hs hf
  subst hs
  have hB : PdfMemStream.BeginAppend codec ⟨false, par, buf, ps⟩ [] true bDeleteFilters
      = (.ok (), ⟨true, par.map (fun p =>
          PdfMemStream.setFilterKey p.SetDirty [] bDeleteFilters), [], none⟩) := by
    simp only [PdfMemStream.BeginAppend, Bool.false_eq_true, if_false, Bool.true_eq_false,
      false_and, PdfMemStream.BeginAppendImpl, List.length_nil, ne_eq, not_true_eq_false]
    cases par <;> rfl
  have hA := appendAll_open (par.map (fun p =>
    PdfMemStream.setFilterKey p.SetDirty [] bDeleteFilters)) pieces []
  have hE : PdfMemStream.EndAppend codec ⟨true, par.map (fun p =>
        PdfMemStream.setFilterKey p.SetDirty [] bDeleteFilters), [] ++ pieces.flatten, none⟩
      = (.ok (), ⟨false, par.map (fun p =>
          PdfMemStream.setFilterKey p.SetDirty [] bDeleteFilters), pieces.flatten, none⟩) := by
    simp [PdfMemStream.EndAppend, PdfMemStream.EndAppendImpl]
  have hC : PdfMemStream.CreateFilterList (par.map (fun p =>
      PdfMemStream.setFilterKey p.SetDirty [] bDeleteFilters)) = .ok [] := by
    apply CreateFilterList_no_filter
    intro q hq
    cases par with
    | none => cases hq
    | some p =>
      simp only [Option.map_some', Option.some.injEq] at hq
      subst hq
      rw [PdfMemStream.setFilterKey_nil]
      rcases hf with hd | hn
      · rw [if_pos hd]
        exact GetKey_RemoveKey _ _
      · cases bDeleteFilters
        · exact hn p rfl
        · exact GetKey_RemoveKey _ _
  refine ⟨_, _, _, hB, hA, hE, ?_, rfl, rfl, ?_⟩
  · simp only [PdfMemStream.GetFilteredCopy, hC, List.length_nil, ne_eq, not_true_eq_false,
      if_false]
  · intro hd data hp
    subst hd hp
    have hA1 : PdfMemStream.Append ⟨true, par.map (fun p =>
          PdfMemStream.setFilterKey p.SetDirty [] true), [], none⟩ data
        = (.ok (), ⟨true, par.map (fun p =>
          PdfMemStream.setFilterKey p.SetDirty [] true), [] ++ [data].flatten, none⟩) := by
      simp [PdfMemStream.Append, PdfMemStream.AppendImpl]
    simp only [PdfMemStream.Set, hB, hA1, hE]

theorem GetFilteredCopy_returns_appended_witness :
    ∃ s1 s2 s3, PdfMemStream.BeginAppend ⟨fun _ b => b, fun _ b => some b⟩
          ⟨false, some ⟨[(strFilter, PdfVariant.Name (FilterTypeToName EPdfFilter.FlateDecode))],
            false⟩, [1, 2, 3], none⟩ [] true true = (.ok (), s1)
      ∧ appendAll s1 [[72, 69], [], [76]] = (.ok (), s2)
      ∧ PdfMemStream.EndAppend ⟨fun _ b => b, fun _ b => some b⟩ s2 = (.ok (), s3)
      ∧ PdfMemStream.GetFilteredCopy ⟨fun _ b => b, fun _ b => some b⟩ s3 = .ok [72, 69, 76] := by
  obtain ⟨s1, s2, s3, h1, h2, h3, h4, -⟩ := GetFilteredCopy_returns_appended
    ⟨fun _ b => b, fun _ b => some b⟩
    ⟨false, some ⟨[(strFilter, PdfVariant.Name (FilterTypeToName EPdfFilter.FlateDecode))],
      false⟩, [1, 2, 3], none⟩ [[72, 69], [], [76]] true rfl (Or.inl rfl)
  exact ⟨s1, s2, s3, h1, h2, h3, h4⟩

/-! ## Raw data -/

theorem SetRawData_counted_spec {σ τ : Type} (Read : σ → Nat → List Nat × σ)
    (rest : σ → List Nat) (Append : τ → List Nat → Raised Unit × τ) (I : τ → Prop)
    (step : τ → List Nat → τ) (hR : holdsBytes Read rest)
    (hA : ∀ t c, I t → Append t c = (.ok (), step t c) ∧ I (step t c)) :
    ∀ (fuel : Nat) (inp : σ) (lLen : Nat) (t : τ), I t → (rest inp).length < fuel →
      ∃ (pieces : List (List Nat)) (inp2 : σ),
        PdfMemStream.SetRawData_counted Read Append fuel inp lLen t
            = (.ok (), pieces.foldl step t, inp2)
          ∧ pieces.flatten = (rest inp).take lLen
          ∧ rest inp2 = (rest inp).drop lLen
          ∧ (∀ c ∈ pieces, c.length ≤ BUFFER_SIZE)
          ∧ I (pieces.foldl step t) := by
  intro fuel
  induction fuel with
  | zero => intro inp lLen t _ hf; omega
  | succ f ih =>
    intro inp lLen t hI hf
    obtain ⟨h1, h2, h3⟩ := hR inp (min BUFFER_SIZE lLen)
    obtain ⟨hA1, hA2⟩ := hA t (Read inp (min BUFFER_SIZE lLen)).1 hI
    have hlen : (rest inp).length
        = (Read inp (min BUFFER_SIZE lLen)).1.length
          + (rest (Read inp (min BUFFER_SIZE lLen)).2).length := by
      rw [← h1, List.length_append]
    have hle : (Read inp (min BUFFER_SIZE lLen)).1.length ≤ lLen :=
      le_trans h2 (Nat.min_le_right _ _)
    have hleB : (Read inp (min BUFFER_SIZE lLen)).1.length ≤ BUFFER_SIZE :=
      le_trans h2 (Nat.min_le_left _ _)
    simp only [PdfMemStream.SetRawData_counted, hA1]
    by_cases hc : lLen - (Read inp (min BUFFER_SIZE lLen)).1.length ≠ 0
        ∧ (Read inp (min BUFFER_SIZE lLen)).1.length > 0
    · rw [if_pos hc]
      obtain ⟨pieces, inp2, e1, e2, e3, e4, e5⟩ := ih (Read inp (min BUFFER_SIZE lLen)).2
        (lLen - (Read inp (min BUFFER_SIZE lLen)).1.length)
        (step t (Read inp (min BUFFER_SIZE lLen)).1) hA2 (by omega)
      refine ⟨(Read inp (min BUFFER_SIZE lLen)).1 :: pieces, inp2, ?_, ?_, ?_, ?_, ?_⟩
      · rw [e1]; rfl
      · rw [List.flatten_cons, e2, ← h1, List.take_append_eq_append_take,
          List.take_of_length_le hle]
      · rw [e3]
        conv_rhs => rw [← h1]
        rw [List.drop_append_eq_append_drop, List.drop_of_length_le hle, List.nil_append]
      · intro c hcm
        rcases List.mem_cons.1 hcm with rfl | hm
        · exact hleB
        · exact e4 c hm
      · exact e5
    · rw [if_neg hc]
      refine ⟨[(Read inp (min BUFFER_SIZE lLen)).1], _, rfl, ?_, ?_, ?_, hA2⟩
      · simp only [List.flatten_cons, List.flatten_nil, List.append_nil]
        have hcases : lLen ≤ (Read inp (min BUFFER_SIZE lLen)).1.length
            ∨ (Read inp (min BUFFER_SIZE lLen)).1.length = 0 := by
          by_contra hcon
          push_neg at hcon
          exact hc ⟨by omega, by omega⟩
        rcases hcases with hfull | hzero
        · conv_rhs => rw [← h1]
          rw [List.take_append_eq_append_take,
            List.take_of_length_le (by omega : _ ≤ lLen)]
          have : lLen - (Read inp (min BUFFER_SIZE lLen)).1.length = 0 := by omega
          rw [this, List.take_zero, List.append_nil]
        · have hnil : (Read inp (min BUFFER_SIZE lLen)).1 = [] := List.length_eq_zero.1 hzero
          rw [hnil]
          rcases h3 hnil with hk | hr
          · have hB : 0 < BUFFER_SIZE := by decide
            have : lLen = 0 := by
              rcases Nat.le_total BUFFER_SIZE lLen with h | h
              · rw [Nat.min_eq_left h] at hk; omega
              · rw [Nat.min_eq_right h] at hk; exact hk
            rw [this, List.take_zero]
          · rw [hr, List.take_nil]
      · have hcases : lLen ≤ (Read inp (min BUFFER_SIZE lLen)).1.length
            ∨ (Read inp (min BUFFER_SIZE lLen)).1.length = 0 := by
          by_contra hcon
          push_neg at hcon
          exact hc ⟨by omega, by omega⟩
        rcases hcases with hfull | hzero
        · conv_rhs => rw [← h1]
          rw [List.drop_append_eq_append_drop,
            List.drop_of_length_le (by omega : _ ≤ lLen)]
          have : lLen - (Read inp (min BUFFER_SIZE lLen)).1.length = 0 := by omega
          rw [this, List.drop_zero, List.nil_append]
        · have hnil : (Read inp (min BUFFER_SIZE lLen)).1 = [] := List.length_eq_zero.1 hzero
          rcases h3 hnil with hk | hr
          · have : lLen = 0 := by
              have hB : 0 < BUFFER_SIZE := by decide
              rcases Nat.le_total BUFFER_SIZE lLen with h | h
              · rw [Nat.min_eq_left h] at hk; omega
              · rw [Nat.min_eq_right h] at hk; exact hk
            have hd : List.drop lLen (rest inp) = rest inp := by rw [this]; rfl
            rw [hd]
            have h1b := h1
            rw [hnil, List.nil_append] at h1b
            exact h1b
          · have hr2 : rest (Read inp (min BUFFER_SIZE lLen)).2 = [] := by
              have := h1
              rw [hnil, List.nil_append, hr] at this
              exact this
            rw [hr2, hr, List.drop_nil]
      · intro c hcm
        simp only [List.mem_singleton] at hcm
        subst hcm
        exact hleB

theorem SetRawData_exhaust_spec {σ τ : Type} (Read : σ → Nat → List Nat × σ)
    (rest : σ → List Nat) (Append : τ → List Nat → Raised Unit × τ) (I : τ → Prop)
    (step : τ → List Nat → τ) (hR : holdsBytes Read rest)
    (hA : ∀ t c, I t → Append t c = (.ok (), step t c) ∧ I (step t c)) :
    ∀ (fuel : Nat) (inp : σ) (t : τ), I t → (rest inp).length < fuel →
      ∃ (pieces : List (List Nat)) (inp2 : σ),
        PdfMemStream.SetRawData_exhaust Read Append fuel inp t
            = (.ok (), pieces.foldl step t, inp2)
          ∧ pieces.flatten = rest inp
          ∧ rest inp2 = []
          ∧ (∀ c ∈ pieces, c.length ≤ BUFFER_SIZE)
          ∧ I (pieces.foldl step t) := by
  intro fuel
  induction fuel with
  | zero => intro inp t _ hf; omega
  | succ f ih =>
    intro inp t hI hf
    obtain ⟨h1, h2, h3⟩ := hR inp BUFFER_SIZE
    obtain ⟨hA1, hA2⟩ := hA t (Read inp BUFFER_SIZE).1 hI
    have hlen : (rest inp).length
        = (Read inp BUFFER_SIZE).1.length + (rest (Read inp BUFFER_SIZE).2).length := by
      rw [← h1, List.length_append]
    simp only [PdfMemStream.SetRawData_exhaust, hA1]
    by_cases hc : (Read inp BUFFER_SIZE).1.length > 0
    · rw [if_pos hc]
      obtain ⟨pieces, inp2, e1, e2, e3, e4, e5⟩ := ih (Read inp BUFFER_SIZE).2
        (step t (Read inp BUFFER_SIZE).1) hA2 (by omega)
      refine ⟨(Read inp BUFFER_SIZE).1 :: pieces, inp2, ?_, ?_, e3, ?_, e5⟩
      · rw [e1]; rfl
      · rw [List.flatten_cons, e2, h1]
      · intro c hcm
        rcases List.mem_cons.1 hcm with rfl | hm
        · exact h2
        · exact e4 c hm
    · rw [if_neg hc]
      have hnil : (Read inp BUFFER_SIZE).1 = [] := List.length_eq_zero.1 (by omega)
      have hr : rest inp = [] := by
        rcases h3 hnil with hk | hr
        · exact absurd hk (by decide)
        · exact hr
      have hr2 : rest (Read inp BUFFER_SIZE).2 = [] := by
        have := h1
        rw [hnil, List.nil_append, hr] at this
        exact this
      refine ⟨[(Read inp BUFFER_SIZE).1], _, rfl, ?_, hr2, ?_, hA2⟩
      · rw [hnil, hr]; rfl
      · intro c hcm
        simp only [List.mem_singleton] at hcm
        subst hcm
        exact h2

theorem foldl_AppendImpl (q : Option StreamParent) : ∀ (pieces : List (List Nat)) (b : List Nat),
    pieces.foldl PdfMemStream.AppendImpl ⟨true, q, b, none⟩
      = ⟨true, q, b ++ pieces.flatten, none⟩ := by
  intro pieces
  induction pieces with
  | nil => intro b; simp
  | cons p ps ih =>
    intro b
    simp only [List.foldl_cons, PdfMemStream.AppendImpl, ih, List.flatten_cons,
      List.append_assoc]

theorem foldl_recordAppend : ∀ (pieces acc : List (List Nat)),
    pieces.foldl (fun t c => t ++ [c]) acc = acc ++ pieces := by
  intro pieces
  induction pieces with
  | nil => intro acc; simp
  | cons p ps ih => intro acc; simp [ih]

theorem SetRawData_counted_trace {σ τ : Type} (Read : σ → Nat → List Nat × σ)
    (Append : τ → List Nat → Raised Unit × τ) (I : τ → Prop) (step : τ → List Nat → τ)
    (hA : ∀ t c, I t → Append t c = (.ok (), step t c) ∧ I (step t c)) :
    ∀ (fuel : Nat) (inp : σ) (lLen : Nat) (t : τ) (log : List (List Nat)), I t →
      ∃ (pieces : List (List Nat)) (inp2 : σ) (r : Raised Unit),
        PdfMemStream.SetRawData_counted Read recordAppend fuel inp lLen log
            = (r, log ++ pieces, inp2)
          ∧ PdfMemStream.SetRawData_counted Read Append fuel inp lLen t
            = (r, pieces.foldl step t, inp2) := by
  intro fuel
  induction fuel with
  | zero =>
    intro inp lLen t log _
    exact ⟨[], inp, .error .OutOfFuel, by simp [PdfMemStream.SetRawData_counted], rfl⟩
  | succ f ih =>
    intro inp lLen t log hI
    obtain ⟨hA1, hA2⟩ := hA t (Read inp (min BUFFER_SIZE lLen)).1 hI
    simp only [PdfMemStream.SetRawData_counted, hA1, recordAppend]
    by_cases hc : lLen - (Read inp (min BUFFER_SIZE lLen)).1.length ≠ 0
        ∧ (Read inp (min BUFFER_SIZE lLen)).1.length > 0
    · rw [if_pos hc, if_pos hc]
      obtain ⟨pieces, inp2, r, e1, e2⟩ := ih (Read inp (min BUFFER_SIZE lLen)).2
        (lLen - (Read inp (min BUFFER_SIZE lLen)).1.length)
        (step t (Read inp (min BUFFER_SIZE lLen)).1)
        (log ++ [(Read inp (min BUFFER_SIZE lLen)).1]) hA2
      refine ⟨(Read inp (min BUFFER_SIZE lLen)).1 :: pieces, inp2, r, ?_, ?_⟩
      · rw [e1]; simp
      · rw [e2]; rfl
    · rw [if_neg hc, if_neg hc]
      exact ⟨[(Read inp (min BUFFER_SIZE lLen)).1], _, .ok (), rfl, rfl⟩

theorem SetRawData_exhaust_trace {σ τ : Type} (Read : σ → Nat → List Nat × σ)
    (Append : τ → List Nat → Raised Unit × τ) (I : τ → Prop) (step : τ → List Nat → τ)
    (hA : ∀ t c, I t → Append t c = (.ok (), step t c) ∧ I (step t c)) :
    ∀ (fuel : Nat) (inp : σ) (t : τ) (log : List (List Nat)), I t →
      ∃ (pieces : List (List Nat)) (inp2 : σ) (r : Raised Unit),
        PdfMemStream.SetRawData_exhaust Read recordAppend fuel inp log
            = (r, log ++ pieces, inp2)
          ∧ PdfMemStream.SetRawData_exhaust Read Append fuel inp t
            = (r, pieces.foldl step t, inp2) := by
  intro fuel
  induction fuel with
  | zero =>
    intro inp t log _
    exact ⟨[], inp, .error .OutOfFuel, by simp [PdfMemStream.SetRawData_exhaust], rfl⟩
  | succ f ih =>
    intro inp t log hI
    obtain ⟨hA1, hA2⟩ := hA t (Read inp BUFFER_SIZE).1 hI
    simp only [PdfMemStream.SetRawData_exhaust, hA1, recordAppend]
    by_cases hc : (Read inp BUFFER_SIZE).1.length > 0
    · rw [if_pos hc, if_pos hc]
      obtain ⟨pieces, inp2, r, e1, e2⟩ := ih (Read inp BUFFER_SIZE).2
        (step t (Read inp BUFFER_SIZE).1) (log ++ [(Read inp BUFFER_SIZE).1]) hA2
      refine ⟨(Read inp BUFFER_SIZE).1 :: pieces, inp2, r, ?_, ?_⟩
      · rw [e1]; simp
      · rw [e2]; rfl
    · rw [if_neg hc, if_neg hc]
      exact ⟨[(Read inp BUFFER_SIZE).1], _, .ok (), rfl, rfl⟩

/-- C25: `SetRawData` on a stream on which no append is open, whatever it holds, from an
input stream that holds the bytes `rest inp` and returns them in pieces of any sizes, with
fuel for more reads than there are bytes. The call succeeds, so the loops end; the
content is then exactly the first `lLen` bytes of the input, all of them when there are
fewer, for a length that is not negative, and all bytes of the input for a negative one;
the input is left behind the bytes taken. The bytes are stored as they are, with no encode
stream, the dictionary of the parent, `/Filter` included, is as it was, and the parent is
dirty. The pieces the loops hand to `Append`, recorded by a receiver that keeps them, have
at most `BUFFER_SIZE` bytes each and make up the content. -/
theorem SetRawData_stores_input {σ : Type} (codec : FilterCodec) (s : PdfMemStream)
    (Read : σ → Nat → List Nat × σ) (rest : σ → List Nat) (hR : holdsBytes Read rest)
    (inp : σ) (lLen : Int) (fuel : Nat) (hs : s.m_bAppend = false)
    (hfuel : (rest inp).length < fuel) :
    ∃ (s2 : PdfMemStream) (inp2 : σ) (pieces : List (List Nat)),
      PdfMemStream.SetRawData codec s Read fuel inp lLen = (.ok (), s2, inp2)
        ∧ s2.buffer = (if lLen < 0 then rest inp else (rest inp).take lLen.toNat)
        ∧ s2.buffer.length
          = (if lLen < 0 then (rest inp).length else min lLen.toNat (rest inp).length)
        ∧ rest inp2 = (if lLen < 0 then [] else (rest inp).drop lLen.toNat)
        ∧ s2.IsAppending = false
        ∧ s2.m_pStream = none
        ∧ s2.m_pParent.map StreamParent.dictionary = s.m_pParent.map StreamParent.dictionary
        ∧ s2.m_pParent.map StreamParent.m_IsDirty = s.m_pParent.map (fun _ => true)
        ∧ (if lLen < 0 then
            PdfMemStream.SetRawData_exhaust Read recordAppend fuel inp []
          else PdfMemStream.SetRawData_counted Read recordAppend fuel inp lLen.toNat [])
            = (.ok (), pieces, inp2)
        ∧ pieces.flatten = s2.buffer
        ∧ (∀ c ∈ pieces, c.length ≤ BUFFER_SIZE) := by
  obtain ⟨ap, par, buf, ps⟩ := s
  simp only at hs
  subst hs
  have hB : PdfMemStream.BeginAppend codec ⟨false, par, buf, ps⟩ [] true false
      = (.ok (), ⟨true, par.map StreamParent.SetDirty, [], none⟩) := by
    simp only [PdfMemStream.BeginAppend, Bool.false_eq_true, if_false, Bool.true_eq_false,
      false_and, PdfMemStream.BeginAppendImpl, List.length_nil, ne_eq, not_true_eq_false]
    cases par <;> rfl
  have hA : ∀ (t : PdfMemStream) (c : List Nat), (t.m_bAppend = true ∧ t.m_pStream = none) →
      PdfMemStream.Append t c = (.ok (), PdfMemStream.AppendImpl t c)
        ∧ ((PdfMemStream.AppendImpl t c).m_bAppend = true
          ∧ (PdfMemStream.AppendImpl t c).m_pStream = none) := by
    intro t c ht
    obtain ⟨a, q, b, m⟩ := t
    simp only at ht
    obtain ⟨rfl, rfl⟩ := ht
    simp [PdfMemStream.Append, PdfMemStream.AppendImpl]
  have hA2 : ∀ (t : List (List Nat)) (c : List Nat), True →
      recordAppend t c = (.ok (), (fun t c => t ++ [c]) t c) ∧ True :=
    fun _ _ _ => ⟨rfl, trivial⟩
  have hd1 : (par.map StreamParent.SetDirty).map StreamParent.dictionary
      = par.map StreamParent.dictionary := by cases par <;> rfl
  have hd2 : (par.map StreamParent.SetDirty).map StreamParent.m_IsDirty
      = par.map (fun _ => true) := by cases par <;> rfl
  by_cases hneg : lLen < 0
  · obtain ⟨pieces2, inp3, f1, f2, f3, f4, -⟩ := SetRawData_exhaust_spec Read rest
      recordAppend (fun _ => True) (fun t c => t ++ [c]) hR hA2 fuel inp [] trivial hfuel
    obtain ⟨pieces, inp2, r, e1, e2⟩ := SetRawData_exhaust_trace Read
      PdfMemStream.Append (fun t => t.m_bAppend = true ∧ t.m_pStream = none)
      PdfMemStream.AppendImpl hA fuel inp ⟨true, par.map StreamParent.SetDirty, [], none⟩ []
      ⟨rfl, rfl⟩
    rw [foldl_recordAppend] at f1
    rw [f1] at e1
    simp only [List.nil_append, Prod.mk.injEq] at e1
    obtain ⟨rfl, rfl, rfl⟩ := e1
    rw [foldl_AppendImpl, List.nil_append] at e2
    refine ⟨⟨false, par.map StreamParent.SetDirty, pieces2.flatten, none⟩, inp3, pieces2,
      ?_, ?_, ?_, ?_, rfl, rfl, hd1, hd2, ?_, rfl, f4⟩
    · simp only [PdfMemStream.SetRawData, hB, hneg, if_true, e2, PdfMemStream.EndAppend,
        Bool.true_eq_false, if_false, PdfMemStream.EndAppendImpl]
    · simp only [hneg, if_true, f2]
    · simp only [hneg, if_true, f2]
    · simp only [hneg, if_true, f3]
    · simp only [hneg, if_true, f1, List.nil_append]
  · obtain ⟨pieces2, inp3, f1, f2, f3, f4, -⟩ := SetRawData_counted_spec Read rest
      recordAppend (fun _ => True) (fun t c => t ++ [c]) hR hA2 fuel inp lLen.toNat []
      trivial hfuel
    obtain ⟨pieces, inp2, r, e1, e2⟩ := SetRawData_counted_trace Read
      PdfMemStream.Append (fun t => t.m_bAppend = true ∧ t.m_pStream = none)
      PdfMemStream.AppendImpl hA fuel inp lLen.toNat
      ⟨true, par.map StreamParent.SetDirty, [], none⟩ [] ⟨rfl, rfl⟩
    rw [foldl_recordAppend] at f1
    rw [f1] at e1
    simp only [List.nil_append, Prod.mk.injEq] at e1
    obtain ⟨rfl, rfl, rfl⟩ := e1
    rw [foldl_AppendImpl, List.nil_append] at e2
    refine ⟨⟨false, par.map StreamParent.SetDirty, pieces2.flatten, none⟩, inp3, pieces2,
      ?_, ?_, ?_, ?_, rfl, rfl, hd1, hd2, ?_, rfl, f4⟩
    · simp only [PdfMemStream.SetRawData, hB, hneg, if_false, e2, PdfMemStream.EndAppend,
        Bool.true_eq_false, PdfMemStream.EndAppendImpl]
    · simp only [hneg, if_false, f2]
    · simp only [hneg, if_false, f2, List.length_take]
    · simp only [hneg, if_false, f3]
    · simp only [hneg, if_false, f1, List.nil_append]

theorem deviceRead_holdsBytes : holdsBytes deviceRead (fun d => d.after) := by
  intro d k
  refine ⟨by simp [deviceRead], by simp [deviceRead, List.length_take], ?_⟩
  intro h
  simp only [deviceRead, List.take_eq_nil_iff] at h
  exact h

theorem SetRawData_stores_input_witness :
    ∃ (s2 : PdfMemStream) (inp2 : PdfInputDevice),
      PdfMemStream.SetRawData ⟨fun _ b => b, fun _ b => some b⟩
          ⟨false, some ⟨[(strFilter, PdfVariant.Name (FilterTypeToName EPdfFilter.FlateDecode))],
            false⟩, [1, 2, 3], none⟩ deviceRead 6 ⟨[], [72, 69, 76, 76, 79]⟩ 3
        = (.ok (), s2, inp2)
      ∧ s2.buffer = [72, 69, 76]
      ∧ s2.m_pParent.map StreamParent.dictionary
        = some [(strFilter, PdfVariant.Name (FilterTypeToName EPdfFilter.FlateDecode))] := by
  obtain ⟨s2, inp2, pieces, h1, h2, -, -, -, -, h7, -⟩ := SetRawData_stores_input
    ⟨fun _ b => b, fun _ b => some b⟩
    ⟨false, some ⟨[(strFilter, PdfVariant.Name (FilterTypeToName EPdfFilter.FlateDecode))],
      false⟩, [1, 2, 3], none⟩ deviceRead (fun d => d.after) deviceRead_holdsBytes
    ⟨[], [72, 69, 76, 76, 79]⟩ 3 6 rfl (by decide)
  exact ⟨s2, inp2, h1, h2, h7⟩

/-! ## Reading a file around the contents beacon -/

theorem size_t_eq (n : Nat) (h : n < 2 ^ 64) : size_t n = n := Nat.mod_eq_of_lt h

theorem size_sub_eq (a b : Nat) (ha : a < 2 ^ 64) (hb : b ≤ a) : size_sub a b = a - b := by
  have h1 : a % 2 ^ 64 = a := Nat.mod_eq_of_lt ha
  have h2 : b % 2 ^ 64 = b := Nat.mod_eq_of_lt (by omega)
  simp only [size_sub, h1, h2]
  omega

theorem take_drop_split (c : List Nat) (p a b : Nat) :
    (c.drop p).take (a + b) = (c.drop p).take a ++ (c.drop (p + a)).take b := by
  rw [List.take_add, List.drop_drop]

theorem take_drop_rest (c : List Nat) (q m : Nat) :
    (c.drop q).take m ++ c.drop (q + m) = c.drop q := by
  rw [← List.drop_drop, List.take_append_drop]

theorem Read_available (c : List Nat) (q n : Nat) (h : q + n ≤ c.length) :
    PdfOutputDevice.Read ⟨c, q⟩ n = ((c.drop q).take n, ⟨c, q + n⟩) := by
  have hl : ((c.drop q).take n).length = n := by
    rw [List.length_take, List.length_drop]; omega
  simp only [PdfOutputDevice.Read, hl]

theorem ReadForSignature_tail_spec (c : List Nat) (q off s pos len : Nat) (buf : List Nat)
    (hF : c.length < 2 ^ 64) (hq : q ≤ c.length) (hos : off + s ≤ c.length)
    (hpos : pos + buf.length < 2 ^ 64) :
    ReadForSignature_tail ⟨c, q⟩ off s pos buf len
      = (buf ++ (c.drop (if pos + buf.length ≥ off ∧ pos < off + s then off + s else q)).take
            (min len
              (c.length - (if pos + buf.length ≥ off ∧ pos < off + s then off + s else q))),
          ⟨c, (if pos + buf.length ≥ off ∧ pos < off + s then off + s else q)
            + min len
              (c.length - (if pos + buf.length ≥ off ∧ pos < off + s then off + s else q))⟩) := by
  have e1 : size_t (pos + buf.length) = pos + buf.length := size_t_eq _ hpos
  have e2 : size_t (off + s) = off + s := size_t_eq _ (by omega)
  simp only [ReadForSignature_tail, e1, e2]
  by_cases hc : pos + buf.length ≥ off ∧ pos < off + s
  · simp only [if_pos hc, PdfOutputDevice.Seek, PdfOutputDevice.GetLength,
      PdfOutputDevice.Tell]
    rw [size_sub_eq _ _ hF hos]
    by_cases h0 : min len (c.length - (off + s)) = 0
    · simp [h0]
    · rw [if_neg h0, Read_available c (off + s) _ (by omega)]
  · simp only [if_neg hc, PdfOutputDevice.GetLength, PdfOutputDevice.Tell]
    rw [size_sub_eq _ _ hF hq]
    by_cases h0 : min len (c.length - q) = 0
    · simp [h0]
    · rw [if_neg h0, Read_available c q _ (by omega)]

theorem ReadForSignature_step (c : List Nat) (p off s len : Nat) (hF : c.length < 2 ^ 64)
    (hp : p ≤ c.length) (hos : off + s ≤ c.length) (hlen : len < 2 ^ 64) (hpos : 0 < len) :
    (ReadForSignature ⟨c, p⟩ off s len).2.content = c
      ∧ (ReadForSignature ⟨c, p⟩ off s len).2.pos ≤ c.length
      ∧ (ReadForSignature ⟨c, p⟩ off s len).1
          ++ outsideFrom c off s (ReadForSignature ⟨c, p⟩ off s len).2.pos
        = outsideFrom c off s p
      ∧ ((ReadForSignature ⟨c, p⟩ off s len).1 = [] →
          (ReadForSignature ⟨c, p⟩ off s len).2.pos = c.length)
      ∧ (ReadForSignature ⟨c, p⟩ off s len).1.length ≤ len := by
  by_cases hb : p < off
  · -- before the beacon
    have hsub : size_sub off p = off - p := size_sub_eq _ _ (by omega) (by omega)
    have hrs : min len (off - p) > 0 := by
      simp only [gt_iff_lt, lt_min_iff]; omega
    have hread := Read_available c p (min len (off - p)) (by omega)
    have hl : ((c.drop p).take (min len (off - p))).length = min len (off - p) := by
      rw [List.length_take, List.length_drop]; omega
    have hsub2 : size_sub len (min len (off - p)) = len - min len (off - p) :=
      size_sub_eq _ _ hlen (Nat.min_le_left _ _)
    by_cases hfit : len ≤ off - p
    · have hm : min len (off - p) = len := Nat.min_eq_left hfit
      rw [hm] at hrs hread hl hsub2
      have hres : ReadForSignature ⟨c, p⟩ off s len = ((c.drop p).take len, ⟨c, p + len⟩) := by
        simp only [ReadForSignature, PdfOutputDevice.Tell, hb, if_true, hsub, hrs, hread, hl,
          hsub2, hm, Nat.sub_self]
      rw [hres]
      refine ⟨rfl, by simp only; omega, ?_, ?_, ?_⟩
      · simp only [outsideFrom, hb, if_true]
        by_cases hlt : p + len < off
        · rw [if_pos hlt, ← List.append_assoc]
          congr 1
          have : off - p = len + (off - (p + len)) := by omega
          rw [this, take_drop_split]
        · rw [if_neg hlt]
          have h1 : off - p = len := by omega
          have h2 : max (p + len) (off + s) = off + s := by omega
          rw [h1, h2]
      · intro h
        simp only at h
        rw [h] at hl
        simp only [List.length_nil] at hl
        omega
      · rw [List.length_take]; omega
    · have hm : min len (off - p) = off - p := Nat.min_eq_right (by omega)
      rw [hm] at hrs hread hl hsub2
      have hne : ¬ (len - (off - p) = 0) := by omega
      have htail := ReadForSignature_tail_spec c (p + (off - p)) off s p (len - (off - p))
        ((c.drop p).take (off - p)) hF (by omega) hos
        (by rw [hl]; omega)
      have hl2 : ((c.drop p).take (off - p)).length = off - p := hl
      have hcond : p + ((c.drop p).take (off - p)).length ≥ off ∧ p < off + s := by
        rw [hl2]; omega
      rw [if_pos hcond] at htail
      have hres : ReadForSignature ⟨c, p⟩ off s len
          = ((c.drop p).take (off - p)
              ++ (c.drop (off + s)).take (min (len - (off - p)) (c.length - (off + s))),
            ⟨c, off + s + min (len - (off - p)) (c.length - (off + s))⟩) := by
        simp only [ReadForSignature, PdfOutputDevice.Tell, hb, if_true, hsub, hrs, hread, hl,
          hsub2, hm, hne, if_false, htail]
      rw [hres]
      refine ⟨rfl, by simp only; omega, ?_, ?_, ?_⟩
      · simp only [outsideFrom, hb, if_true]
        have h1 : ¬ (off + s + min (len - (off - p)) (c.length - (off + s)) < off) := by omega
        have h2 : max (off + s + min (len - (off - p)) (c.length - (off + s))) (off + s)
            = off + s + min (len - (off - p)) (c.length - (off + s)) := by omega
        rw [if_neg h1, h2, List.append_assoc, take_drop_rest]
      · intro h
        have h3 := congrArg List.length h
        simp only [List.length_append, List.length_nil, hl2] at h3
        omega
      · simp only [List.length_append, hl2, List.length_take, List.length_drop]
        omega
  · -- at or behind the start of the beacon
    have htail := ReadForSignature_tail_spec c p off s p len [] hF hp hos
      (by simp only [List.length_nil]; omega)
    simp only [List.length_nil, Nat.add_zero, List.nil_append] at htail
    have hres : ReadForSignature ⟨c, p⟩ off s len
        = ((c.drop (if p ≥ off ∧ p < off + s then off + s else p)).take
              (min len (c.length - (if p ≥ off ∧ p < off + s then off + s else p))),
            ⟨c, (if p ≥ off ∧ p < off + s then off + s else p)
              + min len (c.length - (if p ≥ off ∧ p < off + s then off + s else p))⟩) := by
      simp only [ReadForSignature, PdfOutputDevice.Tell, hb, if_false, htail]
    rw [hres]
    have hq : (if p ≥ off ∧ p < off + s then off + s else p) = max p (off + s) := by
      split_ifs with h <;> omega
    rw [hq]
    have hmax : max p (off + s) ≤ c.length := by omega
    refine ⟨rfl, by simp only; omega, ?_, ?_, ?_⟩
    · simp only [outsideFrom, hb, if_false]
      have h1 : ¬ (max p (off + s) + min len (c.length - max p (off + s)) < off) := by omega
      have h2 : max (max p (off + s) + min len (c.length - max p (off + s))) (off + s)
          = max p (off + s) + min len (c.length - max p (off + s)) := by omega
      rw [if_neg h1, h2, take_drop_rest]
    · intro h
      have h3 := congrArg List.length h
      simp only [List.length_take, List.length_drop, List.length_nil] at h3
      simp only
      omega
    · rw [List.length_take]; omega

theorem readForSignature_loop_spec (c : List Nat) (off s len : Nat) (hF : c.length < 2 ^ 64)
    (hos : off + s ≤ c.length) (hlen : len < 2 ^ 64) (hpos : 0 < len) :
    ∀ (fuel p : Nat) (acc : List Nat), p ≤ c.length →
      (outsideFrom c off s p).length < fuel →
      readForSignature_loop fuel ⟨c, p⟩ off s len acc
        = (.ok (acc ++ outsideFrom c off s p), ⟨c, c.length⟩) := by
  intro fuel
  induction fuel with
  | zero => intro p acc _ hf; omega
  | succ f ih =>
    intro p acc hp hf
    obtain ⟨h1, h2, h3, h4, -⟩ := ReadForSignature_step c p off s len hF hp hos hlen hpos
    simp only [readForSignature_loop]
    generalize ReadForSignature ⟨c, p⟩ off s len = r at h1 h2 h3 h4
    obtain ⟨chunk, ⟨c2, p2⟩⟩ := r
    simp only at h1 h2 h3 h4
    subst h1
    by_cases hz : chunk.length ≠ 0
    · rw [if_pos hz]
      have hlen2 : (outsideFrom c2 off s p).length
          = chunk.length + (outsideFrom c2 off s p2).length := by
        rw [← h3, List.length_append]
      rw [ih p2 (acc ++ chunk) h2 (by omega), List.append_assoc, h3]
    · rw [if_neg hz]
      have hnil : chunk = [] := List.length_eq_zero.1 (by omega)
      have hp2 := h4 hnil
      subst hp2
      rw [hnil, List.nil_append] at h3
      have hout : outsideFrom c2 off s c2.length = [] := by
        simp only [outsideFrom]
        split_ifs with h
        · omega
        · exact List.drop_of_length_le (by omega)
      rw [← h3, hout, List.append_nil]

theorem outsideFrom_zero (c : List Nat) (off s : Nat) :
    outsideFrom c off s 0 = c.take off ++ c.drop (off + s) := by
  simp only [outsideFrom]
  split_ifs with h
  · simp
  · have h0 : off = 0 := by omega
    subst h0
    simp

theorem outsideFrom_length_le (c : List Nat) (off s p : Nat) :
    (outsideFrom c off s p).length ≤ c.length := by
  simp only [outsideFrom]
  split_ifs with h
  · simp only [List.length_append, List.length_take, List.length_drop]
    omega
  · simp only [List.length_drop]
    omega

/-- C26: for a file `c` of fewer than 2^64 bytes with the contents beacon of `s` bytes at
`off`, `off + s` at most the length of the file, and every buffer length `len` above 0: the
loop of `SignDocument` over `ReadForSignature`, started at position 0 with fuel for more
calls than the file has bytes, ends and has handed on exactly the bytes before `off`
followed by the bytes from `off + s` on, `c.length - s` bytes in all, leaving the device at
the end of the file with its bytes as they were. From every position in the file a call
returns at most `len` bytes, and it returns none only when it leaves the device at the end
of the file. -/
theorem ReadForSignature_skips_beacon (c : List Nat) (off s len fuel : Nat)
    (hF : c.length < 2 ^ 64) (hos : off + s ≤ c.length) (hlen : len < 2 ^ 64) (hpos : 0 < len)
    (hfuel : c.length < fuel) :
    readForSignature_loop fuel ⟨c, 0⟩ off s len []
        = (.ok (c.take off ++ c.drop (off + s)), ⟨c, c.length⟩)
      ∧ (c.take off ++ c.drop (off + s)).length = c.length - s
      ∧ (∀ p, p ≤ c.length →
          ((ReadForSignature ⟨c, p⟩ off s len).1 = [] →
              (ReadForSignature ⟨c, p⟩ off s len).2.pos = c.length)
            ∧ (ReadForSignature ⟨c, p⟩ off s len).1.length ≤ len
            ∧ (ReadForSignature ⟨c, p⟩ off s len).2.content = c) := by
  refine ⟨?_, ?_, ?_⟩
  · have h := readForSignature_loop_spec c off s len hF hos hlen hpos fuel 0 []
      (Nat.zero_le _) (lt_of_le_of_lt (outsideFrom_length_le c off s 0) hfuel)
    rw [h, outsideFrom_zero, List.nil_append]
  · simp only [List.length_append, List.length_take, List.length_drop]
    omega
  · intro p hp
    obtain ⟨h1, -, -, h4, h5⟩ := ReadForSignature_step c p off s len hF hp hos hlen hpos
    exact ⟨h4, h5, h1⟩

theorem ReadForSignature_skips_beacon_witness :
    readForSignature_loop 7 ⟨[1, 2, 3, 4, 5, 6], 0⟩ 2 3 2 []
      = (.ok ([1, 2, 3, 4, 5, 6].take 2 ++ [1, 2, 3, 4, 5, 6].drop (2 + 3)),
          ⟨[1, 2, 3, 4, 5, 6], [1, 2, 3, 4, 5, 6].length⟩) :=
  (ReadForSignature_skips_beacon [1, 2, 3, 4, 5, 6] 2 3 2 7 (by decide) (by decide)
    (by decide) (by decide) (by decide)).1

/-! ## The byte range -/

theorem int64_of_size_eq (n : Nat) (h : n < 2 ^ 63) : int64_of_size n = (n : Int) := by
  have h1 : n % 2 ^ 64 = n := Nat.mod_eq_of_lt (by omega)
  simp only [int64_of_size, h1, h, if_true]

theorem decimalInt_natCast (n : Nat) : decimalInt (n : Int) = decimal n := by
  have h : ¬ ((n : Int) < 0) := by omega
  simp only [decimalInt, h, if_false, Int.toNat_ofNat]

theorem byteRangeArray_eq (device : PdfOutputDevice) (off s : Nat)
    (hF : device.GetLength < 2 ^ 63) (hos : off + s ≤ device.GetLength) :
    byteRangeArray device off s
      = [(0 : Int), (off : Int), ((off + s : Nat) : Int),
          ((device.GetLength - (off + s) : Nat) : Int)] := by
  have e1 : size_t (off + s) = off + s := size_t_eq _ (by omega)
  have e2 : size_sub device.GetLength (off + s) = device.GetLength - (off + s) :=
    size_sub_eq _ _ (by omega) hos
  simp only [byteRangeArray, e1, e2]
  rw [int64_of_size_eq 0 (by norm_num), int64_of_size_eq off (by omega),
    int64_of_size_eq (off + s) (by omega),
    int64_of_size_eq (device.GetLength - (off + s)) (by omega)]
  rfl

/-- C27: for a file of fewer than 2^63 bytes, of length `F`, and a contents beacon of `s`
bytes at `off` with `off + s` at most `F`: the array that `AdjustByteRange` builds is
`[0, off, off + s, F - (off + s)]`, and it is written at the byte-range offset as the text
`[ 0 off off+s F-(off+s)]`, over the bytes that were there. Read as the two ranges
`(0, off)` and `(off + s, F - (off + s))` of start and length, the array describes the
bytes of the file outside the beacon: the two lengths and `s` add up to `F`, a position of
the file lies in one of the two ranges exactly when it does not lie in the beacon, and
the bytes of the two ranges are the bytes before `off` followed by those from `off + s`
on. -/
theorem AdjustByteRange_describes_file_outside_beacon (device : PdfOutputDevice)
    (byteRangeOffset off s : Nat) (hF : device.GetLength < 2 ^ 63)
    (hos : off + s ≤ device.GetLength) :
    byteRangeArray device off s
        = [(0 : Int), (off : Int), ((off + s : Nat) : Int),
            ((device.GetLength - (off + s) : Nat) : Int)]
      ∧ writeNumberArray (byteRangeArray device off s)
        = 91 :: 32 :: (decimal 0 ++ 32 :: (decimal off ++ 32 :: (decimal (off + s)
            ++ 32 :: (decimal (device.GetLength - (off + s)) ++ [93]))))
      ∧ AdjustByteRange device byteRangeOffset off s
        = ⟨device.content.take byteRangeOffset
            ++ writeNumberArray (byteRangeArray device off s)
            ++ device.content.drop
                (byteRangeOffset + (writeNumberArray (byteRangeArray device off s)).length),
          byteRangeOffset + (writeNumberArray (byteRangeArray device off s)).length⟩
      ∧ off + (device.GetLength - (off + s)) + s = device.GetLength
      ∧ (∀ i, i < device.GetLength →
          (((0 ≤ i ∧ i < 0 + off)
              ∨ (off + s ≤ i ∧ i < off + s + (device.GetLength - (off + s))))
            ↔ ¬ (off ≤ i ∧ i < off + s)))
      ∧ (device.content.drop 0).take off
          ++ (device.content.drop (off + s)).take (device.GetLength - (off + s))
        = device.content.take off ++ device.content.drop (off + s) := by
  have ha := byteRangeArray_eq device off s hF hos
  refine ⟨ha, ?_, ?_, by omega, ?_, ?_⟩
  · rw [ha]
    simp only [writeNumberArray, List.map_cons, List.map_nil, List.flatten_cons,
      List.flatten_nil, List.append_nil]
    rw [show ((0 : Int)) = ((0 : Nat) : Int) from rfl]
    simp only [decimalInt_natCast, List.cons_append, List.append_assoc]
  · simp only [AdjustByteRange, PdfOutputDevice.Seek, PdfOutputDevice.Write]
  · intro i hi
    constructor
    · rintro (h | h) <;> omega
    · intro h
      by_cases h1 : i < off
      · left; omega
      · right; omega
  · rw [List.drop_zero]
    congr 1
    apply List.take_of_length_le
    simp only [List.length_drop, PdfOutputDevice.GetLength]
    omega

theorem AdjustByteRange_describes_file_outside_beacon_witness :
    AdjustByteRange ⟨List.replicate 60 32, 60⟩ 10 40 6
      = ⟨(List.replicate 60 32).take 10
            ++ writeNumberArray (byteRangeArray ⟨List.replicate 60 32, 60⟩ 40 6)
            ++ (List.replicate 60 32).drop
                (10 + (writeNumberArray (byteRangeArray ⟨List.replicate 60 32, 60⟩ 40 6)).length),
          10 + (writeNumberArray (byteRangeArray ⟨List.replicate 60 32, 60⟩ 40 6)).length⟩
      ∧ writeNumberArray (byteRangeArray ⟨List.replicate 60 32, 60⟩ 40 6)
        = [91, 32, 48, 32, 52, 48, 32, 52, 54, 32, 49, 52, 93] :=
  ⟨(AdjustByteRange_describes_file_outside_beacon ⟨List.replicate 60 32, 60⟩ 10 40 6
      (by decide) (by decide)).2.2.1,
   ((AdjustByteRange_describes_file_outside_beacon ⟨List.replicate 60 32, 60⟩ 10 40 6
      (by decide) (by decide)).2.1).trans (by decide)⟩

/-! ## The contents beacon -/

theorem resize_nil (n c : Nat) : resize [] n c = List.replicate n c := by
  simp [resize]

theorem resize_pad (s : List Nat) (n c : Nat) (h : s.length ≤ n) :
    resize s n c = s ++ List.replicate (n - s.length) c := by
  simp only [resize, List.take_of_length_le h]

theorem hexEncode_length (bytes : List Nat) : (hexEncode bytes).length = 2 * bytes.length := by
  induction bytes with
  | nil => rfl
  | cons b r ih =>
    simp only [hexEncode, List.map_cons, List.flatten_cons, List.length_append,
      List.length_cons, List.length_nil] at ih ⊢
    omega

theorem writeHexString_length (bytes : List Nat) :
    (writeHexString bytes).length = 2 * bytes.length + 2 := by
  simp only [writeHexString, List.length_cons, List.length_append, hexEncode_length,
    List.length_nil]

theorem PrepareBeaconsData_eq (n : Nat) (h : 2 * n + 2 < 2 ^ 64) :
    PrepareBeaconsData n [] [] = (List.replicate (2 * n + 2) 32, List.replicate 37 32) := by
  have e1 : size_t (n * 2) = n * 2 := size_t_eq _ (by omega)
  have e2 : size_t (n * 2 + 2) = 2 * n + 2 := by rw [size_t_eq _ (by omega)]; omega
  simp only [PrepareBeaconsData, e1, e2, resize_nil]
  rfl

/-- C28: `SignDocument` for a signer whose dry-run signature has `n` bytes, `2n + 2` below
2^64. `PrepareBeaconsData` makes the contents beacon `2n + 2` blanks and the byte-range
beacon as many blanks as the constant `ByteRangeBeacon` has bytes, 37. Let the document be
written with these beacons, the contents beacon at `cOff`, and let `d2` be the file after
`AdjustByteRange`, of fewer than 2^64 bytes, with the beacon inside it. The signature is
computed over the bytes of `d2` outside the beacon. When it has more than `n` bytes the call
fails with the `runtime_error` and the file is `d2`, nothing written to it. Otherwise the
signature is filled up with zero bytes to `n` bytes, and its hex string, `2n + 2` bytes
long, replaces exactly the `2n + 2` bytes of the beacon. -/
theorem SignDocument_fills_contents_beacon (doc : PdfMemDocument) (device : PdfOutputDevice)
    (signer : PdfSigner) (n : Nat) (dev1 d2 : PdfOutputDevice) (brOff cOff : Nat)
    (hn : signer.dryRun.length = n) (h64 : 2 * n + 2 < 2 ^ 64)
    (hw : doc.WriteUpdate (List.replicate (2 * n + 2) 32, List.replicate 37 32) device
      = (dev1, brOff, cOff))
    (hd2 : AdjustByteRange dev1 brOff cOff (2 * n + 2) = d2)
    (hF : d2.content.length < 2 ^ 64) (hos : cOff + (2 * n + 2) ≤ d2.content.length) :
    (PrepareBeaconsData n [] [] = (List.replicate (2 * n + 2) 32, List.replicate 37 32)
        ∧ (PrepareBeaconsData n [] []).1.length = 2 * n + 2
        ∧ (PrepareBeaconsData n [] []).2.length = ByteRangeBeacon.length)
      ∧ (n < (signer.sign (outside d2.content cOff (2 * n + 2))).length →
          SignDocument doc device signer
            = (.error .runtime_error, ⟨d2.content, d2.content.length⟩))
      ∧ ((signer.sign (outside d2.content cOff (2 * n + 2))).length ≤ n →
          SignDocument doc device signer
              = (.ok (), ⟨d2.content.take cOff
                  ++ writeHexString (signer.sign (outside d2.content cOff (2 * n + 2))
                      ++ List.replicate
                        (n - (signer.sign (outside d2.content cOff (2 * n + 2))).length) 0)
                  ++ d2.content.drop (cOff + (2 * n + 2)), cOff + (2 * n + 2)⟩)
            ∧ (writeHexString (signer.sign (outside d2.content cOff (2 * n + 2))
                  ++ List.replicate
                    (n - (signer.sign (outside d2.content cOff (2 * n + 2))).length) 0)).length
                = 2 * n + 2
            ∧ (signer.sign (outside d2.content cOff (2 * n + 2))
                  ++ List.replicate
                    (n - (signer.sign (outside d2.content cOff (2 * n + 2))).length) 0).length
                = n) := by
  have hP := PrepareBeaconsData_eq n h64
  obtain ⟨c, p⟩ := d2
  simp only at hF hos
  have hloop := readForSignature_loop_spec c cOff (2 * n + 2) BufferSize hF hos
    (by decide) (by decide) (c.length + 2) 0 [] (Nat.zero_le _)
    (lt_of_le_of_lt (outsideFrom_length_le c cOff (2 * n + 2) 0) (by omega))
  rw [outsideFrom_zero, List.nil_append] at hloop
  have hlenrep : (List.replicate (2 * n + 2) 32).length = 2 * n + 2 := List.length_replicate _ _
  refine ⟨⟨hP, ?_, ?_⟩, ?_, ?_⟩
  · rw [hP]; exact hlenrep
  · rw [hP]; rfl
  · intro hlong
    simp only [outside] at hlong
    simp only [SignDocument, hn, hP, hw, PdfOutputDevice.Flush, hlenrep, hd2,
      PdfOutputDevice.Seek, PdfOutputDevice.GetLength, hloop, gt_iff_lt, hlong, if_true]
  · intro hfit
    simp only [outside] at hfit ⊢
    have hnot : ¬ (n < (signer.sign (c.take cOff ++ c.drop (cOff + (2 * n + 2)))).length) := by
      omega
    have hlen2 : (signer.sign (c.take cOff ++ c.drop (cOff + (2 * n + 2)))
        ++ List.replicate
          (n - (signer.sign (c.take cOff ++ c.drop (cOff + (2 * n + 2)))).length) 0).length
        = n := by
      simp only [List.length_append, List.length_replicate]
      omega
    refine ⟨?_, ?_, hlen2⟩
    · simp only [SignDocument, hn, hP, hw, PdfOutputDevice.Flush, hlenrep, hd2,
        PdfOutputDevice.Seek, PdfOutputDevice.GetLength, hloop, gt_iff_lt, hnot, if_false,
        resize_pad _ _ _ hfit, SetSignature, PdfOutputDevice.Write, writeHexString_length,
        hlen2]
    · rw [writeHexString_length, hlen2]

theorem SignDocument_fills_contents_beacon_witness :
    SignDocument ⟨fun b d => (d.Write (b.2 ++ b.1), 0, 37)⟩ ⟨[], 0⟩ ⟨[0, 0], fun _ => [171]⟩
      = (.ok (), ⟨[91, 32, 48, 32, 51, 55, 32, 52, 51, 32, 48, 93] ++ List.replicate 25 32
          ++ [60, 65, 66, 48, 48, 62], 43⟩) :=
  ((SignDocument_fills_contents_beacon ⟨fun b d => (d.Write (b.2 ++ b.1), 0, 37)⟩ ⟨[], 0⟩
      ⟨[0, 0], fun _ => [171]⟩ 2 ⟨List.replicate 43 32, 43⟩
      (AdjustByteRange ⟨List.replicate 43 32, 43⟩ 0 37 6) 0 37 rfl (by decide) rfl rfl
      (by decide) (by decide)).2.2 (by decide)).1.trans rfl

/-! ## What the numeric scan admits -/

theorem scanNumeric_cases (l : List Nat) :
    ∀ ty : EPdfDataType, (ty = .Number ∨ ty = .Real) →
      (scanNumeric l ty = .Unknown ∧ ∃ c ∈ l, numericChar c = false)
      ∨ (scanNumeric l ty = .Real ∧ (∀ c ∈ l, numericChar c = true)
          ∧ (ty = .Real ∨ 46 ∈ l))
      ∨ (scanNumeric l ty = .Number ∧ (∀ c ∈ l, numericChar c = true)
          ∧ ty = .Number ∧ 46 ∉ l) := by
  induction l with
  | nil =>
    intro ty hty
    rcases hty with h | h
    · exact Or.inr (Or.inr ⟨(by rw [h]; rfl), (fun c hc => by cases hc), h, (fun hc => by cases hc)⟩)
    · exact Or.inr (Or.inl ⟨(by rw [h]; rfl), (fun c hc => by cases hc), Or.inl h⟩)
  | cons c r ih =>
    intro ty hty
    by_cases h46 : c = 46
    · have hs : scanNumeric (c :: r) ty = scanNumeric r .Real := by
        simp only [scanNumeric, if_pos h46]
      have hc : numericChar c = true := by rw [h46]; rfl
      rcases ih .Real (Or.inr rfl) with ⟨h1, x, hx, hx2⟩ | ⟨h1, hall, _⟩ | ⟨_, _, h3, _⟩
      · exact Or.inl ⟨hs.trans h1, x, List.mem_cons_of_mem _ hx, hx2⟩
      · refine Or.inr (Or.inl ⟨hs.trans h1, ?_, Or.inr (by rw [h46]; exact List.mem_cons_self _ _)⟩)
        intro x hx
        rcases List.mem_cons.mp hx with h | h
        · rw [h]; exact hc
        · exact hall x h
      · cases h3
    · by_cases hd : isdigit c = true ∨ c = 45 ∨ c = 43
      · have hs : scanNumeric (c :: r) ty = scanNumeric r ty := by
          simp only [scanNumeric, if_neg h46, not_not.mpr hd, if_false]
        have hc : numericChar c = true := by
          rcases hd with h | h | h
          · simp only [numericChar, h, Bool.true_or]
          · rw [h]; rfl
          · rw [h]; rfl
        have hmem : ∀ x ∈ c :: r, (∀ y ∈ r, numericChar y = true) → numericChar x = true := by
          intro x hx hall
          rcases List.mem_cons.mp hx with h | h
          · rw [h]; exact hc
          · exact hall x h
        rcases ih ty hty with ⟨h1, x, hx, hx2⟩ | ⟨h1, hall, h3⟩ | ⟨h1, hall, h3, h4⟩
        · exact Or.inl ⟨hs.trans h1, x, List.mem_cons_of_mem _ hx, hx2⟩
        · refine Or.inr (Or.inl ⟨hs.trans h1, fun x hx => hmem x hx hall, ?_⟩)
          rcases h3 with h | h
          · exact Or.inl h
          · exact Or.inr (List.mem_cons_of_mem _ h)
        · refine Or.inr (Or.inr ⟨hs.trans h1, fun x hx => hmem x hx hall, h3, ?_⟩)
          intro hx
          rcases List.mem_cons.mp hx with h | h
          · exact h46 h.symm
          · exact h4 h
      · have hs : scanNumeric (c :: r) ty = .Unknown := by
          simp only [scanNumeric, if_neg h46, hd, not_false_eq_true, if_true]
        refine Or.inl ⟨hs, c, List.mem_cons_self _ _, ?_⟩
        have h1 : ¬ isdigit c = true := fun h => hd (Or.inl h)
        have h2 : ¬ c = 45 := fun h => hd (Or.inr (Or.inl h))
        have h3 : ¬ c = 43 := fun h => hd (Or.inr (Or.inr h))
        simp only [numericChar, Bool.or_eq_false_iff, beq_eq_false_iff_ne, ne_eq]
        exact ⟨⟨⟨by simpa using h1, h3⟩, h2⟩, h46⟩

/-- C30, amended: `DetermineDataType` gives a token of kind Token a numeric type, Number, Real
or the Reference built on a Number, only if every character of the token is a digit, a sign
or a point; the type is Real only if the token holds a point and the extraction of a real
succeeds on it, and Number or Reference only if it holds no point. Every token that holds
another character is not resolved to a number: the result is Null, Bool or Unknown and
nothing is read. -/
theorem DetermineDataType_numeric_only_numeric_characters (t : PdfTokenizer)
    (pszToken : List Nat) (rVariant : PdfVariant) :
    (((DetermineDataType t pszToken .Token rVariant).1 = .ok .Number
          ∨ (DetermineDataType t pszToken .Token rVariant).1 = .ok .Real
          ∨ (DetermineDataType t pszToken .Token rVariant).1 = .ok .Reference) →
        ∀ c ∈ cstr pszToken, numericChar c = true)
      ∧ ((DetermineDataType t pszToken .Token rVariant).1 = .ok .Real →
          46 ∈ cstr pszToken
            ∧ ∃ txt, doubleParser (cstr pszToken) = some txt
                ∧ (DetermineDataType t pszToken .Token rVariant).2.1 = .Real txt)
      ∧ (((DetermineDataType t pszToken .Token rVariant).1 = .ok .Number
            ∨ (DetermineDataType t pszToken .Token rVariant).1 = .ok .Reference) →
          46 ∉ cstr pszToken)
      ∧ ((∃ c ∈ cstr pszToken, numericChar c = false) →
          ((DetermineDataType t pszToken .Token rVariant).1 = .ok .Null
              ∨ (DetermineDataType t pszToken .Token rVariant).1 = .ok .Bool
              ∨ (DetermineDataType t pszToken .Token rVariant).1 = .ok .Unknown)
            ∧ (DetermineDataType t pszToken .Token rVariant).2.2 = t) := by
  by_cases hn : strncmpEq strNull pszToken 4 = true
  · have he : DetermineDataType t pszToken .Token rVariant = (.ok .Null, .Null, t) := by
      simp only [DetermineDataType, if_pos hn]
    rw [he]
    refine ⟨?_, ?_, ?_, ?_⟩
    · intro h; rcases h with h | h | h <;> cases h
    · intro h; cases h
    · intro h; rcases h with h | h <;> cases h
    · intro _; exact ⟨Or.inl rfl, rfl⟩
  by_cases ht : strncmpEq strTrue pszToken 4 = true
  · have he : DetermineDataType t pszToken .Token rVariant = (.ok .Bool, .Bool true, t) := by
      simp only [DetermineDataType, if_neg hn, if_pos ht]
    rw [he]
    refine ⟨?_, ?_, ?_, ?_⟩
    · intro h; rcases h with h | h | h <;> cases h
    · intro h; cases h
    · intro h; rcases h with h | h <;> cases h
    · intro _; exact ⟨Or.inr (Or.inl rfl), rfl⟩
  by_cases hf : strncmpEq strFalse pszToken 5 = true
  · have he : DetermineDataType t pszToken .Token rVariant = (.ok .Bool, .Bool false, t) := by
      simp only [DetermineDataType, if_neg hn, if_neg ht, if_pos hf]
    rw [he]
    refine ⟨?_, ?_, ?_, ?_⟩
    · intro h; rcases h with h | h | h <;> cases h
    · intro h; cases h
    · intro h; rcases h with h | h <;> cases h
    · intro _; exact ⟨Or.inr (Or.inl rfl), rfl⟩
  rcases scanNumeric_cases (cstr pszToken) .Number (Or.inl rfl) with
    ⟨h1, x, hx, hx2⟩ | ⟨h1, hall, h3⟩ | ⟨h1, hall, _, h4⟩
  · have he : DetermineDataType t pszToken .Token rVariant = (.ok .Unknown, rVariant, t) := by
      simp only [DetermineDataType, if_neg hn, if_neg ht, if_neg hf, h1]
    rw [he]
    refine ⟨?_, ?_, ?_, ?_⟩
    · intro h; rcases h with h | h | h <;> cases h
    · intro h; cases h
    · intro h; rcases h with h | h <;> cases h
    · intro _; exact ⟨Or.inr (Or.inr rfl), rfl⟩
  · have h46 : 46 ∈ cstr pszToken := by
      rcases h3 with h | h
      · cases h
      · exact h
    have he : DetermineDataType t pszToken .Token rVariant
        = (match doubleParser (cstr pszToken) with
          | none => (.error .InvalidDataType, rVariant, t)
          | some txt => (.ok .Real, .Real txt, t)) := by
      simp only [DetermineDataType, if_neg hn, if_neg ht, if_neg hf, h1]
    rw [he]
    cases hd : doubleParser (cstr pszToken) with
    | none =>
      refine ⟨?_, ?_, ?_, ?_⟩
      · intro h; rcases h with h | h | h <;> cases h
      · intro h; cases h
      · intro h; rcases h with h | h <;> cases h
      · intro ⟨c, hc, hc2⟩
        rw [hall c hc] at hc2; cases hc2
    | some txt =>
      refine ⟨fun _ => hall, fun _ => ⟨h46, txt, rfl, rfl⟩, ?_, ?_⟩
      · intro h; rcases h with h | h <;> cases h
      · intro ⟨c, hc, hc2⟩
        rw [hall c hc] at hc2; cases hc2
  · refine ⟨fun _ => hall, ?_, fun _ => h4, ?_⟩
    · intro h
      exfalso
      simp only [DetermineDataType, if_neg hn, if_neg ht, if_neg hf, h1] at h
      revert h
      repeat' split
      all_goals intro h; cases h
    · intro ⟨c, hc, hc2⟩
      rw [hall c hc] at hc2; cases hc2

theorem DetermineDataType_numeric_only_numeric_characters_witness :
    (DetermineDataType ⟨some ⟨[], []⟩, PDF_BUFFER, [], []⟩ [49, 120, 50] .Token .Null).1
        = .ok .Unknown
      ∧ (∀ c ∈ cstr [49, 46, 50, 46, 51], numericChar c = true) :=
  ⟨((((DetermineDataType_numeric_only_numeric_characters ⟨some ⟨[], []⟩, PDF_BUFFER, [], []⟩
        [49, 120, 50] .Null).2.2.2 ⟨120, by decide, rfl⟩).1.resolve_left
        (fun h => by cases h)).resolve_left (fun h => by cases h)),
   (DetermineDataType_numeric_only_numeric_characters ⟨some ⟨[], []⟩, PDF_BUFFER, [], []⟩
        [49, 46, 50, 46, 51] .Null).1 (Or.inr (Or.inl rfl))⟩

/-! ## Keywords -/

/-- C39: `DetermineDataType` recognises the keywords by their first bytes only. For every
tokenizer, variant and bytes `rest`, the token of kind Token with the text `null` followed
by `rest` is resolved to Null, `true` followed by `rest` to Bool true and `false` followed
by `rest` to Bool false; the tokenizer is returned as it was, so no token is read and
nothing is queued, and `GetNextVariant` returns the value. So `nullx` is Null and
`trueish` is true. -/
theorem DetermineDataType_keyword_prefix (t : PdfTokenizer) (rest : List Nat)
    (rVariant : PdfVariant) (pEncrypt : Option PdfEncrypt) (fuel : Nat) :
    DetermineDataType t (strNull ++ rest) .Token rVariant = (.ok .Null, .Null, t)
      ∧ DetermineDataType t (strTrue ++ rest) .Token rVariant = (.ok .Bool, .Bool true, t)
      ∧ DetermineDataType t (strFalse ++ rest) .Token rVariant = (.ok .Bool, .Bool false, t)
      ∧ GetNextVariantOf (fuel + 1) t (strNull ++ rest) .Token rVariant pEncrypt
          = (.ok .Null, t)
      ∧ GetNextVariantOf (fuel + 1) t (strTrue ++ rest) .Token rVariant pEncrypt
          = (.ok (.Bool true), t)
      ∧ GetNextVariantOf (fuel + 1) t (strFalse ++ rest) .Token rVariant pEncrypt
          = (.ok (.Bool false), t)
      ∧ DetermineDataType t [110, 117, 108, 108, 120] .Token rVariant = (.ok .Null, .Null, t)
      ∧ DetermineDataType t [116, 114, 117, 101, 105, 115, 104] .Token rVariant
          = (.ok .Bool, .Bool true, t) := by
  have hn : strncmpEq strNull (strNull ++ rest) 4 = true := by
    simp [strncmpEq, strNull, cstr, List.takeWhile]
  have ht1 : strncmpEq strNull (strTrue ++ rest) 4 = false := by
    simp [strncmpEq, strNull, strTrue, cstr, List.takeWhile]
  have ht2 : strncmpEq strTrue (strTrue ++ rest) 4 = true := by
    simp [strncmpEq, strTrue, cstr, List.takeWhile]
  have hf1 : strncmpEq strNull (strFalse ++ rest) 4 = false := by
    simp [strncmpEq, strNull, strFalse, cstr, List.takeWhile]
  have hf2 : strncmpEq strTrue (strFalse ++ rest) 4 = false := by
    simp [strncmpEq, strTrue, strFalse, cstr, List.takeWhile]
  have hf3 : strncmpEq strFalse (strFalse ++ rest) 5 = true := by
    simp [strncmpEq, strFalse, cstr, List.takeWhile]
  have e1 : DetermineDataType t (strNull ++ rest) .Token rVariant = (.ok .Null, .Null, t) := by
    simp only [DetermineDataType, hn, if_true]
  have e2 : DetermineDataType t (strTrue ++ rest) .Token rVariant
      = (.ok .Bool, .Bool true, t) := by
    simp only [DetermineDataType, ht1, ht2, Bool.false_eq_true, if_false, if_true]
  have e3 : DetermineDataType t (strFalse ++ rest) .Token rVariant
      = (.ok .Bool, .Bool false, t) := by
    simp only [DetermineDataType, hf1, hf2, hf3, Bool.false_eq_true, if_false, if_true]
  refine ⟨e1, e2, e3, ?_, ?_, ?_, ?_, ?_⟩
  · simp [GetNextVariantOf, e1]
  · simp [GetNextVariantOf, e2]
  · simp [GetNextVariantOf, e3]
  · rfl
  · rfl

/-! ## Access checks -/

theorem and_two_cases (m : Nat) : m &&& 2 = 0 ∨ m &&& 2 = 2 := by
  have h1 : m &&& 2 ≤ 2 := Nat.and_le_right
  have h2 : (m &&& 2) % 2 = 0 := by
    rw [← Nat.and_one_is_mod, Nat.and_assoc]
    have : (2 &&& 1 : Nat) = 0 := by decide
    rw [this, Nat.and_zero]
  omega

/-- C34: for the access Read and the access Write and every mask of a device,
`EnsureAccess` raises an error exactly when the access is not contained in the mask; the
error is `InternalLogic` with the message `Mismatch access for this device, requested`
followed by the name of the access, `Read` or `Write`; the device is returned as it was;
the constructor gives the empty mask, on which both checks raise. -/
theorem EnsureAccess_raises_iff_not_in_mask (d : StreamDeviceBase) :
    (((d.EnsureAccess DeviceAccess.Read).1 ≠ .ok ()
          ↔ d.m_Access &&& DeviceAccess.Read ≠ DeviceAccess.Read)
        ∧ ((d.EnsureAccess DeviceAccess.Read).1 ≠ .ok () →
            (d.EnsureAccess DeviceAccess.Read).1
              = .error (.InternalLogic, "Mismatch access for this device, requested Read")))
      ∧ (((d.EnsureAccess DeviceAccess.Write).1 ≠ .ok ()
          ↔ d.m_Access &&& DeviceAccess.Write ≠ DeviceAccess.Write)
        ∧ ((d.EnsureAccess DeviceAccess.Write).1 ≠ .ok () →
            (d.EnsureAccess DeviceAccess.Write).1
              = .error (.InternalLogic, "Mismatch access for this device, requested Write")))
      ∧ (d.EnsureAccess DeviceAccess.Read).2 = d
      ∧ (d.EnsureAccess DeviceAccess.Write).2 = d
      ∧ StreamDeviceBase.new.m_Access = 0
      ∧ (StreamDeviceBase.new.EnsureAccess DeviceAccess.Read).1
          = .error (.InternalLogic, "Mismatch access for this device, requested Read")
      ∧ (StreamDeviceBase.new.EnsureAccess DeviceAccess.Write).1
          = .error (.InternalLogic, "Mismatch access for this device, requested Write") := by
  obtain ⟨m⟩ := d
  have hr : m &&& 1 = 0 ∨ m &&& 1 = 1 := by
    rw [Nat.and_one_is_mod]
    rcases Nat.mod_two_eq_zero_or_one m with h | h
    · exact Or.inl h
    · exact Or.inr h
  have hw := and_two_cases m
  refine ⟨⟨?_, ?_⟩, ⟨?_, ?_⟩, ?_, ?_, rfl, rfl, rfl⟩
  · rcases hr with h | h
    · simp [StreamDeviceBase.EnsureAccess, DeviceAccess.Read, h, getAccessString]
    · simp [StreamDeviceBase.EnsureAccess, DeviceAccess.Read, h]
  · rcases hr with h | h
    · intro _
      simp [StreamDeviceBase.EnsureAccess, DeviceAccess.Read, h, getAccessString]
    · simp [StreamDeviceBase.EnsureAccess, DeviceAccess.Read, h]
  · rcases hw with h | h
    · simp [StreamDeviceBase.EnsureAccess, DeviceAccess.Write, h, getAccessString,
        DeviceAccess.Read]
    · simp [StreamDeviceBase.EnsureAccess, DeviceAccess.Write, h]
  · rcases hw with h | h
    · intro _
      simp [StreamDeviceBase.EnsureAccess, DeviceAccess.Write, h, getAccessString,
        DeviceAccess.Read]
    · simp [StreamDeviceBase.EnsureAccess, DeviceAccess.Write, h]
  · simp only [StreamDeviceBase.EnsureAccess]
    split
    · split <;> rfl
    · rfl
  · simp only [StreamDeviceBase.EnsureAccess]
    split
    · split <;> rfl
    · rfl

theorem EnsureAccess_raises_iff_not_in_mask_witness :
    (StreamDeviceBase.EnsureAccess ⟨1⟩ DeviceAccess.Read).1 = .ok ()
      ∧ (StreamDeviceBase.EnsureAccess ⟨1⟩ DeviceAccess.Write).1
          = .error (.InternalLogic, "Mismatch access for this device, requested Write") :=
  ⟨Classical.not_not.mp (fun h =>
      ((EnsureAccess_raises_iff_not_in_mask ⟨1⟩).1.1.mp h) rfl),
   (EnsureAccess_raises_iff_not_in_mask ⟨1⟩).2.1.2 (fun h => by cases h)⟩

/-! ## The string output device -/

theorem writeTimes_buffer (s : List Nat) :
    ∀ (n : Nat) (d : PdfStringOutputDevice),
      (writeTimes d s n).buffer = d.buffer ++ (List.replicate n s).flatten := by
  intro n
  induction n with
  | zero => intro d; simp [writeTimes]
  | succ n ih =>
    intro d
    simp only [writeTimes, ih, PdfStringOutputDevice.Write, List.replicate_succ,
      List.flatten_cons, List.append_assoc]

theorem flatten_replicate_length (s : List Nat) (n : Nat) :
    (List.replicate n s).flatten.length = n * s.length := by
  induction n with
  | zero => simp
  | succ n ih =>
    simp only [List.replicate_succ, List.flatten_cons, List.length_append, ih]
    rw [Nat.succ_mul]; omega

/-- C35: for every string `s` and every count `n`, writing `s` to a string output device over
an empty buffer `n` times leaves the buffer with the `n` copies of `s` one after the other,
`n * |s|` bytes. For the test string `Hello World Buffer!`, 19 bytes, written 100 times the
size is 1900. -/
theorem writeTimes_concatenates (s : List Nat) (n : Nat) :
    (writeTimes (PdfStringOutputDevice.new []) s n).buffer = (List.replicate n s).flatten
      ∧ (writeTimes (PdfStringOutputDevice.new []) s n).buffer.length = n * s.length
      ∧ testString.length = 19
      ∧ (writeTimes (PdfStringOutputDevice.new []) testString 100).buffer.length = 1900
      ∧ (writeTimes (PdfStringOutputDevice.new []) testString 100).buffer.length
          = testString.length * 100 := by
  have h1 : (writeTimes (PdfStringOutputDevice.new []) s n).buffer
      = (List.replicate n s).flatten := by
    rw [writeTimes_buffer]; rfl
  have h2 : ∀ k, (writeTimes (PdfStringOutputDevice.new []) testString k).buffer.length
      = k * 19 := by
    intro k
    rw [writeTimes_buffer, PdfStringOutputDevice.new, List.nil_append,
      flatten_replicate_length]
    rfl
  refine ⟨h1, ?_, rfl, ?_, ?_⟩
  · rw [h1, flatten_replicate_length]
  · rw [h2]
  · rw [h2]; rfl

/-! ## The length of a stream -/

theorem SetRawData_all_read : ∀ (n fuel : Nat) (bf inp acc : List Nat), inp.length = n →
    n + 1 ≤ fuel →
    SetRawData_all deviceRead fuel ⟨bf, inp⟩ ⟨true, acc⟩
      = (.ok ⟨true, acc ++ inp⟩, ⟨bf ++ inp, []⟩) := by
  intro n
  induction n using Nat.strong_induction_on with
  | _ n ih =>
    intro fuel bf inp acc hn hf
    obtain ⟨f, rfl⟩ : ∃ f, fuel = f + 1 := ⟨fuel - 1, by omega⟩
    have hl : (inp.take BUFFER_SIZE).length = min BUFFER_SIZE inp.length :=
      List.length_take _ _
    simp only [SetRawData_all, deviceRead, PdfStream.Append, Bool.true_eq_false, if_false]
    by_cases hc : (inp.take BUFFER_SIZE).length > 0
    · rw [if_pos hc]
      have hd : (inp.drop BUFFER_SIZE).length = inp.length - BUFFER_SIZE := List.length_drop _ _
      have hB : 0 < BUFFER_SIZE := by decide
      rw [ih (inp.drop BUFFER_SIZE).length (by omega) f _ _ _ rfl (by omega)]
      simp only [List.append_assoc, List.take_append_drop]
    · rw [if_neg hc]
      have hB : 0 < BUFFER_SIZE := by decide
      have he : inp = [] := by
        cases inp with
        | nil => rfl
        | cons x r => simp only [List.length_cons] at hl; omega
      subst he
      rfl

/-- C40: `ParseStream` on an object whose value is loaded and is a dictionary. When the
value of `/Length` is not a number the call raises `InvalidStreamLength` and the object,
its device included, is as it was. Without encryption, with the device at the stream
offset holding blanks `ws`, then `rest`: for a number `len` that is not negative the stream
holds exactly the first `len` bytes of the body, all of them when fewer are left, so
`min len n` bytes for a body of `n` bytes; for a negative number the call succeeds and
the stream holds every byte of the body up to the end of the device. -/
theorem ParseStream_length_treatment (o : PdfParserObject) (d : PdfInputDevice)
    (dict : List (List Nat × PdfVariant))
    (hdone : o.m_DelayedLoadDone = true) (hdev : o.m_tokenizer.m_device = some d)
    (hdoc : o.hasDocument = true) (hv : o.m_Variant = PdfVariant.Dictionary dict) :
    (∀ v, GetKey dict strLength = some v → (∀ n, v ≠ PdfVariant.Number n) →
        ParseStream o = (.error .InvalidStreamLength, o))
      ∧ (∀ (len : Int) (pre ws rest : List Nat),
          GetKey dict strLength = some (PdfVariant.Number len) →
          o.m_Encrypt = none → o.m_Stream = none →
          d.Seek o.m_StreamOffset = ⟨pre, ws ++ rest⟩ →
          (∀ b ∈ ws, b = 32 ∨ b = 9) → rest.head? ≠ some 32 → rest.head? ≠ some 9 →
          (0 ≤ len →
            (ParseStream o).1 = .ok ()
              ∧ (ParseStream o).2.m_Stream = some ⟨false, (streamBody rest).take len.toNat⟩
              ∧ ((streamBody rest).take len.toNat).length
                  = min len.toNat (streamBody rest).length
              ∧ (ParseStream o).2.m_tokenizer.m_device
                  = some ⟨pre ++ ws ++ eolMarker rest ++ (streamBody rest).take len.toNat,
                      (streamBody rest).drop len.toNat⟩)
            ∧ (len < 0 →
              (ParseStream o).1 = .ok ()
                ∧ (ParseStream o).2.m_Stream = some ⟨false, streamBody rest⟩
                ∧ (ParseStream o).2.m_tokenizer.m_device
                    = some ⟨pre ++ ws ++ eolMarker rest ++ streamBody rest, []⟩)) := by
  obtain ⟨tk, hd, ref, var, st, enc, off, so, hs, it, lod, dld, dlsd, dirty⟩ := o
  obtain ⟨dev, bs, q, vb⟩ := tk
  simp only at hdone hdev hdoc hv
  subst hdone hdev hdoc hv
  refine ⟨?_, ?_⟩
  · intro v hk hnot
    cases v with
    | Number n => exact absurd rfl (hnot n)
    | _ => simp only [ParseStream, Bool.true_eq_false, if_false, hk]
  · intro len pre ws rest hlen henc hstream hpos hws h32 h9
    simp only at henc hstream hpos
    subst henc hstream
    have hskip := skipToStreamBody_spec ws pre rest ((ws ++ rest).length + 1) hws h32 h9
      (by simp only [List.length_append]; omega)
    refine ⟨?_, ?_⟩
    · intro hpos0
      have hread := SetRawData_loop_read len.toNat (len.toNat + (streamBody rest).length + 1)
        (pre ++ ws ++ eolMarker rest) (streamBody rest) [] (by omega)
      have hneg : ¬ (len < 0) := by omega
      simp only [ParseStream, Bool.true_eq_false, if_false, hlen, hpos, hskip,
        Option.getD_none, PdfStream.SetRawData, PdfStream.BeginAppendRaw, Bool.false_eq_true,
        if_true, hneg, hread, List.nil_append, PdfStream.EndAppend, and_self,
        List.length_take, true_and]
    · intro hneg
      have ht : len.toNat = 0 := by omega
      have hread := SetRawData_all_read (streamBody rest).length
        (len.toNat + (streamBody rest).length + 1)
        (pre ++ ws ++ eolMarker rest) (streamBody rest) [] rfl (by omega)
      simp only [ParseStream, Bool.true_eq_false, if_false, hlen, hpos, hskip,
        Option.getD_none, PdfStream.SetRawData, PdfStream.BeginAppendRaw, Bool.false_eq_true,
        if_true, hneg, hread, List.nil_append, PdfStream.EndAppend, and_self]

theorem ParseStream_length_treatment_witness :
    ParseStream { PdfParserObject.new ⟨[], [10, 72, 73, 74]⟩ 0 with
        m_Variant := PdfVariant.Dictionary [(strLength, PdfVariant.Reference 5 0)],
        m_DelayedLoadDone := true }
      = (.error .InvalidStreamLength,
          { PdfParserObject.new ⟨[], [10, 72, 73, 74]⟩ 0 with
            m_Variant := PdfVariant.Dictionary [(strLength, PdfVariant.Reference 5 0)],
            m_DelayedLoadDone := true })
      ∧ (ParseStream { PdfParserObject.new ⟨[], [10, 72, 73, 74]⟩ 0 with
          m_Variant := PdfVariant.Dictionary [(strLength, PdfVariant.Number 9)],
          m_DelayedLoadDone := true }).2.m_Stream = some ⟨false, [72, 73, 74]⟩
      ∧ (ParseStream { PdfParserObject.new ⟨[], [10, 72, 73, 74]⟩ 0 with
          m_Variant := PdfVariant.Dictionary [(strLength, PdfVariant.Number (-1))],
          m_DelayedLoadDone := true }).2.m_Stream = some ⟨false, [72, 73, 74]⟩ :=
  ⟨(ParseStream_length_treatment
      { PdfParserObject.new ⟨[], [10, 72, 73, 74]⟩ 0 with
        m_Variant := PdfVariant.Dictionary [(strLength, PdfVariant.Reference 5 0)],
        m_DelayedLoadDone := true }
      ⟨[], [10, 72, 73, 74]⟩ [(strLength, PdfVariant.Reference 5 0)] rfl rfl rfl rfl).1
      (PdfVariant.Reference 5 0) rfl (fun n h => by cases h),
   (((ParseStream_length_treatment
      { PdfParserObject.new ⟨[], [10, 72, 73, 74]⟩ 0 with
        m_Variant := PdfVariant.Dictionary [(strLength, PdfVariant.Number 9)],
        m_DelayedLoadDone := true }
      ⟨[], [10, 72, 73, 74]⟩ [(strLength, PdfVariant.Number 9)] rfl rfl rfl rfl).2
      9 [] [] [10, 72, 73, 74] rfl rfl rfl rfl (by decide) (by decide) (by decide)).1
      (by decide)).2.1,
   (((ParseStream_length_treatment
      { PdfParserObject.new ⟨[], [10, 72, 73, 74]⟩ 0 with
        m_Variant := PdfVariant.Dictionary [(strLength, PdfVariant.Number (-1))],
        m_DelayedLoadDone := true }
      ⟨[], [10, 72, 73, 74]⟩ [(strLength, PdfVariant.Number (-1))] rfl rfl rfl rfl).2
      (-1) [] [] [10, 72, 73, 74] rfl rfl rfl rfl (by decide) (by decide) (by decide)).2
      (by decide)).2.1⟩

/-! ## A number that is not there -/

theorem cstr_length_le_of_zero : ∀ (l : List Nat) (i : Nat), l[i]? = some 0 →
    (cstr l).length ≤ i := by
  intro l
  induction l with
  | nil => intro i _; exact Nat.zero_le _
  | cons x r ih =>
    intro i h
    by_cases hx : x = 0
    · subst hx
      simp [cstr]
    · have hc : cstr (x :: r) = x :: cstr r := by
        simp [cstr, List.takeWhile_cons, hx]
      rw [hc]
      cases i with
      | zero =>
        simp only [List.getElem?_cons_zero, Option.some.injEq] at h
        exact absurd h hx
      | succ j =>
        simp only [List.getElem?_cons_succ] at h
        have := ih j h
        simp only [List.length_cons]
        omega

theorem strncpy_length (s : List Nat) (n : Nat) : (strncpy s n).length = n := by
  simp only [strncpy, List.length_append, List.length_take, List.length_replicate]
  omega

theorem replay_text (x : List Nat) (n : Nat) (hn : 0 < n) :
    (cstr ((strncpy x n).set (n - 1) 0)).length < n := by
  have h : ((strncpy x n).set (n - 1) 0)[n - 1]? = some 0 :=
    List.getElem?_set_self (by rw [strncpy_length]; omega)
  have := cstr_length_le_of_zero _ _ h
  omega

theorem GetNextToken_text (t t1 : PdfTokenizer) (tok : List Nat) (ty : EPdfTokenType)
    (hn : 3 ≤ t.m_bufferSize) (h : GetNextToken t = (.ok (some (tok, ty)), t1)) :
    cstr tok = tok ∧ tok.length < t.m_bufferSize ∧ t1.m_bufferSize = t.m_bufferSize := by
  obtain ⟨d, n, q, vb⟩ := t
  simp only at hn
  cases q with
  | nil =>
    obtain ⟨⟨d1, hd1⟩, h2, h3⟩ := GetNextToken_from_device d n vb tok ty t1 hn h
    exact ⟨h2, h3, by rw [hd1]⟩
  | cons p q =>
    have hn0 : ¬ n = 0 := by omega
    simp only [GetNextToken, if_neg hn0, Prod.mk.injEq, Except.ok.injEq,
      Option.some.injEq] at h
    obtain ⟨⟨htok, _⟩, ht1⟩ := h
    refine ⟨?_, ?_, by rw [← ht1]⟩
    · rw [← htok, cstr_idem]
    · rw [← htok]
      exact replay_text p.1 n (by omega)

/-- What `GetNextNumber` does on a tokenizer with a token buffer of at least 3 bytes. When
the next token begins with a decimal integer, as `strtoll` converts it, its value is
returned; at the end of the input `UnexpectedEOF` is raised; when the next token does not
begin with an integer `NoNumber` is raised and the token is handed to `QuequeToken`. When
no other token is queued then, the next `GetNextToken` returns that same token, text and
kind, and leaves the tokenizer as it was after the token was read. -/
theorem GetNextNumber_next_token (t t1 : PdfTokenizer) (hn : 3 ≤ t.m_bufferSize) :
    (∀ tok ty, GetNextToken t = (.ok (some (tok, ty)), t1) → (strtoll tok).2 ≠ 0 →
        GetNextNumber t = (.ok (strtoll tok).1, t1))
      ∧ (GetNextToken t = (.ok none, t1) → GetNextNumber t = (.error .UnexpectedEOF, t1))
      ∧ (∀ tok ty, GetNextToken t = (.ok (some (tok, ty)), t1) → (strtoll tok).2 = 0 →
          GetNextNumber t = (.error .NoNumber, QuequeToken t1 tok ty)
            ∧ (t1.m_deqQueque = [] →
                GetNextToken (QuequeToken t1 tok ty) = (.ok (some (tok, ty)), t1))) := by
  refine ⟨?_, ?_, ?_⟩
  · intro tok ty h hs
    simp only [GetNextNumber, h, if_neg hs]
  · intro h
    simp only [GetNextNumber, h]
  · intro tok ty h hs
    obtain ⟨hc, hl, hb⟩ := GetNextToken_text t t1 tok ty hn h
    refine ⟨by simp only [GetNextNumber, h, if_pos hs], ?_⟩
    intro hq
    obtain ⟨d1, n1, q1, vb1⟩ := t1
    simp only at hq hb
    subst hq
    have := GetNextToken_queued d1 n1 tok ty [] vb1 (by rw [hc, hb]; exact hl)
    simp only [QuequeToken, List.nil_append, hc] at this ⊢
    exact this

/-! ## Strings cut off by the end of the input -/

/-- C36: `GetNextToken` with a token buffer of `C` bytes, `C` at least 3, on any input. The
scan of the device has stored at most `C - 1` bytes when it ends, so the terminating NUL
is inside the buffer; a replayed token is copied into exactly the `C` bytes of the buffer
with a NUL in the last; every token returned has at most `C - 1` bytes and no NUL. After
white space, a run of `C - 1` or more regular bytes is returned cut to its first `C - 1`
bytes, as a token of kind Token, and the device is left behind these bytes. -/
theorem GetNextToken_respects_buffer_capacity (C : Nat) (hC : 3 ≤ C) :
    (∀ fuel d, (GetNextToken_loop C fuel ⟨d, [], .Token, none⟩).buf.length + 1 ≤ C)
      ∧ (∀ x, ((strncpy x C).set (C - 1) 0).length = C
          ∧ ((strncpy x C).set (C - 1) 0)[C - 1]? = some 0
          ∧ (cstr ((strncpy x C).set (C - 1) 0)).length ≤ C - 1)
      ∧ (∀ d q vb tok ty t1, GetNextToken ⟨d, C, q, vb⟩ = (.ok (some (tok, ty)), t1) →
          tok.length ≤ C - 1 ∧ cstr tok = tok)
      ∧ (∀ bf ws run rest vb, (∀ b ∈ ws, IsWhitespace b = true) →
          (∀ b ∈ run, isRegular b = true) → C - 1 ≤ run.length →
          GetNextToken ⟨some ⟨bf, ws ++ run ++ rest⟩, C, [], vb⟩
            = (.ok (some (run.take (C - 1), .Token)),
                ⟨some ⟨bf ++ ws ++ run.take (C - 1), run.drop (C - 1) ++ rest⟩, C, [], vb⟩)) := by
  refine ⟨?_, ?_, ?_, ?_⟩
  · intro fuel d
    have := GetNextToken_loop_length C hC fuel ⟨d, [], .Token, none⟩
      (by simp only [List.length_nil]; omega)
    omega
  · intro x
    have hl : ((strncpy x C).set (C - 1) 0).length = C := by
      rw [List.length_set, strncpy_length]
    have hz : ((strncpy x C).set (C - 1) 0)[C - 1]? = some 0 :=
      List.getElem?_set_self (by rw [strncpy_length]; omega)
    exact ⟨hl, hz, cstr_length_le_of_zero _ _ hz⟩
  · intro d q vb tok ty t1 h
    obtain ⟨h1, h2, _⟩ := GetNextToken_text ⟨d, C, q, vb⟩ t1 tok ty hC h
    simp only at h2
    exact ⟨by omega, h1⟩
  · intro bf ws run rest vb hws hreg hlen
    obtain ⟨y, run2, rfl⟩ : ∃ y run2, run = y :: run2 := by
      cases run with
      | nil => simp only [List.length_nil] at hlen; omega
      | cons y r => exact ⟨y, r, rfl⟩
    have hy := hreg y (List.mem_cons_self _ _)
    have hyw := (isRegular_iff y).1 hy
    have hy37 : y ≠ 37 := by
      rintro rfl
      rw [isRegular_percent] at hy
      cases hy
    have hylt : ¬ (y = 60 ∨ y = 62) := by
      intro h
      rw [IsDelimiter_lt_gt y h] at hyw
      cases hyw.2
    have hr2 : ∀ b ∈ run2, isRegular b = true := fun b hb => hreg b (List.mem_cons_of_mem _ hb)
    have hl2 : C - 2 ≤ run2.length := by simp only [List.length_cons] at hlen; omega
    have hsk : skipBlank false (ws ++ (y :: run2 ++ rest)) = y :: (run2 ++ rest) :=
      skipBlank_whitespace ws y _ hws hyw.1 hy37
    have hrun : tokenRun C [y] (run2 ++ rest) = run2.take (C - 2) := by
      simp only [tokenRun, List.takeWhile_append_of_pos hr2, List.length_singleton]
      have : C - 1 - 1 = C - 2 := by omega
      rw [this, List.take_append_of_le_length hl2]
    have hrl : (run2.take (C - 2)).length = C - 2 := by
      rw [List.length_take]; omega
    have hrest : tokenRest C [y] (run2 ++ rest) = run2.drop (C - 2) ++ rest := by
      have hfull : ¬ (([y] ++ run2.take (C - 2)).length + 1 < C) := by
        simp only [List.length_append, List.length_singleton, hrl]; omega
      simp only [tokenRest, hrun, hrl]
      rw [if_neg (fun h => hfull h.1), List.drop_append_of_le_length hl2]
    have hft : firstToken C (skipBlank false (ws ++ (y :: run2 ++ rest)))
        = some (y :: run2.take (C - 2), EPdfTokenType.Token, run2.drop (C - 2) ++ rest) := by
      rw [hsk]
      simp only [firstToken, hylt, if_false, hyw.2, Bool.false_eq_true, hrun, hrest]
    obtain ⟨pre, hpre, hget⟩ := GetNextToken_token bf _ C vb hC _ _ _ hft
    have hC1 : C - 1 = (C - 2) + 1 := by omega
    have htake : (y :: run2).take (C - 1) = y :: run2.take (C - 2) := by
      rw [hC1, List.take_succ_cons]
    have hdrop : (y :: run2).drop (C - 1) = run2.drop (C - 2) := by
      rw [hC1, List.drop_succ_cons]
    have hp : pre = ws ++ (y :: run2.take (C - 2)) := by
      have e : ws ++ (y :: run2 ++ rest)
          = (ws ++ (y :: run2.take (C - 2))) ++ (run2.drop (C - 2) ++ rest) := by
        conv_lhs => rw [← List.take_append_drop (C - 2) run2]
        simp only [List.append_assoc, List.cons_append]
      rw [e] at hpre
      exact List.append_cancel_right hpre
    have hin : ws ++ (y :: run2) ++ rest = ws ++ (y :: run2 ++ rest) := by
      simp only [List.append_assoc]
    rw [hin, hget, htake, hdrop, hp]
    simp only [List.append_assoc]

theorem GetNextToken_respects_buffer_capacity_witness :
    GetNextToken ⟨some ⟨[], [32, 97, 98, 99, 100, 32]⟩, 3, [], []⟩
      = (.ok (some ([97, 98], .Token)), ⟨some ⟨[32, 97, 98], [99, 100, 32]⟩, 3, [], []⟩) :=
  (GetNextToken_respects_buffer_capacity 3 (by decide)).2.2.2 [] [32] [97, 98, 99, 100]
    [32] [] (by decide) (by decide) (by decide)

/-! ## Arrays of integers -/

theorem decimal_length_le (m : Nat) (h : m ≤ 2 ^ 63) : (decimal m).length ≤ 19 :=
  decimalFuel_length _ _ 18 (by omega) (lt_of_le_of_lt h (by norm_num))

theorem decimalInt_length (x : Int) (h : -2 ^ 63 ≤ x ∧ x < 2 ^ 63) :
    (decimalInt x).length ≤ 20 := by
  unfold decimalInt
  split
  · have := decimal_length_le x.natAbs (by omega)
    simp only [List.length_cons]
    omega
  · have := decimal_length_le x.toNat (by omega)
    omega

theorem decimalInt_isIntegerToken (x : Int) : isIntegerToken (decimalInt x) = true := by
  unfold decimalInt
  split
  · have hne := decimal_ne_nil x.natAbs
    have hd := decimal_digits x.natAbs
    simp only [isIntegerToken, unsignedPart, List.head?_cons, Option.some.injEq,
      or_true, if_true, List.tail_cons, List.all_eq_true, Bool.and_eq_true,
      Bool.not_eq_true', List.isEmpty_eq_false]
    exact ⟨by cases h : decimal x.natAbs with
      | nil => exact absurd h hne
      | cons c r => simp, hd⟩
  · exact decimal_isIntegerToken _

theorem decimalInt_regular (x : Int) : ∀ b ∈ decimalInt x, isRegular b = true := by
  intro b hb
  unfold decimalInt at hb
  split at hb
  · rcases List.mem_cons.mp hb with h | h
    · rw [h]; decide
    · exact isdigit_regular b (decimal_digits _ b h)
  · exact isdigit_regular b (decimal_digits _ b hb)

theorem decimalInt_ne_nil (x : Int) : decimalInt x ≠ [] := by
  unfold decimalInt
  split
  · exact List.cons_ne_nil _ _
  · exact decimal_ne_nil _

theorem decimalInt_ne_R (x : Int) : decimalInt x ≠ [82] := by
  intro h
  have := decimalInt_regular x
  have hi := decimalInt_isIntegerToken x
  rw [h] at hi
  revert hi
  decide

theorem strtoll_decimalInt (x : Int) (h : -2 ^ 63 ≤ x ∧ x < 2 ^ 63) :
    (strtoll (decimalInt x)).1 = x := by
  by_cases hneg : x < 0
  · have hx : decimalInt x = 45 :: decimal x.natAbs := by simp only [decimalInt, if_pos hneg]
    have hint := decimalInt_isIntegerToken x
    have hcs := isIntegerToken_cstr _ hint
    rw [hx] at hcs ⊢
    have hd := decimal_digits x.natAbs
    have hne := decimal_ne_nil x.natAbs
    have hv : digitsValue (decimal x.natAbs) = x.natAbs := decimalFuel_value _ _ (by omega)
    have htw : (decimal x.natAbs).takeWhile isdigit = decimal x.natAbs := takeWhile_digits _ hd
    have hlen : (decimal x.natAbs).length ≠ 0 := by
      intro h0
      exact hne (List.length_eq_zero.mp h0)
    have hsp : isspace 45 = false := by decide
    have hdw : (45 :: decimal x.natAbs).dropWhile isspace = 45 :: decimal x.natAbs := by
      simp [List.dropWhile_cons, hsp]
    have hmag : ¬ (x.natAbs > 2 ^ 63) := by omega
    simp only [strtoll, hcs, hdw, List.head?_cons, beq_self_eq_true, Bool.true_or, if_true,
      List.tail_cons, htw, hlen, if_false, hv, hmag]
    omega
  · have hx : decimalInt x = decimal x.toNat := by simp only [decimalInt, if_neg hneg]
    rw [hx, strtoll_decimal _ (by omega)]
    omega

theorem arrayTail_head (r : List Int) (rest : List Nat) :
    ∃ c tl, arrayTail r ++ rest = c :: tl ∧ isRegular c = false ∧ c ≠ 37 := by
  cases r with
  | nil => exact ⟨93, rest, rfl, by decide, by decide⟩
  | cons y r => exact ⟨32, _, rfl, by decide, by decide⟩

theorem GetNextToken_word_at (bf ws w rest vb : List Nat) (x n : Nat) (hn : 3 ≤ n)
    (hws : ∀ b ∈ ws, IsWhitespace b = true) (hw : w ≠ [])
    (hreg : ∀ b ∈ w, isRegular b = true) (hx : isRegular x = false) (hx37 : x ≠ 37)
    (hlen : w.length + 1 < n) :
    GetNextToken ⟨some ⟨bf, ws ++ (w ++ x :: rest)⟩, n, [], vb⟩
      = (.ok (some (w, EPdfTokenType.Token)), ⟨some ⟨bf ++ (ws ++ w), x :: rest⟩, n, [], vb⟩) := by
  obtain ⟨y, w2, rfl⟩ := List.exists_cons_of_ne_nil hw
  have hy := hreg y (List.mem_cons_self _ _)
  have hyw := (isRegular_iff y).1 hy
  have hy37 : y ≠ 37 := by
    rintro rfl
    rw [isRegular_percent] at hy
    cases hy
  have hylt : ¬ (y = 60 ∨ y = 62) := by
    intro h
    rw [IsDelimiter_lt_gt y h] at hyw
    cases hyw.2
  have hw2 : ∀ b ∈ w2, isRegular b = true := fun b hb => hreg b (List.mem_cons_of_mem _ hb)
  have hsk : skipBlank false (ws ++ (y :: w2 ++ x :: rest)) = y :: (w2 ++ x :: rest) :=
    skipBlank_whitespace ws y _ hws hyw.1 hy37
  have htw : (w2 ++ x :: rest).takeWhile isRegular = w2 := by
    rw [List.takeWhile_append_of_pos hw2]
    simp [List.takeWhile_cons, hx]
  have hrun : tokenRun n [y] (w2 ++ x :: rest) = w2 := by
    simp only [tokenRun, htw, List.length_singleton]
    apply List.take_of_length_le
    simp only [List.length_cons] at hlen
    omega
  have hrest : tokenRest n [y] (w2 ++ x :: rest) = x :: rest := by
    simp only [tokenRest, hrun, List.drop_left, List.head?_cons, Option.some.injEq, hx37,
      and_false, if_false]
  have hft : firstToken n (skipBlank false (ws ++ (y :: w2 ++ x :: rest)))
      = some (y :: w2, EPdfTokenType.Token, x :: rest) := by
    rw [hsk]
    simp only [firstToken, hylt, if_false, hyw.2, Bool.false_eq_true, hrun, hrest]
  obtain ⟨pre, hpre, hget⟩ := GetNextToken_token bf _ n vb hn _ _ _ hft
  have hp : pre = ws ++ (y :: w2) := by
    have e : ws ++ (y :: w2 ++ x :: rest) = (ws ++ (y :: w2)) ++ (x :: rest) := by
      simp only [List.append_assoc]
    rw [e] at hpre
    exact List.append_cancel_right hpre
  rw [hget, hp]

theorem GetNextToken_single_at (bf ws rest vb : List Nat) (x n : Nat) (hn : 3 ≤ n)
    (hws : ∀ b ∈ ws, IsWhitespace b = true) (hxw : IsWhitespace x = false)
    (hxd : IsDelimiter x = true) (hx : ¬ (x = 60 ∨ x = 62)) (hx37 : x ≠ 37) :
    GetNextToken ⟨some ⟨bf, ws ++ (x :: rest)⟩, n, [], vb⟩
      = (.ok (some ([x], EPdfTokenType.Delimiter)),
          ⟨some ⟨bf ++ (ws ++ [x]), rest⟩, n, [], vb⟩) := by
  have hsk : skipBlank false (ws ++ (x :: rest)) = x :: rest :=
    skipBlank_whitespace ws x _ hws hxw hx37
  have hft : firstToken n (skipBlank false (ws ++ (x :: rest)))
      = some ([x], EPdfTokenType.Delimiter, rest) := by
    rw [hsk]
    simp [firstToken, hx, hxd]
  obtain ⟨pre, hpre, hget⟩ := GetNextToken_token bf _ n vb hn _ _ _ hft
  have hp : pre = ws ++ [x] := by
    have e : ws ++ (x :: rest) = (ws ++ [x]) ++ rest := by simp
    rw [e] at hpre
    exact List.append_cancel_right hpre
  rw [hget, hp]

theorem GetNextToken_arrayTail (bf rest vb : List Nat) (n : Nat) (hn : 22 ≤ n)
    (r : List Int) (hr : ∀ x ∈ r, -2 ^ 63 ≤ x ∧ x < 2 ^ 63) :
    GetNextToken ⟨some ⟨bf, arrayTail r ++ rest⟩, n, [], vb⟩
      = (.ok (some (lookahead bf rest r).1), ⟨some (lookahead bf rest r).2, n, [], vb⟩) := by
  cases r with
  | nil =>
    have := GetNextToken_single_at bf [] rest vb 93 n (by omega) (by intro b hb; cases hb)
      (by decide) (by decide) (by decide) (by decide)
    simpa [arrayTail, lookahead] using this
  | cons y r2 =>
    obtain ⟨c, tl, hc, hc1, hc2⟩ := arrayTail_head r2 rest
    have hy := hr y (List.mem_cons_self _ _)
    have hl := decimalInt_length y hy
    have := GetNextToken_word_at bf [32] (decimalInt y) tl vb c n (by omega)
      (by intro b hb; simp only [List.mem_singleton] at hb; rw [hb]; decide)
      (decimalInt_ne_nil y) (decimalInt_regular y) hc1 hc2 (by omega)
    simp only [arrayTail, List.cons_append, List.append_assoc, hc, lookahead]
    simpa using this

theorem lookahead_text (bf rest : List Nat) (r : List Int) :
    cstr (lookahead bf rest r).1.1 = (lookahead bf rest r).1.1
      ∧ ¬ ((lookahead bf rest r).1.2 = EPdfTokenType.Token
          ∧ cstr (lookahead bf rest r).1.1 = [82]) := by
  cases r with
  | nil => exact ⟨rfl, fun h => by cases h.1⟩
  | cons w r2 =>
    have hc := isIntegerToken_cstr _ (decimalInt_isIntegerToken w)
    refine ⟨hc, fun h => ?_⟩
    have h2 := h.2
    simp only [lookahead] at h2
    rw [hc] at h2
    exact decimalInt_ne_R w h2

theorem DetermineDataType_number_pair (t t1 t2 : PdfTokenizer) (a b c : List Nat)
    (kc : EPdfTokenType) (v : PdfVariant) (ha : isIntegerToken a = true)
    (hb : (strtoll b).2 ≠ 0) (hc : ¬ (kc = EPdfTokenType.Token ∧ cstr c = [82]))
    (h1 : GetNextToken t = (.ok (some (b, EPdfTokenType.Token)), t1))
    (h2 : GetNextToken t1 = (.ok (some (c, kc)), t2)) :
    DetermineDataType t a EPdfTokenType.Token v
      = (.ok EPdfDataType.Number, PdfVariant.Number (strtoll a).1,
          QuequeToken (QuequeToken t2 (cstr b) EPdfTokenType.Token) c kc) := by
  have hk := isIntegerToken_not_keyword a ha
  simp [DetermineDataType, hk.1, hk.2.1, hk.2.2, isIntegerToken_cstr a ha,
    isIntegerToken_scan a ha, h1, h2, hb, hc]

theorem cstr_bracket : cstr [93] = [93] := by decide

theorem GetNextVariantOf_number (fuel : Nat) (t t2 : PdfTokenizer) (a : List Nat)
    (v : PdfVariant) (x : Int) (pe : Option PdfEncrypt)
    (h : DetermineDataType t a EPdfTokenType.Token v
      = (.ok EPdfDataType.Number, PdfVariant.Number x, t2)) :
    GetNextVariantOf (fuel + 1) t a EPdfTokenType.Token v pe = (.ok (PdfVariant.Number x), t2) := by
  simp [GetNextVariantOf, h]

theorem ReadArray_loop_close (fuel : Nat) (d : Option PdfInputDevice) (n : Nat) (hn : 22 ≤ n)
    (vb : List Nat) (pe : Option PdfEncrypt) (acc : List PdfVariant) (var : PdfVariant) :
    ReadArray_loop (fuel + 1) ⟨d, n, [([93], EPdfTokenType.Delimiter)], vb⟩ pe acc var
        = (.ok (PdfVariant.Array acc), ⟨d, n, [], vb⟩)
      ∧ ∀ s ∈ ReadArray_states (fuel + 1) ⟨d, n, [([93], EPdfTokenType.Delimiter)], vb⟩ pe var,
          s.m_deqQueque.length ≤ 2 := by
  have q := GetNextToken_queued d n [93] EPdfTokenType.Delimiter [] vb
    (by rw [cstr_bracket]; simp only [List.length_singleton]; omega)
  rw [cstr_bracket] at q
  refine ⟨?_, ?_⟩
  · simp [ReadArray_loop, q, cstr_bracket]
  · intro s hs
    simp [ReadArray_states, q, cstr_bracket] at hs
    rcases hs with rfl | rfl <;> simp

theorem ReadArray_loop_queued (n : Nat) (hn : 22 ≤ n) (rest vb : List Nat)
    (pe : Option PdfEncrypt) :
    ∀ (r : List Int) (y : Int) (bf : List Nat) (acc : List PdfVariant) (var : PdfVariant)
      (fuel : Nat), r.length + 3 ≤ fuel → (-2 ^ 63 ≤ y ∧ y < 2 ^ 63) →
      (∀ x ∈ r, -2 ^ 63 ≤ x ∧ x < 2 ^ 63) →
      ReadArray_loop fuel ⟨some (lookahead bf rest r).2, n,
            [(decimalInt y, EPdfTokenType.Token), (lookahead bf rest r).1], vb⟩ pe acc var
          = (.ok (PdfVariant.Array (acc ++ PdfVariant.Number y :: r.map PdfVariant.Number)),
              ⟨some ⟨bf ++ arrayTail r, rest⟩, n, [], vb⟩)
        ∧ ∀ s ∈ ReadArray_states fuel ⟨some (lookahead bf rest r).2, n,
              [(decimalInt y, EPdfTokenType.Token), (lookahead bf rest r).1], vb⟩ pe var,
            s.m_deqQueque.length ≤ 2 := by
  intro r
  induction r with
  | nil =>
    intro y bf acc var fuel hf hy _
    obtain ⟨f, rfl⟩ : ∃ f, fuel = f + 3 := ⟨fuel - 3, by simp only [List.length_nil] at hf; omega⟩
    have hiy := decimalInt_isIntegerToken y
    have hcy := isIntegerToken_cstr _ hiy
    have hly : (cstr (decimalInt y)).length < n := by
      rw [hcy]; have := decimalInt_length y hy; omega
    have q1 := GetNextToken_queued (some ⟨bf ++ [93], rest⟩) n (decimalInt y)
      EPdfTokenType.Token [([93], EPdfTokenType.Delimiter)] vb hly
    rw [hcy] at q1
    have q2 := GetNextToken_queued (some ⟨bf ++ [93], rest⟩) n [93] EPdfTokenType.Delimiter []
      vb (by rw [cstr_bracket]; simp only [List.length_singleton]; omega)
    rw [cstr_bracket] at q2
    have hD := DetermineDataType_number_delimiter _ _ (decimalInt y) [93] var hiy q2
    rw [strtoll_decimalInt y hy] at hD
    have hV := GetNextVariantOf_number (f + 1) _ _ _ _ _ pe hD
    have hqq : QuequeToken ⟨some ⟨bf ++ [93], rest⟩, n, [], vb⟩ [93] EPdfTokenType.Delimiter
        = ⟨some ⟨bf ++ [93], rest⟩, n, [([93], EPdfTokenType.Delimiter)], vb⟩ := by
      simp [QuequeToken, cstr_bracket]
    rw [hqq] at hV
    obtain ⟨hc1, hc2⟩ := ReadArray_loop_close (f + 1) (some ⟨bf ++ [93], rest⟩) n hn vb pe
      (acc ++ [PdfVariant.Number y]) (PdfVariant.Number y)
    refine ⟨?_, ?_⟩
    · simp only [lookahead, arrayTail]
      rw [show f + 3 = (f + 2) + 1 from rfl, ReadArray_loop]
      simp only [q1]
      simp [hV, hc1]
    · intro s hs
      simp only [lookahead] at hs
      rw [show f + 3 = (f + 2) + 1 from rfl, ReadArray_states] at hs
      simp only [q1] at hs
      simp [hV] at hs
      rcases hs with rfl | rfl | hs
      · simp
      · simp
      · exact hc2 s hs
  | cons w r2 ih =>
    intro y bf acc var fuel hf hy hr
    obtain ⟨f, rfl⟩ : ∃ f, fuel = f + 3 := ⟨fuel - 3, by simp only [List.length_cons] at hf; omega⟩
    have hw := hr w (List.mem_cons_self _ _)
    have hr2 : ∀ x ∈ r2, -2 ^ 63 ≤ x ∧ x < 2 ^ 63 := fun x hx => hr x (List.mem_cons_of_mem _ hx)
    have hiy := decimalInt_isIntegerToken y
    have hcy := isIntegerToken_cstr _ hiy
    have hly : (cstr (decimalInt y)).length < n := by
      rw [hcy]; have := decimalInt_length y hy; omega
    have hiw := decimalInt_isIntegerToken w
    have hcw := isIntegerToken_cstr _ hiw
    have hlw : (cstr (decimalInt w)).length < n := by
      rw [hcw]; have := decimalInt_length w hw; omega
    have q1 := GetNextToken_queued (some ⟨bf ++ 32 :: decimalInt w, arrayTail r2 ++ rest⟩) n
      (decimalInt y) EPdfTokenType.Token [(decimalInt w, EPdfTokenType.Token)] vb hly
    rw [hcy] at q1
    have q2 := GetNextToken_queued (some ⟨bf ++ 32 :: decimalInt w, arrayTail r2 ++ rest⟩) n
      (decimalInt w) EPdfTokenType.Token [] vb hlw
    rw [hcw] at q2
    have q3 := GetNextToken_arrayTail (bf ++ 32 :: decimalInt w) rest vb n hn r2 hr2
    obtain ⟨hla1, hla2⟩ := lookahead_text (bf ++ 32 :: decimalInt w) rest r2
    have hD := DetermineDataType_number_pair _ _ _ (decimalInt y) (decimalInt w)
      (lookahead (bf ++ 32 :: decimalInt w) rest r2).1.1
      (lookahead (bf ++ 32 :: decimalInt w) rest r2).1.2 var hiy
      (isIntegerToken_strtoll _ hiw) hla2 q2 q3
    rw [strtoll_decimalInt y hy] at hD
    have hqq : QuequeToken (QuequeToken
          ⟨some (lookahead (bf ++ 32 :: decimalInt w) rest r2).2, n, [], vb⟩
          (cstr (decimalInt w)) EPdfTokenType.Token)
          (lookahead (bf ++ 32 :: decimalInt w) rest r2).1.1
          (lookahead (bf ++ 32 :: decimalInt w) rest r2).1.2
        = ⟨some (lookahead (bf ++ 32 :: decimalInt w) rest r2).2, n,
            [(decimalInt w, EPdfTokenType.Token),
              (lookahead (bf ++ 32 :: decimalInt w) rest r2).1], vb⟩ := by
      simp [QuequeToken, cstr_idem, hcw, hla1]
    rw [hqq] at hD
    have hV := GetNextVariantOf_number (f + 1) _ _ _ _ _ pe hD
    obtain ⟨ih1, ih2⟩ := ih w (bf ++ 32 :: decimalInt w) (acc ++ [PdfVariant.Number y])
      (PdfVariant.Number y) (f + 2) (by simp only [List.length_cons] at hf; omega) hw hr2
    refine ⟨?_, ?_⟩
    · simp only [lookahead]
      rw [show f + 3 = (f + 2) + 1 from rfl, ReadArray_loop]
      simp only [q1]
      simp [hV, ih1, arrayTail]
    · intro s hs
      simp only [lookahead] at hs
      rw [show f + 3 = (f + 2) + 1 from rfl, ReadArray_states] at hs
      simp only [q1] at hs
      simp [hV] at hs
      rcases hs with rfl | rfl | hs
      · simp
      · simp
      · exact ih2 s hs

theorem arrayTail_length (r : List Int) : r.length + 1 ≤ (arrayTail r).length := by
  induction r with
  | nil => simp [arrayTail]
  | cons y r ih =>
    simp only [arrayTail, List.length_cons, List.length_append]
    omega

theorem arrayText_length (xs : List Int) : xs.length ≤ (arrayText xs).length := by
  cases xs with
  | nil => simp
  | cons x r =>
    have := arrayTail_length r
    simp only [arrayText, List.length_cons, List.length_append]
    omega

theorem ReadArray_loop_integers (n : Nat) (hn : 22 ≤ n) (rest vb : List Nat)
    (pe : Option PdfEncrypt) (xs : List Int) (bf : List Nat) (acc : List PdfVariant)
    (var : PdfVariant) (fuel : Nat) (hf : xs.length + 3 ≤ fuel)
    (hx : ∀ x ∈ xs, -2 ^ 63 ≤ x ∧ x < 2 ^ 63) :
    ReadArray_loop fuel ⟨some ⟨bf, arrayText xs ++ rest⟩, n, [], vb⟩ pe acc var
        = (.ok (PdfVariant.Array (acc ++ xs.map PdfVariant.Number)),
            ⟨some ⟨bf ++ arrayText xs, rest⟩, n, [], vb⟩)
      ∧ ∀ s ∈ ReadArray_states fuel ⟨some ⟨bf, arrayText xs ++ rest⟩, n, [], vb⟩ pe var,
          s.m_deqQueque.length ≤ 2 := by
  obtain ⟨f, rfl⟩ : ∃ f, fuel = f + 3 := ⟨fuel - 3, by omega⟩
  cases xs with
  | nil =>
    have q := GetNextToken_single_at bf [] rest vb 93 n (by omega) (by intro b hb; cases hb)
      (by decide) (by decide) (by decide) (by decide)
    simp only [List.nil_append] at q
    refine ⟨?_, ?_⟩
    · simp [arrayText, ReadArray_loop, q, cstr_bracket]
    · intro s hs
      simp [arrayText, ReadArray_states, q, cstr_bracket] at hs
      rcases hs with rfl | rfl <;> simp
  | cons x r =>
    have hxx := hx x (List.mem_cons_self _ _)
    have hr : ∀ y ∈ r, -2 ^ 63 ≤ y ∧ y < 2 ^ 63 := fun y hy => hx y (List.mem_cons_of_mem _ hy)
    have hix := decimalInt_isIntegerToken x
    have hcx := isIntegerToken_cstr _ hix
    obtain ⟨c, tl, hc, hc1, hc2⟩ := arrayTail_head r rest
    have q1 := GetNextToken_word_at bf [] (decimalInt x) tl vb c n (by omega)
      (by intro b hb; cases hb) (decimalInt_ne_nil x) (decimalInt_regular x) hc1 hc2
      (by have := decimalInt_length x hxx; omega)
    simp only [List.nil_append] at q1
    rw [← hc] at q1
    obtain ⟨B, hB⟩ : ∃ B, B = bf ++ decimalInt x := ⟨_, rfl⟩
    rw [← hB] at q1
    have q2 := GetNextToken_arrayTail B rest vb n hn r hr
    have ht : arrayText (x :: r) ++ rest = decimalInt x ++ (arrayTail r ++ rest) := by
      simp only [arrayText, List.append_assoc]
    cases r with
    | nil =>
      simp only [lookahead] at q2
      have hD := DetermineDataType_number_delimiter _ _ (decimalInt x) [93] var hix q2
      rw [strtoll_decimalInt x hxx] at hD
      have hqq : QuequeToken ⟨some ⟨B ++ [93], rest⟩, n, [], vb⟩ [93]
            EPdfTokenType.Delimiter
          = ⟨some ⟨B ++ [93], rest⟩, n, [([93], EPdfTokenType.Delimiter)], vb⟩ := by
        simp [QuequeToken, cstr_bracket]
      rw [hqq] at hD
      have hV := GetNextVariantOf_number (f + 1) _ _ _ _ _ pe hD
      obtain ⟨hc1, hc2⟩ := ReadArray_loop_close (f + 1)
        (some ⟨B ++ [93], rest⟩) n hn vb pe
        (acc ++ [PdfVariant.Number x]) (PdfVariant.Number x)
      refine ⟨?_, ?_⟩
      · have hfin : bf ++ arrayText [x] = B ++ [93] := by
          rw [hB]; simp [arrayText, arrayTail]
        rw [ht, hfin, show f + 3 = (f + 2) + 1 from rfl, ReadArray_loop]
        simp only [q1]
        simp [hV, hc1]
      · intro s hs
        rw [ht, show f + 3 = (f + 2) + 1 from rfl, ReadArray_states] at hs
        simp only [q1] at hs
        simp [hV] at hs
        rcases hs with rfl | rfl | hs
        · simp
        · simp
        · exact hc2 s hs
    | cons y r2 =>
      have hyy := hr y (List.mem_cons_self _ _)
      have hr2 : ∀ z ∈ r2, -2 ^ 63 ≤ z ∧ z < 2 ^ 63 :=
        fun z hz => hr z (List.mem_cons_of_mem _ hz)
      have hiy := decimalInt_isIntegerToken y
      have hcy := isIntegerToken_cstr _ hiy
      simp only [lookahead] at q2
      have q3 := GetNextToken_arrayTail (B ++ 32 :: decimalInt y) rest vb n hn r2 hr2
      obtain ⟨hla1, hla2⟩ := lookahead_text (B ++ 32 :: decimalInt y) rest r2
      have hD := DetermineDataType_number_pair _ _ _ (decimalInt x) (decimalInt y)
        (lookahead (B ++ 32 :: decimalInt y) rest r2).1.1
        (lookahead (B ++ 32 :: decimalInt y) rest r2).1.2 var hix
        (isIntegerToken_strtoll _ hiy) hla2 q2 q3
      rw [strtoll_decimalInt x hxx] at hD
      have hqq : QuequeToken (QuequeToken
            ⟨some (lookahead (B ++ 32 :: decimalInt y) rest r2).2, n, [], vb⟩
            (cstr (decimalInt y)) EPdfTokenType.Token)
            (lookahead (B ++ 32 :: decimalInt y) rest r2).1.1
            (lookahead (B ++ 32 :: decimalInt y) rest r2).1.2
          = ⟨some (lookahead (B ++ 32 :: decimalInt y) rest r2).2, n,
              [(decimalInt y, EPdfTokenType.Token),
                (lookahead (B ++ 32 :: decimalInt y) rest r2).1], vb⟩ := by
        simp [QuequeToken, cstr_idem, hcy, hla1]
      rw [hqq] at hD
      have hV := GetNextVariantOf_number (f + 1) _ _ _ _ _ pe hD
      obtain ⟨ih1, ih2⟩ := ReadArray_loop_queued n hn rest vb pe r2 y
        (B ++ 32 :: decimalInt y) (acc ++ [PdfVariant.Number x])
        (PdfVariant.Number x) (f + 2)
        (by simp only [List.length_cons] at hf; omega) hyy hr2
      refine ⟨?_, ?_⟩
      · have hfin : bf ++ arrayText (x :: y :: r2)
            = (B ++ 32 :: decimalInt y) ++ arrayTail r2 := by
          rw [hB]; simp [arrayText, arrayTail]
        rw [ht, hfin, show f + 3 = (f + 2) + 1 from rfl, ReadArray_loop]
        simp only [q1]
        simp [hV, ih1]
      · intro s hs
        rw [ht, show f + 3 = (f + 2) + 1 from rfl, ReadArray_states] at hs
        simp only [q1] at hs
        simp [hV] at hs
        rcases hs with rfl | rfl | hs
        · simp
        · simp
        · exact ih2 s hs

/-- C37: for every list of integers in the range of a signed 64-bit integer, `ReadArray`
with an empty queue and a token buffer of at least 22 bytes, on the decimal renderings of
the integers separated by single blanks and followed by `]`, returns the array of exactly
these Numbers in the same order, leaves the device right behind the `]` and the queue
empty; and every tokenizer state between the calls that the loop makes, from its start to
its end, has at most two tokens in the queue. -/
theorem ReadArray_reads_integers (xs : List Int) (bf rest vb : List Nat) (n : Nat)
    (pEncrypt : Option PdfEncrypt) (hn : 22 ≤ n)
    (hx : ∀ x ∈ xs, -2 ^ 63 ≤ x ∧ x < 2 ^ 63) :
    ReadArray ⟨some ⟨bf, arrayText xs ++ rest⟩, n, [], vb⟩ pEncrypt
        = (.ok (PdfVariant.Array (xs.map PdfVariant.Number)),
            ⟨some ⟨bf ++ arrayText xs, rest⟩, n, [], vb⟩)
      ∧ (ReadArray ⟨some ⟨bf, arrayText xs ++ rest⟩, n, [], vb⟩ pEncrypt).2.m_deqQueque = []
      ∧ ∀ s ∈ ReadArray_states (readerFuel ⟨some ⟨bf, arrayText xs ++ rest⟩, n, [], vb⟩)
            ⟨some ⟨bf, arrayText xs ++ rest⟩, n, [], vb⟩ pEncrypt .Null,
          s.m_deqQueque.length ≤ 2 := by
  have hf : xs.length + 3 ≤ readerFuel ⟨some ⟨bf, arrayText xs ++ rest⟩, n, [], vb⟩ := by
    have := arrayText_length xs
    simp only [readerFuel, List.length_nil, Option.map_some', Option.getD_some,
      List.length_append]
    omega
  obtain ⟨h1, h2⟩ := ReadArray_loop_integers n hn rest vb pEncrypt xs bf [] .Null _ hf hx
  rw [List.nil_append] at h1
  refine ⟨?_, ?_, h2⟩
  · rw [ReadArray, h1]
  · rw [ReadArray, h1]

theorem ReadArray_reads_integers_witness :
    ReadArray ⟨some ⟨[91], arrayText [12, -5, 7] ++ [32]⟩, PDF_BUFFER, [], []⟩ none
        = (.ok (PdfVariant.Array
              [PdfVariant.Number 12, PdfVariant.Number (-5), PdfVariant.Number 7]),
            ⟨some ⟨[91] ++ arrayText [12, -5, 7], [32]⟩, PDF_BUFFER, [], []⟩)
      ∧ arrayText [12, -5, 7] = [49, 50, 32, 45, 53, 32, 55, 93] :=
  ⟨(ReadArray_reads_integers [12, -5, 7] [91] [32] [] PDF_BUFFER none (by decide)
    (by
      intro x hx
      simp only [List.mem_cons, List.mem_singleton, List.not_mem_nil, or_false] at hx
      rcases hx with rfl | rfl | rfl <;> constructor <;> norm_num)).1, by decide⟩

/-! ## Reading the canvas device in buffers -/

theorem readBuffers_pending : ∀ (sizes : List Nat) (s : PdfCanvasInputDevice),
    wellFormed s = true →
    (readBuffers sizes s).1 = .ok ((pending s).take sizes.sum)
      ∧ pending (readBuffers sizes s).2 = (pending s).drop sizes.sum
      ∧ wellFormed (readBuffers sizes s).2 = true := by
  intro sizes
  induction sizes with
  | nil => intro s h; simp [readBuffers, h]
  | cons size rest ih =>
    intro s h
    obtain ⟨h1, h2, h3, _⟩ := readBuffer_pending s size h
    rw [List.nil_append] at h1
    obtain ⟨i1, i2, i3⟩ := ih (s.readBuffer size).2 h3
    rw [h2] at i1 i2
    have e : readBuffers (size :: rest) s
        = (match s.readBuffer size with
          | (.error e, s1) => (.error e, s1)
          | (.ok l, s1) =>
            match readBuffers rest s1 with
            | (.error e, s2) => (.error e, s2)
            | (.ok l2, s2) => (.ok (l ++ l2), s2)) := rfl
    rw [e]
    rcases hr : s.readBuffer size with ⟨r1, r2⟩
    rw [hr] at h1 h2 h3 i1 i2 i3
    simp only at h1 h2 h3 i1 i2 i3
    subst h1
    rcases ht : readBuffers rest r2 with ⟨t1, t2⟩
    rw [ht] at i1 i2 i3
    simp only at i1 i2 i3
    subst i1
    simp only [ht, List.sum_cons, List.take_add, List.drop_drop]
    refine ⟨trivial, ?_, i3⟩
    rw [i2, List.drop_drop, Nat.add_comm]

theorem peekReadBuffers_eq : ∀ (sizes : List Nat) (s : PdfCanvasInputDevice),
    wellFormed s = true →
    (peekReadBuffers sizes s).1 = .ok ((pending s).take sizes.sum)
      ∧ pending (peekReadBuffers sizes s).2 = (pending s).drop sizes.sum
      ∧ wellFormed (peekReadBuffers sizes s).2 = true := by
  intro sizes
  induction sizes with
  | nil => intro s h; simp [peekReadBuffers, h]
  | cons size rest ih =>
    intro s h
    obtain ⟨p1, p2⟩ := peek_pending s h
    have p3 : ∃ v, s.peek.1 = .ok v :=
      ⟨_, (PdfCanvasInputDevice.peek_readChar s).1.trans (readChar_pending s h).1⟩
    obtain ⟨v, hv⟩ := p3
    obtain ⟨h1, h2, h3, _⟩ := readBuffer_pending s.peek.2 size p2
    rw [List.nil_append, p1] at h1
    rw [p1] at h2
    obtain ⟨i1, i2, i3⟩ := ih (s.peek.2.readBuffer size).2 h3
    rw [h2] at i1 i2
    have e : peekReadBuffers (size :: rest) s
        = (match s.peek with
          | (.error e, s0) => (.error e, s0)
          | (.ok _, s0) =>
            match s0.readBuffer size with
            | (.error e, s1) => (.error e, s1)
            | (.ok l, s1) =>
              match peekReadBuffers rest s1 with
              | (.error e, s2) => (.error e, s2)
              | (.ok l2, s2) => (.ok (l ++ l2), s2)) := rfl
    rw [e]
    rcases hk : s.peek with ⟨k1, k2⟩
    rw [hk] at hv h1 h2 h3 i1 i2 i3
    simp only at hv h1 h2 h3 i1 i2 i3
    subst hv
    simp only
    rcases hr : k2.readBuffer size with ⟨r1, r2⟩
    rw [hr] at h1 h2 h3 i1 i2 i3
    simp only at h1 h2 h3 i1 i2 i3
    subst h1
    rcases ht : peekReadBuffers rest r2 with ⟨t1, t2⟩
    rw [ht] at i1 i2 i3
    simp only at i1 i2 i3
    subst i1
    simp only [hr, ht, List.sum_cons, List.take_add, List.drop_drop]
    refine ⟨trivial, ?_, i3⟩
    rw [i2, List.drop_drop, Nat.add_comm]

/-- C38: for every canvas contents whose device `s0` the constructor builds, and every list
of buffer sizes. When the device is in a state in which reads do not fail an assertion (no
block, or a first block with a stream), the bytes returned by the successive `readBuffer`
calls, one after the other, are the first bytes, as many as the sizes sum to, of the byte
sequence `pending s0` that repeated `readChar` calls on `s0` return up to the end of input,
injected newlines included, and all of it when the sizes sum to its length or more; a
`peek` before every `readBuffer`, or before the `readChar` calls, changes neither; and in
every such state a `readBuffer` returns at most `size` bytes, and fewer only when it has
reported the end of input. When the first object has no stream both kinds of read raise the
same error and leave the device as it is; the constructor gives that state for an array
whose first object has no stream and a state of the first kind otherwise. -/
theorem readBuffer_sequence_matches_readChar (contents : Option CanvasContents)
    (s0 : PdfCanvasInputDevice) (sizes : List Nat)
    (hnew : PdfCanvasInputDevice.new contents = .ok s0) :
    (wellFormed s0 = true →
        (∀ fuel, (pending s0).length < fuel → (readToEnd fuel s0).1 = .ok (pending s0))
          ∧ (readBuffers sizes s0).1 = .ok ((pending s0).take sizes.sum)
          ∧ ((pending s0).length ≤ sizes.sum → (readBuffers sizes s0).1 = .ok (pending s0))
          ∧ (peekReadBuffers sizes s0).1 = (readBuffers sizes s0).1
          ∧ (∀ fuel, (pending s0).length < fuel →
              (readToEnd fuel s0.peek.2).1 = (readToEnd fuel s0).1))
      ∧ (∀ s size, wellFormed s = true →
          ∃ l, (s.readBuffer size).1 = .ok l ∧ l.length ≤ size
            ∧ wellFormed (s.readBuffer size).2 = true
            ∧ (l.length < size → (s.readBuffer size).2.m_eof = true))
      ∧ (wellFormed s0 = false →
          s0.readChar = (.error .InternalLogic, s0)
            ∧ ∀ size, 0 < size → s0.readBuffer size = (.error .InternalLogic, s0))
      ∧ (wellFormed s0 = true
          ∨ ∃ rest, contents = some (.Array (none :: rest)) ∧ s0 = ⟨false, rest, none, false⟩) := by
  refine ⟨?_, ?_, ?_, ?_⟩
  · intro hw
    have hb := (readBuffers_pending sizes s0 hw).1
    have hp := (peekReadBuffers_eq sizes s0 hw).1
    refine ⟨?_, hb, ?_, hp.trans hb.symm, ?_⟩
    · intro fuel hf
      exact (readToEnd_pending _ s0 hw rfl fuel hf).1
    · intro hle
      rw [hb, List.take_of_length_le hle]
    · intro fuel hf
      obtain ⟨p1, p2⟩ := peek_pending s0 hw
      rw [(readToEnd_pending _ s0 hw rfl fuel hf).1,
        (readToEnd_pending _ s0.peek.2 p2 rfl fuel (by rw [p1]; exact hf)).1, p1]
  · intro s size hw
    obtain ⟨h1, _, h3, h4⟩ := readBuffer_pending s size hw
    rw [List.nil_append] at h1
    refine ⟨_, h1, ?_, h3, ?_⟩
    · rw [List.length_take]; omega
    · intro hl
      rw [List.length_take] at hl
      exact h4 (by omega)
  · intro hw
    obtain ⟨e, cs, dev, sw⟩ := s0
    have he : e = false := by
      cases e with
      | false => rfl
      | true => simp [wellFormed] at hw
    have hd : dev = none := by
      cases dev with
      | none => rfl
      | some d => simp [wellFormed] at hw
    subst he hd
    refine ⟨?_, ?_⟩
    · simp [PdfCanvasInputDevice.readChar, PdfCanvasInputDevice.readChar_loop,
        PdfCanvasInputDevice.tryGetNextDevice]
    · intro size hs
      have hs0 : ¬ size = 0 := by omega
      simp [PdfCanvasInputDevice.readBuffer, PdfCanvasInputDevice.readBuffer_loop,
        PdfCanvasInputDevice.tryGetNextDevice, hs0]
  · cases contents with
    | none =>
      simp [PdfCanvasInputDevice.new] at hnew
      subst hnew
      exact Or.inl rfl
    | some c =>
      cases c with
      | Other => simp [PdfCanvasInputDevice.new] at hnew
      | Dictionary st =>
        cases st with
        | none =>
          simp [PdfCanvasInputDevice.new] at hnew
          subst hnew
          exact Or.inl rfl
        | some b =>
          simp [PdfCanvasInputDevice.new, PdfCanvasInputDevice.tryPopNextDevice] at hnew
          subst hnew
          left
          simp [wellFormed]
      | Array items =>
        cases items with
        | nil =>
          simp [PdfCanvasInputDevice.new] at hnew
          subst hnew
          exact Or.inl rfl
        | cons it rest =>
          cases it with
          | none =>
            simp [PdfCanvasInputDevice.new, PdfCanvasInputDevice.tryPopNextDevice] at hnew
            subst hnew
            exact Or.inr ⟨rest, rfl, rfl⟩
          | some b =>
            simp [PdfCanvasInputDevice.new, PdfCanvasInputDevice.tryPopNextDevice] at hnew
            subst hnew
            left
            simp [wellFormed]

theorem readBuffer_sequence_matches_readChar_witness :
    (readBuffers [3, 1, 5] ⟨false, [some [69, 84]], some ⟨[66, 84]⟩, false⟩).1
        = .ok [66, 84, 10, 69, 84]
      ∧ (readToEnd 6 ⟨false, [some [69, 84]], some ⟨[66, 84]⟩, false⟩).1
        = .ok [66, 84, 10, 69, 84] :=
  ⟨((readBuffer_sequence_matches_readChar
      (some (.Array [some [66, 84], some [69, 84]]))
      ⟨false, [some [69, 84]], some ⟨[66, 84]⟩, false⟩ [3, 1, 5] rfl).1 rfl).2.1,
   ((readBuffer_sequence_matches_readChar
      (some (.Array [some [66, 84], some [69, 84]]))
      ⟨false, [some [69, 84]], some ⟨[66, 84]⟩, false⟩ [3, 1, 5] rfl).1 rfl).1 6
      (by decide)⟩

end PoDoFo
